import Mathlib

/-!
# ELL model transformer: the port correspondence map

A shallow embedding of `PortOutputsMap`, `TransformContext` and
`ModelTransformer` from `libraries/model/src/ModelTransformer.cpp` and of
`Model::ComputeOutput` from `libraries/model/tcc/Model.tcc` (ELL, Embedded
Learning Library), together with the properties of the range remapping
algorithm `PortOutputsMap::GetCorrespondingPortElements`, of `MapNodeOutput`
and `ConcatenateMaps`, of `GetNodeAction`, and of the passes `CopyModel`,
`RefineModel` and `TransformModel`.

Conventions of the embedding.

* An exception is a value `Except.error e` with `e` the error code of the
  `utilities::InputException` that the C++ code throws.
* `size_t` is the 64-bit unsigned type and `int` the 32-bit signed type
  (LP64).  A `size_t` value is a `Nat`, an `int` value is an `Int`.
  `static_cast<int>` of a `size_t` is the reduction into `[-2^31, 2^31)`
  modulo `2^32` (`toInt`); the conversion of an `int` to `size_t` is the
  reduction modulo `2^64` (`toSizeT`).  The result of an `int` subtraction is
  reduced like a cast (`wrapInt`); signed overflow is undefined in C++, and no
  statement below rests on a wrapped result: under the size bounds of the
  theorems every intermediate value is in range, and in the concrete runs that
  raise or return a wrong range every `int` result is in range as well (the
  only out-of-range values there are the ones `static_cast<int>` reduces).
* The hash map `_outputPortMap` is an association list with one entry per key;
  the order of the list stands for the (unspecified) iteration order of the
  `std::unordered_map`.
* A method of the transformer is a function of the transformer before the
  call that returns the outcome and the transformer after the call.  The hooks
  of the node classes (`Copy`, `Refine`, the function given to
  `TransformModel`) are programs over the interface of the transformer
  (`HookProgram`); the passes return, next to their result, a record of the
  hook calls they made.
* A model is the list of its nodes in the order of `Model::Visit`; a node is
  known by its kind, its input elements, its output ports and its metadata.
-/

namespace ell
namespace model

/-! ## Data model -/

/-- The error codes of `utilities::InputException` used by the correspondence map. -/
inductive InputExceptionErrors where
  | invalidArgument
  | sizeMismatch
deriving DecidableEq, Repr

/-- Modelled from the spec: an output port (the class `OutputPortBase` is declared in a header
that is not part of the sources at hand).  A port is known by its identity (`id`, standing for
its address) and has a total element count `Size`. -/
structure OutputPortBase where
  id : Nat
  Size : Nat
deriving DecidableEq, Repr

/-- Modelled from the spec: a `PortRange` is `(referenced output port, start index, length)`
(the class is declared in `PortElements.h`, which is not part of the sources at hand).  The
fields carry the names of the accessors the transformer calls. -/
structure PortRange where
  ReferencedPort : OutputPortBase
  GetStartIndex : Nat
  Size : Nat
deriving DecidableEq, Repr

/-- Modelled from the spec: a `PortElements` is an ordered sequence of `PortRange`s
(`PortElementsBase`, declared in `PortElements.h`, not part of the sources at hand). -/
structure PortElementsBase where
  GetRanges : List PortRange
deriving DecidableEq, Repr

/-- Modelled from the spec: the `Size()` of a `PortElements` is the total length of its
ranges. -/
def PortElementsBase.Size (e : PortElementsBase) : Nat :=
  (e.GetRanges.map PortRange.Size).sum

/-- Modelled from the spec: `Append` adds the ranges of `other` at the end of the ordered
sequence (`PortElementsBase::Append`, not part of the sources at hand). -/
def PortElementsBase.Append (e other : PortElementsBase) : PortElementsBase :=
  ⟨e.GetRanges ++ other.GetRanges⟩

/-- Modelled from the spec: the `PortElements` made of one range (the converting constructor
used by `result.Append(PortRange(...))`). -/
def PortElementsBase.ofRange (r : PortRange) : PortElementsBase := ⟨[r]⟩

/-- Modelled from the spec: two ranges are adjacent when they are on the same port and the
second starts where the first ends. -/
def PortRange.IsAdjacent (r other : PortRange) : Bool :=
  decide (r.ReferencedPort = other.ReferencedPort ∧ r.GetStartIndex + r.Size = other.GetStartIndex)

/-- Modelled from the spec: one left-to-right sweep of consolidation; `last` is the range
being grown, the list holds the ranges still to be examined. -/
def consolidateFrom : PortRange → List PortRange → List PortRange
  | last, [] => [last]
  | last, r :: rs =>
    if last.IsAdjacent r then
      consolidateFrom ⟨last.ReferencedPort, last.GetStartIndex, last.Size + r.Size⟩ rs
    else
      last :: consolidateFrom r rs

/-- Modelled from the spec: "consolidation merges adjacent ranges on the same port into one
when contiguous" (`PortElementsBase::Consolidate`, not part of the sources at hand). -/
def PortElementsBase.Consolidate (e : PortElementsBase) : PortElementsBase :=
  match e.GetRanges with
  | [] => e
  | r :: rs => ⟨consolidateFrom r rs⟩

/-- Modelled from the spec: the elements `(port, index)` denoted by a range, in order. -/
def PortRange.elements (r : PortRange) : List (OutputPortBase × Nat) :=
  (List.range r.Size).map fun i => (r.ReferencedPort, r.GetStartIndex + i)

/-- Modelled from the spec: the elements `(port, index)` denoted by a `PortElements`, in
order; its `k`-th entry is `GetElement(k)`. -/
def PortElementsBase.elements (e : PortElementsBase) : List (OutputPortBase × Nat) :=
  e.GetRanges.flatMap PortRange.elements

/-- Equality of outcomes is decidable. -/
instance instDecidableEqExcept {ε α : Type} [DecidableEq ε] [DecidableEq α] :
    DecidableEq (Except ε α)
  | .ok a, .ok b => if h : a = b then isTrue (by rw [h]) else isFalse (by intro h2; cases h2; exact h rfl)
  | .error a, .error b =>
    if h : a = b then isTrue (by rw [h]) else isFalse (by intro h2; cases h2; exact h rfl)
  | .ok _, .error _ => isFalse (by intro h; cases h)
  | .error _, .ok _ => isFalse (by intro h; cases h)

/-! ## Machine integers -/

/-- The value of `static_cast<int>(n)` for a `size_t` value `n`. -/
def toInt (n : Nat) : Int := Int.bmod (n : Int) 4294967296

/-- The value stored in an `int` by an arithmetic operation whose exact result is `x`. -/
def wrapInt (x : Int) : Int := Int.bmod x 4294967296

/-- The conversion of an integer value to `size_t`. -/
def toSizeT (x : Int) : Nat := (x % 18446744073709551616).toNat

/-! ## PortOutputsMap -/

/-- The member `_outputPortMap` of `PortOutputsMap`: old output port to elements of the new
model. -/
structure PortOutputsMap where
  outputPortMap : List (OutputPortBase × PortElementsBase)
deriving DecidableEq, Repr

/-- Lookup in an association list (`find` / `at` of the hash map). -/
def findEntry (port : OutputPortBase) :
    List (OutputPortBase × PortElementsBase) → Option PortElementsBase
  | [] => none
  | (k, v) :: rest => if k = port then some v else findEntry port rest

/-- Assignment `map[port] = value` on an association list: the entry of `port` is overwritten
in place when there is one, and added otherwise. -/
def assignEntry (port : OutputPortBase) (value : PortElementsBase) :
    List (OutputPortBase × PortElementsBase) → List (OutputPortBase × PortElementsBase)
  | [] => [(port, value)]
  | (k, v) :: rest =>
    if k = port then (k, value) :: rest else (k, v) :: assignEntry port value rest

/-- The empty map, as built by the default constructor. -/
def PortOutputsMap.empty : PortOutputsMap := ⟨[]⟩

/-- The entry of a port, if any. -/
def PortOutputsMap.find (m : PortOutputsMap) (port : OutputPortBase) : Option PortElementsBase :=
  findEntry port m.outputPortMap

/-- The keys of the map, in iteration order. -/
def PortOutputsMap.keys (m : PortOutputsMap) : List OutputPortBase :=
  m.outputPortMap.map Prod.fst

/-- `PortOutputsMap::Clear`. -/
def PortOutputsMap.Clear (_m : PortOutputsMap) : PortOutputsMap := ⟨[]⟩

/-- `PortOutputsMap::IsEmpty`. -/
def PortOutputsMap.IsEmpty (m : PortOutputsMap) : Bool := m.outputPortMap.isEmpty

/-- The loop over `targetRanges` in `GetCorrespondingPortElements`, with the loop variables
`start`, `size` and `result` as arguments.  Returning `result` without a recursive call is the
`break`. -/
def targetRangesLoop : List PortRange → Int → Int → PortElementsBase → PortElementsBase
  | [], _, _, result => result
  | targetRange :: rest, start, size, result =>
    let targetRangePort := targetRange.ReferencedPort
    let targetRangeSize := toInt targetRange.Size
    if targetRangeSize > start then
      let targetStart := start
      let start := if start > 0 then max 0 (wrapInt (targetRangeSize - start)) else start
      let intersectionSize := min (wrapInt (targetRangeSize - targetStart)) size
      let result := result.Append (PortElementsBase.ofRange
        ⟨targetRangePort, toSizeT ((targetRange.GetStartIndex : Int) + targetStart),
          toSizeT intersectionSize⟩)
      let size := wrapInt (size - intersectionSize)
      if size = 0 then result
      else targetRangesLoop rest (max 0 (wrapInt (start - targetRangeSize))) size result
    else
      targetRangesLoop rest (max 0 (wrapInt (start - targetRangeSize))) size result

/-- The loop over `queryRanges` in `GetCorrespondingPortElements`. -/
def queryRangesLoop (m : PortOutputsMap) :
    List PortRange → PortElementsBase → Except InputExceptionErrors PortElementsBase
  | [], result => .ok result
  | queryRange :: rest, result =>
    match m.find queryRange.ReferencedPort with
    | none => .error .invalidArgument
    | some targetElements =>
      queryRangesLoop m rest
        (targetRangesLoop targetElements.GetRanges (toInt queryRange.GetStartIndex)
          (toInt queryRange.Size) result)

/-- `PortOutputsMap::GetCorrespondingPortElements`. -/
def PortOutputsMap.GetCorrespondingPortElements (m : PortOutputsMap)
    (queryElements : PortElementsBase) : Except InputExceptionErrors PortElementsBase :=
  match queryRangesLoop m queryElements.GetRanges ⟨[]⟩ with
  | .error e => .error e
  | .ok result =>
    let result := result.Consolidate
    if result.Size ≠ queryElements.Size then .error .sizeMismatch else .ok result

/-- `PortOutputsMap::MapNodeOutput`, as a function of the map before the call: the outcome of
the call (normal return or the error thrown) and the map after it. -/
def PortOutputsMap.MapNodeOutput (m : PortOutputsMap) (oldPort : OutputPortBase)
    (newElements : PortElementsBase) : Except InputExceptionErrors Unit × PortOutputsMap :=
  if oldPort.Size ≠ newElements.Size then (.error .sizeMismatch, m)
  else (.ok (), ⟨assignEntry oldPort newElements m.outputPortMap⟩)

/-- The loop over the entries of `prevMap` in `ConcatenateMaps`, with the local `result` as
argument. -/
def concatenateLoop (newMap : PortOutputsMap) :
    List (OutputPortBase × PortElementsBase) → PortOutputsMap →
      Except InputExceptionErrors PortOutputsMap
  | [], result => .ok result
  | entry :: rest, result =>
    match newMap.GetCorrespondingPortElements entry.2 with
    | .error e => .error e
    | .ok newMappedValue =>
      match result.MapNodeOutput entry.1 newMappedValue with
      | (.error e, _) => .error e
      | (.ok _, result) => concatenateLoop newMap rest result

/-- `PortOutputsMap::ConcatenateMaps`. -/
def PortOutputsMap.ConcatenateMaps (prevMap newMap : PortOutputsMap) :
    Except InputExceptionErrors PortOutputsMap :=
  concatenateLoop newMap prevMap.outputPortMap PortOutputsMap.empty

/-! ## Reference semantics

The functions below state, over the naturals, what the loops compute; they are used to
express and prove the properties, not to embed the code. -/

/-- The ranges denoting the sub-range `[s, s + z)` of the element sequence of `targetRanges`:
the first `s` elements are skipped, then at most `z` elements are taken, one range per target
range touched. -/
def sliceRanges : List PortRange → Nat → Nat → List PortRange
  | [], _, _ => []
  | t :: ts, s, z =>
    if s < t.Size then
      ⟨t.ReferencedPort, (t.GetStartIndex + s) % 18446744073709551616, min (t.Size - s) z⟩ ::
        (if z ≤ t.Size - s then [] else sliceRanges ts 0 (z - (t.Size - s)))
    else sliceRanges ts (s - t.Size) z

/-- The elements of the ranges of a list, in order. -/
def rangesElements (rs : List PortRange) : List (OutputPortBase × Nat) :=
  rs.flatMap PortRange.elements

/-- The total length of the ranges of a list. -/
def rangesSize (rs : List PortRange) : Nat := (rs.map PortRange.Size).sum

/-! ## Preconditions of the remap -/

/-- Every entry of the map relates a port and elements of the same size. -/
def PortOutputsMap.SizeInvariant (m : PortOutputsMap) : Prop :=
  ∀ entry ∈ m.outputPortMap, entry.1.Size = entry.2.Size

instance (m : PortOutputsMap) : Decidable m.SizeInvariant := by
  unfold PortOutputsMap.SizeInvariant; infer_instance

/-- Every range of `e` lies inside the port it references. -/
def PortElementsBase.InBounds (e : PortElementsBase) : Prop :=
  ∀ r ∈ e.GetRanges, r.GetStartIndex + r.Size ≤ r.ReferencedPort.Size

instance (e : PortElementsBase) : Decidable e.InBounds := by
  unfold PortElementsBase.InBounds; infer_instance

/-- Every port referenced by `e` has an entry in the map. -/
def PortOutputsMap.Covers (m : PortOutputsMap) (e : PortElementsBase) : Prop :=
  ∀ r ∈ e.GetRanges, (m.find r.ReferencedPort).isSome = true

instance (m : PortOutputsMap) (e : PortElementsBase) : Decidable (m.Covers e) := by
  unfold PortOutputsMap.Covers; infer_instance

/-- Every port referenced by `e` has a size representable as an `int`. -/
def PortElementsBase.PortsFitInt (e : PortElementsBase) : Prop :=
  ∀ r ∈ e.GetRanges, r.ReferencedPort.Size < 2147483648

instance (e : PortElementsBase) : Decidable e.PortsFitInt := by
  unfold PortElementsBase.PortsFitInt; infer_instance

/-- Every target range of the map ends at an index representable as a `size_t`. -/
def PortOutputsMap.TargetsFitSizeT (m : PortOutputsMap) : Prop :=
  ∀ entry ∈ m.outputPortMap, ∀ t ∈ entry.2.GetRanges,
    t.GetStartIndex + t.Size ≤ 18446744073709551616

instance (m : PortOutputsMap) : Decidable m.TargetsFitSizeT := by
  unfold PortOutputsMap.TargetsFitSizeT; infer_instance

/-- The ranges that replace one query range: the slice of the mapped ranges. -/
def mappedSlice (m : PortOutputsMap) (q : PortRange) : List PortRange :=
  match m.find q.ReferencedPort with
  | some T => sliceRanges T.GetRanges q.GetStartIndex q.Size
  | none => []

/-- The elements that replace one query range: the sub-range
`[start, start + length)` of the elements mapped from its port. -/
def mappedElements (m : PortOutputsMap) (q : PortRange) : List (OutputPortBase × Nat) :=
  match m.find q.ReferencedPort with
  | some T => (T.elements.drop q.GetStartIndex).take q.Size
  | none => []

/-- The element that replaces the element `(p, i)`: the `i`-th element mapped from `p`. -/
def mappedElement (m : PortOutputsMap) (x : OutputPortBase × Nat) : Option (OutputPortBase × Nat) :=
  match m.find x.1 with
  | some T => T.elements[x.2]?
  | none => none

/-- The keys of the map are pairwise distinct, as in every `std::unordered_map`. -/
def PortOutputsMap.UniqueKeys (m : PortOutputsMap) : Prop := m.keys.Nodup

instance (m : PortOutputsMap) : Decidable m.UniqueKeys := by
  unfold PortOutputsMap.UniqueKeys; infer_instance

/-- The maps obtained from the empty map by `Clear`, successful `MapNodeOutput` and successful
`ConcatenateMaps`. -/
inductive Reachable : PortOutputsMap → Prop where
  | empty : Reachable PortOutputsMap.empty
  | clear {m : PortOutputsMap} : Reachable m → Reachable m.Clear
  | mapNodeOutput {m : PortOutputsMap} (oldPort : OutputPortBase)
      (newElements : PortElementsBase) : Reachable m →
      (m.MapNodeOutput oldPort newElements).1 = .ok () →
      Reachable (m.MapNodeOutput oldPort newElements).2
  | concatenateMaps {prevMap newMap result : PortOutputsMap} : Reachable prevMap →
      Reachable newMap → prevMap.ConcatenateMaps newMap = .ok result → Reachable result

/-- The preconditions of the remap hold for every value of the map `prevMap`, queried in
`newMap`. -/
def PortOutputsMap.ValuesRemappable (prevMap newMap : PortOutputsMap) : Prop :=
  ∀ entry ∈ prevMap.outputPortMap,
    newMap.Covers entry.2 ∧ entry.2.InBounds ∧ entry.2.PortsFitInt

instance (prevMap newMap : PortOutputsMap) : Decidable (prevMap.ValuesRemappable newMap) := by
  unfold PortOutputsMap.ValuesRemappable; infer_instance

/-- The value that `ConcatenateMaps` stores for a value `v` of the previous map. -/
def remapValue (newMap : PortOutputsMap) (v : PortElementsBase) : PortElementsBase :=
  match newMap.GetCorrespondingPortElements v with
  | .ok r => r
  | .error _ => v

/-- The range `r` is on the port of `t` and ends no later than `t`. -/
def RangeWithin (r t : PortRange) : Prop :=
  r.ReferencedPort = t.ReferencedPort ∧ r.GetStartIndex + r.Size ≤ t.GetStartIndex + t.Size


/-- Every range of the list has at least one element. -/
def RangesNonempty (rs : List PortRange) : Prop := ∀ r ∈ rs, 0 < r.Size

/-- No range of the list is adjacent to its successor. -/
def NoAdjacent : List PortRange → Prop
  | [] => True
  | [_] => True
  | a :: b :: rest => a.IsAdjacent b = false ∧ NoAdjacent (b :: rest)

/-! ## Concrete scenarios -/

/-- Old port `P` of size 10 of the range split scenario. -/
def portP : OutputPortBase := ⟨0, 10⟩

/-- New port `newPortA`, of size 6. -/
def newPortA : OutputPortBase := ⟨1, 6⟩

/-- New port `newPortB`, of size 4. -/
def newPortB : OutputPortBase := ⟨2, 4⟩

/-- The map `P ↦ [newPortA[0:6], newPortB[0:4]]`. -/
def scenarioMap : PortOutputsMap := ⟨[(portP, ⟨[⟨newPortA, 0, 6⟩, ⟨newPortB, 0, 4⟩]⟩)]⟩

/-- An old port of `2^31 + 1` elements. -/
def hugePort : OutputPortBase := ⟨0, 2147483649⟩

/-- A new port of `2^31 + 1` elements. -/
def hugeNewPort : OutputPortBase := ⟨1, 2147483649⟩

/-- The map `hugePort ↦ [hugeNewPort[0 : 2^31 + 1]]`. -/
def hugeMap : PortOutputsMap := ⟨[(hugePort, ⟨[⟨hugeNewPort, 0, 2147483649⟩]⟩)]⟩

/-- An old port of `2^32 + 10` elements. -/
def widePort : OutputPortBase := ⟨0, 4294967306⟩

/-- A new port of `2^32 + 10` elements. -/
def wideNewPort : OutputPortBase := ⟨1, 4294967306⟩

/-- The map `widePort ↦ [wideNewPort[0 : 2^32 + 10]]`. -/
def wideMap : PortOutputsMap := ⟨[(widePort, ⟨[⟨wideNewPort, 0, 4294967306⟩]⟩)]⟩

/-- An old port of `2^31 + 2` elements. -/
def splitPort : OutputPortBase := ⟨0, 2147483650⟩

/-- A new port of one element. -/
def unitNewPort : OutputPortBase := ⟨2, 1⟩

/-- The map `splitPort ↦ [hugeNewPort[0 : 2^31 + 1], unitNewPort[0 : 1]]`. -/
def splitMap : PortOutputsMap :=
  ⟨[(splitPort, ⟨[⟨hugeNewPort, 0, 2147483649⟩, ⟨unitNewPort, 0, 1⟩]⟩)]⟩

/-- A port of the original model, of size 10. -/
def originalPort : OutputPortBase := ⟨3, 10⟩

/-- The map `originalPort ↦ [P[0:10]]` from the original model to the model of `portP`. -/
def firstPassMap : PortOutputsMap := ⟨[(originalPort, ⟨[⟨portP, 0, 10⟩]⟩)]⟩

/-- A port of the original model, of size 5. -/
def smallPort : OutputPortBase := ⟨4, 5⟩

/-- A port of the intermediate model, of size 5. -/
def smallMidPort : OutputPortBase := ⟨5, 5⟩

/-- A port of the new model, of size 5. -/
def smallNewPort : OutputPortBase := ⟨6, 5⟩

/-- A port of the original model, of `2^31 + 1` elements. -/
def hugeOldPort : OutputPortBase := ⟨7, 2147483649⟩

/-- The map `smallPort ↦ [smallMidPort[0:5]]`, `hugeOldPort ↦ [hugePort[0 : 2^31 + 1]]`. -/
def mixedPrevMap : PortOutputsMap :=
  ⟨[(smallPort, ⟨[⟨smallMidPort, 0, 5⟩]⟩), (hugeOldPort, ⟨[⟨hugePort, 0, 2147483649⟩]⟩)]⟩

/-- The map `smallMidPort ↦ [smallNewPort[0:5]]`, `hugePort ↦ [hugeNewPort[0 : 2^31 + 1]]`. -/
def mixedNewMap : PortOutputsMap :=
  ⟨[(smallMidPort, ⟨[⟨smallNewPort, 0, 5⟩]⟩), (hugePort, ⟨[⟨hugeNewPort, 0, 2147483649⟩]⟩)]⟩
/-! ## Nodes, models and the transform context

The classes `Node`, `Model`, `TransformContext` and `ModelTransformer` are declared in headers
that are not part of the sources at hand; the records below hold what the functions of
`ModelTransformer.cpp` and `Model.tcc` read and write. -/

/-- Modelled from the spec: the verdicts of a node-action function (`NodeAction`, declared in
`ModelTransformer.h`; the enumerators are the ones `ModelTransformer.cpp` names). -/
inductive NodeAction where
  | abstain
  | refine
  | compile
deriving DecidableEq, Repr

/-- Modelled from the spec: a node has an identity, declared input ports (each bound to a
`PortElements` reference into output ports), declared output ports and opaque key-value
metadata.  `kind` stands for the class of the node and the arguments of its constructor. -/
structure Node where
  id : Nat
  kind : Nat
  inputs : List PortElementsBase
  outputs : List OutputPortBase
  metadata : List (String × String)
deriving DecidableEq, Repr

/-- Modelled from the spec: a model owns its nodes; `nodes` lists them in the dependency order
in which `Visit` passes them to a visitor. -/
structure Model where
  nodes : List Node
deriving DecidableEq, Repr

/-- The members `_compiler` (`none` is `nullptr`) and `_nodeActionFunctions` of
`TransformContext`. -/
structure TransformContext where
  compiler : Option Nat
  nodeActionFunctions : List (Node → NodeAction)

/-- The context built by `TransformContext::TransformContext()`. -/
def TransformContext.default : TransformContext := ⟨none, []⟩

/-- `TransformContext::AddNodeActionFunction`. -/
def TransformContext.AddNodeActionFunction (context : TransformContext)
    (nodeActionFunction : Node → NodeAction) : TransformContext :=
  { context with nodeActionFunctions := context.nodeActionFunctions ++ [nodeActionFunction] }

/-- `TransformContext::IsNodeCompilable`; `IsCompilable` is the virtual function
`Node::IsCompilable`. -/
def TransformContext.IsNodeCompilable (context : TransformContext)
    (IsCompilable : Node → Option Nat → Bool) (node : Node) : Bool :=
  IsCompilable node context.compiler

/-- The loop of `GetNodeAction` over the action functions, from `rbegin()` on: the argument is
the list of the functions still to be asked, the most recently added first. -/
def actionLoop (node : Node) : List (Node → NodeAction) → Option NodeAction
  | [] => none
  | actionFunction :: rest =>
    let action := actionFunction node
    if action ≠ NodeAction.abstain then some action else actionLoop node rest

/-- `TransformContext::GetNodeAction`. -/
def TransformContext.GetNodeAction (context : TransformContext)
    (IsCompilable : Node → Option Nat → Bool) (node : Node) : NodeAction :=
  match actionLoop node context.nodeActionFunctions.reverse with
  | some action => action
  | none => if IsCompilable node context.compiler then NodeAction.compile else NodeAction.refine

/-- The members `_model`, `_context`, `_elementsMap` and `_isModelCompilable` of
`ModelTransformer`. -/
structure ModelTransformer where
  model : Model
  context : TransformContext
  elementsMap : PortOutputsMap
  isModelCompilable : Bool

/-- Modelled from the spec: `ModelTransformer::AddNode` (a template of `ModelTransformer.tcc`,
not part of the sources at hand) puts the new node into the model under construction and keeps
track of whether every node added so far reported itself compilable to the stored context. -/
def ModelTransformer.AddNode (t : ModelTransformer) (IsCompilable : Node → Option Nat → Bool)
    (node : Node) : ModelTransformer :=
  { t with
    model := ⟨t.model.nodes ++ [node]⟩
    isModelCompilable := t.isModelCompilable && t.context.IsNodeCompilable IsCompilable node }

/-- Modelled from the spec: `ModelTransformer::MapNodeOutput` (a template of
`ModelTransformer.tcc`) registers the correspondence in the map of the transformer. -/
def ModelTransformer.MapNodeOutput (t : ModelTransformer) (oldPort : OutputPortBase)
    (newElements : PortElementsBase) : Except InputExceptionErrors Unit × ModelTransformer :=
  ((t.elementsMap.MapNodeOutput oldPort newElements).1,
    { t with elementsMap := (t.elementsMap.MapNodeOutput oldPort newElements).2 })

/-- Modelled from the spec: the `PortElements` that cover a whole output port (the converting
constructor `PortElementsBase(const OutputPortBase&)`). -/
def PortElementsBase.ofPort (port : OutputPortBase) : PortElementsBase :=
  ⟨[⟨port, 0, port.Size⟩]⟩

/-- `ModelTransformer::TransformPortElements` and `GetCorrespondingOutputs(elements)`. -/
def ModelTransformer.TransformPortElements (t : ModelTransformer)
    (elements : PortElementsBase) : Except InputExceptionErrors PortElementsBase :=
  t.elementsMap.GetCorrespondingPortElements elements

/-- `ModelTransformer::GetCorrespondingOutputs(port)`. -/
def ModelTransformer.GetCorrespondingOutputs (t : ModelTransformer) (port : OutputPortBase) :
    Except InputExceptionErrors PortElementsBase :=
  t.elementsMap.GetCorrespondingPortElements (PortElementsBase.ofPort port)

/-- `ModelTransformer::Reset`. -/
def ModelTransformer.Reset (t : ModelTransformer) : ModelTransformer :=
  { t with context := TransformContext.default, elementsMap := t.elementsMap.Clear,
           isModelCompilable := false }

/-! ## Node hooks

A hook (`Node::Copy`, `Node::InvokeRefine`, the function given to `TransformModel`) is code of
a node class or of the caller.  It acts on the transformer through its interface only: it can
read the transformer, add nodes, register correspondences and throw.  A hook is embedded as the
program of these steps; `next` is the rest of the hook after a step. -/

/-- The steps of a hook that returns a value of type `α`. -/
inductive HookProgram (α : Type) where
  | done (result : α)
  | raise (error : InputExceptionErrors)
  | inspect (next : ModelTransformer → HookProgram α)
  | AddNode (node : Node) (next : HookProgram α)
  | MapNodeOutput (oldPort : OutputPortBase) (newElements : PortElementsBase)
      (next : HookProgram α)

/-- What a hook leaves behind: its outcome (the value returned or the error thrown), the
transformer after it, and the nodes it added, each with the verdict of
`_context.IsNodeCompilable` at the time. -/
structure HookResult (α : Type) where
  outcome : Except InputExceptionErrors α
  transformer : ModelTransformer
  added : List (Node × Bool)

/-- Execution of a hook on a transformer. -/
def HookProgram.run {α : Type} (IsCompilable : Node → Option Nat → Bool) :
    HookProgram α → ModelTransformer → HookResult α
  | .done result, t => ⟨.ok result, t, []⟩
  | .raise error, t => ⟨.error error, t, []⟩
  | .inspect next, t => (next t).run IsCompilable t
  | .AddNode node next, t =>
    let r := next.run IsCompilable (t.AddNode IsCompilable node)
    ⟨r.outcome, r.transformer, (node, t.context.IsNodeCompilable IsCompilable node) :: r.added⟩
  | .MapNodeOutput oldPort newElements next, t =>
    match t.MapNodeOutput oldPort newElements with
    | (.error error, t) => ⟨.error error, t, []⟩
    | (.ok _, t) => next.run IsCompilable t

/-- The virtual functions of the node classes: `Node::IsCompilable`, `Node::Copy` and
`Node::InvokeRefine`. -/
structure NodeClasses where
  IsCompilable : Node → Option Nat → Bool
  Copy : Node → HookProgram Unit
  InvokeRefine : Node → HookProgram Bool

/-- Modelled from the spec: `node` consumes an output of `other` (one of its input ports
references an output port of `other`). -/
def Node.dependsOn (node other : Node) : Bool :=
  node.inputs.any fun elements =>
    elements.GetRanges.any fun range => decide (range.ReferencedPort ∈ other.outputs)

/-- Modelled from the spec: the nodes of the transitive input-closure of `outputNodes`, in
dependency order.  The nodes are examined from the last to the first; `kept` holds the nodes of
the closure found so far, and a node belongs to the closure when it is one of the output nodes
or when a node of the closure consumes one of its outputs. -/
def closureLoop (outputNodes : List Node) : List Node → List Node → List Node
  | [], kept => kept
  | node :: earlier, kept =>
    if decide (node ∈ outputNodes) || kept.any (fun k => k.dependsOn node) then
      closureLoop outputNodes earlier (node :: kept)
    else closureLoop outputNodes earlier kept

/-- Modelled from the spec: the sequence of nodes that `Model::VisitSubset(outputNodes, _)`
passes to its visitor (the node iterator is defined in `Model.cpp`, not part of the sources at
hand): the whole graph when `outputNodes` is empty, otherwise the transitive input-closure of
the given nodes, in dependency order. -/
def Model.VisitSubset (model : Model) (outputNodes : List Node) : List Node :=
  if outputNodes.isEmpty then model.nodes
  else closureLoop outputNodes model.nodes.reverse []

/-- The sequence of nodes that `Model::Visit` passes to its visitor. -/
def Model.Visit (model : Model) : List Node := model.VisitSubset []

/-- The record of one call of a hook during a pass: the node visited, whether `InvokeRefine`
(rather than `CopyNode`) was called, the value of `didRefineNode`, and the nodes added. -/
structure NodeVisit where
  node : Node
  refineInvoked : Bool
  didRefineNode : Bool
  added : List (Node × Bool)
deriving DecidableEq, Repr

/-- The state after the visit of a pass: how the visit ended, the transformer, the variable
`didRefineAny`, and the record of the hook calls made. -/
structure VisitResult where
  outcome : Except InputExceptionErrors Unit
  transformer : ModelTransformer
  didRefineAny : Bool
  visits : List NodeVisit

/-- The first visit of `CopyModel`: `CopyNode(node)`, which is `node.Copy(*this)`, on every
node of the sequence. -/
def copyVisit (classes : NodeClasses) : List Node → ModelTransformer → VisitResult
  | [], t => ⟨.ok (), t, false, []⟩
  | node :: rest, t =>
    let r := (classes.Copy node).run classes.IsCompilable t
    match r.outcome with
    | .error error => ⟨.error error, r.transformer, false, [⟨node, false, false, r.added⟩]⟩
    | .ok _ =>
      let v := copyVisit classes rest r.transformer
      ⟨v.outcome, v.transformer, false, ⟨node, false, false, r.added⟩ :: v.visits⟩

/-- The assignment `newNode->GetMetadata() = metadata` on the node that owns `port`, looked up
among the given nodes (the nodes of the model under construction); a port owned by none of
them leaves them as they are. -/
def setMetadata (port : OutputPortBase) (metadata : List (String × String)) :
    List Node → List Node
  | [] => []
  | newNode :: rest =>
    if port ∈ newNode.outputs then { newNode with metadata := metadata } :: rest
    else newNode :: setMetadata port metadata rest

/-- The second visit of `CopyModel`, which copies the node metadata. -/
def metadataVisit : List Node → ModelTransformer →
    Except InputExceptionErrors Unit × ModelTransformer
  | [], t => (.ok (), t)
  | node :: rest, t =>
    match node.outputs with
    | [] => metadataVisit rest t
    | outputPort :: _ =>
      match t.elementsMap.GetCorrespondingPortElements (PortElementsBase.ofPort outputPort) with
      | .error error => (.error error, t)
      | .ok elements =>
        match elements.GetRanges with
        | [] => metadataVisit rest t
        | range :: _ =>
          metadataVisit rest
            { t with model := ⟨setMetadata range.ReferencedPort node.metadata t.model.nodes⟩ }

/-- A node after the assignments `newNode->GetMetadata() = ...` of the given ports and
metadata, in order: an assignment reaches the node when the node owns its port. -/
def Node.afterWrites (writes : List (OutputPortBase × List (String × String))) (node : Node) :
    Node :=
  writes.foldl (fun n w => if w.1 ∈ n.outputs then { n with metadata := w.2 } else n) node

/-- The assignment that the second visit of `CopyModel` makes for the visited node `node`: the
port whose owner is written (the port of the first range of the elements that correspond to
the first output port of `node`) and the metadata of `node`; none when `node` has no output
port or no such range. -/
def metadataWrite (map : PortOutputsMap) (node : Node) :
    Option (OutputPortBase × List (String × String)) :=
  match node.outputs with
  | [] => none
  | outputPort :: _ =>
    match map.GetCorrespondingPortElements (PortElementsBase.ofPort outputPort) with
    | .error _ => none
    | .ok elements =>
      match elements.GetRanges with
      | [] => none
      | range :: _ => some (range.ReferencedPort, node.metadata)

/-- The nodes that the second visit of `CopyModel` visits, each as it is when it is visited:
a node of the source model that an earlier assignment of the visit has reached (the elements
that correspond to a port may be on a port of the source model) is read with the metadata
assigned to it.  `writes` are the assignments made so far. -/
def metadataReads (map : PortOutputsMap) :
    List Node → List (OutputPortBase × List (String × String)) → List Node
  | [], _ => []
  | node :: rest, writes =>
    (node.afterWrites writes) ::
      metadataReads map rest (writes ++ (metadataWrite map (node.afterWrites writes)).toList)

/-- The assignments that the second visit of `CopyModel` makes, in order, up to the end of
the visit or to the node at which `GetCorrespondingPortElements` raises.  `writes` are the
assignments made so far. -/
def metadataWrites (map : PortOutputsMap) :
    List Node → List (OutputPortBase × List (String × String)) →
      List (OutputPortBase × List (String × String))
  | [], writes => writes
  | node :: rest, writes =>
    match node.outputs with
    | [] => metadataWrites map rest writes
    | outputPort :: _ =>
      match map.GetCorrespondingPortElements (PortElementsBase.ofPort outputPort) with
      | .error _ => writes
      | .ok _ =>
        metadataWrites map rest
          (writes ++ (metadataWrite map (node.afterWrites writes)).toList)

/-- The second visit of `CopyModel` on the nodes `visited` of the source model: the effect
`metadataVisit` on the model under construction of the visit of these nodes as they are
read. -/
def metadataPass (visited : List Node) (t : ModelTransformer) :
    Except InputExceptionErrors Unit × ModelTransformer :=
  metadataVisit (metadataReads t.elementsMap visited []) t

/-- What a call of `CopyModel` leaves behind: the model returned or the error thrown, the
transformer after the call, and the record of the hook calls made. -/
structure CopyOutcome where
  result : Except InputExceptionErrors Model
  transformer : ModelTransformer
  visits : List NodeVisit

/-- `ModelTransformer::CopyModel(oldModel, outputNodes, context)`.  The model returned is moved
out of `_model`, which is left empty. -/
def ModelTransformer.CopyModel (t : ModelTransformer) (classes : NodeClasses) (oldModel : Model)
    (outputNodes : List Node) (context : TransformContext) : CopyOutcome :=
  let t := { t with context := context, model := ⟨[]⟩, elementsMap := t.elementsMap.Clear }
  let v := copyVisit classes (oldModel.VisitSubset outputNodes) t
  match v.outcome with
  | .error error => ⟨.error error, v.transformer, v.visits⟩
  | .ok _ =>
    let t := { v.transformer with context := TransformContext.default }
    match metadataPass (oldModel.VisitSubset outputNodes) t with
    | (.error error, t) => ⟨.error error, t, v.visits⟩
    | (.ok _, t) => ⟨.ok t.model, { t with model := ⟨[]⟩ }, v.visits⟩

/-- The nodes of the source model after `CopyModel(oldModel, outputNodes, context)`.  The
only statement of the transformer that writes to a node is the assignment of the metadata in
the second visit; it reaches a node of the source model when the elements that correspond to
the first output port of a visited node begin on a port of the source model. -/
def ModelTransformer.CopyModelSource (t : ModelTransformer) (classes : NodeClasses)
    (oldModel : Model) (outputNodes : List Node) (context : TransformContext) : List Node :=
  let t := { t with context := context, model := ⟨[]⟩, elementsMap := t.elementsMap.Clear }
  let v := copyVisit classes (oldModel.VisitSubset outputNodes) t
  match v.outcome with
  | .error _ => oldModel.nodes
  | .ok _ =>
    oldModel.nodes.map
      (Node.afterWrites
        (metadataWrites v.transformer.elementsMap (oldModel.VisitSubset outputNodes) []))

/-- The visit of one refinement pass of `RefineModel`, with the variable `didRefineAny` as
argument. -/
def refineVisit (classes : NodeClasses) (context : TransformContext) :
    List Node → ModelTransformer → Bool → VisitResult
  | [], t, didRefineAny => ⟨.ok (), t, didRefineAny, []⟩
  | node :: rest, t, didRefineAny =>
    let action := context.GetNodeAction classes.IsCompilable node
    if action = NodeAction.refine ∨ action = NodeAction.abstain then
      let r := (classes.InvokeRefine node).run classes.IsCompilable t
      match r.outcome with
      | .error error =>
        ⟨.error error, r.transformer, didRefineAny, [⟨node, true, false, r.added⟩]⟩
      | .ok didRefineNode =>
        let v := refineVisit classes context rest r.transformer (didRefineAny || didRefineNode)
        ⟨v.outcome, v.transformer, v.didRefineAny, ⟨node, true, didRefineNode, r.added⟩ :: v.visits⟩
    else
      let r := (classes.Copy node).run classes.IsCompilable t
      match r.outcome with
      | .error error =>
        ⟨.error error, r.transformer, didRefineAny, [⟨node, false, false, r.added⟩]⟩
      | .ok _ =>
        let v := refineVisit classes context rest r.transformer (didRefineAny || false)
        ⟨v.outcome, v.transformer, v.didRefineAny, ⟨node, false, false, r.added⟩ :: v.visits⟩

/-- The composition step after the visit of a pass: when the previous map is not empty, the
map of the transformer becomes `ConcatenateMaps(previousElementMap, _elementsMap)`. -/
def composeMaps (previousElementMap : PortOutputsMap) (t : ModelTransformer) :
    Except InputExceptionErrors Unit × ModelTransformer :=
  if !previousElementMap.IsEmpty then
    match previousElementMap.ConcatenateMaps t.elementsMap with
    | .error error => (.error error, t)
    | .ok newElementsMap => (.ok (), { t with elementsMap := newElementsMap })
  else (.ok (), t)

/-- The record of one refinement pass: the map held before the pass, the hook calls, the
variable `didRefineAny`, the map and the flag `_isModelCompilable` at the end of the visit, and
how the pass ended (visit and composition of the maps). -/
structure PassRecord where
  previousElementMap : PortOutputsMap
  visits : List NodeVisit
  didRefineAny : Bool
  builtMap : PortOutputsMap
  isModelCompilable : Bool
  outcome : Except InputExceptionErrors Unit
  elementsMap : PortOutputsMap

/-- The body of the `for` loop of `RefineModel` up to the test of the early end condition: one
refinement pass.  The result holds how the pass ended, the transformer after it, and its
record. -/
def refinementPass (classes : NodeClasses) (context : TransformContext) (t : ModelTransformer) :
    Except InputExceptionErrors Unit × ModelTransformer × PassRecord :=
  let currentModel := t.model
  let previousElementMap := t.elementsMap
  let t := { t with model := ⟨[]⟩, elementsMap := t.elementsMap.Clear,
                    isModelCompilable := true }
  let v := refineVisit classes context currentModel.Visit t false
  match v.outcome with
  | .error error =>
    (.error error, v.transformer,
      ⟨previousElementMap, v.visits, v.didRefineAny, v.transformer.elementsMap,
        v.transformer.isModelCompilable, .error error, v.transformer.elementsMap⟩)
  | .ok _ =>
    match composeMaps previousElementMap v.transformer with
    | (.error error, t) =>
      (.error error, t,
        ⟨previousElementMap, v.visits, v.didRefineAny, v.transformer.elementsMap,
          v.transformer.isModelCompilable, .error error, t.elementsMap⟩)
    | (.ok _, t) =>
      (.ok (), t,
        ⟨previousElementMap, v.visits, v.didRefineAny, v.transformer.elementsMap,
          v.transformer.isModelCompilable, .ok (), t.elementsMap⟩)

/-- The `for` loop of `RefineModel`; the first argument is the number of iterations left,
`maxIterations - i`.  The result holds how the loop ended, the transformer after it, and one
record for each pass begun. -/
def refineLoop (classes : NodeClasses) (context : TransformContext) :
    Nat → ModelTransformer → Except InputExceptionErrors Unit × ModelTransformer × List PassRecord
  | 0, t => (.ok (), t, [])
  | remaining + 1, t =>
    match refinementPass classes context t with
    | (.error error, t, record) => (.error error, t, [record])
    | (.ok _, t, record) =>
      if !record.didRefineAny || t.isModelCompilable then (.ok (), t, [record])
      else
        let r := refineLoop classes context remaining t
        (r.1, r.2.1, record :: r.2.2)

/-- What a call of `RefineModel` leaves behind: the model returned or the error thrown, the
transformer after the call, the record of the hook calls of the initial copy, and one record
for each refinement pass begun. -/
structure RefineOutcome where
  result : Except InputExceptionErrors Model
  transformer : ModelTransformer
  copyVisits : List NodeVisit
  passes : List PassRecord

/-- `ModelTransformer::RefineModel`. -/
def ModelTransformer.RefineModel (t : ModelTransformer) (classes : NodeClasses)
    (oldModel : Model) (context : TransformContext) (maxIterations : Int) : RefineOutcome :=
  if maxIterations ≤ 0 then ⟨.error .invalidArgument, t, [], []⟩
  else
    let t := { t with context := context, elementsMap := t.elementsMap.Clear }
    let c := t.CopyModel classes oldModel [] context
    match c.result with
    | .error error => ⟨.error error, c.transformer, c.visits, []⟩
    | .ok model =>
      let t := { c.transformer with model := model }
      match refineLoop classes context maxIterations.toNat t with
      | (.error error, t, passes) => ⟨.error error, t, c.visits, passes⟩
      | (.ok _, t, passes) =>
        ⟨.ok t.model, { t with context := TransformContext.default, model := ⟨[]⟩ },
          c.visits, passes⟩

/-- The visit of `TransformModel`: `transformFunction(node, *this)` on every node. -/
def transformVisit (IsCompilable : Node → Option Nat → Bool)
    (transformFunction : Node → HookProgram Unit) : List Node → ModelTransformer → VisitResult
  | [], t => ⟨.ok (), t, false, []⟩
  | node :: rest, t =>
    let r := (transformFunction node).run IsCompilable t
    match r.outcome with
    | .error error => ⟨.error error, r.transformer, false, [⟨node, false, false, r.added⟩]⟩
    | .ok _ =>
      let v := transformVisit IsCompilable transformFunction rest r.transformer
      ⟨v.outcome, v.transformer, false, ⟨node, false, false, r.added⟩ :: v.visits⟩

/-- What a call of `TransformModel` leaves behind: the model returned or the error thrown, the
transformer after the call, and the record of the pass. -/
structure TransformOutcome where
  result : Except InputExceptionErrors Model
  transformer : ModelTransformer
  pass : PassRecord

/-- `ModelTransformer::TransformModel`. -/
def ModelTransformer.TransformModel (t : ModelTransformer)
    (IsCompilable : Node → Option Nat → Bool) (oldModel : Model) (context : TransformContext)
    (transformFunction : Node → HookProgram Unit) : TransformOutcome :=
  let previousElementMap := t.elementsMap
  let t := { t with context := context, model := ⟨[]⟩, elementsMap := t.elementsMap.Clear }
  let v := transformVisit IsCompilable transformFunction oldModel.Visit t
  match v.outcome with
  | .error error =>
    ⟨.error error, v.transformer,
      ⟨previousElementMap, v.visits, false, v.transformer.elementsMap,
        v.transformer.isModelCompilable, .error error, v.transformer.elementsMap⟩⟩
  | .ok _ =>
    match composeMaps previousElementMap v.transformer with
    | (.error error, t) =>
      ⟨.error error, t,
        ⟨previousElementMap, v.visits, false, v.transformer.elementsMap,
          v.transformer.isModelCompilable, .error error, t.elementsMap⟩⟩
    | (.ok _, t) =>
      ⟨.ok t.model, { t with context := TransformContext.default, model := ⟨[]⟩ },
        ⟨previousElementMap, v.visits, false, v.transformer.elementsMap,
          v.transformer.isModelCompilable, .ok (), t.elementsMap⟩⟩

/-- What the record of a refinement pass says about the pass: the flag `_isModelCompilable` at
the end of the visit tells whether every node added during the pass was judged compilable, each
judged by `IsCompilable` with the compiler handle `compiler`; `didRefineAny` tells whether some
call of `InvokeRefine` returned true; and when the pass ended normally, the map after the pass
is `ConcatenateMaps(previous map, map built by the pass)` if the previous map was not empty and
the map built by the pass otherwise. -/
def PassRecord.Sound (IsCompilable : Node → Option Nat → Bool) (compiler : Option Nat)
    (p : PassRecord) : Prop :=
  p.isModelCompilable = (p.visits.all fun v => v.added.all fun a => a.2) ∧
  p.didRefineAny = (p.visits.any fun v => v.refineInvoked && v.didRefineNode) ∧
  (∀ v ∈ p.visits, ∀ a ∈ v.added, a.2 = IsCompilable a.1 compiler) ∧
  (p.outcome = .ok () →
    (p.previousElementMap.IsEmpty = false →
      p.previousElementMap.ConcatenateMaps p.builtMap = .ok p.elementsMap) ∧
    (p.previousElementMap.IsEmpty = true → p.elementsMap = p.builtMap))

/-- The records of consecutive passes are linked: the first pass starts from the map `start`,
each further pass from the map left by the pass before it, and `final` is the map left by the
last pass. -/
def PassesLinked : PortOutputsMap → List PassRecord → PortOutputsMap → Prop
  | start, [], final => final = start
  | start, p :: ps, final => p.previousElementMap = start ∧ PassesLinked p.elementsMap ps final

/-- The state `RefineModel` gives to `CopyModel`. -/
def ModelTransformer.beforeCopy (t : ModelTransformer) (context : TransformContext) :
    ModelTransformer :=
  { t with context := context, elementsMap := t.elementsMap.Clear }

/-- The state `RefineModel` gives to its `for` loop. -/
def ModelTransformer.afterCopy (t : ModelTransformer) (classes : NodeClasses) (oldModel : Model)
    (context : TransformContext) (model : Model) : ModelTransformer :=
  { ((t.beforeCopy context).CopyModel classes oldModel [] context).transformer with
    model := model }

/-- The position, among the given nodes, of the node that owns `port` (the one `setMetadata`
writes to). -/
def ownerIndex (port : OutputPortBase) : List Node → Option Nat
  | [] => none
  | newNode :: rest =>
    if port ∈ newNode.outputs then some 0 else (ownerIndex port rest).map (· + 1)

/-- The position, among the nodes of the new model, of the node that receives the metadata of
the old node `node` in the second visit of `CopyModel`: the owner of the first range of the
elements that correspond to the first output port of `node`, if there are any. -/
def metadataTarget (map : PortOutputsMap) (newNodes : List Node) (node : Node) : Option Nat :=
  match node.outputs with
  | [] => none
  | outputPort :: _ =>
    match map.GetCorrespondingPortElements (PortElementsBase.ofPort outputPort) with
    | .error _ => none
    | .ok elements =>
      match elements.GetRanges with
      | [] => none
      | range :: _ => ownerIndex range.ReferencedPort newNodes

/-! ## Example node classes

Node classes are code of the libraries built on the transformer.  The classes below have hooks
of the usual shape and serve as concrete inputs. -/

/-- The inputs of a node, transformed one by one with `TransformPortElements`. -/
def transformInputs (t : ModelTransformer) :
    List PortElementsBase → Except InputExceptionErrors (List PortElementsBase)
  | [] => .ok []
  | elements :: rest =>
    match t.TransformPortElements elements with
    | .error error => .error error
    | .ok newElements =>
      match transformInputs t rest with
      | .error error => .error error
      | .ok newRest => .ok (newElements :: newRest)

/-- The output port of a copy that stands for the output port `port` of the node copied. -/
def copiedPort (port : OutputPortBase) : OutputPortBase := ⟨port.id + 1000, port.Size⟩

/-- The calls `MapNodeOutput(port, copy of port)` for the given output ports. -/
def registerOutputs {α : Type} : List OutputPortBase → HookProgram α → HookProgram α
  | [], next => next
  | port :: rest, next =>
    .MapNodeOutput port (PortElementsBase.ofPort (copiedPort port)) (registerOutputs rest next)

/-- A hook that transforms the inputs of the node, adds a node of the given kind with fresh
output ports that takes these inputs, registers each output and returns `result`. -/
def emitHook {α : Type} (result : α) (kind : Nat) (node : Node) : HookProgram α :=
  .inspect fun t =>
    match transformInputs t node.inputs with
    | .error error => .raise error
    | .ok newInputs =>
      .AddNode ⟨node.id + 1000, kind, newInputs, node.outputs.map copiedPort, []⟩
        (registerOutputs node.outputs (.done result))

/-- A hook of the shape of a `Copy` function: it adds a node of the kind of the node copied. -/
def copyHook {α : Type} (result : α) (node : Node) : HookProgram α :=
  emitHook result node.kind node

/-- Node classes whose `Copy` is `copyHook`, whose `Refine` is the default one (copy the node
and return false), and whose nodes are all compilable. -/
def copyingClasses : NodeClasses :=
  ⟨fun _ _ => true, copyHook (), copyHook false⟩

/-- Node classes whose `Copy` returns without adding a node or registering an output. -/
def idleClasses : NodeClasses :=
  ⟨fun _ _ => true, fun _ => .done (), fun _ => .done false⟩

/-- Node classes without compilable nodes in which `Refine` replaces a node of kind 0 by a
node of kind 1 and returns false, replaces a node of kind 1 by a node of kind 2 and returns
true, and is the default one for the other kinds. -/
def silentClasses : NodeClasses :=
  ⟨fun _ _ => false, copyHook (),
    fun node =>
      if node.kind = 0 then emitHook false 1 node
      else if node.kind = 1 then emitHook true 2 node
      else copyHook false node⟩

/-- A context whose only action function asks for the refinement of every node. -/
def refiningContext : TransformContext :=
  TransformContext.default.AddNodeActionFunction fun _ => NodeAction.refine

/-- A node without inputs, with one output port of two elements and one metadata entry. -/
def sourceNode : Node := ⟨1, 0, [], [⟨1, 2⟩], [("name", "source")]⟩

/-- A node that consumes the two elements of `sourceNode` in reverse order. -/
def sinkNode : Node :=
  ⟨2, 1, [⟨[⟨⟨1, 2⟩, 1, 1⟩, ⟨⟨1, 2⟩, 0, 1⟩]⟩], [⟨2, 2⟩], [("name", "sink")]⟩

/-- The model made of `sourceNode` and `sinkNode`. -/
def twoNodeModel : Model := ⟨[sourceNode, sinkNode]⟩

/-- A transformer that has not been used. -/
def freshTransformer : ModelTransformer := ⟨⟨[]⟩, TransformContext.default, ⟨[]⟩, false⟩

/-- The node classes and the context treat a node according to its kind only: `Copy`, and a
`Refine` that returns false, add exactly one node, of the kind of the node visited; the value
returned by `Refine` on a node of kind `k` is `refines k`; and the action of the context for a
node of kind `k` is `action k`. -/
def KindStable (classes : NodeClasses) (context : TransformContext)
    (action : Nat → NodeAction) (refines : Nat → Bool) : Prop :=
  (∀ (n : Node) (t : ModelTransformer),
    ((classes.Copy n).run classes.IsCompilable t).outcome = .ok () →
    ∃ a, ((classes.Copy n).run classes.IsCompilable t).added = [a] ∧ a.1.kind = n.kind) ∧
  (∀ (n : Node) (t : ModelTransformer),
    ((classes.InvokeRefine n).run classes.IsCompilable t).outcome = .ok false →
    ∃ a, ((classes.InvokeRefine n).run classes.IsCompilable t).added = [a] ∧
      a.1.kind = n.kind) ∧
  (∀ (n : Node) (t : ModelTransformer) (b : Bool),
    ((classes.InvokeRefine n).run classes.IsCompilable t).outcome = .ok b →
    b = refines n.kind) ∧
  (∀ n : Node, context.GetNodeAction classes.IsCompilable n = action n.kind)

/-- A kind whose nodes a refinement pass leaves as they are: the action for it is to compile,
or `Refine` returns false on it. -/
def Settled (action : Nat → NodeAction) (refines : Nat → Bool) (kind : Nat) : Prop :=
  (action kind = NodeAction.refine ∨ action kind = NodeAction.abstain) → refines kind = false

/-- The nodes that the hook calls of a visit added, in the order in which they were added. -/
def addedNodes (visits : List NodeVisit) : List Node :=
  visits.flatMap fun v => v.added.map Prod.fst

/-! ## Computing output values

The values are held in the output ports of the nodes (`OutputPort::GetOutput`); `Node::Compute`
is code of the node classes.  A node without state computes its output vectors from its input
vectors by a function of its kind. -/

/-- Modelled from the spec: the vector held by each output port, empty for a port that has
not been computed. -/
structure Buffers where
  GetOutput : OutputPortBase → List Int

/-- The buffers of a model none of whose nodes has been computed. -/
def Buffers.empty : Buffers := ⟨fun _ => []⟩

/-- Modelled from the spec: `OutputPort::SetOutput`. -/
def Buffers.SetOutput (b : Buffers) (port : OutputPortBase) (values : List Int) : Buffers :=
  ⟨fun q => if q = port then values else b.GetOutput q⟩

/-- Modelled from the spec: `PortElementsBase::GetElement(index)`, the port and the index in
the port of the element at position `index`. -/
def PortElementsBase.GetElement (e : PortElementsBase) (index : Nat) :
    Option (OutputPortBase × Nat) :=
  e.elements[index]?

/-- The value of the element at position `index`: `port->GetOutput()[element.GetIndex()]`. -/
def Buffers.elementValue (b : Buffers) (elements : PortElementsBase) (index : Nat) : Int :=
  match elements.GetElement index with
  | some (port, i) => (b.GetOutput port).getD i 0
  | none => 0

/-- Modelled from the spec: the value vector of an input port, the values of its elements. -/
def Buffers.inputValues (b : Buffers) (elements : PortElementsBase) : List Int :=
  (List.range elements.Size).map (b.elementValue elements)

/-- The output vectors stored into the output ports, in order. -/
def storeOutputs (b : Buffers) : List OutputPortBase → List (List Int) → Buffers
  | [], _ => b
  | port :: rest, values => storeOutputs (b.SetOutput port (values.headD [])) rest values.tail

/-- Modelled from the spec: `Node::Compute` of a node without state: the function of the kind
of the node, applied to the values of the input ports, gives the vectors of the output
ports. -/
def Node.Compute (compute : Nat → List (List Int) → List (List Int)) (node : Node)
    (b : Buffers) : Buffers :=
  storeOutputs b node.outputs (compute node.kind (node.inputs.map b.inputValues))

/-- The visit `VisitSubset(nodes, compute)`. -/
def computeVisit (compute : Nat → List (List Int) → List (List Int)) :
    List Node → Buffers → Buffers
  | [], b => b
  | node :: rest, b => computeVisit compute rest (node.Compute compute b)

/-- Modelled from the spec: `OutputPortBase::GetNode`, the node of the model that owns the
port. -/
def Model.GetNode (model : Model) (port : OutputPortBase) : Option Node :=
  model.nodes.find? fun node => decide (port ∈ node.outputs)

/-- `Model::ComputeOutput(outputPort)`. -/
def Model.ComputeOutputPort (model : Model)
    (compute : Nat → List (List Int) → List (List Int)) (b : Buffers)
    (outputPort : OutputPortBase) : List Int :=
  let b := computeVisit compute (model.VisitSubset (model.GetNode outputPort).toList) b
  b.GetOutput outputPort

/-- The loop of `ComputeOutput(elements)` that fills the set `usedNodes`. -/
def usedNodesLoop (model : Model) : List PortRange → List Node → List Node
  | [], usedNodes => usedNodes
  | range :: rest, usedNodes =>
    match model.GetNode range.ReferencedPort with
    | none => usedNodesLoop model rest usedNodes
    | some node =>
      usedNodesLoop model rest (if node ∈ usedNodes then usedNodes else usedNodes ++ [node])

/-- `Model::ComputeOutput(elements)`. -/
def Model.ComputeOutput (model : Model)
    (compute : Nat → List (List Int) → List (List Int)) (b : Buffers)
    (elements : PortElementsBase) : List Int :=
  let usedNodes := usedNodesLoop model elements.GetRanges []
  let b := computeVisit compute (model.VisitSubset usedNodes) b
  let numElements := elements.Size
  (List.range numElements).map fun index => b.elementValue elements index

/-! ## Well-formed models -/

/-- The input ports of `node` consist of ranges inside output ports among `available`. -/
def Node.InputsOver (node : Node) (available : List OutputPortBase) : Prop :=
  ∀ e ∈ node.inputs, ∀ r ∈ e.GetRanges,
    r.ReferencedPort ∈ available ∧ r.GetStartIndex + r.Size ≤ r.ReferencedPort.Size

instance (node : Node) (available : List OutputPortBase) :
    Decidable (node.InputsOver available) := by
  unfold Node.InputsOver; infer_instance

/-- The nodes are in dependency order: every node consumes outputs of nodes before it (or
ports among `available`). -/
def DependencyOrdered : List OutputPortBase → List Node → Prop
  | _, [] => True
  | available, node :: rest =>
    node.InputsOver available ∧ DependencyOrdered (available ++ node.outputs) rest

instance decidableDependencyOrdered :
    (available : List OutputPortBase) → (nodes : List Node) →
      Decidable (DependencyOrdered available nodes)
  | _, [] => isTrue trivial
  | available, node :: rest =>
    @instDecidableAnd _ _ inferInstance
      (decidableDependencyOrdered (available ++ node.outputs) rest)

/-- A well-formed model: no output port belongs to two nodes, every output port has fewer than
2^31 elements, and the nodes are in dependency order. -/
def Model.WellFormed (model : Model) : Prop :=
  (model.nodes.flatMap Node.outputs).Nodup ∧
  (∀ p ∈ model.nodes.flatMap Node.outputs, p.Size < 2147483648) ∧
  DependencyOrdered [] model.nodes

instance (model : Model) : Decidable model.WellFormed := by
  unfold Model.WellFormed; infer_instance

/-- The vectors that the nodes of the model compute have the sizes of their output ports. -/
def ComputeSized (compute : Nat → List (List Int) → List (List Int)) (model : Model) : Prop :=
  ∀ node ∈ model.nodes, ∀ (inputs : List (List Int)) (i : Nat) (port : OutputPortBase),
    node.outputs[i]? = some port → ((compute node.kind inputs).getD i []).length = port.Size

/-- A function of the kinds 0 (a source of the values 3 and 4) and 1 (the sum and the
difference of its first two input values). -/
def exampleCompute (kind : Nat) (inputs : List (List Int)) : List (List Int) :=
  if kind = 0 then [[3, 4]]
  else [[(inputs.headD []).getD 0 0 + (inputs.headD []).getD 1 0,
         (inputs.headD []).getD 0 0 - (inputs.headD []).getD 1 0]]

/-! ## Copies of nodes

The `Copy` function of a node class is code of the libraries built on the transformer.  A copy
gives every output port `p` of the node copied a port `rename p` of the new node. -/

/-- The element of a copy that stands for the element `x` of the node copied. -/
def renameElement (rename : OutputPortBase → OutputPortBase) (x : OutputPortBase × Nat) :
    OutputPortBase × Nat :=
  (rename x.1, x.2)

/-- The elements `e2` are those of `e`, on the copied ports. -/
def InputCopy (rename : OutputPortBase → OutputPortBase) (e e2 : PortElementsBase) : Prop :=
  e2.elements = e.elements.map (renameElement rename)

/-- The node `n2` is an equivalent copy of `n`: a node of the same kind, whose output ports
are the copies of those of `n` and whose inputs are those of `n` on the copied ports. -/
def CopyOf (rename : OutputPortBase → OutputPortBase) (n n2 : Node) : Prop :=
  n2.kind = n.kind ∧ n2.outputs = n.outputs.map rename ∧
    List.Forall₂ (InputCopy rename) n.inputs n2.inputs

/-- The buffers `b2` hold in the copy of each of the given ports what `b` holds in the
port. -/
def Buffers.Corresponds (rename : OutputPortBase → OutputPortBase) (ports : List OutputPortBase)
    (b b2 : Buffers) : Prop :=
  ∀ q ∈ ports, b2.GetOutput (rename q) = b.GetOutput q

/-- The map of a copy in progress: every entry maps a port of fewer than 2^31 elements to its
copy, of the same size, and every port among `available` has an entry. -/
def CopyMap (rename : OutputPortBase → OutputPortBase) (available : List OutputPortBase)
    (m : PortOutputsMap) : Prop :=
  (∀ entry ∈ m.outputPortMap,
    entry.2 = PortElementsBase.ofPort (rename entry.1) ∧ entry.1.Size < 2147483648 ∧
      (rename entry.1).Size = entry.1.Size) ∧
  (∀ p ∈ available, m.find p = some (PortElementsBase.ofPort (rename p)))

/-- The map after the calls `MapNodeOutput(port, copy of port)` for the given output ports,
in order. -/
def registerAll (rename : OutputPortBase → OutputPortBase) :
    List OutputPortBase → PortOutputsMap → PortOutputsMap
  | [], m => m
  | port :: rest, m =>
    registerAll rename rest (m.MapNodeOutput port (PortElementsBase.ofPort (rename port))).2

/-- Modelled from the spec: the `Copy` hooks of the nodes of `G` add an equivalent node and
register its outputs.  Called on a transformer whose map transforms the inputs of the node,
the hook returns, having added to the model one node of the kind of the node copied, on the
transformed inputs and with the output ports `rename p`, and having called
`MapNodeOutput(p, rename p)` for the output ports `p` of the node copied. -/
def CopiesNodes (classes : NodeClasses) (rename : OutputPortBase → OutputPortBase)
    (G : Model) : Prop :=
  ∀ n ∈ G.nodes, ∀ (t : ModelTransformer) (newInputs : List PortElementsBase),
    transformInputs t n.inputs = .ok newInputs →
    ((classes.Copy n).run classes.IsCompilable t).outcome = .ok () ∧
    (∃ n2, ((classes.Copy n).run classes.IsCompilable t).transformer.model.nodes
        = t.model.nodes ++ [n2] ∧
      n2.kind = n.kind ∧ n2.inputs = newInputs ∧ n2.outputs = n.outputs.map rename) ∧
    ((classes.Copy n).run classes.IsCompilable t).transformer.elementsMap
      = registerAll rename n.outputs t.elementsMap

/-- The ports of the copies: the copy of an output port of `G` has the size of the port, and
no two output ports of `G` have the same copy. -/
def PortRenaming (rename : OutputPortBase → OutputPortBase) (G : Model) : Prop :=
  (∀ p ∈ G.nodes.flatMap Node.outputs, (rename p).Size = p.Size) ∧
  (∀ p ∈ G.nodes.flatMap Node.outputs, ∀ q ∈ G.nodes.flatMap Node.outputs,
    rename p = rename q → p = q)

instance (rename : OutputPortBase → OutputPortBase) (G : Model) :
    Decidable (PortRenaming rename G) := by
  unfold PortRenaming; infer_instance

/-- The elements of the inputs of every node are on ports that satisfy `available` or belong
to a node before it in the list. -/
def Supplied : (OutputPortBase → Prop) → List Node → Prop
  | _, [] => True
  | available, node :: rest =>
    (∀ e ∈ node.inputs, ∀ x ∈ e.elements, available x.1) ∧
      Supplied (fun p => available p ∨ p ∈ node.outputs) rest

/-- A model whose second node consumes nothing but an empty range at the end of the output of
`sourceNode`. -/
def emptyRangeModel : Model :=
  ⟨[sourceNode, ⟨2, 1, [⟨[⟨⟨1, 2⟩, 2, 0⟩]⟩], [⟨2, 2⟩], []⟩]⟩

/-! ## Scenarios of the composition of three maps -/

/-- A map from the ports of `scenarioMap` to two further ports. -/
def thirdPassMap : PortOutputsMap :=
  ⟨[(newPortA, ⟨[⟨⟨8, 6⟩, 0, 6⟩]⟩), (newPortB, ⟨[⟨⟨9, 4⟩, 0, 4⟩]⟩)]⟩

/-- A map whose value has an empty range between two ranges of the port `⟨11, 4⟩`. -/
def gapMapA : PortOutputsMap :=
  ⟨[(⟨10, 3⟩, ⟨[⟨⟨11, 4⟩, 0, 2⟩, ⟨⟨11, 4⟩, 2, 0⟩, ⟨⟨11, 4⟩, 0, 1⟩]⟩)]⟩

/-- The map from the port `⟨11, 4⟩` to the port `⟨12, 4⟩`. -/
def gapMapB : PortOutputsMap := ⟨[(⟨11, 4⟩, ⟨[⟨⟨12, 4⟩, 0, 4⟩]⟩)]⟩

/-- The map from the port `⟨12, 4⟩` to two ports of two elements. -/
def gapMapC : PortOutputsMap := ⟨[(⟨12, 4⟩, ⟨[⟨⟨13, 2⟩, 0, 2⟩, ⟨⟨14, 2⟩, 0, 2⟩]⟩)]⟩

/-- A map to the elements 5, 6, 7 of a port of 2^32 + 10 elements. -/
def longMapA : PortOutputsMap := ⟨[(⟨20, 3⟩, ⟨[⟨⟨21, 4294967306⟩, 5, 3⟩]⟩)]⟩

/-- The map from the port of 2^32 + 10 elements to three ports of 2^31 - 1, 2^31 - 1 and 12
elements. -/
def longMapB : PortOutputsMap :=
  ⟨[(⟨21, 4294967306⟩,
      ⟨[⟨⟨22, 2147483647⟩, 0, 2147483647⟩, ⟨⟨23, 2147483647⟩, 0, 2147483647⟩,
        ⟨⟨24, 12⟩, 0, 12⟩]⟩)]⟩

/-- The map that sends the first two of these ports to the two halves of one port of 2^32 - 2
elements. -/
def longMapC : PortOutputsMap :=
  ⟨[(⟨22, 2147483647⟩, ⟨[⟨⟨25, 4294967294⟩, 0, 2147483647⟩]⟩),
    (⟨23, 2147483647⟩, ⟨[⟨⟨25, 4294967294⟩, 2147483647, 2147483647⟩]⟩),
    (⟨24, 12⟩, ⟨[⟨⟨26, 12⟩, 0, 12⟩]⟩)]⟩

/-! ## Scenarios of the transformer -/

/-- A context with three action functions: the first asks to compile every node, the second
asks to refine the nodes of kind 0 and abstains on the others, the third always abstains. -/
def layeredContext : TransformContext :=
  ((TransformContext.default.AddNodeActionFunction fun _ => NodeAction.compile).AddNodeActionFunction
    fun node => if node.kind = 0 then NodeAction.refine else NodeAction.abstain).AddNodeActionFunction
    fun _ => NodeAction.abstain

/-- A context whose only action function always abstains. -/
def abstainingContext : TransformContext :=
  TransformContext.default.AddNodeActionFunction fun _ => NodeAction.abstain

/-- The copy of `twoNodeModel` made by `copyHook`, with the metadata of the nodes copied. -/
def copiedTwoNodeModel : Model :=
  ⟨[⟨1001, 0, [], [⟨1001, 2⟩], [("name", "source")]⟩,
    ⟨1002, 1, [⟨[⟨⟨1001, 2⟩, 1, 1⟩, ⟨⟨1001, 2⟩, 0, 1⟩]⟩], [⟨1002, 2⟩], [("name", "sink")]⟩]⟩

/-- The copy of `copiedTwoNodeModel` made by `copyHook` in a refinement pass. -/
def refinedTwoNodeModel : Model :=
  ⟨[⟨2001, 0, [], [⟨2001, 2⟩], []⟩,
    ⟨2002, 1, [⟨[⟨⟨2001, 2⟩, 1, 1⟩, ⟨⟨2001, 2⟩, 0, 1⟩]⟩], [⟨2002, 2⟩], []⟩]⟩

/-- A model of one node without inputs whose output port has 2^31 + 1 elements. -/
def wideOutputModel : Model := ⟨[⟨1, 0, [], [⟨1, 2147483649⟩], []⟩]⟩

/-! ## String escaping (`JsonUtilities`, `XmlUtilities`)

A `std::string` is the list of the codes of its characters.  The vector
`std::vector<char> charCodes(127, '\0')` is a list of 127 codes; an access `charCodes[ch]`
outside the vector is undefined, and the functions have no result (`none`) when they reach
one.  The codes of the characters that occur are 39 (apostrophe), 34 (double quote),
92 (backslash), 10 (newline), 13 (carriage return), 9 (tab), 8 (backspace), 12 (form feed),
and 110, 114, 116, 98, 102 for the letters n, r, t, b, f. -/

/-- The vector `charCodes` of `JsonUtilities::EncodeString`. -/
def JsonUtilities.encodeCharCodes : List Nat :=
  ((((((((List.replicate 127 0).set 39 39).set 34 34).set 92 92).set 10 110).set 13 114).set
    9 116).set 8 98).set 12 102

/-- The vector `charCodes` of `JsonUtilities::DecodeString`. -/
def JsonUtilities.decodeCharCodes : List Nat :=
  ((((((((List.replicate 127 0).set 39 39).set 34 34).set 92 92).set 110 10).set 114 13).set
    116 9).set 98 8).set 102 12

/-- The loop of `EncodeString` and of `EncodeAttributeString`; `s` is the stream written so
far. -/
def encodeLoop (charCodes : List Nat) : List Nat → List Nat → Option (List Nat)
  | [], s => some s
  | ch :: rest, s =>
    match charCodes[ch]? with
    | none => none
    | some encoding =>
      if encoding = 0 then encodeLoop charCodes rest (s ++ [ch])
      else encodeLoop charCodes rest (s ++ [92, encoding])

/-- The loop of `DecodeString` and of `DecodeAttributeString`, with the statement after it;
`s` is the stream written so far. -/
def decodeLoop (charCodes : List Nat) : List Nat → Bool → List Nat → Option (List Nat)
  | [], prevWasBackslash, s => some (if prevWasBackslash then s ++ [92] else s)
  | ch :: rest, prevWasBackslash, s =>
    if prevWasBackslash then
      match charCodes[ch]? with
      | none => none
      | some encoding =>
        if encoding = 0 then decodeLoop charCodes rest false (s ++ [92, ch])
        else decodeLoop charCodes rest false (s ++ [encoding])
    else
      if ch = 92 then decodeLoop charCodes rest true s
      else decodeLoop charCodes rest false (s ++ [ch])

/-- `JsonUtilities::EncodeString`. -/
def JsonUtilities.EncodeString (str : List Nat) : Option (List Nat) :=
  encodeLoop JsonUtilities.encodeCharCodes str []

/-- `JsonUtilities::DecodeString`. -/
def JsonUtilities.DecodeString (str : List Nat) : Option (List Nat) :=
  decodeLoop JsonUtilities.decodeCharCodes str false []

/-- The vector `charCodes` of `XmlUtilities::EncodeAttributeString`. -/
def XmlUtilities.encodeCharCodes : List Nat :=
  ((((((((List.replicate 127 0).set 39 39).set 34 34).set 92 92).set 10 110).set 13 114).set
    9 116).set 8 98).set 12 102

/-- The vector `charCodes` of `XmlUtilities::DecodeAttributeString`. -/
def XmlUtilities.decodeCharCodes : List Nat :=
  ((((((((List.replicate 127 0).set 39 39).set 34 34).set 92 92).set 110 10).set 114 13).set
    116 9).set 98 8).set 102 12

/-- `XmlUtilities::EncodeAttributeString`. -/
def XmlUtilities.EncodeAttributeString (str : List Nat) : Option (List Nat) :=
  encodeLoop XmlUtilities.encodeCharCodes str []

/-- `XmlUtilities::DecodeAttributeString`. -/
def XmlUtilities.DecodeAttributeString (str : List Nat) : Option (List Nat) :=
  decodeLoop XmlUtilities.decodeCharCodes str false []

/-- The characters that must be escaped: apostrophe, double quote, backslash, newline,
carriage return, tab, backspace and form feed. -/
def mustEscape (ch : Nat) : Bool :=
  ch = 39 || ch = 34 || ch = 92 || ch = 10 || ch = 13 || ch = 9 || ch = 8 || ch = 12

/-- The letter that stands for an escaped character after the backslash. -/
def escapeLetter (ch : Nat) : Nat :=
  if ch = 10 then 110 else if ch = 13 then 114 else if ch = 9 then 116
  else if ch = 8 then 98 else if ch = 12 then 102 else ch

/-- The escaped form of a character: the character itself, or a backslash and its letter. -/
def escapedForm (ch : Nat) : List Nat :=
  if mustEscape ch then [92, escapeLetter ch] else [ch]

/-! ## `LinearPredictor`

The predictor is taken over exact arithmetic: the element type is a commutative ring `R`
(the real numbers, the rationals) in place of `float` or `double`. -/

/-- The state of a `LinearPredictor<ElementType>`: the weights `_w` and the bias `_b`. -/
structure LinearPredictor (R : Type) where
  w : List R
  b : R

/-- Modelled from the spec: the product `_w * dataVector` of the weight vector and a data
vector (operators of the `math` and `data` libraries, not part of the sources at hand) is
their inner product; the entries that one of the vectors does not have count as zero. -/
def dotProduct {R : Type} [CommRing R] : List R → List R → R
  | [], _ => 0
  | _, [] => 0
  | a :: w, x :: dataVector => a * x + dotProduct w dataVector

/-- `LinearPredictor::Predict`. -/
def LinearPredictor.Predict {R : Type} [CommRing R] (p : LinearPredictor R)
    (dataVector : List R) : R :=
  dotProduct p.w dataVector + p.b

/-- `LinearPredictor::Scale`: `_w *= scalar; _b *= scalar`. -/
def LinearPredictor.Scale {R : Type} [CommRing R] (p : LinearPredictor R) (scalar : R) :
    LinearPredictor R :=
  ⟨p.w.map fun a => a * scalar, p.b * scalar⟩

/-! ## The visits of the passes -/

/-- The snapshots of the refinement passes: every pass visits nodes of its snapshot in
order, all of them when it completes, and the snapshot of the next pass is made of the nodes
that the pass added. -/
def PassesVisit : List Node → List PassRecord → Prop
  | _, [] => True
  | snapshot, p :: rest =>
    (p.visits.map NodeVisit.node) <+: snapshot ∧
    (p.outcome = .ok () → p.visits.map NodeVisit.node = snapshot) ∧
    PassesVisit (addedNodes p.visits) rest

/-- The hook call recorded in `v` is the one that the refinement pass makes on `v.node` when
the transformer is `t`: `InvokeRefine` when the action for the node is `refine` or `abstain`,
with `didRefineNode` the value returned (and false when the hook raises), `Copy` otherwise,
with `didRefineNode` false. -/
def RefineDispatch (classes : NodeClasses) (context : TransformContext) (t : ModelTransformer)
    (v : NodeVisit) : Prop :=
  (v.refineInvoked = true ↔
    (context.GetNodeAction classes.IsCompilable v.node = NodeAction.refine ∨
      context.GetNodeAction classes.IsCompilable v.node = NodeAction.abstain)) ∧
  (v.refineInvoked = true →
    v.added = ((classes.InvokeRefine v.node).run classes.IsCompilable t).added ∧
    (((classes.InvokeRefine v.node).run classes.IsCompilable t).outcome = .ok v.didRefineNode ∨
      (v.didRefineNode = false ∧
        ∃ e, ((classes.InvokeRefine v.node).run classes.IsCompilable t).outcome = .error e))) ∧
  (v.refineInvoked = false →
    v.didRefineNode = false ∧
    v.added = ((classes.Copy v.node).run classes.IsCompilable t).added)

/-- The transformer at the beginning of the visit of a refinement pass: a fresh model and
map, and `_isModelCompilable` set. -/
def ModelTransformer.passStart (t : ModelTransformer) : ModelTransformer :=
  { t with model := ⟨[]⟩, elementsMap := t.elementsMap.Clear, isModelCompilable := true }

/-- The transformer at the beginning of the visit of `TransformModel`: the given context, a
fresh model and an empty map. -/
def ModelTransformer.transformStart (t : ModelTransformer) (context : TransformContext) :
    ModelTransformer :=
  { t with context := context, model := ⟨[]⟩, elementsMap := t.elementsMap.Clear }

/-! ## Dependency order of the traversal -/

/-- The stored order of the nodes of a model is a dependency order: no node occurs twice, no
node consumes an output of its own, and no node consumes an output of a node after it. -/
def Model.Ordered (model : Model) : Prop :=
  model.nodes.Nodup ∧ (∀ n ∈ model.nodes, n.dependsOn n = false) ∧
    model.nodes.Pairwise fun a b => a.dependsOn b = false

instance (model : Model) : Decidable model.Ordered := by
  unfold Model.Ordered; infer_instance

/-- The transitive input-closure of `outputNodes` in the model: the given nodes that belong to
the model, and the nodes of the model of which a node of the closure consumes an output. -/
inductive InputClosure (model : Model) (outputNodes : List Node) : Node → Prop where
  | output (n : Node) : n ∈ outputNodes → n ∈ model.nodes → InputClosure model outputNodes n
  | input (n m : Node) : InputClosure model outputNodes n → m ∈ model.nodes →
      n.dependsOn m = true → InputClosure model outputNodes m

/-- Modelled from the spec: the nodes of the graph `nodes` of which `node` consumes an output,
in the order of the graph. -/
def inputNodes (nodes : List Node) (node : Node) : List Node :=
  nodes.filter fun other => node.dependsOn other

/-- Modelled from the spec: one step of the node iterator (defined in `Model.cpp`, not part of
the sources at hand), a depth-first traversal that memoizes the nodes visited: a node already
in `visited` is skipped; otherwise the nodes that it consumes are visited first, then the node
itself is added at the end.  `fuel` bounds the depth of the recursion; when it runs out the
node is not visited. -/
def visitNode (nodes : List Node) : Nat → List Node → Node → List Node
  | 0, visited, _ => visited
  | fuel + 1, visited, node =>
    if node ∈ visited then visited
    else (inputNodes nodes node).foldl (visitNode nodes fuel) visited ++ [node]

/-- Modelled from the spec: the sequence that the node iterator yields over the graph `nodes`
(the nodes that a model owns, in any order): the traversal starts from each of `outputNodes`
in turn, and from every node of the graph when `outputNodes` is empty.  The depth of the
recursion is at most the number of nodes of the graph when the graph has no cycle. -/
def nodeIterator (nodes outputNodes : List Node) : List Node :=
  (if outputNodes.isEmpty then nodes else outputNodes).foldl
    (visitNode nodes (nodes.length + 1)) []

/-- The graph `nodes` has no cycle: its nodes can be ranked such that a node consumes outputs
of nodes of lower rank only. -/
def Acyclic (nodes : List Node) : Prop :=
  ∃ rank : Node → Nat, ∀ n ∈ nodes, ∀ m ∈ nodes, n.dependsOn m = true → rank m < rank n

/-- The invariant of the list of visited nodes: no node twice, only nodes of the graph, closed
under the consumed nodes, and no node consumes an output of a later one. -/
def VisitedGood (nodes visited : List Node) : Prop :=
  visited.Nodup ∧ (∀ x ∈ visited, x ∈ nodes) ∧
    (∀ x ∈ visited, ∀ m ∈ nodes, x.dependsOn m = true → m ∈ visited) ∧
    visited.Pairwise fun a b => a.dependsOn b = false

/-- A node without inputs of which no node consumes an output. -/
def loneNode : Node := ⟨3, 0, [], [⟨3, 1⟩], []⟩

/-- A graph stored out of dependency order: the nodes of `twoNodeModel` and `loneNode`, the
consumer `sinkNode` first and its producer `sourceNode` last. -/
def unorderedNodes : List Node := [sinkNode, loneNode, sourceNode]

/-! ## `DeleteNode` -/

/-- Modelled from the spec: the element type tag of a port (`Port::PortType`, declared in
`Port.h`, not part of the sources at hand): the five types that `DeleteNode` recognizes, and
`other` for every other value of the enumeration. -/
inductive PortType where
  | boolean
  | integer
  | bigInt
  | smallReal
  | real
  | other (code : Nat)
deriving DecidableEq, Repr

/-- Modelled from the spec: what `DeleteNode` reads of an output port: the port, its type
(`GetType()`) and the stride of its memory layout (`GetMemoryLayout().GetStride()`). -/
structure TypedOutputPort where
  port : OutputPortBase
  type : PortType
  stride : List Nat
deriving DecidableEq, Repr

/-- Modelled from the spec: the class template `OutputNode<ValueType>` (not part of the
sources at hand), as far as `DeleteNode` depends on it: the kind of the node for each value
type, and the number of elements of the output port of an `OutputNode` built from empty input
elements and a layout. -/
structure OutputNodeClass where
  kind : PortType → Nat
  outputSize : List Nat → Nat

/-- The record of an `OutputNode` added by `DeleteNode`: its value type, the layout given to
its constructor, and the node put into the model. -/
structure OutputNode where
  type : PortType
  layout : List Nat
  node : Node
deriving DecidableEq, Repr

/-- The `switch` of `DeleteNode` on the type of the port: the value type of the `OutputNode`
to build (`bool`, `int`, `std::int64_t`, `float`, `double`); the default case has none. -/
def sinkValueType : PortType → Option PortType
  | .boolean => some .boolean
  | .integer => some .integer
  | .bigInt => some .bigInt
  | .smallReal => some .smallReal
  | .real => some .real
  | .other _ => none

/-- What a call of `DeleteNode` leaves behind: how it ended, the transformer after the call
and the `OutputNode`s added. -/
structure DeleteOutcome where
  outcome : Except InputExceptionErrors Unit
  transformer : ModelTransformer
  added : List OutputNode

/-- The loop of `DeleteNode` over the output ports; `id` is the identity of the next node
built (and of its output port). -/
def deleteLoop (IsCompilable : Node → Option Nat → Bool) (sinks : OutputNodeClass) :
    List TypedOutputPort → Nat → ModelTransformer → DeleteOutcome
  | [], _, t => ⟨.ok (), t, []⟩
  | outputPort :: rest, id, t =>
    let layout := outputPort.stride
    match sinkValueType outputPort.type with
    | none => ⟨.error .invalidArgument, t, []⟩
    | some valueType =>
      let outputNode : Node :=
        ⟨id, sinks.kind valueType, [⟨[]⟩], [⟨id, sinks.outputSize layout⟩], []⟩
      let t := t.AddNode IsCompilable outputNode
      match t.MapNodeOutput outputPort.port
          (PortElementsBase.ofPort ⟨id, sinks.outputSize layout⟩) with
      | (.error error, t) => ⟨.error error, t, [⟨valueType, layout, outputNode⟩]⟩
      | (.ok _, t) =>
        let r := deleteLoop IsCompilable sinks rest (id + 1) t
        ⟨r.outcome, r.transformer, ⟨valueType, layout, outputNode⟩ :: r.added⟩

/-- `ModelTransformer::DeleteNode` on a node with the given output ports; `firstId` is the
identity of the first node built. -/
def ModelTransformer.DeleteNode (t : ModelTransformer) (IsCompilable : Node → Option Nat → Bool)
    (sinks : OutputNodeClass) (firstId : Nat) (outputPorts : List TypedOutputPort) :
    DeleteOutcome :=
  deleteLoop IsCompilable sinks outputPorts firstId t

/-- An `OutputNode` class whose output port has as many elements as the layout (the product
of its entries). -/
def exampleSinks : OutputNodeClass := ⟨fun _ => 100, List.prod⟩

/-- The types of the closed set that `DeleteNode` recognizes: boolean, integer, 64-bit
integer, 32-bit float and 64-bit float. -/
def PortType.isRecognized : PortType → Bool
  | .other _ => false
  | _ => true

/-- The nodes of the source model after `RefineModel(oldModel, context, maxIterations)`: the
call writes to a node in its initial `CopyModel(oldModel, context)` only, since the visits of
the refinement passes are visits of the copies (`currentModel`) and assign no metadata. -/
def ModelTransformer.RefineModelSource (t : ModelTransformer) (classes : NodeClasses)
    (oldModel : Model) (context : TransformContext) (maxIterations : Int) : List Node :=
  if maxIterations ≤ 0 then oldModel.nodes
  else (t.beforeCopy context).CopyModelSource classes oldModel [] context

/-- What the transformer reads of a node besides its metadata. -/
def Node.core (node : Node) : Nat × Nat × List PortElementsBase × List OutputPortBase :=
  (node.id, node.kind, node.inputs, node.outputs)

/-- A hook of a node that leaves itself out of the copy: it registers the elements of its
first input, as they are in the source model (without `TransformPortElements`), as the
correspondents of its first output port.  A node without input or output is copied. -/
def forwardHook (node : Node) : HookProgram Unit :=
  match node.inputs, node.outputs with
  | elements :: _, port :: _ => .MapNodeOutput port elements (.done ())
  | _, _ => copyHook () node

/-- Node classes whose `Copy` is `forwardHook`. -/
def forwardingClasses : NodeClasses :=
  ⟨fun _ _ => true, forwardHook, copyHook false⟩

/-! ## `FindUncompilableNodes` -/

/-- The loop of `FindUncompilableNodes` over the nodes that the node iterator yields, with
the vector `uncompilableNodes` as argument. -/
def uncompilableLoop (IsCompilable : Node → Option Nat → Bool) (context : TransformContext) :
    List Node → List Node → List Node
  | [], uncompilableNodes => uncompilableNodes
  | node :: rest, uncompilableNodes =>
    if !context.IsNodeCompilable IsCompilable node then
      uncompilableLoop IsCompilable context rest (uncompilableNodes ++ [node])
    else uncompilableLoop IsCompilable context rest uncompilableNodes

/-- `ModelTransformer::FindUncompilableNodes`, a `const` function; `model.GetNodeIterator()`
yields the nodes of `model.Visit`. -/
def ModelTransformer.FindUncompilableNodes (_t : ModelTransformer)
    (IsCompilable : Node → Option Nat → Bool) (model : Model) (context : TransformContext) :
    List Node :=
  uncompilableLoop IsCompilable context model.Visit []

/-! ## The first visit of `CopyModel` -/

/-- The transformer at the beginning of the first visit of `CopyModel`: the given context, a
fresh model and an empty map. -/
def ModelTransformer.copyStart (t : ModelTransformer) (context : TransformContext) :
    ModelTransformer :=
  { t with context := context, model := ⟨[]⟩, elementsMap := t.elementsMap.Clear }

/-- Node classes whose `Copy` copies the nodes of kind 0 and returns without adding a node or
registering an output for the other nodes. -/
def selectiveClasses : NodeClasses :=
  ⟨fun _ _ => true, fun node => if node.kind = 0 then copyHook () node else .done (),
    copyHook false⟩

/-- A model of two nodes without inputs: the output port of the first has 2^31 + 1
elements. -/
def wideFirstModel : Model :=
  ⟨[⟨1, 0, [], [⟨1, 2147483649⟩], []⟩, ⟨2, 1, [], [⟨2, 2⟩], []⟩]⟩

/-! ## XML type names -/

/-- The algorithm `std::replace(first, last, oldValue, newValue)` on a string: every character
equal to `oldValue` becomes `newValue`. -/
def replaceChar (oldValue newValue : Nat) (str : List Nat) : List Nat :=
  str.map fun ch => if ch = oldValue then newValue else ch

/-- `XmlUtilities::EncodeTypeName`; 60, 62, 40 and 41 are the codes of the characters
`<`, `>`, `(` and `)`. -/
def XmlUtilities.EncodeTypeName (str : List Nat) : List Nat :=
  let result := str
  let result := replaceChar 60 40 result
  let result := replaceChar 62 41 result
  result

/-- `XmlUtilities::DecodeTypeName`. -/
def XmlUtilities.DecodeTypeName (str : List Nat) : List Nat :=
  let result := str
  let result := replaceChar 40 60 result
  let result := replaceChar 41 62 result
  result

/-! ## `IntegerStack`

The members are `_stack`, a `std::stack<uint64_t>`, and `_smallestUnpopped`, a `uint64_t`.
The header is not part of the sources at hand. -/

/-- The state of an `IntegerStack`: `_stack` with its top first, and `_smallestUnpopped`. -/
structure IntegerStack where
  stack : List Nat
  smallestUnpopped : Nat
deriving DecidableEq, Repr

/-- Modelled from the spec: a fresh `IntegerStack` has an empty stack and 0 as its smallest
unpopped value. -/
def IntegerStack.fresh : IntegerStack := ⟨[], 0⟩

/-- `IntegerStack::Pop`: the value returned and the state after the call.  The increment of
the `uint64_t` is modulo 2^64. -/
def IntegerStack.Pop (s : IntegerStack) : Nat × IntegerStack :=
  match s.stack with
  | [] => (s.smallestUnpopped, { s with smallestUnpopped := (s.smallestUnpopped + 1) % 2 ^ 64 })
  | top :: rest => (top, { s with stack := rest })

/-- `IntegerStack::Top`, a `const` function. -/
def IntegerStack.Top (s : IntegerStack) : Nat :=
  match s.stack with
  | [] => s.smallestUnpopped
  | top :: _ => top

/-- The state after the statement `_stack.push(value)` of `Push`. -/
def IntegerStack.pushed (s : IntegerStack) (value : Nat) : IntegerStack :=
  { s with stack := value :: s.stack }

/-- The condition `value < _smallestUnpopped` of the `assert` at the end of `Push`. -/
def IntegerStack.PushAssertion (s : IntegerStack) (value : Nat) : Bool :=
  decide (value < s.smallestUnpopped)

/-- `IntegerStack::Push`: `_stack.push(value)` followed by `assert(value <
_smallestUnpopped)`, in a program built with assertions: when the condition fails the program
aborts and the call has no result (`none`). -/
def IntegerStack.Push (s : IntegerStack) (value : Nat) : Option IntegerStack :=
  let s := s.pushed value
  if s.PushAssertion value then some s else none

/-- A call of `Pop` or of `Push(value)`. -/
inductive StackCall where
  | pop
  | push (value : Nat)
deriving DecidableEq, Repr

/-- A call is a call of `Pop`. -/
def StackCall.isPop : StackCall → Bool
  | .pop => true
  | .push _ => false

/-- The effect of a call that runs to its end on the stack and on the list of the outstanding
values: the values returned by a `Pop` and not pushed back since. -/
def StackCall.step (call : StackCall) (r : IntegerStack × List Nat) : IntegerStack × List Nat :=
  match call with
  | .pop => (r.1.Pop.2, r.1.Pop.1 :: r.2)
  | .push value => (r.1.pushed value, r.2.erase value)

/-- The stack and the outstanding values after a sequence of calls. -/
def runCalls (calls : List StackCall) (r : IntegerStack × List Nat) :
    IntegerStack × List Nat :=
  calls.foldl (fun r call => call.step r) r

/-- Every `Push(value)` of the sequence returns a value that is outstanding when it is
called. -/
def Admissible : List StackCall → IntegerStack × List Nat → Bool
  | [], _ => true
  | .pop :: rest, r => Admissible rest (StackCall.pop.step r)
  | .push value :: rest, r =>
    decide (value ∈ r.2) && Admissible rest ((StackCall.push value).step r)

/-- The invariant of the stack and the outstanding values after at most `pops` calls of `Pop`:
the stacked and the outstanding values are pairwise distinct and below the smallest unpopped
value, which is at most `pops`. -/
def StackInvariant (r : IntegerStack × List Nat) (pops : Nat) : Prop :=
  (r.1.stack ++ r.2).Nodup ∧ (∀ x ∈ r.1.stack ++ r.2, x < r.1.smallestUnpopped) ∧
  r.1.smallestUnpopped ≤ pops

/-! ## `SparseDataVector`

`ValueType` is the type of the stored values and `convert` the conversion `(ValueType)value`
from `double`: the identity for `double`, a rounding for `float`, and the truncation of the
fractional part for `short`.  The class `CompressedIntegerList` is not part of the sources
at hand. -/

/-- The members `_indices` and `_values` of a `SparseDataVector`.  Modelled from the spec:
the `CompressedIntegerList` is the list of the integers pushed, and its `Size()` their number. -/
structure SparseDataVector (ValueType : Type) where
  indices : List Nat
  values : List ValueType

/-- The vector built by `SparseDataVector::SparseDataVector()`. -/
def SparseDataVector.empty {ValueType : Type} : SparseDataVector ValueType := ⟨[], []⟩

/-- `SparseDataVector::PushBack(index, value)`. -/
def SparseDataVector.PushBack {Double ValueType : Type} [Zero Double] [DecidableEq Double]
    (convert : Double → ValueType) (v : SparseDataVector ValueType) (index : Nat)
    (value : Double) : SparseDataVector ValueType :=
  if value = 0 then v
  else ⟨v.indices ++ [index], v.values ++ [convert value]⟩

/-- `SparseDataVector::Reset`. -/
def SparseDataVector.Reset {ValueType : Type} (_v : SparseDataVector ValueType) :
    SparseDataVector ValueType :=
  ⟨[], []⟩

/-- `SparseDataVector::NumNonzeros`, which is `_indices.Size()`. -/
def SparseDataVector.NumNonzeros {ValueType : Type} (v : SparseDataVector ValueType) : Nat :=
  v.indices.length

/-- A sequence of calls `PushBack(index, value)` on a vector. -/
def SparseDataVector.pushAll {Double ValueType : Type} [Zero Double] [DecidableEq Double]
    (convert : Double → ValueType) (v : SparseDataVector ValueType)
    (calls : List (Nat × Double)) : SparseDataVector ValueType :=
  calls.foldl (fun v call => v.PushBack convert call.1 call.2) v

/-- The conversion `(short)value` of a `double` that stands for the rational number `value`,
for a value within the range of `short`: the fractional part is discarded. -/
def convertToShort (value : ℚ) : ℤ :=
  if 0 ≤ value then ⌊value⌋ else ⌈value⌉

/-! ## `SquaredLoss`

The loss is taken over exact arithmetic: a field `R` (the real numbers) in place of
`double`. -/

/-- `SquaredLoss::Evaluate`; `0.5` is the number 1/2. -/
def SquaredLoss.Evaluate {R : Type} [Field R] (prediction label : R) : R :=
  let residual := prediction - label
  2⁻¹ * residual * residual

/-- `SquaredLoss::GetDerivative`. -/
def SquaredLoss.GetDerivative {R : Type} [Field R] (prediction label : R) : R :=
  let residual := prediction - label
  residual

/-! ## Machine integers in range -/

theorem wrapInt_of_range {x : Int} (h1 : -2147483648 ≤ x) (h2 : x < 2147483648) :
    wrapInt x = x := by
  unfold wrapInt Int.bmod
  simp only []
  split <;> omega

theorem toInt_of_lt {n : Nat} (h : n < 2147483648) : toInt n = (n : Int) := by
  unfold toInt
  exact wrapInt_of_range (by omega) (by omega)

theorem toSizeT_natCast (n : Nat) : toSizeT (n : Int) = n % 18446744073709551616 := by
  unfold toSizeT
  omega

/-! ## The loop over the target ranges -/

/-- With all values representable as `int`, the loop over the target ranges appends the
slice `[s, s + z)` of the target ranges to `result`. -/
theorem targetRangesLoop_eq (ts : List PortRange) :
    ∀ (s z : Nat) (res : PortElementsBase), (∀ t ∈ ts, t.Size < 2147483648) →
      s < 2147483648 → z < 2147483648 →
      targetRangesLoop ts (s : Int) (z : Int) res = ⟨res.GetRanges ++ sliceRanges ts s z⟩ := by
  induction ts with
  | nil => intro s z res _ _ _; simp [targetRangesLoop, sliceRanges]
  | cons t ts ih =>
    intro s z res hts hs hz
    have ht : t.Size < 2147483648 := hts t (List.mem_cons_self _ _)
    have hts2 : ∀ u ∈ ts, u.Size < 2147483648 := fun u hu => hts u (List.mem_cons_of_mem _ hu)
    rw [targetRangesLoop, sliceRanges]
    simp only [toInt_of_lt ht]
    by_cases hlt : s < t.Size
    · have h1 : (t.Size : Int) > (s : Int) := by omega
      have h2 : wrapInt ((t.Size : Int) - (s : Int)) = ((t.Size - s : Nat) : Int) := by
        rw [wrapInt_of_range (by omega) (by omega)]; omega
      have h3 : min ((t.Size - s : Nat) : Int) (z : Int) = ((min (t.Size - s) z : Nat) : Int) := by
        omega
      simp only [h1, h2, h3, if_true, hlt, toSizeT_natCast]
      have h4 : wrapInt ((z : Int) - ((min (t.Size - s) z : Nat) : Int))
          = ((z - (t.Size - s) : Nat) : Int) := by
        rw [wrapInt_of_range (by omega) (by omega)]; omega
      have h5 : min (t.Size - s) z % 18446744073709551616 = min (t.Size - s) z := by omega
      have h6 : toSizeT ((t.GetStartIndex : Int) + (s : Int))
          = (t.GetStartIndex + s) % 18446744073709551616 := by
        rw [← toSizeT_natCast]; congr 1
      rw [h4, h5, h6]
      by_cases hz2 : z ≤ t.Size - s
      · have : ((z - (t.Size - s) : Nat) : Int) = 0 := by omega
        simp [this, hz2, PortElementsBase.Append, PortElementsBase.ofRange]
      · have hne : ¬ ((z - (t.Size - s) : Nat) : Int) = 0 := by omega
        have h7 : max (0 : Int) (wrapInt ((if (s : Int) > 0 then max 0 ((t.Size - s : Nat) : Int)
            else (s : Int)) - (t.Size : Int))) = ((0 : Nat) : Int) := by
          split
          · rw [wrapInt_of_range (by omega) (by omega)]; omega
          · rw [wrapInt_of_range (by omega) (by omega)]; omega
        simp only [hne, hz2, if_false]
        rw [h7, ih 0 _ _ hts2 (by omega) (by omega)]
        simp [PortElementsBase.Append, PortElementsBase.ofRange]
    · have h1 : ¬ (t.Size : Int) > (s : Int) := by omega
      have h2 : max (0 : Int) (wrapInt ((s : Int) - (t.Size : Int)))
          = ((s - t.Size : Nat) : Int) := by
        rw [wrapInt_of_range (by omega) (by omega)]; omega
      simp only [h1, hlt, if_false, h2]
      exact ih _ _ _ hts2 (by omega) hz

/-! ## Elements and sizes of ranges -/

theorem length_elements (r : PortRange) : r.elements.length = r.Size := by
  simp [PortRange.elements]

theorem rangesElements_nil : rangesElements [] = [] := rfl

theorem rangesElements_cons (r : PortRange) (rs : List PortRange) :
    rangesElements (r :: rs) = r.elements ++ rangesElements rs := by
  simp [rangesElements]

theorem rangesElements_append (xs ys : List PortRange) :
    rangesElements (xs ++ ys) = rangesElements xs ++ rangesElements ys := by
  simp [rangesElements]

theorem rangesSize_nil : rangesSize [] = 0 := rfl

theorem rangesSize_cons (r : PortRange) (rs : List PortRange) :
    rangesSize (r :: rs) = r.Size + rangesSize rs := by
  simp [rangesSize]

theorem rangesSize_append (xs ys : List PortRange) :
    rangesSize (xs ++ ys) = rangesSize xs + rangesSize ys := by
  simp [rangesSize]

theorem length_rangesElements (rs : List PortRange) :
    (rangesElements rs).length = rangesSize rs := by
  induction rs with
  | nil => rfl
  | cons r rs ih => rw [rangesElements_cons, rangesSize_cons, List.length_append, ih, length_elements]

/-- The elements of a sub-range of a range. -/
theorem elements_slice (p : OutputPortBase) (a n s z : Nat) :
    (PortRange.mk p (a + s) (min (n - s) z)).elements
      = ((PortRange.mk p a n).elements.drop s).take z := by
  apply List.ext_getElem?
  intro k
  simp only [PortRange.elements, List.getElem?_take, List.getElem?_drop, List.getElem?_map]
  by_cases hk : k < z
  · by_cases hk2 : s + k < n
    · rw [List.getElem?_range (by omega), List.getElem?_range hk2]
      simp [hk, Nat.add_assoc]
    · rw [List.getElem?_eq_none (by simp; omega), List.getElem?_eq_none (by simp; omega)]
      simp
  · rw [List.getElem?_eq_none (by simp; omega)]
    simp [hk]

theorem sliceRanges_size (ts : List PortRange) :
    ∀ s z : Nat, rangesSize (sliceRanges ts s z) = min z (rangesSize ts - s) := by
  induction ts with
  | nil => intro s z; simp [sliceRanges, rangesSize]
  | cons t ts ih =>
    intro s z
    rw [sliceRanges, rangesSize_cons]
    by_cases hlt : s < t.Size
    · simp only [hlt, if_true, rangesSize_cons]
      by_cases hz : z ≤ t.Size - s
      · simp only [hz, if_true, rangesSize_nil]; omega
      · simp only [hz, if_false, ih]; omega
    · simp only [hlt, if_false, ih]; omega

theorem sliceRanges_elements (ts : List PortRange) :
    ∀ s z : Nat, (∀ t ∈ ts, t.GetStartIndex + t.Size ≤ 18446744073709551616) →
      rangesElements (sliceRanges ts s z) = ((rangesElements ts).drop s).take z := by
  induction ts with
  | nil => intro s z _; simp [sliceRanges, rangesElements]
  | cons t ts ih =>
    intro s z hts
    have ht := hts t (List.mem_cons_self _ _)
    have hts2 : ∀ u ∈ ts, u.GetStartIndex + u.Size ≤ 18446744073709551616 :=
      fun u hu => hts u (List.mem_cons_of_mem _ hu)
    rw [sliceRanges, rangesElements_cons]
    by_cases hlt : s < t.Size
    · have hmod : (t.GetStartIndex + s) % 18446744073709551616 = t.GetStartIndex + s := by omega
      simp only [hlt, if_true, rangesElements_cons, hmod]
      rw [elements_slice t.ReferencedPort t.GetStartIndex t.Size s z]
      rw [List.drop_append_of_le_length (by rw [length_elements]; omega)]
      by_cases hz : z ≤ t.Size - s
      · simp only [hz, if_true, rangesElements_nil, List.append_nil]
        rw [List.take_append_of_le_length (by rw [List.length_drop, length_elements]; exact hz)]
      · simp only [hz, if_false]
        rw [ih 0 _ hts2, List.take_append_eq_append_take, List.length_drop, length_elements,
          List.drop_zero]
    · simp only [hlt, if_false]
      have h : List.drop s (t.elements ++ rangesElements ts)
          = List.drop (s - t.Size) (rangesElements ts) := by
        rw [List.drop_append_eq_append_drop, length_elements,
          List.drop_of_length_le (by rw [length_elements]; omega), List.nil_append]
      rw [h, ih _ _ hts2]

theorem elements_merge (last r : PortRange) (h : last.IsAdjacent r = true) :
    (PortRange.mk last.ReferencedPort last.GetStartIndex (last.Size + r.Size)).elements
      = last.elements ++ r.elements := by
  simp only [PortRange.IsAdjacent, decide_eq_true_eq] at h
  obtain ⟨hp, hs⟩ := h
  simp only [PortRange.elements, List.range_add, List.map_append, List.map_map]
  congr 1
  apply List.map_congr_left
  intro i _
  simp only [Function.comp, hp, ← hs, Nat.add_assoc]

theorem consolidateFrom_elements (rs : List PortRange) :
    ∀ last : PortRange, rangesElements (consolidateFrom last rs)
      = last.elements ++ rangesElements rs := by
  induction rs with
  | nil => intro last; simp [consolidateFrom, rangesElements]
  | cons r rs ih =>
    intro last
    rw [consolidateFrom]
    by_cases h : last.IsAdjacent r = true
    · rw [if_pos h, ih, elements_merge last r h, rangesElements_cons, List.append_assoc]
    · rw [if_neg h, rangesElements_cons, ih, rangesElements_cons]

theorem consolidateFrom_size (rs : List PortRange) :
    ∀ last : PortRange, rangesSize (consolidateFrom last rs) = last.Size + rangesSize rs := by
  induction rs with
  | nil => intro last; simp [consolidateFrom, rangesSize]
  | cons r rs ih =>
    intro last
    rw [consolidateFrom]
    by_cases h : last.IsAdjacent r = true
    · rw [if_pos h, ih, rangesSize_cons]
      simp only []
      omega
    · rw [if_neg h, rangesSize_cons, ih, rangesSize_cons]

theorem Consolidate_elements (e : PortElementsBase) : e.Consolidate.elements = e.elements := by
  obtain ⟨rs⟩ := e
  cases rs with
  | nil => rfl
  | cons r rs =>
    simp only [PortElementsBase.Consolidate, PortElementsBase.elements]
    exact consolidateFrom_elements rs r

theorem Consolidate_Size (e : PortElementsBase) : e.Consolidate.Size = e.Size := by
  obtain ⟨rs⟩ := e
  cases rs with
  | nil => rfl
  | cons r rs =>
    simp only [PortElementsBase.Consolidate, PortElementsBase.Size]
    exact consolidateFrom_size rs r

/-! ## The loop over the query ranges -/

theorem findEntry_mem {p : OutputPortBase} {T : PortElementsBase} :
    ∀ {l : List (OutputPortBase × PortElementsBase)}, findEntry p l = some T → (p, T) ∈ l := by
  intro l
  induction l with
  | nil => intro h; simp [findEntry] at h
  | cons e l ih =>
    obtain ⟨k, v⟩ := e
    intro h
    rw [findEntry] at h
    by_cases hk : k = p
    · rw [if_pos hk] at h
      cases h
      rw [hk]
      exact List.mem_cons_self _ _
    · rw [if_neg hk] at h
      exact List.mem_cons_of_mem _ (ih h)

theorem size_le_rangesSize {t : PortRange} : ∀ {ts : List PortRange}, t ∈ ts →
    t.Size ≤ rangesSize ts := by
  intro ts
  induction ts with
  | nil => intro h; cases h
  | cons u ts ih =>
    intro h
    rw [rangesSize_cons]
    rcases List.mem_cons.1 h with h | h
    · rw [h]; omega
    · have := ih h; omega

theorem queryRangesLoop_eq (m : PortOutputsMap) (qs : List PortRange) :
    ∀ res : PortElementsBase,
      (∀ q ∈ qs, ∃ T, m.find q.ReferencedPort = some T ∧ (∀ t ∈ T.GetRanges, t.Size < 2147483648)
        ∧ q.GetStartIndex < 2147483648 ∧ q.Size < 2147483648) →
      queryRangesLoop m qs res = .ok ⟨res.GetRanges ++ qs.flatMap (mappedSlice m)⟩ := by
  induction qs with
  | nil => intro res _; simp [queryRangesLoop]
  | cons q qs ih =>
    intro res h
    obtain ⟨T, hT, hts, hs, hz⟩ := h q (List.mem_cons_self _ _)
    rw [queryRangesLoop]
    simp only [hT]
    rw [toInt_of_lt hs, toInt_of_lt hz, targetRangesLoop_eq _ _ _ _ hts hs hz,
      ih _ (fun q2 h2 => h q2 (List.mem_cons_of_mem _ h2))]
    simp [mappedSlice, hT]

/-- The facts about one query range that follow from the preconditions of the remap. -/
theorem query_facts {m : PortOutputsMap} {E : PortElementsBase} (hInv : m.SizeInvariant)
    (hCov : m.Covers E) (hIn : E.InBounds) (hInt : E.PortsFitInt) :
    ∀ q ∈ E.GetRanges, ∃ T, m.find q.ReferencedPort = some T ∧
      rangesSize T.GetRanges = q.ReferencedPort.Size ∧
      (∀ t ∈ T.GetRanges, t.Size < 2147483648) ∧
      q.GetStartIndex < 2147483648 ∧ q.Size < 2147483648 ∧
      q.GetStartIndex + q.Size ≤ rangesSize T.GetRanges := by
  intro q hq
  have h1 := hCov q hq
  have h2 := hIn q hq
  have h3 := hInt q hq
  cases hT : m.find q.ReferencedPort with
  | none => rw [hT] at h1; simp at h1
  | some T =>
    have h4 : q.ReferencedPort.Size = T.Size := hInv _ (findEntry_mem hT)
    have h5 : T.Size = rangesSize T.GetRanges := rfl
    refine ⟨T, rfl, by omega, ?_, by omega, by omega, by omega⟩
    intro t ht
    have := size_le_rangesSize ht
    omega

theorem mappedSlices_size (m : PortOutputsMap) (qs : List PortRange) :
    (∀ q ∈ qs, ∃ T, m.find q.ReferencedPort = some T ∧
      q.GetStartIndex + q.Size ≤ rangesSize T.GetRanges) →
    rangesSize (qs.flatMap (mappedSlice m)) = rangesSize qs := by
  induction qs with
  | nil => intro _; rfl
  | cons q qs ih =>
    intro h
    obtain ⟨T, hT, hle⟩ := h q (List.mem_cons_self _ _)
    rw [List.flatMap_cons, rangesSize_append, rangesSize_cons,
      ih (fun q2 h2 => h q2 (List.mem_cons_of_mem _ h2))]
    simp only [mappedSlice, hT, sliceRanges_size]
    omega

theorem remap_eq {m : PortOutputsMap} {E : PortElementsBase}
    (hInv : m.SizeInvariant) (hCov : m.Covers E) (hIn : E.InBounds) (hInt : E.PortsFitInt) :
    m.GetCorrespondingPortElements E
      = .ok (PortElementsBase.mk (E.GetRanges.flatMap (mappedSlice m))).Consolidate := by
  have hf := query_facts hInv hCov hIn hInt
  have h1 := queryRangesLoop_eq m E.GetRanges ⟨[]⟩ (fun q hq => by
    obtain ⟨T, hT, _, h3, h4, h5, _⟩ := hf q hq
    exact ⟨T, hT, h3, h4, h5⟩)
  have h2 := mappedSlices_size m E.GetRanges (fun q hq => by
    obtain ⟨T, hT, _, _, _, _, h6⟩ := hf q hq
    exact ⟨T, hT, h6⟩)
  unfold PortOutputsMap.GetCorrespondingPortElements
  rw [h1]
  simp only [List.nil_append]
  have h3 : (PortElementsBase.mk (E.GetRanges.flatMap (mappedSlice m))).Consolidate.Size
      = E.Size := by
    rw [Consolidate_Size]; exact h2
  simp [h3]

theorem mappedSlice_elements {m : PortOutputsMap} (hT : m.TargetsFitSizeT) (q : PortRange) :
    rangesElements (mappedSlice m q) = mappedElements m q := by
  unfold mappedSlice mappedElements
  cases h : m.find q.ReferencedPort with
  | none => rfl
  | some T =>
    simp only []
    exact sliceRanges_elements _ _ _ (hT _ (findEntry_mem h))

theorem mappedSlices_elements {m : PortOutputsMap} (hT : m.TargetsFitSizeT)
    (qs : List PortRange) :
    rangesElements (qs.flatMap (mappedSlice m)) = qs.flatMap (mappedElements m) := by
  induction qs with
  | nil => rfl
  | cons q qs ih =>
    rw [List.flatMap_cons, List.flatMap_cons, rangesElements_append, ih, mappedSlice_elements hT]

/-- A sub-range of a list, element by element. -/
theorem map_some_take_drop {α : Type} (l : List α) (s z : Nat) (h : s + z ≤ l.length) :
    ((l.drop s).take z).map some = (List.range z).map fun j => l[s + j]? := by
  apply List.ext_getElem?
  intro k
  simp only [List.getElem?_map, List.getElem?_take, List.getElem?_drop]
  by_cases hk : k < z
  · have h2 : s + k < l.length := by omega
    rw [List.getElem?_range hk, if_pos hk, List.getElem?_eq_getElem h2]
    simp [List.getElem?_eq_getElem h2]
  · have h2 : (List.range z)[k]? = none := List.getElem?_eq_none (by rw [List.length_range]; omega)
    rw [if_neg hk, h2]
    rfl

theorem mappedElements_map_some (m : PortOutputsMap) (q : PortRange)
    (h : ∃ T, m.find q.ReferencedPort = some T ∧
      q.GetStartIndex + q.Size ≤ rangesSize T.GetRanges) :
    (mappedElements m q).map some = q.elements.map (mappedElement m) := by
  obtain ⟨T, hT, hle⟩ := h
  have hlen : T.elements.length = rangesSize T.GetRanges := length_rangesElements _
  unfold mappedElements
  simp only [hT]
  rw [map_some_take_drop _ _ _ (by omega)]
  simp only [PortRange.elements, List.map_map]
  apply List.map_congr_left
  intro j _
  simp [mappedElement, hT]

theorem flatMap_mappedElements_map_some (m : PortOutputsMap) (qs : List PortRange)
    (h : ∀ q ∈ qs, ∃ T, m.find q.ReferencedPort = some T ∧
      q.GetStartIndex + q.Size ≤ rangesSize T.GetRanges) :
    (qs.flatMap (mappedElements m)).map some = (rangesElements qs).map (mappedElement m) := by
  induction qs with
  | nil => rfl
  | cons q qs ih =>
    rw [List.flatMap_cons, rangesElements_cons, List.map_append, List.map_append,
      ih (fun q2 h2 => h q2 (List.mem_cons_of_mem _ h2)),
      mappedElements_map_some m q (h q (List.mem_cons_self _ _))]

theorem remap_elements_eq {m : PortOutputsMap} {E : PortElementsBase}
    (hInv : m.SizeInvariant) (hCov : m.Covers E) (hIn : E.InBounds) (hInt : E.PortsFitInt)
    (hT : m.TargetsFitSizeT) :
    ∃ r, m.GetCorrespondingPortElements E = .ok r ∧
      r.elements = E.GetRanges.flatMap (mappedElements m) ∧
      r.elements.map some = E.elements.map (mappedElement m) := by
  have hf := query_facts hInv hCov hIn hInt
  refine ⟨_, remap_eq hInv hCov hIn hInt, ?_, ?_⟩
  · rw [Consolidate_elements]
    exact mappedSlices_elements hT _
  · rw [Consolidate_elements]
    have : (PortElementsBase.mk (E.GetRanges.flatMap (mappedSlice m))).elements
        = E.GetRanges.flatMap (mappedElements m) := mappedSlices_elements hT _
    rw [this]
    exact flatMap_mappedElements_map_some m _ (fun q hq => by
      obtain ⟨T, hT, _, _, _, _, h6⟩ := hf q hq
      exact ⟨T, hT, h6⟩)

/-- Under the preconditions of the remap the call returns elements of the size of the
query. -/
theorem remap_ok_size (m : PortOutputsMap) (E : PortElementsBase)
    (hInv : m.SizeInvariant) (hCov : m.Covers E) (hIn : E.InBounds) (hInt : E.PortsFitInt) :
    ∃ r, m.GetCorrespondingPortElements E = .ok r ∧ r.Size = E.Size := by
  refine ⟨_, remap_eq hInv hCov hIn hInt, ?_⟩
  rw [Consolidate_Size]
  exact mappedSlices_size m E.GetRanges (fun q hq => by
    obtain ⟨T, hT, _, _, _, _, h6⟩ := query_facts hInv hCov hIn hInt q hq
    exact ⟨T, hT, h6⟩)

/-! ## Queries of one range -/

/-- The remap of a query made of one range. -/
theorem remap_single {m : PortOutputsMap} {P : OutputPortBase}
    {T : PortElementsBase} {s l : Nat} (hT : m.find P = some T)
    (hts : ∀ t ∈ T.GetRanges, t.Size < 2147483648) (hs : s < 2147483648) (hl : l < 2147483648)
    (hsz : rangesSize (sliceRanges T.GetRanges s l) = l) :
    m.GetCorrespondingPortElements ⟨[⟨P, s, l⟩]⟩
      = .ok (PortElementsBase.mk (sliceRanges T.GetRanges s l)).Consolidate := by
  have h1 := queryRangesLoop_eq m [⟨P, s, l⟩] ⟨[]⟩ (fun q hq => by
    rw [List.mem_singleton] at hq
    subst hq
    exact ⟨T, hT, hts, hs, hl⟩)
  unfold PortOutputsMap.GetCorrespondingPortElements
  simp only [h1, List.nil_append, List.flatMap_cons, List.flatMap_nil, List.append_nil,
    mappedSlice, hT]
  have h3 : (PortElementsBase.mk (sliceRanges T.GetRanges s l)).Consolidate.Size
      = (PortElementsBase.mk [⟨P, s, l⟩]).Size := by
    rw [Consolidate_Size]
    simp only [PortElementsBase.Size, List.map_cons, List.map_nil, List.sum_cons, List.sum_nil,
      Nat.add_zero]
    exact hsz
  simp [h3]

theorem sliceRanges_skip (pre rest : List PortRange) :
    ∀ s z : Nat, rangesSize pre ≤ s →
      sliceRanges (pre ++ rest) s z = sliceRanges rest (s - rangesSize pre) z := by
  induction pre with
  | nil => intro s z _; simp [rangesSize]
  | cons u pre ih =>
    intro s z h
    rw [rangesSize_cons] at h
    rw [List.cons_append, sliceRanges, if_neg (by omega), ih _ _ (by omega), rangesSize_cons]
    congr 1
    omega

/-! ## MapNodeOutput and the size invariant -/

theorem queryRangesLoop_unmapped (m : PortOutputsMap) (qs : List PortRange) :
    ∀ res : PortElementsBase, (∃ q ∈ qs, m.find q.ReferencedPort = none) →
      queryRangesLoop m qs res = .error .invalidArgument := by
  induction qs with
  | nil => intro res h; obtain ⟨q, hq, _⟩ := h; cases hq
  | cons q qs ih =>
    intro res h
    rw [queryRangesLoop]
    cases hf : m.find q.ReferencedPort with
    | none => rfl
    | some T =>
      simp only []
      apply ih
      obtain ⟨q2, hq2, hn⟩ := h
      rcases List.mem_cons.1 hq2 with h3 | h3
      · rw [h3, hf] at hn; cases hn
      · exact ⟨q2, h3, hn⟩

theorem findEntry_assignEntry_self (p : OutputPortBase) (e : PortElementsBase) :
    ∀ l : List (OutputPortBase × PortElementsBase), findEntry p (assignEntry p e l) = some e := by
  intro l
  induction l with
  | nil => simp [assignEntry, findEntry]
  | cons x l ih =>
    obtain ⟨k, v⟩ := x
    rw [assignEntry]
    by_cases hk : k = p
    · rw [if_pos hk, findEntry, if_pos hk]
    · rw [if_neg hk, findEntry, if_neg hk, ih]

theorem findEntry_assignEntry_other (p q : OutputPortBase) (e : PortElementsBase) (h : q ≠ p) :
    ∀ l : List (OutputPortBase × PortElementsBase),
      findEntry q (assignEntry p e l) = findEntry q l := by
  intro l
  induction l with
  | nil => simp [assignEntry, findEntry, Ne.symm h]
  | cons x l ih =>
    obtain ⟨k, v⟩ := x
    rw [assignEntry]
    by_cases hk : k = p
    · rw [if_pos hk, findEntry, findEntry, hk, if_neg (Ne.symm h), if_neg (Ne.symm h)]
    · rw [if_neg hk, findEntry, findEntry, ih]

theorem mem_assignEntry {p : OutputPortBase} {e : PortElementsBase}
    {x : OutputPortBase × PortElementsBase} :
    ∀ {l : List (OutputPortBase × PortElementsBase)}, x ∈ assignEntry p e l →
      x = (p, e) ∨ x ∈ l := by
  intro l
  induction l with
  | nil => intro h; simp [assignEntry] at h; exact Or.inl h
  | cons y l ih =>
    obtain ⟨k, v⟩ := y
    intro h
    rw [assignEntry] at h
    by_cases hk : k = p
    · rw [if_pos hk] at h
      rcases List.mem_cons.1 h with h1 | h1
      · left; rw [h1, hk]
      · right; exact List.mem_cons_of_mem _ h1
    · rw [if_neg hk] at h
      rcases List.mem_cons.1 h with h1 | h1
      · right; rw [h1]; exact List.mem_cons_self _ _
      · rcases ih h1 with h2 | h2
        · exact Or.inl h2
        · exact Or.inr (List.mem_cons_of_mem _ h2)

theorem MapNodeOutput_SizeInvariant {m : PortOutputsMap} {p : OutputPortBase}
    {e : PortElementsBase} (hm : m.SizeInvariant) :
    (m.MapNodeOutput p e).2.SizeInvariant := by
  unfold PortOutputsMap.MapNodeOutput
  by_cases hs : p.Size = e.Size
  · simp only [hs, ne_eq, not_true_eq_false, if_false]
    intro x hx
    rcases mem_assignEntry hx with h | h
    · rw [h]; exact hs
    · exact hm x h
  · simp only [hs, ne_eq, not_false_eq_true, if_true]
    exact hm

theorem concatenateLoop_SizeInvariant (newMap : PortOutputsMap)
    (es : List (OutputPortBase × PortElementsBase)) :
    ∀ res r : PortOutputsMap, res.SizeInvariant → concatenateLoop newMap es res = .ok r →
      r.SizeInvariant := by
  induction es with
  | nil =>
    intro res r hres h
    rw [concatenateLoop] at h
    cases h
    exact hres
  | cons x es ih =>
    intro res r hres h
    rw [concatenateLoop] at h
    cases hg : newMap.GetCorrespondingPortElements x.2 with
    | error e => rw [hg] at h; cases h
    | ok v =>
      rw [hg] at h
      simp only [] at h
      have hinv : (res.MapNodeOutput x.1 v).2.SizeInvariant := MapNodeOutput_SizeInvariant hres
      cases hm : res.MapNodeOutput x.1 v with
      | mk o res2 =>
        rw [hm] at h hinv
        cases o with
        | error e => cases h
        | ok u => exact ih _ _ hinv h

/-! ## ConcatenateMaps -/

theorem assignEntry_fresh (p : OutputPortBase) (e : PortElementsBase) :
    ∀ l : List (OutputPortBase × PortElementsBase), p ∉ l.map Prod.fst →
      assignEntry p e l = l ++ [(p, e)] := by
  intro l
  induction l with
  | nil => intro _; rfl
  | cons x l ih =>
    obtain ⟨k, v⟩ := x
    intro h
    simp only [List.map_cons, List.mem_cons, not_or] at h
    rw [assignEntry, if_neg (Ne.symm h.1), ih h.2]
    rfl

theorem concatenateLoop_eq (newMap : PortOutputsMap)
    (es : List (OutputPortBase × PortElementsBase)) :
    ∀ res : PortOutputsMap,
      (∀ x ∈ es, ∃ v, newMap.GetCorrespondingPortElements x.2 = .ok v ∧ x.1.Size = v.Size) →
      (es.map Prod.fst).Nodup → (∀ k ∈ es.map Prod.fst, k ∉ res.outputPortMap.map Prod.fst) →
      concatenateLoop newMap es res
        = .ok ⟨res.outputPortMap ++ es.map fun x => (x.1, remapValue newMap x.2)⟩ := by
  induction es with
  | nil => intro res _ _ _; simp [concatenateLoop]
  | cons x es ih =>
    intro res hes hnd hfresh
    obtain ⟨v, hv, hsz⟩ := hes x (List.mem_cons_self _ _)
    rw [List.map_cons, List.nodup_cons] at hnd
    have hx : x.1 ∉ res.outputPortMap.map Prod.fst :=
      hfresh x.1 (by rw [List.map_cons]; exact List.mem_cons_self _ _)
    rw [concatenateLoop, hv]
    simp only [PortOutputsMap.MapNodeOutput, hsz, ne_eq, not_true_eq_false, if_false]
    rw [assignEntry_fresh _ _ _ hx, ih _ (fun y hy => hes y (List.mem_cons_of_mem _ hy)) hnd.2]
    · simp [remapValue, hv]
    · intro k hk
      simp only [List.map_append, List.map_cons, List.map_nil, List.mem_append,
        List.mem_singleton, not_or]
      refine ⟨hfresh k (by rw [List.map_cons]; exact List.mem_cons_of_mem _ hk), ?_⟩
      intro hkx
      exact hnd.1 (hkx ▸ hk)

theorem findEntry_map (f : PortElementsBase → PortElementsBase) (k : OutputPortBase) :
    ∀ es : List (OutputPortBase × PortElementsBase),
      findEntry k (es.map fun x => (x.1, f x.2)) = (findEntry k es).map f := by
  intro es
  induction es with
  | nil => rfl
  | cons x es ih =>
    obtain ⟨a, b⟩ := x
    rw [List.map_cons, findEntry, findEntry]
    by_cases h : a = k
    · simp [h]
    · simp only [h, if_false]; exact ih

theorem concatenate_eq {prevMap newMap : PortOutputsMap} (hk : prevMap.UniqueKeys)
    (hp : prevMap.SizeInvariant) (hn : newMap.SizeInvariant)
    (hv : prevMap.ValuesRemappable newMap) :
    prevMap.ConcatenateMaps newMap
      = .ok ⟨prevMap.outputPortMap.map fun x => (x.1, remapValue newMap x.2)⟩ := by
  unfold PortOutputsMap.ConcatenateMaps
  rw [concatenateLoop_eq newMap _ _ (fun x hx => by
      obtain ⟨h1, h2, h3⟩ := hv x hx
      obtain ⟨r, hr, hsz⟩ := remap_ok_size newMap x.2 hn h1 h2 h3
      exact ⟨r, hr, by rw [hsz]; exact hp x hx⟩) hk (fun k _ => by simp [PortOutputsMap.empty])]
  simp [PortOutputsMap.empty]

/-! ## Ranges of a result -/

theorem sliceRanges_within (ts : List PortRange) :
    ∀ s z : Nat, (∀ t ∈ ts, t.GetStartIndex + t.Size ≤ 18446744073709551616) →
      ∀ r ∈ sliceRanges ts s z, ∃ t ∈ ts, RangeWithin r t := by
  induction ts with
  | nil => intro s z _ r hr; simp [sliceRanges] at hr
  | cons t ts ih =>
    intro s z hts r hr
    have ht := hts t (List.mem_cons_self _ _)
    have hts2 : ∀ u ∈ ts, u.GetStartIndex + u.Size ≤ 18446744073709551616 :=
      fun u hu => hts u (List.mem_cons_of_mem _ hu)
    rw [sliceRanges] at hr
    by_cases hlt : s < t.Size
    · rw [if_pos hlt] at hr
      rcases List.mem_cons.1 hr with h | h
      · refine ⟨t, List.mem_cons_self _ _, ?_⟩
        rw [h]
        refine ⟨rfl, ?_⟩
        have hmod : (t.GetStartIndex + s) % 18446744073709551616 = t.GetStartIndex + s := by omega
        simp only [hmod]
        omega
      · by_cases hz : z ≤ t.Size - s
        · rw [if_pos hz] at h; cases h
        · rw [if_neg hz] at h
          obtain ⟨u, hu, hw⟩ := ih _ _ hts2 r h
          exact ⟨u, List.mem_cons_of_mem _ hu, hw⟩
    · rw [if_neg hlt] at hr
      obtain ⟨u, hu, hw⟩ := ih _ _ hts2 r hr
      exact ⟨u, List.mem_cons_of_mem _ hu, hw⟩

theorem consolidateFrom_within (rs : List PortRange) :
    ∀ last : PortRange, ∀ r ∈ consolidateFrom last rs, ∃ t ∈ last :: rs, RangeWithin r t := by
  induction rs with
  | nil =>
    intro last r hr
    simp only [consolidateFrom, List.mem_singleton] at hr
    exact ⟨last, List.mem_cons_self _ _, by rw [hr]; exact ⟨rfl, Nat.le_refl _⟩⟩
  | cons x rs ih =>
    intro last r hr
    rw [consolidateFrom] at hr
    by_cases h : last.IsAdjacent x = true
    · rw [if_pos h] at hr
      simp only [PortRange.IsAdjacent, decide_eq_true_eq] at h
      obtain ⟨t, ht, hw⟩ := ih _ r hr
      rcases List.mem_cons.1 ht with h1 | h1
      · refine ⟨x, List.mem_cons_of_mem _ (List.mem_cons_self _ _), ?_⟩
        rw [h1] at hw
        refine ⟨hw.1.trans h.1, ?_⟩
        have := hw.2
        simp only [] at this
        omega
      · exact ⟨t, List.mem_cons_of_mem _ (List.mem_cons_of_mem _ h1), hw⟩
    · rw [if_neg h] at hr
      rcases List.mem_cons.1 hr with h1 | h1
      · exact ⟨last, List.mem_cons_self _ _, by rw [h1]; exact ⟨rfl, Nat.le_refl _⟩⟩
      · obtain ⟨t, ht, hw⟩ := ih _ r h1
        exact ⟨t, List.mem_cons_of_mem _ ht, hw⟩

theorem Consolidate_within (e : PortElementsBase) :
    ∀ r ∈ e.Consolidate.GetRanges, ∃ t ∈ e.GetRanges, RangeWithin r t := by
  obtain ⟨rs⟩ := e
  cases rs with
  | nil => intro r hr; cases hr
  | cons x rs => exact consolidateFrom_within rs x

/-- Every range of the result of a remap lies within a target range of the map. -/
theorem remap_within {m : PortOutputsMap} {E : PortElementsBase}
    (hInv : m.SizeInvariant) (hCov : m.Covers E) (hIn : E.InBounds) (hInt : E.PortsFitInt)
    (hT : m.TargetsFitSizeT) :
    ∃ r, m.GetCorrespondingPortElements E = .ok r ∧
      ∀ x ∈ r.GetRanges, ∃ entry ∈ m.outputPortMap, ∃ t ∈ entry.2.GetRanges, RangeWithin x t := by
  refine ⟨_, remap_eq hInv hCov hIn hInt, ?_⟩
  intro x hx
  obtain ⟨y, hy, hxy⟩ := Consolidate_within _ x hx
  simp only [List.mem_flatMap] at hy
  obtain ⟨q, _, hyq⟩ := hy
  unfold mappedSlice at hyq
  cases hf : m.find q.ReferencedPort with
  | none => rw [hf] at hyq; cases hyq
  | some T =>
    rw [hf] at hyq
    have hmem := findEntry_mem hf
    obtain ⟨t, ht, hyt⟩ := sliceRanges_within _ _ _ (hT _ hmem) y hyq
    exact ⟨_, hmem, t, ht, hxy.1.trans hyt.1, Nat.le_trans hxy.2 hyt.2⟩

/-! ## Composition -/

theorem getElem?_of_map_some {α β : Type} {l2 : List β} {l : List α} {f : α → Option β}
    (h : l2.map some = l.map f) (i : Nat) : l2[i]? = (l[i]?).bind f := by
  have h2 : (l2.map some)[i]? = (l.map f)[i]? := by rw [h]
  rw [List.getElem?_map, List.getElem?_map] at h2
  cases h3 : l[i]? with
  | none =>
    rw [h3] at h2
    cases h4 : l2[i]? with
    | none => rfl
    | some y => rw [h4] at h2; cases h2
  | some x =>
    rw [h3] at h2
    cases h4 : l2[i]? with
    | none => rw [h4] at h2; cases h2
    | some y =>
      rw [h4] at h2
      simp only [Option.map_some', Option.some.injEq] at h2
      simp [h2]

theorem map_bind_of_map_some {α β γ : Type} {a : List β} {E : List α} {g : α → Option β}
    (f : β → Option γ) (h : a.map some = E.map g) :
    E.map (fun x => (g x).bind f) = a.map f := by
  have h2 : E.map (fun x => (g x).bind f) = (E.map g).map (fun o => o.bind f) := by
    rw [List.map_map]; rfl
  rw [h2, ← h, List.map_map]
  apply List.map_congr_left
  intro y _
  rfl

/-- The remap written with `mappedElement`. -/
theorem remap_elements {m : PortOutputsMap} {E : PortElementsBase}
    (hInv : m.SizeInvariant) (hCov : m.Covers E) (hIn : E.InBounds) (hInt : E.PortsFitInt)
    (hT : m.TargetsFitSizeT) {r : PortElementsBase}
    (hr : m.GetCorrespondingPortElements E = .ok r) :
    r.elements.map some = E.elements.map (mappedElement m) := by
  obtain ⟨r2, hr2, _, h⟩ := remap_elements_eq hInv hCov hIn hInt hT
  rw [hr] at hr2
  cases hr2
  exact h

theorem ValuesRemappable_TargetsFitSizeT {prevMap newMap : PortOutputsMap}
    (hv : prevMap.ValuesRemappable newMap) : prevMap.TargetsFitSizeT := by
  intro entry he t ht
  obtain ⟨_, h2, h3⟩ := hv entry he
  have := h2 t ht
  have := h3 t ht
  omega

/-- The result of a remap of a value of `prevMap` through `newMap` satisfies the preconditions
of a further remap. -/
theorem remap_result_props {m : PortOutputsMap} {E r : PortElementsBase}
    (hInv : m.SizeInvariant) (hCov : m.Covers E) (hIn : E.InBounds) (hInt : E.PortsFitInt)
    (hr : m.GetCorrespondingPortElements E = .ok r) (newMap : PortOutputsMap)
    (hv : m.ValuesRemappable newMap) :
    newMap.Covers r ∧ r.InBounds ∧ r.PortsFitInt := by
  obtain ⟨r2, hr2, hw⟩ := remap_within hInv hCov hIn hInt (ValuesRemappable_TargetsFitSizeT hv)
  rw [hr] at hr2
  cases hr2
  refine ⟨?_, ?_, ?_⟩
  · intro x hx
    obtain ⟨entry, he, t, ht, hxt⟩ := hw x hx
    rw [hxt.1]
    exact (hv entry he).1 t ht
  · intro x hx
    obtain ⟨entry, he, t, ht, hxt⟩ := hw x hx
    rw [hxt.1]
    exact Nat.le_trans hxt.2 ((hv entry he).2.1 t ht)
  · intro x hx
    obtain ⟨entry, he, t, ht, hxt⟩ := hw x hx
    rw [hxt.1]
    exact (hv entry he).2.2 t ht

theorem concatenated_props {prevMap newMap : PortOutputsMap}
    (hp : prevMap.SizeInvariant) (hn : newMap.SizeInvariant)
    (hv : prevMap.ValuesRemappable newMap) (hT : newMap.TargetsFitSizeT) :
    PortOutputsMap.SizeInvariant
        ⟨prevMap.outputPortMap.map fun x => (x.1, remapValue newMap x.2)⟩ ∧
      PortOutputsMap.TargetsFitSizeT
        ⟨prevMap.outputPortMap.map fun x => (x.1, remapValue newMap x.2)⟩ := by
  constructor
  · intro entry he
    simp only [List.mem_map] at he
    obtain ⟨x, hx, hxe⟩ := he
    obtain ⟨h1, h2, h3⟩ := hv x hx
    obtain ⟨r, hr, hsz⟩ := remap_ok_size newMap x.2 hn h1 h2 h3
    rw [← hxe]
    simp only [remapValue, hr, hsz]
    exact hp x hx
  · intro entry he t ht
    simp only [List.mem_map] at he
    obtain ⟨x, hx, hxe⟩ := he
    obtain ⟨h1, h2, h3⟩ := hv x hx
    obtain ⟨r, hr, hw⟩ := remap_within hn h1 h2 h3 hT
    rw [← hxe] at ht
    simp only [remapValue, hr] at ht
    obtain ⟨e2, he2, u, hu, htu⟩ := hw t ht
    exact Nat.le_trans htu.2 (hT e2 he2 u hu)

theorem mappedElement_concatenated {prevMap newMap : PortOutputsMap}
    (hn : newMap.SizeInvariant) (hv : prevMap.ValuesRemappable newMap)
    (hT : newMap.TargetsFitSizeT) (x : OutputPortBase × Nat) :
    mappedElement ⟨prevMap.outputPortMap.map fun x => (x.1, remapValue newMap x.2)⟩ x
      = (mappedElement prevMap x).bind (mappedElement newMap) := by
  unfold mappedElement
  simp only [PortOutputsMap.find, findEntry_map]
  cases hf : findEntry x.1 prevMap.outputPortMap with
  | none => rfl
  | some v =>
    obtain ⟨h1, h2, h3⟩ := hv _ (findEntry_mem hf)
    obtain ⟨r, hr, _⟩ := remap_ok_size newMap v hn h1 h2 h3
    simp only [Option.map_some', remapValue, hr]
    exact getElem?_of_map_some (remap_elements hn h1 h2 h3 hT hr) x.2

theorem Covers_concatenated {prevMap : PortOutputsMap} {E : PortElementsBase}
    (f : PortElementsBase → PortElementsBase) (h : prevMap.Covers E) :
    PortOutputsMap.Covers ⟨prevMap.outputPortMap.map fun x => (x.1, f x.2)⟩ E := by
  intro q hq
  have := h q hq
  simp only [PortOutputsMap.find, findEntry_map] at this ⊢
  cases hf : findEntry q.ReferencedPort prevMap.outputPortMap with
  | none => rw [hf] at this; cases this
  | some v => rfl


/-- The elements of a single range, by index. -/
theorem elements_single (p : OutputPortBase) (a n i : Nat) (h : i < n) :
    (PortElementsBase.mk [⟨p, a, n⟩]).elements[i]? = some (p, a + i) := by
  simp [PortElementsBase.elements, PortRange.elements, List.getElem?_range h, h]

/-! ## Canonical form of consolidated ranges -/

theorem sliceRanges_nonempty (ts : List PortRange) :
    ∀ s z : Nat, 0 < z → RangesNonempty (sliceRanges ts s z) := by
  induction ts with
  | nil => intro s z _ r hr; simp [sliceRanges] at hr
  | cons t ts ih =>
    intro s z hz r hr
    rw [sliceRanges] at hr
    by_cases hlt : s < t.Size
    · rw [if_pos hlt] at hr
      rcases List.mem_cons.1 hr with h | h
      · rw [h]; simp only []; omega
      · by_cases hz2 : z ≤ t.Size - s
        · rw [if_pos hz2] at h; cases h
        · rw [if_neg hz2] at h
          exact ih _ _ (by omega) r h
    · rw [if_neg hlt] at hr
      exact ih _ _ hz r hr

theorem consolidateFrom_head (rs : List PortRange) :
    ∀ last : PortRange, ∃ n rest, consolidateFrom last rs
      = ⟨last.ReferencedPort, last.GetStartIndex, last.Size + n⟩ :: rest := by
  induction rs with
  | nil => intro last; exact ⟨0, [], rfl⟩
  | cons x rs ih =>
    intro last
    rw [consolidateFrom]
    by_cases h : last.IsAdjacent x = true
    · rw [if_pos h]
      obtain ⟨n, rest, hn⟩ := ih ⟨last.ReferencedPort, last.GetStartIndex, last.Size + x.Size⟩
      exact ⟨x.Size + n, rest, by rw [hn]; simp only [Nat.add_assoc]⟩
    · rw [if_neg h]
      exact ⟨0, _, rfl⟩

theorem consolidateFrom_nonempty (rs : List PortRange) :
    ∀ last : PortRange, 0 < last.Size → RangesNonempty rs →
      RangesNonempty (consolidateFrom last rs) := by
  induction rs with
  | nil =>
    intro last hl _ r hr
    simp only [consolidateFrom, List.mem_singleton] at hr
    rw [hr]; exact hl
  | cons x rs ih =>
    intro last hl hrs r hr
    have hx : 0 < x.Size := hrs x (List.mem_cons_self _ _)
    have hrs2 : RangesNonempty rs := fun y hy => hrs y (List.mem_cons_of_mem _ hy)
    rw [consolidateFrom] at hr
    by_cases h : last.IsAdjacent x = true
    · rw [if_pos h] at hr
      exact ih _ (by simp only []; omega) hrs2 r hr
    · rw [if_neg h] at hr
      rcases List.mem_cons.1 hr with h1 | h1
      · rw [h1]; exact hl
      · exact ih _ hx hrs2 r h1

theorem consolidateFrom_noAdjacent (rs : List PortRange) :
    ∀ last : PortRange, RangesNonempty rs → NoAdjacent (consolidateFrom last rs) := by
  induction rs with
  | nil => intro last _; simp [consolidateFrom, NoAdjacent]
  | cons x rs ih =>
    intro last hrs
    have hrs2 : RangesNonempty rs := fun y hy => hrs y (List.mem_cons_of_mem _ hy)
    rw [consolidateFrom]
    by_cases h : last.IsAdjacent x = true
    · rw [if_pos h]
      exact ih _ hrs2
    · rw [if_neg h]
      obtain ⟨n, rest, hn⟩ := consolidateFrom_head rs x
      have h2 := ih x hrs2
      rw [hn] at h2 ⊢
      refine ⟨?_, h2⟩
      simp only [Bool.not_eq_true] at h
      simpa [PortRange.IsAdjacent] using h

theorem getElem?_rangesElements_lt (r : PortRange) (rest : List PortRange) (i : Nat)
    (h : i < r.Size) :
    (rangesElements (r :: rest))[i]? = some (r.ReferencedPort, r.GetStartIndex + i) := by
  rw [rangesElements_cons, List.getElem?_append_left (by rw [length_elements]; exact h)]
  simp [PortRange.elements, List.getElem?_range h]

theorem getElem?_rangesElements_ge (r : PortRange) (rest : List PortRange) (i : Nat)
    (h : r.Size ≤ i) :
    (rangesElements (r :: rest))[i]? = (rangesElements rest)[i - r.Size]? := by
  rw [rangesElements_cons, List.getElem?_append_right (by rw [length_elements]; exact h),
    length_elements]

theorem rangesElements_eq_nil {rs : List PortRange} (hne : RangesNonempty rs)
    (h : rangesElements rs = []) : rs = [] := by
  cases rs with
  | nil => rfl
  | cons r rs =>
    have h0 := getElem?_rangesElements_lt r rs 0 (hne r (List.mem_cons_self _ _))
    rw [h] at h0
    cases h0

/-- One half of the comparison of the first ranges of two lists with the same elements. -/
theorem first_size_le {r s : PortRange} {xs ys : List PortRange}
    (hx : RangesNonempty (r :: xs)) (hax : NoAdjacent (r :: xs))
    (hp : r.ReferencedPort = s.ReferencedPort) (hs : r.GetStartIndex = s.GetStartIndex)
    (h : rangesElements (r :: xs) = rangesElements (s :: ys)) : s.Size ≤ r.Size := by
  by_contra hlt
  have hlt2 : r.Size < s.Size := by omega
  have e1 := getElem?_rangesElements_lt s ys r.Size hlt2
  have e2 := getElem?_rangesElements_ge r xs r.Size (Nat.le_refl _)
  rw [← h, e2, Nat.sub_self] at e1
  cases xs with
  | nil => simp [rangesElements] at e1
  | cons x xs =>
    have hx0 := getElem?_rangesElements_lt x xs 0 (hx x (by simp))
    rw [hx0] at e1
    simp only [Option.some.injEq, Prod.mk.injEq, Nat.add_zero] at e1
    have hadj : r.IsAdjacent x = true := by
      simp only [PortRange.IsAdjacent, decide_eq_true_eq]
      exact ⟨by rw [hp, e1.1], by rw [hs, e1.2]⟩
    have := hax.1
    rw [hadj] at this
    cases this

theorem normal_unique (xs : List PortRange) :
    ∀ ys : List PortRange, RangesNonempty xs → NoAdjacent xs → RangesNonempty ys →
      NoAdjacent ys → rangesElements xs = rangesElements ys → xs = ys := by
  induction xs with
  | nil =>
    intro ys _ _ hy _ h
    exact (rangesElements_eq_nil hy h.symm).symm
  | cons r xs ih =>
    intro ys hx hax hy hay h
    cases ys with
    | nil => exact rangesElements_eq_nil hx h
    | cons s ys =>
      have e1 := getElem?_rangesElements_lt r xs 0 (hx r (List.mem_cons_self _ _))
      have e2 := getElem?_rangesElements_lt s ys 0 (hy s (List.mem_cons_self _ _))
      rw [h, e2] at e1
      simp only [Option.some.injEq, Prod.mk.injEq, Nat.add_zero] at e1
      have hp : r.ReferencedPort = s.ReferencedPort := e1.1.symm
      have hs : r.GetStartIndex = s.GetStartIndex := e1.2.symm
      have h1 := first_size_le hx hax hp hs h
      have h2 := first_size_le hy hay hp.symm hs.symm h.symm
      have hrs : r = s := by
        cases r; cases s
        simp only [] at hp hs h1 h2
        simp only [PortRange.mk.injEq]
        exact ⟨hp, hs, by omega⟩
      subst hrs
      rw [rangesElements_cons, rangesElements_cons] at h
      have h3 := List.append_cancel_left h
      have hax2 : NoAdjacent xs := by
        cases xs with
        | nil => trivial
        | cons x xs => exact hax.2
      have hay2 : NoAdjacent ys := by
        cases ys with
        | nil => trivial
        | cons y ys => exact hay.2
      rw [ih ys (fun y hy2 => hx y (List.mem_cons_of_mem _ hy2)) hax2
        (fun y hy2 => hy y (List.mem_cons_of_mem _ hy2)) hay2 h3]

theorem Consolidate_normal (e : PortElementsBase) (h : RangesNonempty e.GetRanges) :
    RangesNonempty e.Consolidate.GetRanges ∧ NoAdjacent e.Consolidate.GetRanges := by
  obtain ⟨rs⟩ := e
  cases rs with
  | nil => exact ⟨h, trivial⟩
  | cons r rs =>
    exact ⟨consolidateFrom_nonempty rs r (h r (List.mem_cons_self _ _))
        (fun y hy => h y (List.mem_cons_of_mem _ hy)),
      consolidateFrom_noAdjacent rs r (fun y hy => h y (List.mem_cons_of_mem _ hy))⟩

/-! ## Associativity of concatenation -/


theorem mappedSlices_nonempty (m : PortOutputsMap) (qs : List PortRange)
    (h : RangesNonempty qs) : RangesNonempty (qs.flatMap (mappedSlice m)) := by
  intro r hr
  simp only [List.mem_flatMap] at hr
  obtain ⟨q, hq, hrq⟩ := hr
  unfold mappedSlice at hrq
  cases hf : m.find q.ReferencedPort with
  | none => rw [hf] at hrq; cases hrq
  | some T =>
    rw [hf] at hrq
    exact sliceRanges_nonempty _ _ _ (h q hq) r hrq

/-- The result of a remap of a query without empty ranges is in canonical form. -/
theorem remap_normal {m : PortOutputsMap} {E r : PortElementsBase}
    (hInv : m.SizeInvariant) (hCov : m.Covers E) (hIn : E.InBounds) (hInt : E.PortsFitInt)
    (hne : RangesNonempty E.GetRanges) (hr : m.GetCorrespondingPortElements E = .ok r) :
    RangesNonempty r.GetRanges ∧ NoAdjacent r.GetRanges := by
  rw [remap_eq hInv hCov hIn hInt] at hr
  cases hr
  exact Consolidate_normal _ (mappedSlices_nonempty m _ hne)

/-- Composition of two remaps, with the concatenated map written out. -/
theorem composition_elements {prevMap newMap : PortOutputsMap} {E : PortElementsBase}
    (hp : prevMap.SizeInvariant) (hn : newMap.SizeInvariant)
    (hv : prevMap.ValuesRemappable newMap) (hT : newMap.TargetsFitSizeT)
    (hCov : prevMap.Covers E) (hIn : E.InBounds) (hInt : E.PortsFitInt) :
    ∃ r a b,
      PortOutputsMap.GetCorrespondingPortElements
        ⟨prevMap.outputPortMap.map fun x => (x.1, remapValue newMap x.2)⟩ E = .ok r ∧
      prevMap.GetCorrespondingPortElements E = .ok a ∧
      newMap.GetCorrespondingPortElements a = .ok b ∧
      r.elements = b.elements := by
  obtain ⟨hcs, hct⟩ := concatenated_props hp hn hv hT
  have hcc := Covers_concatenated (remapValue newMap) hCov
  obtain ⟨r, hr, _⟩ := remap_ok_size _ E hcs hcc hIn hInt
  obtain ⟨a, ha, _⟩ := remap_ok_size prevMap E hp hCov hIn hInt
  obtain ⟨ha1, ha2, ha3⟩ := remap_result_props hp hCov hIn hInt ha newMap hv
  obtain ⟨b, hb, _⟩ := remap_ok_size newMap a hn ha1 ha2 ha3
  refine ⟨r, a, b, hr, ha, hb, ?_⟩
  have e1 := remap_elements hcs hcc hIn hInt hct hr
  have e2 := remap_elements hp hCov hIn hInt (ValuesRemappable_TargetsFitSizeT hv) ha
  have e3 := remap_elements hn ha1 ha2 ha3 hT hb
  have e4 : E.elements.map
      (mappedElement ⟨prevMap.outputPortMap.map fun x => (x.1, remapValue newMap x.2)⟩)
      = E.elements.map (fun x => (mappedElement prevMap x).bind (mappedElement newMap)) :=
    List.map_congr_left (fun x _ => mappedElement_concatenated hn hv hT x)
  rw [e4, map_bind_of_map_some _ e2, ← e3] at e1
  exact List.map_injective_iff.2 (Option.some_injective _) e1

/-- The values of a concatenated map can be remapped through a further map. -/
theorem concatenated_ValuesRemappable {A B C : PortOutputsMap}
    (hB : B.SizeInvariant) (hAB : A.ValuesRemappable B) (hBC : B.ValuesRemappable C) :
    PortOutputsMap.ValuesRemappable
      ⟨A.outputPortMap.map fun x => (x.1, remapValue B x.2)⟩ C := by
  intro entry he
  simp only [List.mem_map] at he
  obtain ⟨x, hx, hxe⟩ := he
  obtain ⟨h1, h2, h3⟩ := hAB x hx
  obtain ⟨r, hr, _⟩ := remap_ok_size B x.2 hB h1 h2 h3
  rw [← hxe]
  simp only [remapValue, hr]
  exact remap_result_props hB h1 h2 h3 hr C hBC

/-- The values of a map can be remapped through a concatenated map. -/
theorem ValuesRemappable_concatenated {A B : PortOutputsMap} (C : PortOutputsMap)
    (hAB : A.ValuesRemappable B) :
    A.ValuesRemappable ⟨B.outputPortMap.map fun x => (x.1, remapValue C x.2)⟩ := by
  intro entry he
  obtain ⟨h1, h2, h3⟩ := hAB entry he
  exact ⟨Covers_concatenated (remapValue C) h1, h2, h3⟩

theorem UniqueKeys_map {A : PortOutputsMap} (f : PortElementsBase → PortElementsBase)
    (h : A.UniqueKeys) :
    PortOutputsMap.UniqueKeys ⟨A.outputPortMap.map fun x => (x.1, f x.2)⟩ := by
  unfold PortOutputsMap.UniqueKeys PortOutputsMap.keys at h ⊢
  simpa [List.map_map, Function.comp] using h

theorem remapValue_ok {m : PortOutputsMap} {v r : PortElementsBase}
    (h : m.GetCorrespondingPortElements v = .ok r) : remapValue m v = r := by
  unfold remapValue
  rw [h]

/-- The two ways of concatenating three maps, entry by entry. -/
theorem assoc_values {A B C : PortOutputsMap}
    (hB : B.SizeInvariant) (hC : C.SizeInvariant)
    (hAB : A.ValuesRemappable B) (hBC : B.ValuesRemappable C) (hT : C.TargetsFitSizeT)
    (x : OutputPortBase × PortElementsBase) (hx : x ∈ A.outputPortMap) :
    (remapValue C (remapValue B x.2)).elements
        = (remapValue ⟨B.outputPortMap.map fun y => (y.1, remapValue C y.2)⟩ x.2).elements ∧
      (RangesNonempty x.2.GetRanges →
        remapValue C (remapValue B x.2)
          = remapValue ⟨B.outputPortMap.map fun y => (y.1, remapValue C y.2)⟩ x.2) := by
  obtain ⟨h1, h2, h3⟩ := hAB x hx
  obtain ⟨r, a, b, hr, ha, hb, hel⟩ := composition_elements hB hC hBC hT h1 h2 h3
  rw [remapValue_ok ha, remapValue_ok hb, remapValue_ok hr]
  refine ⟨hel.symm, ?_⟩
  intro hne
  obtain ⟨hcs, _⟩ := concatenated_props hB hC hBC hT
  have hcc := Covers_concatenated (remapValue C) h1
  have hnr := remap_normal hcs hcc h2 h3 hne hr
  have hna := remap_normal hB h1 h2 h3 hne ha
  obtain ⟨ha1, ha2, ha3⟩ := remap_result_props hB h1 h2 h3 ha C hBC
  have hnb := remap_normal hC ha1 ha2 ha3 hna.1 hb
  have := normal_unique _ _ hnb.1 hnb.2 hnr.1 hnr.2 hel.symm
  cases b; cases r
  simp only [] at this
  rw [this]

theorem map_remap_remap (A B C : PortOutputsMap) :
    List.map (fun x => (x.1, remapValue C x.2))
        (List.map (fun x => (x.1, remapValue B x.2)) A.outputPortMap)
      = List.map (fun x => (x.1, remapValue C (remapValue B x.2))) A.outputPortMap := by
  rw [List.map_map]
  rfl

/-! ## The transform context and the passes of the transformer -/

theorem actionLoop_append_abstain (node : Node) (later rest : List (Node → NodeAction))
    (h : ∀ g ∈ later, g node = NodeAction.abstain) :
    actionLoop node (later ++ rest) = actionLoop node rest := by
  induction later with
  | nil => rfl
  | cons g later ih =>
    have hg : g node = NodeAction.abstain := h g (List.mem_cons_self _ _)
    rw [List.cons_append, actionLoop]
    simp only [hg, ne_eq, not_true_eq_false, if_false]
    exact ih (fun g2 h2 => h g2 (List.mem_cons_of_mem _ h2))

theorem refineLoop_succ (classes : NodeClasses) (context : TransformContext) (n : Nat)
    (t : ModelTransformer) :
    refineLoop classes context (n + 1) t
      = match refinementPass classes context t with
        | (.error error, t, record) => (.error error, t, [record])
        | (.ok _, t, record) =>
          if !record.didRefineAny || t.isModelCompilable then (.ok (), t, [record])
          else ((refineLoop classes context n t).1, (refineLoop classes context n t).2.1,
            record :: (refineLoop classes context n t).2.2) := by
  rw [refineLoop]

theorem refineLoop_length (classes : NodeClasses) (context : TransformContext) :
    ∀ (n : Nat) (t : ModelTransformer),
      (refineLoop classes context n t).2.2.length ≤ n ∧
      (0 < n → 0 < (refineLoop classes context n t).2.2.length) := by
  intro n
  induction n with
  | zero => intro t; simp [refineLoop]
  | succ n ih =>
    intro t
    rw [refineLoop_succ]
    rcases hp : refinementPass classes context t with ⟨o, t2, record⟩
    cases o with
    | error e => simp
    | ok u =>
      simp only []
      by_cases hb : (!record.didRefineAny || t2.isModelCompilable) = true
      · rw [if_pos hb]; simp
      · rw [if_neg hb]
        have := (ih t2).1
        simp only [List.length_cons]
        constructor
        · omega
        · intro _; omega

/-- What every hook leaves unchanged or changes in a fixed way: the stored context is kept, the
nodes added are put at the end of the model, each added node is judged by the stored context,
and the flag `_isModelCompilable` is lowered exactly when an added node is judged not
compilable. -/
theorem HookProgram.run_facts {α : Type} (IsCompilable : Node → Option Nat → Bool)
    (p : HookProgram α) :
    ∀ t : ModelTransformer,
      (p.run IsCompilable t).transformer.context = t.context ∧
      (p.run IsCompilable t).transformer.model.nodes
        = t.model.nodes ++ (p.run IsCompilable t).added.map Prod.fst ∧
      (p.run IsCompilable t).transformer.isModelCompilable
        = (t.isModelCompilable && (p.run IsCompilable t).added.all fun a => a.2) ∧
      ∀ a ∈ (p.run IsCompilable t).added, a.2 = IsCompilable a.1 t.context.compiler := by
  induction p with
  | done result => intro t; simp [HookProgram.run]
  | raise error => intro t; simp [HookProgram.run]
  | inspect next ih => intro t; rw [HookProgram.run]; exact ih t t
  | AddNode node next ih =>
    intro t
    rw [HookProgram.run]
    obtain ⟨h1, h2, h3, h4⟩ := ih (t.AddNode IsCompilable node)
    simp only []
    refine ⟨h1, ?_, ?_, ?_⟩
    · rw [h2]
      simp [ModelTransformer.AddNode]
    · rw [h3]
      simp [ModelTransformer.AddNode, Bool.and_assoc]
    · intro a ha
      rcases List.mem_cons.1 ha with h | h
      · rw [h]; rfl
      · exact h4 a h
  | MapNodeOutput oldPort newElements next ih =>
    intro t
    rw [HookProgram.run]
    rcases hm : t.MapNodeOutput oldPort newElements with ⟨o, t2⟩
    have ht2 : t2 = { t with elementsMap := (t.elementsMap.MapNodeOutput oldPort newElements).2 } := by
      have := congrArg Prod.snd hm
      simpa [ModelTransformer.MapNodeOutput] using this.symm
    cases o with
    | error e => simp [ht2]
    | ok u =>
      simp only []
      obtain ⟨h1, h2, h3, h4⟩ := ih t2
      have e1 : t2.context = t.context := by rw [ht2]
      have e2 : t2.model = t.model := by rw [ht2]
      have e3 : t2.isModelCompilable = t.isModelCompilable := by rw [ht2]
      rw [e1] at h1 h4
      rw [e2] at h2
      rw [e3] at h3
      exact ⟨h1, h2, h3, h4⟩

/-- The facts of `HookProgram.run_facts` for the visit of a refinement pass, and the value of
`didRefineAny`. -/
theorem refineVisit_facts (classes : NodeClasses) (context : TransformContext)
    (nodes : List Node) :
    ∀ (t : ModelTransformer) (d : Bool),
      (refineVisit classes context nodes t d).transformer.context = t.context ∧
      (refineVisit classes context nodes t d).transformer.isModelCompilable
        = (t.isModelCompilable &&
            (refineVisit classes context nodes t d).visits.all fun v => v.added.all fun a => a.2) ∧
      (refineVisit classes context nodes t d).didRefineAny
        = (d || (refineVisit classes context nodes t d).visits.any fun v =>
            v.refineInvoked && v.didRefineNode) ∧
      ∀ v ∈ (refineVisit classes context nodes t d).visits, ∀ a ∈ v.added,
        a.2 = classes.IsCompilable a.1 t.context.compiler := by
  induction nodes with
  | nil => intro t d; simp [refineVisit]
  | cons node rest ih =>
    intro t d
    rw [refineVisit]
    simp only []
    by_cases hact : context.GetNodeAction classes.IsCompilable node = NodeAction.refine ∨
        context.GetNodeAction classes.IsCompilable node = NodeAction.abstain
    · rw [if_pos hact]
      obtain ⟨f1, _, f3, f4⟩ := HookProgram.run_facts classes.IsCompilable
        (classes.InvokeRefine node) t
      cases ho : ((classes.InvokeRefine node).run classes.IsCompilable t).outcome with
      | error e =>
        simp only [List.all_cons, List.all_nil, Bool.and_true, List.any_cons, List.any_nil,
          Bool.and_false, Bool.or_false, List.mem_singleton, forall_eq]
        exact ⟨f1, f3, trivial, f4⟩
      | ok b =>
        simp only []
        obtain ⟨g1, g2, g3, g4⟩ := ih ((classes.InvokeRefine node).run classes.IsCompilable t).transformer (d || b)
        refine ⟨g1.trans f1, ?_, ?_, ?_⟩
        · rw [g2, f3]; simp [Bool.and_assoc]
        · rw [g3]; simp [Bool.or_assoc]
        · intro v hv a ha
          rcases List.mem_cons.1 hv with h | h
          · rw [h] at ha; exact f4 a ha
          · rw [g4 v h a ha, f1]
    · rw [if_neg hact]
      obtain ⟨f1, _, f3, f4⟩ := HookProgram.run_facts classes.IsCompilable (classes.Copy node) t
      cases ho : ((classes.Copy node).run classes.IsCompilable t).outcome with
      | error e =>
        simp only [List.all_cons, List.all_nil, Bool.and_true, List.any_cons, List.any_nil,
          Bool.and_false, Bool.or_false, List.mem_singleton, forall_eq]
        exact ⟨f1, f3, trivial, f4⟩
      | ok b =>
        simp only []
        obtain ⟨g1, g2, g3, g4⟩ := ih ((classes.Copy node).run classes.IsCompilable t).transformer (d || false)
        refine ⟨g1.trans f1, ?_, ?_, ?_⟩
        · rw [g2, f3]; simp [Bool.and_assoc]
        · rw [g3]; simp
        · intro v hv a ha
          rcases List.mem_cons.1 hv with h | h
          · rw [h] at ha; exact f4 a ha
          · rw [g4 v h a ha, f1]

theorem composeMaps_facts (previousElementMap : PortOutputsMap) (t : ModelTransformer) :
    (composeMaps previousElementMap t).2.isModelCompilable = t.isModelCompilable ∧
    (composeMaps previousElementMap t).2.context = t.context ∧
    (composeMaps previousElementMap t).2.model = t.model ∧
    ((composeMaps previousElementMap t).1 = .ok () →
      (previousElementMap.IsEmpty = false →
        previousElementMap.ConcatenateMaps t.elementsMap
          = .ok (composeMaps previousElementMap t).2.elementsMap) ∧
      (previousElementMap.IsEmpty = true →
        (composeMaps previousElementMap t).2.elementsMap = t.elementsMap)) := by
  unfold composeMaps
  cases he : previousElementMap.IsEmpty with
  | true => simp
  | false =>
    simp only [Bool.not_false, if_true]
    cases hc : previousElementMap.ConcatenateMaps t.elementsMap with
    | error e => simp
    | ok m => simp

/-- The facts about one refinement pass. -/
theorem refinementPass_facts (classes : NodeClasses) (context : TransformContext)
    (t : ModelTransformer) :
    (refinementPass classes context t).2.1.context = t.context ∧
    (refinementPass classes context t).2.2.previousElementMap = t.elementsMap ∧
    (refinementPass classes context t).2.2.outcome = (refinementPass classes context t).1 ∧
    (refinementPass classes context t).2.2.elementsMap
      = (refinementPass classes context t).2.1.elementsMap ∧
    (refinementPass classes context t).2.2.isModelCompilable
      = (refinementPass classes context t).2.1.isModelCompilable ∧
    (refinementPass classes context t).2.2.isModelCompilable
      = ((refinementPass classes context t).2.2.visits.all fun v => v.added.all fun a => a.2) ∧
    (refinementPass classes context t).2.2.didRefineAny
      = ((refinementPass classes context t).2.2.visits.any fun v =>
          v.refineInvoked && v.didRefineNode) ∧
    (∀ v ∈ (refinementPass classes context t).2.2.visits, ∀ a ∈ v.added,
      a.2 = classes.IsCompilable a.1 t.context.compiler) ∧
    ((refinementPass classes context t).1 = .ok () →
      ((refinementPass classes context t).2.2.previousElementMap.IsEmpty = false →
        (refinementPass classes context t).2.2.previousElementMap.ConcatenateMaps
            (refinementPass classes context t).2.2.builtMap
          = .ok (refinementPass classes context t).2.2.elementsMap) ∧
      ((refinementPass classes context t).2.2.previousElementMap.IsEmpty = true →
        (refinementPass classes context t).2.2.elementsMap
          = (refinementPass classes context t).2.2.builtMap)) := by
  obtain ⟨f1, f2, f3, f4⟩ := refineVisit_facts classes context t.model.Visit
    { t with model := ⟨[]⟩, elementsMap := t.elementsMap.Clear, isModelCompilable := true } false
  simp only [Bool.true_and, Bool.false_or] at f2 f3
  unfold refinementPass
  simp only []
  cases ho : (refineVisit classes context t.model.Visit
    { t with model := ⟨[]⟩, elementsMap := t.elementsMap.Clear, isModelCompilable := true }
    false).outcome with
  | error e =>
    simp only []
    exact ⟨f1, trivial, trivial, trivial, trivial, f2, f3, f4, fun h => by cases h⟩
  | ok u =>
    simp only []
    obtain ⟨g1, g2, g3, g4⟩ := composeMaps_facts t.elementsMap (refineVisit classes context
      t.model.Visit { t with model := ⟨[]⟩, elementsMap := t.elementsMap.Clear,
                             isModelCompilable := true } false).transformer
    rcases hc : composeMaps t.elementsMap (refineVisit classes context t.model.Visit
      { t with model := ⟨[]⟩, elementsMap := t.elementsMap.Clear, isModelCompilable := true }
      false).transformer with ⟨o, t2⟩
    rw [hc] at g1 g2 g3 g4
    simp only [] at g1 g2 g3 g4
    cases o with
    | error e =>
      simp only []
      exact ⟨g2.trans f1, trivial, trivial, trivial, g1.symm, f2, f3, f4, fun h => by cases h⟩
    | ok u2 =>
      simp only []
      exact ⟨g2.trans f1, trivial, trivial, trivial, g1.symm, f2, f3, f4, fun _ => g4 rfl⟩

theorem refinementPass_sound (classes : NodeClasses) (context : TransformContext)
    (t : ModelTransformer) :
    (refinementPass classes context t).2.2.Sound classes.IsCompilable t.context.compiler := by
  obtain ⟨_, _, h3, _, _, h6, h7, h8, h9⟩ := refinementPass_facts classes context t
  refine ⟨h6, h7, h8, ?_⟩
  intro ho
  rw [h3] at ho
  exact h9 ho

/-- The structure of the records of the `for` loop of `RefineModel`. -/
theorem refineLoop_facts (classes : NodeClasses) (context : TransformContext) :
    ∀ (n : Nat) (t : ModelTransformer),
      (refineLoop classes context n t).2.1.context = t.context ∧
      (∀ p ∈ (refineLoop classes context n t).2.2,
        p.Sound classes.IsCompilable t.context.compiler) ∧
      (∀ p ∈ (refineLoop classes context n t).2.2.dropLast,
        p.outcome = .ok () ∧ p.didRefineAny = true ∧ p.isModelCompilable = false) ∧
      ((refineLoop classes context n t).1 = .ok () →
        ∀ p, (refineLoop classes context n t).2.2.getLast? = some p →
          p.outcome = .ok () ∧ (p.didRefineAny = false ∨ p.isModelCompilable = true ∨
            (refineLoop classes context n t).2.2.length = n)) ∧
      PassesLinked t.elementsMap (refineLoop classes context n t).2.2
        (refineLoop classes context n t).2.1.elementsMap := by
  intro n
  induction n with
  | zero =>
    intro t
    simp [refineLoop, PassesLinked]
  | succ n ih =>
    intro t
    obtain ⟨f1, f2, f3, f4, f5, _, _, _, _⟩ := refinementPass_facts classes context t
    have fs := refinementPass_sound classes context t
    rw [refineLoop_succ]
    rcases hp : refinementPass classes context t with ⟨o, t2, record⟩
    rw [hp] at f1 f2 f3 f4 f5 fs
    simp only [] at f1 f2 f3 f4 f5 fs
    cases o with
    | error e =>
      simp only [List.mem_singleton, forall_eq, List.dropLast_single, List.not_mem_nil,
        false_implies, implies_true, true_and, PassesLinked]
      exact ⟨f1, fs, (fun h => by cases h), f2, f4.symm⟩
    | ok u =>
      simp only []
      by_cases hb : (!record.didRefineAny || t2.isModelCompilable) = true
      · rw [if_pos hb]
        simp only [List.mem_singleton, forall_eq, List.dropLast_single, List.not_mem_nil,
          false_implies, implies_true, true_and, PassesLinked, List.getLast?_singleton,
          Option.some.injEq, List.length_singleton]
        refine ⟨f1, fs, ?_, f2, f4.symm⟩
        intro _ p hp2
        rw [← hp2]
        refine ⟨f3, ?_⟩
        rw [f5]
        cases hd : record.didRefineAny with
        | false => exact Or.inl rfl
        | true =>
          rw [hd] at hb
          simp only [Bool.not_true, Bool.false_or] at hb
          exact Or.inr (Or.inl hb)
      · rw [if_neg hb]
        obtain ⟨g1, g2, g3, g4, g5⟩ := ih t2
        have hd : record.didRefineAny = true ∧ record.isModelCompilable = false := by
          rw [f5]
          cases h1 : record.didRefineAny <;> cases h2 : t2.isModelCompilable <;>
            simp [h1, h2] at hb ⊢
        simp only []
        refine ⟨g1.trans f1, ?_, ?_, ?_, f2, ?_⟩
        · intro p hp2
          rcases List.mem_cons.1 hp2 with h | h
          · rw [h]; exact fs
          · have := g2 p h
            rw [f1] at this
            exact this
        · intro p hp2
          cases hrest : (refineLoop classes context n t2).2.2 with
          | nil => rw [hrest] at hp2; simp at hp2
          | cons q qs =>
            rw [hrest, List.dropLast_cons_of_ne_nil (List.cons_ne_nil _ _)] at hp2
            rcases List.mem_cons.1 hp2 with h | h
            · rw [h]; exact ⟨f3, hd.1, hd.2⟩
            · rw [hrest] at g3; exact g3 p h
        · intro ho p hp2
          cases hrest : (refineLoop classes context n t2).2.2 with
          | nil =>
            have hl := (refineLoop_length classes context n t2).2
            rw [hrest] at hl hp2
            simp only [List.getLast?_singleton, Option.some.injEq] at hp2
            rw [← hp2]
            refine ⟨f3, Or.inr (Or.inr ?_)⟩
            simp only [List.length_nil, Nat.lt_irrefl, imp_false, Nat.not_lt,
              Nat.le_zero_eq] at hl
            simp [hl]
          | cons q qs =>
            rw [hrest] at hp2 g4
            rw [List.getLast?_cons_cons] at hp2
            obtain ⟨h1, h2⟩ := g4 ho p hp2
            refine ⟨h1, ?_⟩
            rcases h2 with h | h | h
            · exact Or.inl h
            · exact Or.inr (Or.inl h)
            · right; right
              simp only [List.length_cons] at h ⊢
              omega
        · rw [f4]; exact g5

theorem metadataVisit_facts (nodes : List Node) :
    ∀ t : ModelTransformer,
      (metadataVisit nodes t).2.context = t.context ∧
      (metadataVisit nodes t).2.elementsMap = t.elementsMap ∧
      (metadataVisit nodes t).2.isModelCompilable = t.isModelCompilable := by
  induction nodes with
  | nil => intro t; simp [metadataVisit]
  | cons node rest ih =>
    intro t
    rw [metadataVisit]
    cases ho : node.outputs with
    | nil => exact ih t
    | cons outputPort others =>
      simp only []
      cases hg : t.elementsMap.GetCorrespondingPortElements (PortElementsBase.ofPort outputPort) with
      | error e => simp
      | ok elements =>
        simp only []
        cases hr : elements.GetRanges with
        | nil => exact ih t
        | cons range ranges =>
          simp only []
          exact ih _

/-- What the second visit of `CopyModel` keeps of the transformer. -/
theorem metadataPass_facts (nodes : List Node) (t : ModelTransformer) :
    (metadataPass nodes t).2.context = t.context ∧
    (metadataPass nodes t).2.elementsMap = t.elementsMap ∧
    (metadataPass nodes t).2.isModelCompilable = t.isModelCompilable :=
  metadataVisit_facts _ t

/-- The initial copy made by `RefineModel`. -/
theorem CopyModel_ok_context (t : ModelTransformer) (classes : NodeClasses) (oldModel : Model)
    (outputNodes : List Node) (context : TransformContext) (model : Model)
    (h : (t.CopyModel classes oldModel outputNodes context).result = .ok model) :
    (t.CopyModel classes oldModel outputNodes context).transformer.context
      = TransformContext.default := by
  unfold ModelTransformer.CopyModel at h ⊢
  simp only [] at h ⊢
  cases hv : (copyVisit classes (oldModel.VisitSubset outputNodes)
    { t with context := context, model := ⟨[]⟩, elementsMap := t.elementsMap.Clear }).outcome with
  | error e => rw [hv] at h; cases h
  | ok u =>
    rw [hv] at h
    simp only [] at h ⊢
    have hm := (metadataPass_facts (oldModel.VisitSubset outputNodes)
      { (copyVisit classes (oldModel.VisitSubset outputNodes)
          { t with context := context, model := ⟨[]⟩, elementsMap := t.elementsMap.Clear }).transformer
        with context := TransformContext.default }).1
    rcases hmv : metadataPass (oldModel.VisitSubset outputNodes)
      { (copyVisit classes (oldModel.VisitSubset outputNodes)
          { t with context := context, model := ⟨[]⟩, elementsMap := t.elementsMap.Clear }).transformer
        with context := TransformContext.default } with ⟨o, t3⟩
    rw [hmv] at h hm
    cases o with
    | error e => cases h
    | ok u2 => exact hm

theorem RefineModel_copy_error (t : ModelTransformer) (classes : NodeClasses) (oldModel : Model)
    (context : TransformContext) (maxIterations : Int) (hmax : 1 ≤ maxIterations)
    (e : InputExceptionErrors)
    (hc : ((t.beforeCopy context).CopyModel classes oldModel [] context).result = .error e) :
    (t.RefineModel classes oldModel context maxIterations).result = .error e ∧
    (t.RefineModel classes oldModel context maxIterations).passes = [] := by
  unfold ModelTransformer.RefineModel
  unfold ModelTransformer.beforeCopy at hc
  rw [if_neg (by omega)]
  simp only [hc]
  exact ⟨trivial, trivial⟩

theorem RefineModel_copy_ok (t : ModelTransformer) (classes : NodeClasses) (oldModel : Model)
    (context : TransformContext) (maxIterations : Int) (hmax : 1 ≤ maxIterations)
    (model : Model)
    (hc : ((t.beforeCopy context).CopyModel classes oldModel [] context).result = .ok model) :
    (t.RefineModel classes oldModel context maxIterations).passes
      = (refineLoop classes context maxIterations.toNat
          (t.afterCopy classes oldModel context model)).2.2 ∧
    (t.RefineModel classes oldModel context maxIterations).copyVisits
      = ((t.beforeCopy context).CopyModel classes oldModel [] context).visits ∧
    ((refineLoop classes context maxIterations.toNat
        (t.afterCopy classes oldModel context model)).1 = .ok () ↔
      ∃ m, (t.RefineModel classes oldModel context maxIterations).result = .ok m) ∧
    (t.RefineModel classes oldModel context maxIterations).transformer.elementsMap
      = (refineLoop classes context maxIterations.toNat
          (t.afterCopy classes oldModel context model)).2.1.elementsMap := by
  unfold ModelTransformer.RefineModel
  unfold ModelTransformer.beforeCopy at hc
  unfold ModelTransformer.afterCopy ModelTransformer.beforeCopy
  rw [if_neg (by omega)]
  simp only [hc]
  rcases hl : refineLoop classes context maxIterations.toNat
      { ((({ t with context := context, elementsMap := t.elementsMap.Clear } :
        ModelTransformer).CopyModel classes oldModel [] context).transformer) with
        model := model } with ⟨o, t3, ps⟩
  cases o with
  | error e => simp
  | ok u => simp

theorem RefineModel_ok_copy_ok (t : ModelTransformer) (classes : NodeClasses) (oldModel : Model)
    (context : TransformContext) (maxIterations : Int) (m : Model)
    (h : (t.RefineModel classes oldModel context maxIterations).result = .ok m) :
    1 ≤ maxIterations ∧
    ∃ model, ((t.beforeCopy context).CopyModel classes oldModel [] context).result = .ok model := by
  by_cases hmax : 1 ≤ maxIterations
  · refine ⟨hmax, ?_⟩
    cases hc : ((t.beforeCopy context).CopyModel classes oldModel [] context).result with
    | error e =>
      rw [(RefineModel_copy_error t classes oldModel context maxIterations hmax e hc).1] at h
      cases h
    | ok model => exact ⟨model, rfl⟩
  · unfold ModelTransformer.RefineModel at h
    rw [if_pos (by omega)] at h
    cases h

theorem mem_of_getLast? {α : Type} {l : List α} {a : α} (h : l.getLast? = some a) : a ∈ l := by
  exact List.mem_of_getLast?_eq_some h

theorem RefineModel_nonpositive_passes (t : ModelTransformer) (classes : NodeClasses)
    (oldModel : Model) (context : TransformContext) (maxIterations : Int)
    (h : maxIterations ≤ 0) :
    (t.RefineModel classes oldModel context maxIterations).passes = [] := by
  unfold ModelTransformer.RefineModel
  simp [h]

theorem setMetadata_outputs (port : OutputPortBase) (md : List (String × String)) :
    ∀ nodes : List Node,
      (setMetadata port md nodes).map Node.outputs = nodes.map Node.outputs := by
  intro nodes
  induction nodes with
  | nil => rfl
  | cons n rest ih =>
    rw [setMetadata]
    by_cases h : port ∈ n.outputs
    · rw [if_pos h]; rfl
    · rw [if_neg h, List.map_cons, ih]; rfl

theorem ownerIndex_congr (port : OutputPortBase) :
    ∀ xs ys : List Node, xs.map Node.outputs = ys.map Node.outputs →
      ownerIndex port xs = ownerIndex port ys := by
  intro xs
  induction xs with
  | nil =>
    intro ys h
    cases ys with
    | nil => rfl
    | cons y ys => simp at h
  | cons x xs ih =>
    intro ys h
    cases ys with
    | nil => simp at h
    | cons y ys =>
      simp only [List.map_cons, List.cons.injEq] at h
      rw [ownerIndex, ownerIndex, h.1, ih ys h.2]

theorem setMetadata_getElem? (port : OutputPortBase) (md : List (String × String)) :
    ∀ (nodes : List Node) (j : Nat),
      (setMetadata port md nodes)[j]?
        = if ownerIndex port nodes = some j then
            nodes[j]?.map fun n => { n with metadata := md }
          else nodes[j]? := by
  intro nodes
  induction nodes with
  | nil => intro j; simp [setMetadata, ownerIndex]
  | cons n rest ih =>
    intro j
    rw [setMetadata, ownerIndex]
    by_cases h : port ∈ n.outputs
    · rw [if_pos h, if_pos h]
      cases j with
      | zero => simp
      | succ j => simp
    · rw [if_neg h, if_neg h]
      cases j with
      | zero =>
        simp only [List.getElem?_cons_zero]
        rw [if_neg]
        cases ownerIndex port rest <;> simp
      | succ j =>
        simp only [List.getElem?_cons_succ, ih j]
        cases ho : ownerIndex port rest with
        | none => simp
        | some i => simp

/-- One step of the second visit of `CopyModel` for a node with a target. -/
theorem metadataVisit_cons (node : Node) (rest : List Node) (t : ModelTransformer) :
    (metadataVisit (node :: rest) t).1 = .ok () →
      ∃ t1 : ModelTransformer, metadataVisit (node :: rest) t = metadataVisit rest t1 ∧
        t1.elementsMap = t.elementsMap ∧
        t1.model.nodes.map Node.outputs = t.model.nodes.map Node.outputs ∧
        ∀ j, t1.model.nodes[j]?
          = if metadataTarget t.elementsMap t.model.nodes node = some j then
              t.model.nodes[j]?.map fun n => { n with metadata := node.metadata }
            else t.model.nodes[j]? := by
  intro hok
  rw [metadataVisit] at hok ⊢
  cases ho : node.outputs with
  | nil =>
    refine ⟨t, rfl, rfl, rfl, fun j => ?_⟩
    simp [metadataTarget, ho]
  | cons outputPort others =>
    rw [ho] at hok
    simp only [] at hok ⊢
    obtain ⟨x, hg⟩ : ∃ x, t.elementsMap.GetCorrespondingPortElements
        (PortElementsBase.ofPort outputPort) = x := ⟨_, rfl⟩
    rw [hg] at hok ⊢
    cases x with
    | error e => cases hok
    | ok elements =>
      simp only [] at hok ⊢
      obtain ⟨rs, hr⟩ : ∃ rs, elements.GetRanges = rs := ⟨_, rfl⟩
      cases rs with
      | nil =>
        rw [hr]
        refine ⟨t, rfl, rfl, rfl, fun j => ?_⟩
        simp [metadataTarget, ho, hg, hr]
      | cons range ranges =>
        rw [hr]
        refine ⟨_, rfl, rfl, setMetadata_outputs _ _ _, fun j => ?_⟩
        have hT : metadataTarget t.elementsMap t.model.nodes node
            = ownerIndex range.ReferencedPort t.model.nodes := by
          simp [metadataTarget, ho, hg, hr]
        rw [hT]
        exact setMetadata_getElem? _ _ _ j

theorem metadataTarget_congr (map : PortOutputsMap) (xs ys : List Node)
    (h : xs.map Node.outputs = ys.map Node.outputs) (node : Node) :
    metadataTarget map xs node = metadataTarget map ys node := by
  unfold metadataTarget
  cases node.outputs with
  | nil => rfl
  | cons p ps =>
    simp only []
    cases map.GetCorrespondingPortElements (PortElementsBase.ofPort p) with
    | error e => rfl
    | ok elements =>
      simp only []
      cases elements.GetRanges with
      | nil => rfl
      | cons r rs => exact ownerIndex_congr _ _ _ h

/-- What the second visit of `CopyModel` keeps. -/
theorem metadataVisit_keeps (nodes : List Node) :
    ∀ t : ModelTransformer, (metadataVisit nodes t).1 = .ok () →
      (metadataVisit nodes t).2.model.nodes.map Node.outputs = t.model.nodes.map Node.outputs ∧
      ∀ j, (∀ v ∈ nodes, metadataTarget t.elementsMap t.model.nodes v ≠ some j) →
        (metadataVisit nodes t).2.model.nodes[j]? = t.model.nodes[j]? := by
  induction nodes with
  | nil => intro t _; simp [metadataVisit]
  | cons node rest ih =>
    intro t hok
    obtain ⟨t1, h1, h2, h3, h4⟩ := metadataVisit_cons node rest t hok
    rw [h1] at hok ⊢
    obtain ⟨i1, i2⟩ := ih t1 hok
    refine ⟨i1.trans h3, ?_⟩
    intro j hj
    rw [i2 j, h4 j, if_neg (hj node (List.mem_cons_self _ _))]
    intro v hv
    rw [h2, metadataTarget_congr _ _ _ h3]
    exact hj v (List.mem_cons_of_mem _ hv)

/-- The node that receives the metadata of a visited node keeps it when no node visited later
has the same target. -/
theorem metadataVisit_target (pre : List Node) (node : Node) (post : List Node) :
    ∀ t : ModelTransformer, (metadataVisit (pre ++ node :: post) t).1 = .ok () →
      ∀ j, metadataTarget t.elementsMap t.model.nodes node = some j →
        (∀ v ∈ post, metadataTarget t.elementsMap t.model.nodes v ≠ some j) →
        ∃ n, (metadataVisit (pre ++ node :: post) t).2.model.nodes[j]? = some n ∧
          n.metadata = node.metadata := by
  induction pre with
  | nil =>
    intro t hok j hj hpost
    rw [List.nil_append] at hok ⊢
    obtain ⟨t1, h1, h2, h3, h4⟩ := metadataVisit_cons node post t hok
    rw [h1] at hok ⊢
    rw [(metadataVisit_keeps post t1 hok).2 j (by
      intro v hv
      rw [h2, metadataTarget_congr _ _ _ h3]
      exact hpost v hv), h4 j, if_pos hj]
    have hlt : j < t.model.nodes.length := by
      have : ∀ (p : OutputPortBase) (l : List Node) (i : Nat), ownerIndex p l = some i →
          i < l.length := by
        intro p l
        induction l with
        | nil => intro i h; simp [ownerIndex] at h
        | cons x l ih2 =>
          intro i h
          rw [ownerIndex] at h
          by_cases hx : p ∈ x.outputs
          · rw [if_pos hx] at h
            cases h
            simp
          · rw [if_neg hx] at h
            cases ho : ownerIndex p l with
            | none => rw [ho] at h; cases h
            | some i2 =>
              rw [ho] at h
              cases h
              have := ih2 i2 ho
              simp only [List.length_cons]
              omega
      unfold metadataTarget at hj
      cases ho : node.outputs with
      | nil => rw [ho] at hj; cases hj
      | cons p ps =>
        rw [ho] at hj
        simp only [] at hj
        cases hg : t.elementsMap.GetCorrespondingPortElements (PortElementsBase.ofPort p) with
        | error e => rw [hg] at hj; cases hj
        | ok elements =>
          rw [hg] at hj
          simp only [] at hj
          cases hr : elements.GetRanges with
          | nil => rw [hr] at hj; cases hj
          | cons r rs =>
            rw [hr] at hj
            exact this _ _ _ hj
    rw [List.getElem?_eq_getElem hlt]
    exact ⟨_, rfl, rfl⟩
  | cons x pre ih =>
    intro t hok j hj hpost
    rw [List.cons_append] at hok ⊢
    obtain ⟨t1, h1, h2, h3, _⟩ := metadataVisit_cons x (pre ++ node :: post) t hok
    rw [h1] at hok ⊢
    refine ih t1 hok j ?_ ?_
    · rw [h2, metadataTarget_congr _ _ _ h3]; exact hj
    · intro v hv
      rw [h2, metadataTarget_congr _ _ _ h3]
      exact hpost v hv


/-- Every node after the second visit of `CopyModel` is the node before it, or that node with
the metadata of a visited node that targets it. -/
theorem metadataVisit_changes (nodes : List Node) :
    ∀ t : ModelTransformer, (metadataVisit nodes t).1 = .ok () →
      ∀ j, (metadataVisit nodes t).2.model.nodes[j]? = t.model.nodes[j]? ∨
        ∃ v ∈ nodes, metadataTarget t.elementsMap t.model.nodes v = some j ∧
          (metadataVisit nodes t).2.model.nodes[j]?
            = t.model.nodes[j]?.map fun n => { n with metadata := v.metadata } := by
  induction nodes with
  | nil => intro t _ j; left; simp [metadataVisit]
  | cons node rest ih =>
    intro t hok j
    obtain ⟨t1, h1, h2, h3, h4⟩ := metadataVisit_cons node rest t hok
    rw [h1] at hok ⊢
    rcases ih t1 hok j with i1 | ⟨v, hv, i1, i2⟩
    · rw [i1, h4 j]
      by_cases hT : metadataTarget t.elementsMap t.model.nodes node = some j
      · right
        exact ⟨node, List.mem_cons_self _ _, hT, by rw [if_pos hT]⟩
      · left; rw [if_neg hT]
    · right
      refine ⟨v, List.mem_cons_of_mem _ hv, ?_, ?_⟩
      · rw [h2, metadataTarget_congr _ _ _ h3] at i1; exact i1
      · rw [i2, h4 j]
        by_cases hT : metadataTarget t.elementsMap t.model.nodes node = some j
        · rw [if_pos hT]
          cases t.model.nodes[j]? <;> rfl
        · rw [if_neg hT]

/-- The model under construction after the first visit of `CopyModel`. -/
theorem copyVisit_model (classes : NodeClasses) (nodes : List Node) :
    ∀ t : ModelTransformer,
      (copyVisit classes nodes t).transformer.model.nodes
        = t.model.nodes ++ (copyVisit classes nodes t).visits.flatMap
            fun v => v.added.map Prod.fst := by
  induction nodes with
  | nil => intro t; simp [copyVisit]
  | cons node rest ih =>
    intro t
    rw [copyVisit]
    simp only []
    have hr := (HookProgram.run_facts classes.IsCompilable (classes.Copy node) t).2.1
    cases ho : ((classes.Copy node).run classes.IsCompilable t).outcome with
    | error e => simp [hr]
    | ok u => simp [ih, hr]

/-- The two visits of a call of `CopyModel` that returns. -/
theorem CopyModel_ok_metadata (t : ModelTransformer) (classes : NodeClasses) (oldModel : Model)
    (outputNodes : List Node) (context : TransformContext) (model : Model)
    (h : (t.CopyModel classes oldModel outputNodes context).result = .ok model) :
    ∃ t2 : ModelTransformer,
      t2.model.nodes = (t.CopyModel classes oldModel outputNodes context).visits.flatMap
        (fun v => v.added.map Prod.fst) ∧
      t2.elementsMap = (t.CopyModel classes oldModel outputNodes context).transformer.elementsMap ∧
      (metadataPass (oldModel.VisitSubset outputNodes) t2).1 = .ok () ∧
      (metadataPass (oldModel.VisitSubset outputNodes) t2).2.model = model := by
  unfold ModelTransformer.CopyModel at h ⊢
  simp only [] at h ⊢
  cases hv : (copyVisit classes (oldModel.VisitSubset outputNodes)
    { t with context := context, model := ⟨[]⟩, elementsMap := t.elementsMap.Clear }).outcome with
  | error e => rw [hv] at h; cases h
  | ok u =>
    rw [hv] at h
    simp only [] at h ⊢
    have hm := copyVisit_model classes (oldModel.VisitSubset outputNodes)
      { t with context := context, model := ⟨[]⟩, elementsMap := t.elementsMap.Clear }
    have hf := metadataPass_facts (oldModel.VisitSubset outputNodes)
      { (copyVisit classes (oldModel.VisitSubset outputNodes)
          { t with context := context, model := ⟨[]⟩, elementsMap := t.elementsMap.Clear }).transformer
        with context := TransformContext.default }
    rcases hmv : metadataPass (oldModel.VisitSubset outputNodes)
      { (copyVisit classes (oldModel.VisitSubset outputNodes)
          { t with context := context, model := ⟨[]⟩, elementsMap := t.elementsMap.Clear }).transformer
        with context := TransformContext.default } with ⟨o, t3⟩
    rw [hmv] at h hf
    cases o with
    | error e => cases h
    | ok u2 =>
      simp only [] at h hf ⊢
      refine ⟨_, ?_, ?_, congrArg Prod.fst hmv, ?_⟩
      · simpa using hm
      · exact hf.2.1.symm
      · rw [hmv]
        simpa using h
theorem addedNodes_cons (v : NodeVisit) (rest : List NodeVisit) :
    addedNodes (v :: rest) = v.added.map Prod.fst ++ addedNodes rest := by
  simp [addedNodes]

/-- The model under construction after the visit of a refinement pass. -/
theorem refineVisit_model (classes : NodeClasses) (context : TransformContext)
    (nodes : List Node) :
    ∀ (t : ModelTransformer) (d : Bool),
      (refineVisit classes context nodes t d).transformer.model.nodes
        = t.model.nodes ++ addedNodes (refineVisit classes context nodes t d).visits := by
  induction nodes with
  | nil => intro t d; simp [refineVisit, addedNodes]
  | cons node rest ih =>
    intro t d
    rw [refineVisit]
    simp only []
    by_cases hact : context.GetNodeAction classes.IsCompilable node = NodeAction.refine ∨
        context.GetNodeAction classes.IsCompilable node = NodeAction.abstain
    · rw [if_pos hact]
      have hr := (HookProgram.run_facts classes.IsCompilable (classes.InvokeRefine node) t).2.1
      cases ho : ((classes.InvokeRefine node).run classes.IsCompilable t).outcome with
      | error e => simp [hr, addedNodes]
      | ok b => simp [ih, hr, addedNodes]
    · rw [if_neg hact]
      have hr := (HookProgram.run_facts classes.IsCompilable (classes.Copy node) t).2.1
      cases ho : ((classes.Copy node).run classes.IsCompilable t).outcome with
      | error e => simp [hr, addedNodes]
      | ok b => simp [ih, hr, addedNodes]

/-- A visit of a refinement pass with kind-stable classes: when it completes without refining
a node, it visited settled nodes only; and on settled nodes it refines none and adds one node
of the same kind for each node visited. -/
theorem refineVisit_stable (classes : NodeClasses) (context : TransformContext)
    (action : Nat → NodeAction) (refines : Nat → Bool)
    (hs : KindStable classes context action refines) (nodes : List Node) :
    ∀ (t : ModelTransformer) (d : Bool),
      (refineVisit classes context nodes t d).outcome = .ok () →
      ((refineVisit classes context nodes t d).didRefineAny = false →
        d = false ∧ ∀ n ∈ nodes, Settled action refines n.kind) ∧
      ((∀ n ∈ nodes, Settled action refines n.kind) →
        (refineVisit classes context nodes t d).didRefineAny = d ∧
        (addedNodes (refineVisit classes context nodes t d).visits).map Node.kind
          = nodes.map Node.kind) := by
  obtain ⟨hcopy, hkeep, hverdict, haction⟩ := hs
  induction nodes with
  | nil => intro t d _; simp [refineVisit, addedNodes]
  | cons node rest ih =>
    intro t d
    rw [refineVisit]
    simp only []
    by_cases hact : context.GetNodeAction classes.IsCompilable node = NodeAction.refine ∨
        context.GetNodeAction classes.IsCompilable node = NodeAction.abstain
    · rw [if_pos hact]
      cases ho : ((classes.InvokeRefine node).run classes.IsCompilable t).outcome with
      | error e => intro h; cases h
      | ok b =>
        simp only []
        intro hok
        obtain ⟨i1, i2⟩ := ih _ (d || b) hok
        have hb := hverdict node t b ho
        refine ⟨?_, ?_⟩
        · intro hd
          obtain ⟨j1, j2⟩ := i1 hd
          have hd0 : d = false := by cases d <;> simp_all
          have hb0 : b = false := by cases b <;> simp_all
          refine ⟨hd0, ?_⟩
          intro n hn
          rcases List.mem_cons.1 hn with h | h
          · intro _; rw [h, ← hb, hb0]
          · exact j2 n h
        · intro hall
          have hset := hall node (List.mem_cons_self _ _)
          have hb0 : b = false := by
            rw [hb]
            exact hset (by rw [← haction node]; exact hact)
          obtain ⟨j1, j2⟩ := i2 (fun n hn => hall n (List.mem_cons_of_mem _ hn))
          rw [hb0] at ho
          obtain ⟨a, ha1, ha2⟩ := hkeep node t ho
          refine ⟨?_, ?_⟩
          · rw [j1, hb0]; simp
          · rw [addedNodes_cons]
            simp only [ha1, List.map_cons, List.map_nil, List.singleton_append]
            rw [j2, ha2]
    · rw [if_neg hact]
      cases ho : ((classes.Copy node).run classes.IsCompilable t).outcome with
      | error e => intro h; cases h
      | ok u =>
        simp only []
        intro hok
        obtain ⟨i1, i2⟩ := ih _ (d || false) hok
        refine ⟨?_, ?_⟩
        · intro hd
          obtain ⟨j1, j2⟩ := i1 hd
          have hd0 : d = false := by cases d <;> simp_all
          refine ⟨hd0, ?_⟩
          intro n hn
          rcases List.mem_cons.1 hn with h | h
          · intro hc
            rw [h, ← haction node] at hc
            exact absurd hc hact
          · exact j2 n h
        · intro hall
          obtain ⟨j1, j2⟩ := i2 (fun n hn => hall n (List.mem_cons_of_mem _ hn))
          obtain ⟨a, ha1, ha2⟩ := hcopy node t ho
          refine ⟨?_, ?_⟩
          · rw [j1]; simp
          · rw [addedNodes_cons]
            simp only [ha1, List.map_cons, List.map_nil, List.singleton_append]
            rw [j2, ha2]

/-- What a refinement pass that completes leaves in the transformer and in its record. -/
theorem refinementPass_model (classes : NodeClasses) (context : TransformContext)
    (t : ModelTransformer) (h : (refinementPass classes context t).1 = .ok ()) :
    (refinementPass classes context t).2.1.model.nodes
      = addedNodes (refinementPass classes context t).2.2.visits ∧
    (refinementPass classes context t).2.2.visits
      = (refineVisit classes context t.model.Visit
          { t with model := ⟨[]⟩, elementsMap := t.elementsMap.Clear,
                   isModelCompilable := true } false).visits ∧
    (refinementPass classes context t).2.2.didRefineAny
      = (refineVisit classes context t.model.Visit
          { t with model := ⟨[]⟩, elementsMap := t.elementsMap.Clear,
                   isModelCompilable := true } false).didRefineAny ∧
    (refineVisit classes context t.model.Visit
          { t with model := ⟨[]⟩, elementsMap := t.elementsMap.Clear,
                   isModelCompilable := true } false).outcome = .ok () := by
  unfold refinementPass at h ⊢
  simp only [] at h ⊢
  have hm := refineVisit_model classes context t.model.Visit
    { t with model := ⟨[]⟩, elementsMap := t.elementsMap.Clear, isModelCompilable := true } false
  cases hv : (refineVisit classes context t.model.Visit
      { t with model := ⟨[]⟩, elementsMap := t.elementsMap.Clear,
               isModelCompilable := true } false).outcome with
  | error e => rw [hv] at h; cases h
  | ok u =>
    rw [hv] at h
    simp only [] at h ⊢
    have hc := (composeMaps_facts t.elementsMap (refineVisit classes context t.model.Visit
      { t with model := ⟨[]⟩, elementsMap := t.elementsMap.Clear,
               isModelCompilable := true } false).transformer).2.2.1
    rcases hcm : composeMaps t.elementsMap (refineVisit classes context t.model.Visit
      { t with model := ⟨[]⟩, elementsMap := t.elementsMap.Clear,
               isModelCompilable := true } false).transformer with ⟨o, t3⟩
    rw [hcm] at h hc
    cases o with
    | error e => cases h
    | ok u2 =>
      simp only [] at hc ⊢
      refine ⟨?_, trivial, trivial, trivial⟩
      rw [hc, hm]
      simp


/-- The model returned by `RefineModel` is the model under construction at the end of the
loop. -/
theorem RefineModel_ok_model (t : ModelTransformer) (classes : NodeClasses) (oldModel : Model)
    (context : TransformContext) (maxIterations : Int) (hmax : 1 ≤ maxIterations)
    (model m : Model)
    (hc : ((t.beforeCopy context).CopyModel classes oldModel [] context).result = .ok model)
    (h : (t.RefineModel classes oldModel context maxIterations).result = .ok m) :
    (refineLoop classes context maxIterations.toNat
        (t.afterCopy classes oldModel context model)).1 = .ok () ∧
    m = (refineLoop classes context maxIterations.toNat
        (t.afterCopy classes oldModel context model)).2.1.model := by
  unfold ModelTransformer.RefineModel at h
  unfold ModelTransformer.beforeCopy at hc
  unfold ModelTransformer.afterCopy ModelTransformer.beforeCopy
  rw [if_neg (by omega)] at h
  simp only [hc] at h
  rcases hl : refineLoop classes context maxIterations.toNat
      { ((({ t with context := context, elementsMap := t.elementsMap.Clear } :
        ModelTransformer).CopyModel classes oldModel [] context).transformer) with
        model := model } with ⟨o, t3, ps⟩
  rw [hl] at h
  cases o with
  | error e => cases h
  | ok u =>
    simp only [RefineOutcome.mk.injEq, Except.ok.injEq] at h ⊢
    exact ⟨trivial, h.symm⟩

theorem Model.Visit_eq (model : Model) : model.Visit = model.nodes := rfl

/-- The loop of `RefineModel` with kind-stable classes: when it completes and its last pass
refined no node, the model it leaves has settled nodes only. -/
theorem refineLoop_last_settled (classes : NodeClasses) (context : TransformContext)
    (action : Nat → NodeAction) (refines : Nat → Bool)
    (hs : KindStable classes context action refines) :
    ∀ (n : Nat) (t : ModelTransformer), (refineLoop classes context n t).1 = .ok () →
      ∀ p, (refineLoop classes context n t).2.2.getLast? = some p → p.didRefineAny = false →
        ∀ x ∈ (refineLoop classes context n t).2.1.model.nodes,
          Settled action refines x.kind := by
  intro n
  induction n with
  | zero => intro t _ p hp; simp [refineLoop] at hp
  | succ n ih =>
    intro t
    rw [refineLoop_succ]
    have hm := refinementPass_model classes context t
    rcases hp : refinementPass classes context t with ⟨o, t1, record⟩
    rw [hp] at hm
    cases o with
    | error e => intro h; cases h
    | ok u =>
      obtain ⟨m1, m2, m3, m4⟩ := hm rfl
      simp only [] at m1 m2 m3 ⊢
      have hv := refineVisit_stable classes context action refines hs t.model.Visit _ false m4
      by_cases hc : (!record.didRefineAny || t1.isModelCompilable) = true
      · rw [if_pos hc]
        intro _ p hlast hd x hx
        simp only [List.getLast?_singleton, Option.some.injEq] at hlast
        rw [← hlast, m3] at hd
        have hall := (hv.1 hd).2
        have hk := (hv.2 hall).2
        rw [m1, m2] at hx
        have hx2 : x.kind ∈ (t.model.Visit).map Node.kind := by
          rw [← hk]; exact List.mem_map_of_mem _ hx
        obtain ⟨y, hy, hyk⟩ := List.mem_map.1 hx2
        rw [← hyk]
        exact hall y hy
      · rw [if_neg hc]
        simp only []
        intro hok p hlast hd
        cases hps : (refineLoop classes context n t1).2.2 with
        | nil =>
          rw [hps] at hlast
          simp only [List.getLast?_singleton, Option.some.injEq] at hlast
          rw [← hlast] at hd
          rw [hd] at hc
          simp at hc
        | cons q qs =>
          rw [hps, List.getLast?_cons_cons] at hlast
          rw [← hps] at hlast
          exact ih t1 hok p hlast hd

/-- The loop of `RefineModel` with kind-stable classes on a model of settled nodes: when it
completes, it has made one pass, which refined no node and added one node of the same kind
for each node of the model. -/
theorem refineLoop_settled (classes : NodeClasses) (context : TransformContext)
    (action : Nat → NodeAction) (refines : Nat → Bool)
    (hs : KindStable classes context action refines) (n : Nat) (t : ModelTransformer)
    (hall : ∀ x ∈ t.model.nodes, Settled action refines x.kind)
    (hok : (refineLoop classes context (n + 1) t).1 = .ok ()) :
    (refineLoop classes context (n + 1) t).2.2.length = 1 ∧
    (∀ p ∈ (refineLoop classes context (n + 1) t).2.2, p.didRefineAny = false) ∧
    (refineLoop classes context (n + 1) t).2.1.model.nodes.map Node.kind
      = t.model.nodes.map Node.kind := by
  rw [refineLoop_succ] at hok ⊢
  have hm := refinementPass_model classes context t
  rcases hp : refinementPass classes context t with ⟨o, t1, record⟩
  rw [hp] at hm hok
  cases o with
  | error e => cases hok
  | ok u =>
    obtain ⟨m1, m2, m3, m4⟩ := hm rfl
    simp only [] at m1 m2 m3 hok ⊢
    have hv := (refineVisit_stable classes context action refines hs t.model.Visit _ false
      m4).2 hall
    have hd : record.didRefineAny = false := by rw [m3]; exact hv.1
    rw [if_pos (by rw [hd]; rfl)]
    refine ⟨rfl, ?_, ?_⟩
    · intro p hp
      rw [List.mem_singleton.1 hp]; exact hd
    · simp only []
      rw [m1, m2]
      exact hv.2


theorem setMetadata_kind (port : OutputPortBase) (md : List (String × String)) :
    ∀ nodes : List Node,
      (setMetadata port md nodes).map Node.kind = nodes.map Node.kind := by
  intro nodes
  induction nodes with
  | nil => rfl
  | cons n rest ih =>
    rw [setMetadata]
    by_cases h : port ∈ n.outputs
    · rw [if_pos h]; rfl
    · rw [if_neg h, List.map_cons, ih]; rfl

/-- The second visit of `CopyModel` keeps the kinds of the nodes. -/
theorem metadataVisit_kinds (nodes : List Node) :
    ∀ t : ModelTransformer,
      (metadataVisit nodes t).2.model.nodes.map Node.kind = t.model.nodes.map Node.kind := by
  induction nodes with
  | nil => intro t; simp [metadataVisit]
  | cons node rest ih =>
    intro t
    rw [metadataVisit]
    cases ho : node.outputs with
    | nil => exact ih t
    | cons outputPort others =>
      simp only []
      cases hg : t.elementsMap.GetCorrespondingPortElements (PortElementsBase.ofPort outputPort) with
      | error e => simp
      | ok elements =>
        simp only []
        cases hr : elements.GetRanges with
        | nil => exact ih t
        | cons range ranges =>
          simp only []
          rw [ih]
          exact setMetadata_kind _ _ _

theorem metadataPass_kinds (nodes : List Node) (t : ModelTransformer) :
    (metadataPass nodes t).2.model.nodes.map Node.kind = t.model.nodes.map Node.kind :=
  metadataVisit_kinds _ t

/-- The first visit of `CopyModel` with kind-stable classes adds one node of the same kind for
each node visited. -/
theorem copyVisit_kinds (classes : NodeClasses) (context : TransformContext)
    (action : Nat → NodeAction) (refines : Nat → Bool)
    (hs : KindStable classes context action refines) (nodes : List Node) :
    ∀ t : ModelTransformer, (copyVisit classes nodes t).outcome = .ok () →
      (addedNodes (copyVisit classes nodes t).visits).map Node.kind = nodes.map Node.kind := by
  obtain ⟨hcopy, _, _, _⟩ := hs
  induction nodes with
  | nil => intro t _; simp [copyVisit, addedNodes]
  | cons node rest ih =>
    intro t
    rw [copyVisit]
    simp only []
    cases ho : ((classes.Copy node).run classes.IsCompilable t).outcome with
    | error e => intro h; cases h
    | ok u =>
      simp only []
      intro hok
      obtain ⟨a, ha1, ha2⟩ := hcopy node t ho
      rw [addedNodes_cons]
      simp only [ha1, List.map_cons, List.map_nil, List.singleton_append]
      rw [ih _ hok, ha2]

/-- The model returned by `CopyModel` with kind-stable classes has one node of the same kind
for each node visited. -/
theorem CopyModel_kinds (t : ModelTransformer) (classes : NodeClasses) (oldModel : Model)
    (outputNodes : List Node) (context context2 : TransformContext)
    (action : Nat → NodeAction) (refines : Nat → Bool)
    (hs : KindStable classes context2 action refines) (model : Model)
    (h : (t.CopyModel classes oldModel outputNodes context).result = .ok model) :
    model.nodes.map Node.kind = (oldModel.VisitSubset outputNodes).map Node.kind := by
  unfold ModelTransformer.CopyModel at h
  simp only [] at h
  have hk := copyVisit_kinds classes context2 action refines hs (oldModel.VisitSubset outputNodes)
    { t with context := context, model := ⟨[]⟩, elementsMap := t.elementsMap.Clear }
  have hm := copyVisit_model classes (oldModel.VisitSubset outputNodes)
    { t with context := context, model := ⟨[]⟩, elementsMap := t.elementsMap.Clear }
  cases hv : (copyVisit classes (oldModel.VisitSubset outputNodes)
    { t with context := context, model := ⟨[]⟩, elementsMap := t.elementsMap.Clear }).outcome with
  | error e => rw [hv] at h; cases h
  | ok u =>
    rw [hv] at h
    simp only [] at h
    have hmk := metadataPass_kinds (oldModel.VisitSubset outputNodes)
      { (copyVisit classes (oldModel.VisitSubset outputNodes)
          { t with context := context, model := ⟨[]⟩, elementsMap := t.elementsMap.Clear }).transformer
        with context := TransformContext.default }
    rcases hmv : metadataPass (oldModel.VisitSubset outputNodes)
      { (copyVisit classes (oldModel.VisitSubset outputNodes)
          { t with context := context, model := ⟨[]⟩, elementsMap := t.elementsMap.Clear }).transformer
        with context := TransformContext.default } with ⟨o, t3⟩
    rw [hmv] at h hmk
    cases o with
    | error e => cases h
    | ok u2 =>
      simp only [CopyOutcome.mk.injEq, Except.ok.injEq] at h
      simp only [] at hmk
      rw [← h, hmk, hm, ← hk hv]
      simp [addedNodes]

/-- The hook `registerOutputs` adds no node. -/
theorem registerOutputs_added {α : Type} (IsCompilable : Node → Option Nat → Bool) (result : α)
    (ports : List OutputPortBase) :
    ∀ t : ModelTransformer,
      ((registerOutputs ports (.done result)).run IsCompilable t).added = [] ∧
      ∀ b, ((registerOutputs ports (.done result)).run IsCompilable t).outcome = .ok b →
        b = result := by
  induction ports with
  | nil =>
    intro t
    simp only [registerOutputs, HookProgram.run, true_and]
    intro b hb
    cases hb
    rfl
  | cons port rest ih =>
    intro t
    rw [registerOutputs, HookProgram.run]
    rcases hm : t.MapNodeOutput port (PortElementsBase.ofPort (copiedPort port)) with ⟨o, t2⟩
    cases o with
    | error e =>
      simp only [true_and]
      intro b hb
      cases hb
    | ok u => exact ih t2

/-- The hook `emitHook`, when it returns, has added one node of the given kind and returns the
given value. -/
theorem emitHook_run {α : Type} (IsCompilable : Node → Option Nat → Bool) (result : α)
    (kind : Nat) (node : Node) (t : ModelTransformer) (b : α)
    (h : ((emitHook result kind node).run IsCompilable t).outcome = .ok b) :
    b = result ∧
    ∃ a, ((emitHook result kind node).run IsCompilable t).added = [a] ∧ a.1.kind = kind := by
  unfold emitHook at h ⊢
  rw [HookProgram.run] at h ⊢
  cases hi : transformInputs t node.inputs with
  | error e =>
    rw [hi] at h
    simp only [HookProgram.run] at h
    cases h
  | ok newInputs =>
    rw [hi] at h
    simp only [HookProgram.run] at h ⊢
    obtain ⟨r1, r2⟩ := registerOutputs_added IsCompilable result node.outputs
      (t.AddNode IsCompilable ⟨node.id + 1000, kind, newInputs, node.outputs.map copiedPort, []⟩)
    refine ⟨r2 b h, (⟨node.id + 1000, kind, newInputs, node.outputs.map copiedPort, []⟩,
      t.context.IsNodeCompilable IsCompilable
        ⟨node.id + 1000, kind, newInputs, node.outputs.map copiedPort, []⟩), ?_, rfl⟩
    rw [r1]

/-- The classes `copyingClasses` are kind-stable under the context `refiningContext`. -/
theorem copyingClasses_stable :
    KindStable copyingClasses refiningContext (fun _ => NodeAction.refine) (fun _ => false) := by
  refine ⟨?_, ?_, ?_, ?_⟩
  · intro n t h
    exact (emitHook_run _ () n.kind n t () h).2
  · intro n t h
    exact (emitHook_run _ false n.kind n t false h).2
  · intro n t b h
    exact (emitHook_run _ false n.kind n t b h).1
  · intro n
    rfl


theorem copiedPort_injective : Function.Injective copiedPort := by
  intro a b h
  cases a; cases b
  simp only [copiedPort, OutputPortBase.mk.injEq] at h
  simp only [OutputPortBase.mk.injEq]
  omega

/-- The values of an input port, element by element. -/
theorem inputValues_eq (b : Buffers) (e : PortElementsBase) :
    b.inputValues e = e.elements.map fun x => (b.GetOutput x.1).getD x.2 0 := by
  have hlen : e.elements.length = e.Size := length_rangesElements e.GetRanges
  apply List.ext_getElem?
  intro i
  simp only [Buffers.inputValues, List.getElem?_map, List.getElem?_range]
  by_cases hi : i < e.Size
  · rw [List.getElem?_range hi]
    have hi2 : i < e.elements.length := by omega
    simp [Buffers.elementValue, PortElementsBase.GetElement, List.getElem?_eq_getElem hi2]
  · rw [List.getElem?_eq_none (by simpa using hi),
      List.getElem?_eq_none (by omega)]
    rfl

/-- The ports referenced by ranges without empty range are the ports of their elements. -/
theorem port_of_elements (rs : List PortRange) (q : OutputPortBase) :
    (∃ x ∈ rangesElements rs, x.1 = q) → ∃ r ∈ rs, r.ReferencedPort = q := by
  rintro ⟨x, hx, hq⟩
  simp only [rangesElements, List.mem_flatMap] at hx
  obtain ⟨r, hr, hxr⟩ := hx
  simp only [PortRange.elements, List.mem_map, List.mem_range] at hxr
  obtain ⟨i, _, hi⟩ := hxr
  exact ⟨r, hr, by rw [← hq, ← hi]⟩

theorem elements_of_port (rs : List PortRange) (hne : RangesNonempty rs) (q : OutputPortBase) :
    (∃ r ∈ rs, r.ReferencedPort = q) → ∃ x ∈ rangesElements rs, x.1 = q := by
  rintro ⟨r, hr, hq⟩
  refine ⟨(r.ReferencedPort, r.GetStartIndex + 0), ?_, hq⟩
  simp only [rangesElements, List.mem_flatMap]
  refine ⟨r, hr, ?_⟩
  simp only [PortRange.elements, List.mem_map, List.mem_range]
  exact ⟨0, hne r hr, rfl⟩

theorem mem_elements (e : PortElementsBase) (x : OutputPortBase × Nat) (hx : x ∈ e.elements) :
    ∃ r ∈ e.GetRanges, x.1 = r.ReferencedPort ∧ x.2 < r.GetStartIndex + r.Size := by
  simp only [PortElementsBase.elements, List.mem_flatMap] at hx
  obtain ⟨r, hr, hxr⟩ := hx
  simp only [PortRange.elements, List.mem_map, List.mem_range] at hxr
  obtain ⟨i, hi, hxi⟩ := hxr
  refine ⟨r, hr, ?_, ?_⟩
  · rw [← hxi]
  · rw [← hxi]; simp only []; omega

theorem setMetadata_map {β : Type} (f : Node → β)
    (hf : ∀ (n : Node) (md : List (String × String)), f { n with metadata := md } = f n)
    (port : OutputPortBase) (md : List (String × String)) :
    ∀ nodes : List Node, (setMetadata port md nodes).map f = nodes.map f := by
  intro nodes
  induction nodes with
  | nil => rfl
  | cons n rest ih =>
    rw [setMetadata]
    by_cases h : port ∈ n.outputs
    · rw [if_pos h, List.map_cons, List.map_cons, hf]
    · rw [if_neg h, List.map_cons, ih]; rfl

/-- The second visit of `CopyModel` changes nothing but metadata. -/
theorem metadataVisit_map {β : Type} (f : Node → β)
    (hf : ∀ (n : Node) (md : List (String × String)), f { n with metadata := md } = f n)
    (nodes : List Node) :
    ∀ t : ModelTransformer,
      (metadataVisit nodes t).2.model.nodes.map f = t.model.nodes.map f := by
  induction nodes with
  | nil => intro t; simp [metadataVisit]
  | cons node rest ih =>
    intro t
    rw [metadataVisit]
    cases ho : node.outputs with
    | nil => exact ih t
    | cons outputPort others =>
      simp only []
      cases hg : t.elementsMap.GetCorrespondingPortElements (PortElementsBase.ofPort outputPort) with
      | error e => simp
      | ok elements =>
        simp only []
        cases hr : elements.GetRanges with
        | nil => exact ih t
        | cons range ranges =>
          simp only []
          rw [ih]
          exact setMetadata_map f hf _ _ _

/-- The second visit of `CopyModel` completes when the first output port of every node
visited has corresponding elements. -/
theorem metadataVisit_ok (nodes : List Node) :
    ∀ t : ModelTransformer,
      (∀ n ∈ nodes, ∀ p ps, n.outputs = p :: ps →
        ∃ e, t.elementsMap.GetCorrespondingPortElements (PortElementsBase.ofPort p) = .ok e) →
      (metadataVisit nodes t).1 = .ok () := by
  induction nodes with
  | nil => intro t _; rfl
  | cons node rest ih =>
    intro t h
    have hrest : ∀ t2 : ModelTransformer, t2.elementsMap = t.elementsMap →
        (metadataVisit rest t2).1 = .ok () := by
      intro t2 h2
      apply ih
      intro n hn p ps hp
      rw [h2]
      exact h n (List.mem_cons_of_mem _ hn) p ps hp
    rw [metadataVisit]
    cases ho : node.outputs with
    | nil => exact hrest t rfl
    | cons outputPort others =>
      simp only []
      obtain ⟨e, he⟩ := h node (List.mem_cons_self _ _) outputPort others ho
      rw [he]
      simp only []
      cases hr : e.GetRanges with
      | nil => exact hrest t rfl
      | cons range ranges => exact hrest _ rfl

theorem afterWrites_outputs (writes : List (OutputPortBase × List (String × String))) :
    ∀ node : Node, (node.afterWrites writes).outputs = node.outputs := by
  induction writes with
  | nil => intro node; rfl
  | cons w ws ih =>
    intro node
    unfold Node.afterWrites at ih ⊢
    rw [List.foldl_cons, ih]
    split <;> rfl

/-- The second visit of `CopyModel` reads nodes with the output ports of the nodes visited. -/
theorem metadataReads_outputs (map : PortOutputsMap) (nodes : List Node) :
    ∀ writes : List (OutputPortBase × List (String × String)),
      (metadataReads map nodes writes).map Node.outputs = nodes.map Node.outputs := by
  induction nodes with
  | nil => intro writes; rfl
  | cons node rest ih =>
    intro writes
    rw [metadataReads, List.map_cons, List.map_cons, ih, afterWrites_outputs]

theorem metadataPass_map {β : Type} (f : Node → β)
    (hf : ∀ (n : Node) (md : List (String × String)), f { n with metadata := md } = f n)
    (nodes : List Node) (t : ModelTransformer) :
    (metadataPass nodes t).2.model.nodes.map f = t.model.nodes.map f :=
  metadataVisit_map f hf _ t

/-- The second visit of `CopyModel` completes when the first output port of every node
visited has corresponding elements. -/
theorem metadataPass_ok (nodes : List Node) (t : ModelTransformer)
    (h : ∀ n ∈ nodes, ∀ p ps, n.outputs = p :: ps →
      ∃ e, t.elementsMap.GetCorrespondingPortElements (PortElementsBase.ofPort p) = .ok e) :
    (metadataPass nodes t).1 = .ok () := by
  apply metadataVisit_ok
  intro n hn p ps hp
  have hmem : n.outputs ∈ (metadataReads t.elementsMap nodes []).map Node.outputs :=
    List.mem_map_of_mem _ hn
  rw [metadataReads_outputs] at hmem
  obtain ⟨n0, hn0, ho⟩ := List.mem_map.1 hmem
  exact h n0 hn0 p ps (by rw [ho]; exact hp)

/-- The call `CopyModel` returns when its two visits complete. -/
theorem CopyModel_intro (t : ModelTransformer) (classes : NodeClasses) (oldModel : Model)
    (outputNodes : List Node) (context : TransformContext)
    (h1 : (copyVisit classes (oldModel.VisitSubset outputNodes)
      { t with context := context, model := ⟨[]⟩, elementsMap := t.elementsMap.Clear }).outcome
        = .ok ())
    (h2 : (metadataPass (oldModel.VisitSubset outputNodes)
      { (copyVisit classes (oldModel.VisitSubset outputNodes)
          { t with context := context, model := ⟨[]⟩,
                   elementsMap := t.elementsMap.Clear }).transformer
        with context := TransformContext.default }).1 = .ok ()) :
    (t.CopyModel classes oldModel outputNodes context).result
      = .ok (metadataPass (oldModel.VisitSubset outputNodes)
          { (copyVisit classes (oldModel.VisitSubset outputNodes)
              { t with context := context, model := ⟨[]⟩,
                       elementsMap := t.elementsMap.Clear }).transformer
            with context := TransformContext.default }).2.model ∧
    (t.CopyModel classes oldModel outputNodes context).transformer.elementsMap
      = (copyVisit classes (oldModel.VisitSubset outputNodes)
          { t with context := context, model := ⟨[]⟩,
                   elementsMap := t.elementsMap.Clear }).transformer.elementsMap := by
  unfold ModelTransformer.CopyModel
  simp only [h1]
  have hf := (metadataPass_facts (oldModel.VisitSubset outputNodes)
      { (copyVisit classes (oldModel.VisitSubset outputNodes)
          { t with context := context, model := ⟨[]⟩,
                   elementsMap := t.elementsMap.Clear }).transformer
        with context := TransformContext.default }).2.1
  rcases hmv : metadataPass (oldModel.VisitSubset outputNodes)
      { (copyVisit classes (oldModel.VisitSubset outputNodes)
          { t with context := context, model := ⟨[]⟩,
                   elementsMap := t.elementsMap.Clear }).transformer
        with context := TransformContext.default } with ⟨o, t3⟩
  rw [hmv] at h2 hf
  simp only [] at h2 hf
  rw [h2]
  exact ⟨rfl, hf⟩

/-- The vectors stored by `storeOutputs` when the values have the sizes of the ports. -/
theorem storeOutputs_sized (ports : List OutputPortBase) :
    ∀ (b : Buffers) (values : List (List Int)),
      (∀ (i : Nat) (port : OutputPortBase), ports[i]? = some port →
        (values.getD i []).length = port.Size) →
      ∀ p, (p ∈ ports → ((storeOutputs b ports values).GetOutput p).length = p.Size) ∧
        (p ∉ ports → (storeOutputs b ports values).GetOutput p = b.GetOutput p) := by
  induction ports with
  | nil => intro b values _ p; simp [storeOutputs]
  | cons port rest ih =>
    intro b values h p
    rw [storeOutputs]
    have h0 : (values.headD []).length = port.Size := by
      have := h 0 port (by simp)
      cases values <;> simpa using this
    have hrest : ∀ (i : Nat) (q : OutputPortBase), rest[i]? = some q →
        (values.tail.getD i []).length = q.Size := by
      intro i q hq
      have := h (i + 1) q (by simpa using hq)
      cases values with
      | nil => simpa using this
      | cons v vs => simpa using this
    obtain ⟨i1, i2⟩ := ih (b.SetOutput port (values.headD [])) values.tail hrest p
    by_cases hp : p ∈ rest
    · exact ⟨fun _ => i1 hp, fun hn => absurd (List.mem_cons_of_mem _ hp) hn⟩
    · rw [i2 hp]
      simp only [Buffers.SetOutput]
      constructor
      · intro hmem
        rcases List.mem_cons.1 hmem with h1 | h1
        · rw [if_pos h1, h1]; exact h0
        · exact absurd h1 hp
      · intro hn
        rw [if_neg (fun h1 => hn (by rw [h1]; exact List.mem_cons_self _ _))]

/-- After a visit that computes nodes whose vectors have the sizes of their ports, a port of
a node visited holds a vector of its size. -/
theorem computeVisit_sized (compute : Nat → List (List Int) → List (List Int))
    (nodes : List Node) :
    ∀ b : Buffers,
      (∀ node ∈ nodes, ∀ (inputs : List (List Int)) (i : Nat) (port : OutputPortBase),
        node.outputs[i]? = some port →
          ((compute node.kind inputs).getD i []).length = port.Size) →
      ∀ p, ((b.GetOutput p).length = p.Size ∨ ∃ n ∈ nodes, p ∈ n.outputs) →
        ((computeVisit compute nodes b).GetOutput p).length = p.Size := by
  induction nodes with
  | nil =>
    intro b _ p hp
    rcases hp with h | ⟨n, hn, _⟩
    · exact h
    · cases hn
  | cons node rest ih =>
    intro b hs p hp
    rw [computeVisit]
    apply ih _ (fun n hn => hs n (List.mem_cons_of_mem _ hn))
    obtain ⟨s1, s2⟩ := storeOutputs_sized node.outputs b
      (compute node.kind (node.inputs.map b.inputValues))
      (hs node (List.mem_cons_self _ _) _) p
    by_cases hmem : p ∈ node.outputs
    · left; exact s1 hmem
    · rcases hp with h | ⟨n, hn, hpn⟩
      · left
        unfold Node.Compute
        rw [s2 hmem]; exact h
      · rcases List.mem_cons.1 hn with h1 | h1
        · rw [h1] at hpn; exact absurd hpn hmem
        · right; exact ⟨n, h1, hpn⟩

/-- The closure of a set of nodes holds the nodes kept so far and the nodes of the set, and
nodes of the model only. -/
theorem closureLoop_mem (outputNodes : List Node) (nodes : List Node) :
    ∀ kept : List Node,
      (∀ n ∈ kept, n ∈ closureLoop outputNodes nodes kept) ∧
      (∀ n ∈ nodes, n ∈ outputNodes → n ∈ closureLoop outputNodes nodes kept) ∧
      (∀ n ∈ closureLoop outputNodes nodes kept, n ∈ nodes ∨ n ∈ kept) := by
  induction nodes with
  | nil => intro kept; simp [closureLoop]
  | cons node rest ih =>
    intro kept
    rw [closureLoop]
    split
    · rename_i hc
      obtain ⟨i1, i2, i3⟩ := ih (node :: kept)
      refine ⟨fun n hn => i1 n (List.mem_cons_of_mem _ hn), ?_, ?_⟩
      · intro n hn ho
        rcases List.mem_cons.1 hn with h | h
        · rw [h]; exact i1 node (List.mem_cons_self _ _)
        · exact i2 n h ho
      · intro n hn
        rcases i3 n hn with h | h
        · left; exact List.mem_cons_of_mem _ h
        · rcases List.mem_cons.1 h with h1 | h1
          · left; rw [h1]; exact List.mem_cons_self _ _
          · right; exact h1
    · rename_i hc
      obtain ⟨i1, i2, i3⟩ := ih kept
      refine ⟨i1, ?_, ?_⟩
      · intro n hn ho
        rcases List.mem_cons.1 hn with h | h
        · exfalso
          apply hc
          rw [h] at ho
          simp [ho]
        · exact i2 n h ho
      · intro n hn
        rcases i3 n hn with h | h
        · left; exact List.mem_cons_of_mem _ h
        · right; exact h

/-- The set `usedNodes` of elements whose ranges are all on one port is made of the owner of
the port. -/
theorem usedNodesLoop_single (model : Model) (q : OutputPortBase) (owner : Node)
    (ho : model.GetNode q = some owner) :
    ∀ ranges : List PortRange, (∀ r ∈ ranges, r.ReferencedPort = q) →
      usedNodesLoop model ranges [owner] = [owner] ∧
      (ranges ≠ [] → usedNodesLoop model ranges [] = [owner]) := by
  intro ranges
  induction ranges with
  | nil => intro _; exact ⟨rfl, fun h => absurd rfl h⟩
  | cons r rest ih =>
    intro h
    obtain ⟨i1, _⟩ := ih (fun r2 hr2 => h r2 (List.mem_cons_of_mem _ hr2))
    have hr := h r (List.mem_cons_self _ _)
    constructor
    · rw [usedNodesLoop, hr, ho]
      simp only [List.mem_singleton, if_true]
      exact i1
    · intro _
      rw [usedNodesLoop, hr, ho]
      simp only [List.not_mem_nil, if_false, List.nil_append]
      exact i1

theorem range_getD (l : List Int) (n : Nat) (h : l.length = n) :
    (List.range n).map (fun i => l.getD (0 + i) 0) = l := by
  apply List.ext_getElem?
  intro i
  by_cases hi : i < n
  · rw [List.getElem?_map, List.getElem?_range hi]
    simp only [Option.map_some', Nat.zero_add]
    rw [List.getD_eq_getElem?_getD, List.getElem?_eq_getElem (by omega)]
    rfl
  · rw [List.getElem?_eq_none (by simpa using hi), List.getElem?_eq_none (by omega)]

/-- The values of the elements of a whole port are the vector held by the port, when it has
the size of the port. -/
theorem inputValues_ofPort (b : Buffers) (p : OutputPortBase)
    (h : (b.GetOutput p).length = p.Size) :
    b.inputValues (PortElementsBase.ofPort p) = b.GetOutput p := by
  rw [inputValues_eq]
  simp only [PortElementsBase.ofPort, PortElementsBase.elements, List.flatMap_cons,
    List.flatMap_nil, List.append_nil, PortRange.elements, List.map_map, Function.comp]
  exact range_getD _ _ h

set_option maxRecDepth 4000 in
/-- The entries of the vector `charCodes` of the encoders. -/
theorem encodeCharCodes_lookup :
    ∀ ch, ch < 127 → JsonUtilities.encodeCharCodes[ch]?
      = some (if mustEscape ch then escapeLetter ch else 0) := by
  decide

set_option maxRecDepth 4000 in
/-- The entries of the vector `charCodes` of the decoders at the letters of the escaped
characters. -/
theorem decodeCharCodes_lookup :
    ∀ ch, ch < 127 → mustEscape ch = true →
      JsonUtilities.decodeCharCodes[escapeLetter ch]? = some ch ∧ ch ≠ 0 ∧
        escapeLetter ch ≠ 0 := by
  decide

theorem mustEscape_backslash (ch : Nat) (h : mustEscape ch = false) : ch ≠ 92 := by
  intro h92
  rw [h92] at h
  exact absurd h (by decide)

/-- The encoding loop writes the escaped form of every character. -/
theorem encodeLoop_eq (str : List Nat) :
    ∀ s : List Nat, (∀ ch ∈ str, ch ≤ 126) →
      encodeLoop JsonUtilities.encodeCharCodes str s = some (s ++ str.flatMap escapedForm) := by
  induction str with
  | nil => intro s _; simp [encodeLoop]
  | cons ch rest ih =>
    intro s h
    have hch : ch < 127 := by
      have := h ch (List.mem_cons_self _ _)
      omega
    rw [encodeLoop, encodeCharCodes_lookup ch hch]
    simp only []
    have hrest := fun s2 => ih s2 (fun c hc => h c (List.mem_cons_of_mem _ hc))
    cases hm : mustEscape ch with
    | false =>
      simp only [Bool.false_eq_true, if_false, if_true, escapedForm, hm, List.flatMap_cons]
      rw [hrest]
      simp
    | true =>
      have hl := (decodeCharCodes_lookup ch hch hm).2.2
      simp only [if_true, escapedForm, hm, List.flatMap_cons, if_neg hl]
      rw [hrest]
      simp

/-- The decoding loop turns the escaped forms back into the characters. -/
theorem decodeLoop_escaped (str : List Nat) :
    ∀ s : List Nat, (∀ ch ∈ str, ch ≤ 126) →
      decodeLoop JsonUtilities.decodeCharCodes (str.flatMap escapedForm) false s
        = some (s ++ str) := by
  induction str with
  | nil => intro s _; simp [decodeLoop]
  | cons ch rest ih =>
    intro s h
    have hch : ch < 127 := by
      have := h ch (List.mem_cons_self _ _)
      omega
    have hrest := fun s2 => ih s2 (fun c hc => h c (List.mem_cons_of_mem _ hc))
    rw [List.flatMap_cons]
    cases hm : mustEscape ch with
    | false =>
      simp only [escapedForm, hm, Bool.false_eq_true, if_false, List.singleton_append]
      rw [decodeLoop]
      simp only [Bool.false_eq_true, if_false, if_neg (mustEscape_backslash ch hm)]
      rw [hrest]
      simp
    | true =>
      obtain ⟨h1, h2, _⟩ := decodeCharCodes_lookup ch hch hm
      simp only [escapedForm, hm, if_true, List.cons_append, List.nil_append]
      rw [decodeLoop]
      simp only [Bool.false_eq_true, if_false, if_true]
      rw [decodeLoop]
      simp only [if_true, h1, if_neg h2]
      rw [hrest]
      simp

/-- No character of an escaped form is a newline, a carriage return, a tab, a backspace or a
form feed. -/
theorem escapedForm_clean (ch x : Nat) (hx : x ∈ escapedForm ch) :
    x ≠ 10 ∧ x ≠ 13 ∧ x ≠ 9 ∧ x ≠ 8 ∧ x ≠ 12 := by
  unfold escapedForm at hx
  cases hm : mustEscape ch with
  | false =>
    rw [hm] at hx
    simp only [Bool.false_eq_true, if_false, List.mem_singleton] at hx
    rw [hx]
    simp only [mustEscape, Bool.or_eq_false_iff, decide_eq_false_iff_not] at hm
    omega
  | true =>
    rw [hm] at hx
    simp only [if_true, List.mem_cons, List.mem_singleton, List.not_mem_nil, or_false] at hx
    rcases hx with h | h
    · omega
    · rw [h]
      simp only [mustEscape, Bool.or_eq_true, decide_eq_true_eq] at hm
      unfold escapeLetter
      split_ifs <;> omega

theorem length_flatMap_escapedForm (str : List Nat) :
    (str.flatMap escapedForm).length = str.length + str.countP mustEscape := by
  induction str with
  | nil => rfl
  | cons ch rest ih =>
    rw [List.flatMap_cons, List.length_append, ih, List.countP_cons, List.length_cons]
    cases hm : mustEscape ch with
    | false => simp [escapedForm, hm]; omega
    | true => simp [escapedForm, hm]; omega


/-- The inner product with scaled weights is the scaled inner product. -/
theorem dotProduct_scale {R : Type} [CommRing R] (scalar : R) :
    ∀ w dataVector : List R,
      dotProduct (w.map fun a => a * scalar) dataVector = scalar * dotProduct w dataVector := by
  intro w
  induction w with
  | nil => intro dataVector; simp [dotProduct]
  | cons a w ih =>
    intro dataVector
    cases dataVector with
    | nil => simp [dotProduct]
    | cons x xs =>
      simp only [List.map_cons, dotProduct, ih]
      ring

/-- The visit of a refinement pass: the nodes visited are the first nodes of the snapshot, all
of them when the visit completes, and every hook call recorded is the call that the pass makes
on the node in the state left by the visit of the nodes before it. -/
theorem refineVisit_dispatch (classes : NodeClasses) (context : TransformContext)
    (nodes : List Node) :
    ∀ (t : ModelTransformer) (d : Bool),
      ((refineVisit classes context nodes t d).visits.map NodeVisit.node) <+: nodes ∧
      ((refineVisit classes context nodes t d).outcome = .ok () →
        (refineVisit classes context nodes t d).visits.map NodeVisit.node = nodes) ∧
      (∀ (before : List NodeVisit) (v : NodeVisit) (after : List NodeVisit),
        (refineVisit classes context nodes t d).visits = before ++ v :: after →
        RefineDispatch classes context
          (refineVisit classes context (before.map NodeVisit.node) t d).transformer v) := by
  induction nodes with
  | nil =>
    intro t d
    simp only [refineVisit, List.map_nil, List.prefix_nil, true_and]
    refine ⟨fun _ => trivial, ?_⟩
    intro before v after h
    cases before <;> simp at h
  | cons node rest ih =>
    intro t d
    rw [refineVisit]
    simp only []
    by_cases hact : context.GetNodeAction classes.IsCompilable node = NodeAction.refine ∨
        context.GetNodeAction classes.IsCompilable node = NodeAction.abstain
    · rw [if_pos hact]
      cases ho : ((classes.InvokeRefine node).run classes.IsCompilable t).outcome with
      | error e =>
        simp only [List.map_cons, List.map_nil]
        refine ⟨by simp, (fun h => by cases h), ?_⟩
        intro before v after h
        cases before with
        | nil =>
          simp only [List.nil_append, List.cons.injEq] at h
          rw [← h.1]
          exact ⟨⟨fun _ => hact, fun _ => rfl⟩, (fun _ => ⟨rfl, Or.inr ⟨rfl, e, ho⟩⟩),
            (fun h => by cases h)⟩
        | cons x xs =>
          simp only [List.cons_append, List.cons.injEq] at h
          have := h.2
          cases xs <;> simp at this
      | ok b =>
        simp only [List.map_cons]
        obtain ⟨i1, i2, i3⟩ := ih ((classes.InvokeRefine node).run classes.IsCompilable
          t).transformer (d || b)
        refine ⟨(List.prefix_cons_inj node).2 i1, (fun h => by rw [i2 h]), ?_⟩
        intro before v after h
        cases before with
        | nil =>
          simp only [List.nil_append, List.cons.injEq] at h
          rw [← h.1]
          exact ⟨⟨fun _ => hact, fun _ => rfl⟩, (fun _ => ⟨rfl, Or.inl ho⟩),
            (fun h => by cases h)⟩
        | cons x xs =>
          simp only [List.cons_append, List.cons.injEq] at h
          have hx := i3 xs v after h.2
          rw [← h.1, List.map_cons, refineVisit]
          simp only [if_pos hact, ho]
          exact hx
    · rw [if_neg hact]
      cases ho : ((classes.Copy node).run classes.IsCompilable t).outcome with
      | error e =>
        simp only [List.map_cons, List.map_nil]
        refine ⟨by simp, (fun h => by cases h), ?_⟩
        intro before v after h
        cases before with
        | nil =>
          simp only [List.nil_append, List.cons.injEq] at h
          rw [← h.1]
          exact ⟨⟨(fun h => by cases h), fun h => absurd h hact⟩, (fun h => by cases h),
            (fun _ => ⟨rfl, rfl⟩)⟩
        | cons x xs =>
          simp only [List.cons_append, List.cons.injEq] at h
          have := h.2
          cases xs <;> simp at this
      | ok u =>
        simp only [List.map_cons]
        obtain ⟨i1, i2, i3⟩ := ih ((classes.Copy node).run classes.IsCompilable
          t).transformer (d || false)
        refine ⟨(List.prefix_cons_inj node).2 i1, (fun h => by rw [i2 h]), ?_⟩
        intro before v after h
        cases before with
        | nil =>
          simp only [List.nil_append, List.cons.injEq] at h
          rw [← h.1]
          exact ⟨⟨(fun h => by cases h), fun h => absurd h hact⟩, (fun h => by cases h),
            (fun _ => ⟨rfl, rfl⟩)⟩
        | cons x xs =>
          simp only [List.cons_append, List.cons.injEq] at h
          have hx := i3 xs v after h.2
          rw [← h.1, List.map_cons, refineVisit]
          simp only [if_neg hact, ho]
          exact hx

/-- The record of a refinement pass holds the record of its visit. -/
theorem refinementPass_visits (classes : NodeClasses) (context : TransformContext)
    (t : ModelTransformer) :
    (refinementPass classes context t).2.2.visits
      = (refineVisit classes context t.model.Visit t.passStart false).visits ∧
    (refinementPass classes context t).2.2.didRefineAny
      = (refineVisit classes context t.model.Visit t.passStart false).didRefineAny ∧
    ((refinementPass classes context t).2.2.outcome = .ok () →
      (refineVisit classes context t.model.Visit t.passStart false).outcome = .ok ()) := by
  unfold refinementPass ModelTransformer.passStart
  simp only []
  cases hv : (refineVisit classes context t.model.Visit
      { t with model := ⟨[]⟩, elementsMap := t.elementsMap.Clear,
               isModelCompilable := true } false).outcome with
  | error e => exact ⟨rfl, rfl, (fun h => by simp at h)⟩
  | ok u =>
    simp only []
    rcases hcm : composeMaps t.elementsMap (refineVisit classes context t.model.Visit
      { t with model := ⟨[]⟩, elementsMap := t.elementsMap.Clear,
               isModelCompilable := true } false).transformer with ⟨o, t3⟩
    cases o with
    | error e => exact ⟨rfl, rfl, (fun h => by simp at h)⟩
    | ok u2 => exact ⟨rfl, rfl, fun _ => trivial⟩

/-- Every record of the loop of `RefineModel` is the record of a refinement pass. -/
theorem refineLoop_records (classes : NodeClasses) (context : TransformContext) :
    ∀ (n : Nat) (t : ModelTransformer), ∀ p ∈ (refineLoop classes context n t).2.2,
      ∃ t2 : ModelTransformer, p = (refinementPass classes context t2).2.2 := by
  intro n
  induction n with
  | zero => intro t p hp; simp [refineLoop] at hp
  | succ n ih =>
    intro t p
    rw [refineLoop_succ]
    rcases hp : refinementPass classes context t with ⟨o, t1, record⟩
    have hrec : record = (refinementPass classes context t).2.2 := by rw [hp]
    cases o with
    | error e =>
      simp only [List.mem_singleton]
      intro h; exact ⟨t, by rw [h, hrec]⟩
    | ok u =>
      simp only []
      by_cases hc : (!record.didRefineAny || t1.isModelCompilable) = true
      · rw [if_pos hc]
        simp only [List.mem_singleton]
        intro h; exact ⟨t, by rw [h, hrec]⟩
      · rw [if_neg hc]
        simp only [List.mem_cons]
        rintro (h | h)
        · exact ⟨t, by rw [h, hrec]⟩
        · exact ih t1 p h

/-- The passes of the loop of `RefineModel` visit their snapshots. -/
theorem refineLoop_PassesVisit (classes : NodeClasses) (context : TransformContext) :
    ∀ (n : Nat) (t : ModelTransformer),
      PassesVisit t.model.nodes (refineLoop classes context n t).2.2 := by
  intro n
  induction n with
  | zero => intro t; simp [refineLoop, PassesVisit]
  | succ n ih =>
    intro t
    rw [refineLoop_succ]
    obtain ⟨v1, _, v3⟩ := refinementPass_visits classes context t
    obtain ⟨d1, d2, _⟩ := refineVisit_dispatch classes context t.model.Visit t.passStart false
    have hm := refinementPass_model classes context t
    rcases hp : refinementPass classes context t with ⟨o, t1, record⟩
    rw [hp] at v1 v3 hm
    simp only [] at v1 v3 hm
    have hpre : (record.visits.map NodeVisit.node) <+: t.model.nodes := by rw [v1]; exact d1
    have hall : record.outcome = .ok () → record.visits.map NodeVisit.node = t.model.nodes :=
      fun h => by rw [v1]; exact d2 (v3 h)
    cases o with
    | error e => exact ⟨hpre, hall, trivial⟩
    | ok u =>
      simp only []
      by_cases hc : (!record.didRefineAny || t1.isModelCompilable) = true
      · rw [if_pos hc]; exact ⟨hpre, hall, trivial⟩
      · rw [if_neg hc]
        refine ⟨hpre, hall, ?_⟩
        rw [← (hm rfl).1]
        exact ih t1

/-- The visit of `TransformModel`: the nodes visited are the first nodes of the model, all of
them when the visit completes; every call recorded is the call of the function on the node in
the state left by the visit of the nodes before it; and the model under construction grows by
the nodes added. -/
theorem transformVisit_calls (IsCompilable : Node → Option Nat → Bool)
    (transformFunction : Node → HookProgram Unit) (nodes : List Node) :
    ∀ t : ModelTransformer,
      ((transformVisit IsCompilable transformFunction nodes t).visits.map NodeVisit.node)
        <+: nodes ∧
      ((transformVisit IsCompilable transformFunction nodes t).outcome = .ok () →
        (transformVisit IsCompilable transformFunction nodes t).visits.map NodeVisit.node
          = nodes) ∧
      (∀ (before : List NodeVisit) (v : NodeVisit) (after : List NodeVisit),
        (transformVisit IsCompilable transformFunction nodes t).visits = before ++ v :: after →
        v.added = ((transformFunction v.node).run IsCompilable
          (transformVisit IsCompilable transformFunction (before.map NodeVisit.node)
            t).transformer).added) ∧
      (transformVisit IsCompilable transformFunction nodes t).transformer.model.nodes
        = t.model.nodes
          ++ addedNodes (transformVisit IsCompilable transformFunction nodes t).visits := by
  induction nodes with
  | nil =>
    intro t
    simp only [transformVisit, List.map_nil, List.prefix_nil, true_and, addedNodes,
      List.flatMap_nil, List.append_nil, and_true]
    refine ⟨fun _ => trivial, ?_⟩
    intro before v after h
    cases before <;> simp at h
  | cons node rest ih =>
    intro t
    rw [transformVisit]
    simp only []
    have hr := (HookProgram.run_facts IsCompilable (transformFunction node) t).2.1
    cases ho : ((transformFunction node).run IsCompilable t).outcome with
    | error e =>
      simp only [List.map_cons, List.map_nil]
      refine ⟨by simp, (fun h => by cases h), ?_, by simp [hr, addedNodes]⟩
      intro before v after h
      cases before with
      | nil =>
        simp only [List.nil_append, List.cons.injEq] at h
        rw [← h.1]
        rfl
      | cons x xs =>
        simp only [List.cons_append, List.cons.injEq] at h
        have := h.2
        cases xs <;> simp at this
    | ok u =>
      simp only [List.map_cons]
      obtain ⟨i1, i2, i3, i4⟩ := ih ((transformFunction node).run IsCompilable t).transformer
      refine ⟨(List.prefix_cons_inj node).2 i1, (fun h => by rw [i2 h]), ?_, ?_⟩
      · intro before v after h
        cases before with
        | nil =>
          simp only [List.nil_append, List.cons.injEq] at h
          rw [← h.1]
          rfl
        | cons x xs =>
          simp only [List.cons_append, List.cons.injEq] at h
          have hx := i3 xs v after h.2
          rw [← h.1, List.map_cons, transformVisit]
          simp only [ho]
          exact hx
      · rw [i4, hr, addedNodes_cons]
        simp

/-- The set `usedNodes` of `ComputeOutput`: no node twice, and exactly the nodes that own a
port of a range (next to the nodes it held before the loop). -/
theorem usedNodesLoop_spec (model : Model) (ranges : List PortRange) :
    ∀ usedNodes : List Node, usedNodes.Nodup →
      (usedNodesLoop model ranges usedNodes).Nodup ∧
      ∀ n, n ∈ usedNodesLoop model ranges usedNodes ↔
        n ∈ usedNodes ∨ ∃ r ∈ ranges, model.GetNode r.ReferencedPort = some n := by
  induction ranges with
  | nil => intro usedNodes h; simp [usedNodesLoop, h]
  | cons range rest ih =>
    intro usedNodes h
    rw [usedNodesLoop]
    cases hg : model.GetNode range.ReferencedPort with
    | none =>
      simp only []
      obtain ⟨i1, i2⟩ := ih usedNodes h
      refine ⟨i1, fun n => ?_⟩
      rw [i2 n]
      simp [hg]
    | some node =>
      simp only []
      by_cases hmem : node ∈ usedNodes
      · rw [if_pos hmem]
        obtain ⟨i1, i2⟩ := ih usedNodes h
        refine ⟨i1, fun n => ?_⟩
        rw [i2 n]
        constructor
        · rintro (h1 | ⟨r, hr, hrn⟩)
          · exact Or.inl h1
          · exact Or.inr ⟨r, List.mem_cons_of_mem _ hr, hrn⟩
        · rintro (h1 | ⟨r, hr, hrn⟩)
          · exact Or.inl h1
          · rcases List.mem_cons.1 hr with h2 | h2
            · rw [h2, hg] at hrn
              cases hrn
              exact Or.inl hmem
            · exact Or.inr ⟨r, h2, hrn⟩
      · rw [if_neg hmem]
        have hnd : (usedNodes ++ [node]).Nodup := by
          rw [List.nodup_append]
          refine ⟨h, List.nodup_singleton _, ?_⟩
          intro a ha hb
          rw [List.mem_singleton.1 hb] at ha
          exact hmem ha
        obtain ⟨i1, i2⟩ := ih (usedNodes ++ [node]) hnd
        refine ⟨i1, fun n => ?_⟩
        rw [i2 n]
        constructor
        · rintro (h1 | ⟨r, hr, hrn⟩)
          · rcases List.mem_append.1 h1 with h2 | h2
            · exact Or.inl h2
            · rw [List.mem_singleton.1 h2]
              exact Or.inr ⟨range, List.mem_cons_self _ _, hg⟩
          · exact Or.inr ⟨r, List.mem_cons_of_mem _ hr, hrn⟩
        · rintro (h1 | ⟨r, hr, hrn⟩)
          · exact Or.inl (List.mem_append_left _ h1)
          · rcases List.mem_cons.1 hr with h2 | h2
            · rw [h2, hg] at hrn
              cases hrn
              exact Or.inl (List.mem_append_right _ (List.mem_singleton.2 rfl))
            · exact Or.inr ⟨r, h2, hrn⟩

/-- The closure loop keeps a selection of the nodes it examines, in reverse order, in front of
the nodes kept before. -/
theorem closureLoop_sublist (outputNodes : List Node) (nodes : List Node) :
    ∀ kept : List Node, ∃ sel : List Node, sel.Sublist nodes ∧
      closureLoop outputNodes nodes kept = sel.reverse ++ kept := by
  induction nodes with
  | nil => intro kept; exact ⟨[], List.Sublist.slnil, rfl⟩
  | cons node rest ih =>
    intro kept
    rw [closureLoop]
    split
    · obtain ⟨sel, h1, h2⟩ := ih (node :: kept)
      refine ⟨node :: sel, h1.cons₂ node, ?_⟩
      rw [h2]; simp
    · obtain ⟨sel, h1, h2⟩ := ih kept
      exact ⟨sel, h1.cons node, h2⟩

/-- Every node kept by the closure loop is in the input-closure. -/
theorem closureLoop_sound (model : Model) (outputNodes : List Node) (nodes : List Node) :
    ∀ kept : List Node, (∀ n ∈ nodes, n ∈ model.nodes) →
      (∀ k ∈ kept, InputClosure model outputNodes k) →
      ∀ k ∈ closureLoop outputNodes nodes kept, InputClosure model outputNodes k := by
  induction nodes with
  | nil => intro kept _ hk; exact hk
  | cons node rest ih =>
    intro kept hn hk
    rw [closureLoop]
    have hrest : ∀ n ∈ rest, n ∈ model.nodes := fun n h => hn n (List.mem_cons_of_mem _ h)
    split
    · rename_i hc
      apply ih (node :: kept) hrest
      intro k hkm
      rcases List.mem_cons.1 hkm with h | h
      · rw [h]
        simp only [Bool.or_eq_true, decide_eq_true_eq, List.any_eq_true] at hc
        rcases hc with h1 | ⟨x, hx, hxd⟩
        · exact InputClosure.output node h1 (hn node (List.mem_cons_self _ _))
        · exact InputClosure.input x node (hk x hx) (hn node (List.mem_cons_self _ _)) hxd
      · exact hk k h
    · exact ih kept hrest hk

/-- The nodes kept by the closure loop are closed under the inputs among the nodes examined,
when no node examined consumes an output of its own or of a node examined before it. -/
theorem closureLoop_closed (outputNodes : List Node) (nodes : List Node) :
    ∀ kept : List Node, (∀ n ∈ nodes, n.dependsOn n = false) →
      nodes.Pairwise (fun a b => b.dependsOn a = false) →
      ∀ k ∈ closureLoop outputNodes nodes kept, ∀ m ∈ nodes, k.dependsOn m = true →
        m ∈ closureLoop outputNodes nodes kept := by
  induction nodes with
  | nil => intro kept _ _ k _ m hm; cases hm
  | cons node rest ih =>
    intro kept hself hpair k hk m hm hdep
    have hpr := List.pairwise_cons.1 hpair
    have hselfr : ∀ n ∈ rest, n.dependsOn n = false :=
      fun n h => hself n (List.mem_cons_of_mem _ h)
    rw [closureLoop] at hk ⊢
    by_cases hc : (decide (node ∈ outputNodes) || kept.any fun k => k.dependsOn node) = true
    · rw [if_pos hc] at hk ⊢
      rcases List.mem_cons.1 hm with h | h
      · rw [h]
        exact (closureLoop_mem outputNodes rest (node :: kept)).1 node (List.mem_cons_self _ _)
      · exact ih (node :: kept) hselfr hpr.2 k hk m h hdep
    · rw [if_neg hc] at hk ⊢
      rcases List.mem_cons.1 hm with h | h
      · exfalso
        rw [h] at hdep
        rcases (closureLoop_mem outputNodes rest kept).2.2 k hk with h1 | h1
        · rw [hpr.1 k h1] at hdep
          cases hdep
        · apply hc
          simp only [Bool.or_eq_true, List.any_eq_true]
          exact Or.inr ⟨k, h1, hdep⟩
      · exact ih kept hselfr hpr.2 k hk m h hdep

theorem sinkValueType_recognized (type : PortType) :
    (type.isRecognized = true → sinkValueType type = some type) ∧
    (type.isRecognized = false → sinkValueType type = none) := by
  cases type <;> simp [PortType.isRecognized, sinkValueType]

/-- The loop of `DeleteNode` raises invalid-argument only at a port of a type that is not
recognized. -/
theorem deleteLoop_invalidArgument (IsCompilable : Node → Option Nat → Bool)
    (sinks : OutputNodeClass) (ports : List TypedOutputPort) :
    ∀ (id : Nat) (t : ModelTransformer),
      (deleteLoop IsCompilable sinks ports id t).outcome = .error .invalidArgument →
      ∃ p ∈ ports, p.type.isRecognized = false := by
  induction ports with
  | nil => intro id t h; simp [deleteLoop] at h
  | cons p rest ih =>
    intro id t h
    cases hp : p.type.isRecognized with
    | false => exact ⟨p, List.mem_cons_self _ _, hp⟩
    | true =>
      rw [deleteLoop, (sinkValueType_recognized p.type).1 hp] at h
      simp only [ModelTransformer.MapNodeOutput, PortOutputsMap.MapNodeOutput] at h
      by_cases hsz : p.port.Size
          = (PortElementsBase.ofPort ⟨id, sinks.outputSize p.stride⟩).Size
      · rw [if_neg (not_not.2 hsz)] at h
        simp only [] at h
        obtain ⟨q, hq, hqr⟩ := ih _ _ h
        exact ⟨q, List.mem_cons_of_mem _ hq, hqr⟩
      · rw [if_pos hsz] at h
        simp only [] at h
        cases h

/-- The loop of `DeleteNode` on a list of ports, when it completes on the first part of the
list, goes on with the rest. -/
theorem deleteLoop_append (IsCompilable : Node → Option Nat → Bool) (sinks : OutputNodeClass)
    (before : List TypedOutputPort) (rest : List TypedOutputPort) :
    ∀ (id : Nat) (t : ModelTransformer),
      (deleteLoop IsCompilable sinks before id t).outcome = .ok () →
      (deleteLoop IsCompilable sinks (before ++ rest) id t).outcome
        = (deleteLoop IsCompilable sinks rest (id + before.length)
            (deleteLoop IsCompilable sinks before id t).transformer).outcome ∧
      (deleteLoop IsCompilable sinks (before ++ rest) id t).added
        = (deleteLoop IsCompilable sinks before id t).added
          ++ (deleteLoop IsCompilable sinks rest (id + before.length)
            (deleteLoop IsCompilable sinks before id t).transformer).added := by
  induction before with
  | nil => intro id t _; simp [deleteLoop]
  | cons p before ih =>
    intro id t h
    rw [List.cons_append]
    rw [deleteLoop] at h ⊢
    rw [deleteLoop]
    cases hv : sinkValueType p.type with
    | none => rw [hv] at h; cases h
    | some valueType =>
      rw [hv] at h
      simp only [] at h ⊢
      rcases hm : (t.AddNode IsCompilable
          ⟨id, sinks.kind valueType, [⟨[]⟩], [⟨id, sinks.outputSize p.stride⟩], []⟩).MapNodeOutput
          p.port (PortElementsBase.ofPort ⟨id, sinks.outputSize p.stride⟩) with ⟨o, t2⟩
      rw [hm] at h
      cases o with
      | error e => cases h
      | ok u =>
        simp only [] at h ⊢
        obtain ⟨i1, i2⟩ := ih (id + 1) t2 h
        rw [i1, i2, List.length_cons]
        have : id + 1 + before.length = id + (before.length + 1) := by omega
        rw [this]
        exact ⟨rfl, rfl⟩

/-- An assignment to the owner of a port that a node does not own leaves the node as it is. -/
theorem afterWrites_of_not_owner (writes : List (OutputPortBase × List (String × String))) :
    ∀ node : Node, (∀ w ∈ writes, w.1 ∉ node.outputs) → node.afterWrites writes = node := by
  induction writes with
  | nil => intro node _; rfl
  | cons w ws ih =>
    intro node h
    unfold Node.afterWrites at ih ⊢
    rw [List.foldl_cons, if_neg (h w (List.mem_cons_self _ _))]
    exact ih node (fun w2 hw2 => h w2 (List.mem_cons_of_mem _ hw2))

/-- The port of the assignment made for a node depends on the output ports of the node only. -/
theorem metadataWrite_port (map : PortOutputsMap) (a b : Node) (h : a.outputs = b.outputs) :
    (metadataWrite map a).map Prod.fst = (metadataWrite map b).map Prod.fst := by
  unfold metadataWrite
  rw [h]
  cases b.outputs with
  | nil => rfl
  | cons p ps =>
    simp only []
    cases map.GetCorrespondingPortElements (PortElementsBase.ofPort p) with
    | error e => rfl
    | ok e =>
      simp only []
      cases e.GetRanges <;> rfl

/-- Every assignment of the second visit of `CopyModel` is to the owner of the port given by
`metadataWrite` for a visited node. -/
theorem metadataWrites_mem (map : PortOutputsMap) (nodes : List Node) :
    ∀ writes : List (OutputPortBase × List (String × String)),
      ∀ w ∈ metadataWrites map nodes writes,
        w ∈ writes ∨ ∃ n ∈ nodes, ∃ w2 ∈ metadataWrite map n, w2.1 = w.1 := by
  induction nodes with
  | nil => intro writes w hw; left; simpa [metadataWrites] using hw
  | cons node rest ih =>
    intro writes w hw
    rw [metadataWrites] at hw
    have hrest : ∀ ws, w ∈ metadataWrites map rest ws →
        (∀ x ∈ ws, x ∈ writes ∨ ∃ w2 ∈ metadataWrite map node, w2.1 = x.1) →
        w ∈ writes ∨ ∃ n ∈ node :: rest, ∃ w2 ∈ metadataWrite map n, w2.1 = w.1 := by
      intro ws hws hx
      rcases ih ws w hws with h | ⟨n, hn, w2, h2, h3⟩
      · rcases hx w h with h | ⟨w2, h2, h3⟩
        · exact Or.inl h
        · exact Or.inr ⟨node, List.mem_cons_self _ _, w2, h2, h3⟩
      · exact Or.inr ⟨n, List.mem_cons_of_mem _ hn, w2, h2, h3⟩
    cases ho : node.outputs with
    | nil =>
      rw [ho] at hw
      exact hrest writes hw (fun x hx => Or.inl hx)
    | cons p ps =>
      rw [ho] at hw
      simp only [] at hw
      cases hg : map.GetCorrespondingPortElements (PortElementsBase.ofPort p) with
      | error e => rw [hg] at hw; exact Or.inl hw
      | ok e =>
        rw [hg] at hw
        simp only [] at hw
        refine hrest _ hw ?_
        intro x hx
        rcases List.mem_append.1 hx with h | h
        · exact Or.inl h
        · right
          have hport := metadataWrite_port map (node.afterWrites writes) node
            (afterWrites_outputs writes node)
          rw [Option.mem_toList] at h
          rw [Option.mem_def] at h
          rw [h] at hport
          cases hm : metadataWrite map node with
          | none => rw [hm] at hport; cases hport
          | some w2 =>
            rw [hm] at hport
            refine ⟨w2, rfl, ?_⟩
            simpa using hport.symm

/-- The correspondence map after `CopyModel` is the one its first visit left. -/
theorem CopyModel_elementsMap (t : ModelTransformer) (classes : NodeClasses) (oldModel : Model)
    (outputNodes : List Node) (context : TransformContext) :
    (t.CopyModel classes oldModel outputNodes context).transformer.elementsMap
      = (copyVisit classes (oldModel.VisitSubset outputNodes)
          { t with context := context, model := ⟨[]⟩,
                   elementsMap := t.elementsMap.Clear }).transformer.elementsMap := by
  unfold ModelTransformer.CopyModel
  simp only []
  cases hv : (copyVisit classes (oldModel.VisitSubset outputNodes)
    { t with context := context, model := ⟨[]⟩, elementsMap := t.elementsMap.Clear }).outcome with
  | error e => rfl
  | ok u =>
    simp only []
    have hf := (metadataPass_facts (oldModel.VisitSubset outputNodes)
      { (copyVisit classes (oldModel.VisitSubset outputNodes)
          { t with context := context, model := ⟨[]⟩, elementsMap := t.elementsMap.Clear }).transformer
        with context := TransformContext.default }).2.1
    rcases hmv : metadataPass (oldModel.VisitSubset outputNodes)
      { (copyVisit classes (oldModel.VisitSubset outputNodes)
          { t with context := context, model := ⟨[]⟩, elementsMap := t.elementsMap.Clear }).transformer
        with context := TransformContext.default } with ⟨o, t2⟩
    rw [hmv] at hf
    cases o with
    | error e => exact hf
    | ok u2 => exact hf

/-- `CopyModel` leaves the nodes of the source model as they are when no assignment of its
second visit is to the owner of a port of the source model. -/
theorem CopyModelSource_eq (t : ModelTransformer) (classes : NodeClasses) (oldModel : Model)
    (outputNodes : List Node) (context : TransformContext)
    (hnew : ∀ n ∈ oldModel.VisitSubset outputNodes,
      ∀ w ∈ metadataWrite
          (t.CopyModel classes oldModel outputNodes context).transformer.elementsMap n,
        ∀ s ∈ oldModel.nodes, w.1 ∉ s.outputs) :
    t.CopyModelSource classes oldModel outputNodes context = oldModel.nodes := by
  rw [CopyModel_elementsMap] at hnew
  unfold ModelTransformer.CopyModelSource
  simp only []
  cases hv : (copyVisit classes (oldModel.VisitSubset outputNodes)
    { t with context := context, model := ⟨[]⟩, elementsMap := t.elementsMap.Clear }).outcome with
  | error e => rfl
  | ok u =>
    simp only []
    conv_rhs => rw [← List.map_id oldModel.nodes]
    apply List.map_congr_left
    intro s hs
    rw [id]
    apply afterWrites_of_not_owner
    intro w hw
    rcases metadataWrites_mem _ _ [] w hw with h | ⟨n, hn, w2, h2, h3⟩
    · cases h
    · rw [← h3]
      exact hnew n hn w2 h2 s hs

/-- The initial copy of `RefineModel` is the copy that `CopyModel` makes from the
transformer. -/
theorem CopyModel_beforeCopy (t : ModelTransformer) (classes : NodeClasses) (oldModel : Model)
    (outputNodes : List Node) (context : TransformContext) :
    (t.beforeCopy context).CopyModel classes oldModel outputNodes context
      = t.CopyModel classes oldModel outputNodes context := rfl

/-- The model that the loop of `RefineModel` leaves when it completes: the model it started
from when it made no pass, the nodes added in its last pass otherwise. -/
theorem refineLoop_model (classes : NodeClasses) (context : TransformContext) :
    ∀ (n : Nat) (t : ModelTransformer), (refineLoop classes context n t).1 = .ok () →
      ((refineLoop classes context n t).2.2 = [] ∧
        (refineLoop classes context n t).2.1.model = t.model) ∨
      ∃ p, (refineLoop classes context n t).2.2.getLast? = some p ∧
        (refineLoop classes context n t).2.1.model.nodes = addedNodes p.visits := by
  intro n
  induction n with
  | zero => intro t _; left; exact ⟨rfl, rfl⟩
  | succ n ih =>
    intro t hok
    right
    rw [refineLoop_succ] at hok ⊢
    have hm := refinementPass_model classes context t
    rcases hp : refinementPass classes context t with ⟨o, t1, record⟩
    rw [hp] at hok hm
    cases o with
    | error e => simp at hok
    | ok u =>
      simp only [] at hok ⊢
      have hm1 := (hm rfl).1
      simp only [] at hm1
      by_cases hc : (!record.didRefineAny || t1.isModelCompilable) = true
      · rw [if_pos hc]
        exact ⟨record, rfl, hm1⟩
      · rw [if_neg hc] at hok ⊢
        simp only [] at hok ⊢
        rcases ih t1 hok with ⟨h1, h2⟩ | ⟨p, hp1, hp2⟩
        · refine ⟨record, ?_, ?_⟩
          · rw [h1]; rfl
          · rw [h2]; exact hm1
        · refine ⟨p, ?_, hp2⟩
          cases hr : (refineLoop classes context n t1).2.2 with
          | nil => rw [hr] at hp1; cases hp1
          | cons q qs =>
            rw [hr] at hp1
            rw [List.getLast?_cons_cons]
            exact hp1

/-- The model returned by `CopyModel` is made of the nodes that the hooks added in the call,
up to their metadata. -/
theorem CopyModel_ok_nodes (t : ModelTransformer) (classes : NodeClasses) (oldModel : Model)
    (outputNodes : List Node) (context : TransformContext) (m : Model)
    (h : (t.CopyModel classes oldModel outputNodes context).result = .ok m) :
    m.nodes.map Node.core
      = (addedNodes (t.CopyModel classes oldModel outputNodes context).visits).map Node.core := by
  obtain ⟨t2, h1, _, _, h4⟩ := CopyModel_ok_metadata t classes oldModel outputNodes context m h
  rw [← h4, metadataPass_map Node.core (fun _ _ => rfl), h1]
  rfl

/-- The model returned by `RefineModel` is made of the nodes that the hooks added in the last
refinement pass. -/
theorem RefineModel_ok_nodes (t : ModelTransformer) (classes : NodeClasses) (oldModel : Model)
    (context : TransformContext) (maxIterations : Int) (m : Model)
    (h : (t.RefineModel classes oldModel context maxIterations).result = .ok m) :
    ∃ p, (t.RefineModel classes oldModel context maxIterations).passes.getLast? = some p ∧
      m.nodes = addedNodes p.visits := by
  obtain ⟨hmax, model, hc⟩ := RefineModel_ok_copy_ok t classes oldModel context maxIterations m h
  obtain ⟨hok, hm⟩ := RefineModel_ok_model t classes oldModel context maxIterations hmax model m
    hc h
  have hp := (RefineModel_copy_ok t classes oldModel context maxIterations hmax model hc).1
  have hlen := (refineLoop_length classes context maxIterations.toNat
    (t.afterCopy classes oldModel context model)).2 (by omega)
  rw [hp, hm]
  rcases refineLoop_model classes context maxIterations.toNat
    (t.afterCopy classes oldModel context model) hok with ⟨h1, _⟩ | hlast
  · rw [h1] at hlen; simp at hlen
  · exact hlast

/-- The model returned by `TransformModel` is made of the nodes that the calls of
`transformFunction` added. -/
theorem TransformModel_ok_nodes (t : ModelTransformer)
    (IsCompilable : Node → Option Nat → Bool) (oldModel : Model) (context : TransformContext)
    (transformFunction : Node → HookProgram Unit) (m : Model)
    (h : (t.TransformModel IsCompilable oldModel context transformFunction).result = .ok m) :
    m.nodes = addedNodes
      (t.TransformModel IsCompilable oldModel context transformFunction).pass.visits := by
  have c4 := (transformVisit_calls IsCompilable transformFunction oldModel.Visit
    (t.transformStart context)).2.2.2
  unfold ModelTransformer.TransformModel at h ⊢
  unfold ModelTransformer.transformStart at c4
  simp only [] at c4 h ⊢
  cases ho : (transformVisit IsCompilable transformFunction oldModel.Visit
    { t with context := context, model := ⟨[]⟩, elementsMap := t.elementsMap.Clear }).outcome with
  | error e => rw [ho] at h; cases h
  | ok u =>
    rw [ho] at h
    simp only [] at h ⊢
    have hcm := (composeMaps_facts t.elementsMap (transformVisit IsCompilable
      transformFunction oldModel.Visit
      { t with context := context, model := ⟨[]⟩,
               elementsMap := t.elementsMap.Clear }).transformer).2.2.1
    rcases hc : composeMaps t.elementsMap (transformVisit IsCompilable transformFunction
      oldModel.Visit
      { t with context := context, model := ⟨[]⟩, elementsMap := t.elementsMap.Clear }).transformer
      with ⟨o, t2⟩
    rw [hc] at hcm h
    simp only [] at hcm h ⊢
    cases o with
    | error e => cases h
    | ok u2 =>
      simp only [Except.ok.injEq] at h
      simp only []
      rw [← h, hcm, c4]
      simp

/-- The loop of `FindUncompilableNodes` appends the nodes that are not compilable, in
order. -/
theorem uncompilableLoop_eq (IsCompilable : Node → Option Nat → Bool)
    (context : TransformContext) (nodes : List Node) :
    ∀ acc : List Node,
      uncompilableLoop IsCompilable context nodes acc
        = acc ++ nodes.filter fun n => !IsCompilable n context.compiler := by
  induction nodes with
  | nil => intro acc; simp [uncompilableLoop]
  | cons node rest ih =>
    intro acc
    rw [uncompilableLoop]
    unfold TransformContext.IsNodeCompilable
    by_cases h : IsCompilable node context.compiler = true
    · simp [h, ih]
    · simp [h, ih]

/-- The action found by the loop of `GetNodeAction` is not `abstain`. -/
theorem actionLoop_ne_abstain (node : Node) (functions : List (Node → NodeAction))
    (action : NodeAction) (h : actionLoop node functions = some action) :
    action ≠ NodeAction.abstain := by
  induction functions with
  | nil => simp [actionLoop] at h
  | cons f rest ih =>
    rw [actionLoop] at h
    by_cases hf : f node = NodeAction.abstain
    · rw [if_neg (by simp [hf])] at h
      exact ih h
    · rw [if_pos hf] at h
      simp only [Option.some.injEq] at h
      rw [← h]; exact hf

theorem GetNodeAction_ne_abstain (context : TransformContext)
    (IsCompilable : Node → Option Nat → Bool) (node : Node) :
    context.GetNodeAction IsCompilable node ≠ NodeAction.abstain := by
  unfold TransformContext.GetNodeAction
  cases h : actionLoop node context.nodeActionFunctions.reverse with
  | some action => exact actionLoop_ne_abstain node _ action h
  | none =>
    simp only []
    split <;> simp

/-- Every record of the loop of `RefineModel` is the record of a refinement pass made from a
transformer with the stored context of the transformer at the beginning of the loop. -/
theorem refineLoop_records_context (classes : NodeClasses) (context : TransformContext) :
    ∀ (n : Nat) (t : ModelTransformer), ∀ p ∈ (refineLoop classes context n t).2.2,
      ∃ t2 : ModelTransformer, t2.context = t.context ∧
        p = (refinementPass classes context t2).2.2 := by
  intro n
  induction n with
  | zero => intro t p hp; simp [refineLoop] at hp
  | succ n ih =>
    intro t p
    rw [refineLoop_succ]
    have hctx := (refinementPass_facts classes context t).1
    rcases hp : refinementPass classes context t with ⟨o, t1, record⟩
    have hrec : record = (refinementPass classes context t).2.2 := by rw [hp]
    rw [hp] at hctx
    simp only [] at hctx
    cases o with
    | error e =>
      simp only [List.mem_singleton]
      intro h; exact ⟨t, rfl, by rw [h, hrec]⟩
    | ok u =>
      simp only []
      by_cases hc : (!record.didRefineAny || t1.isModelCompilable) = true
      · rw [if_pos hc]
        simp only [List.mem_singleton]
        intro h; exact ⟨t, rfl, by rw [h, hrec]⟩
      · rw [if_neg hc]
        simp only [List.mem_cons]
        rintro (h | h)
        · exact ⟨t, rfl, by rw [h, hrec]⟩
        · obtain ⟨t2, h1, h2⟩ := ih t1 p h
          exact ⟨t2, h1.trans hctx, h2⟩

/-- The stored context of the transformer is the default context when `RefineModel`
returns. -/
theorem RefineModel_ok_context (t : ModelTransformer) (classes : NodeClasses) (oldModel : Model)
    (context : TransformContext) (maxIterations : Int) (m : Model)
    (h : (t.RefineModel classes oldModel context maxIterations).result = .ok m) :
    (t.RefineModel classes oldModel context maxIterations).transformer.context
      = TransformContext.default := by
  obtain ⟨hmax, model, hc⟩ := RefineModel_ok_copy_ok t classes oldModel context maxIterations m h
  unfold ModelTransformer.RefineModel at h ⊢
  unfold ModelTransformer.beforeCopy at hc
  rw [if_neg (by omega)] at h ⊢
  simp only [hc] at h ⊢
  rcases hl : refineLoop classes context maxIterations.toNat
      { ((({ t with context := context, elementsMap := t.elementsMap.Clear } :
        ModelTransformer).CopyModel classes oldModel [] context).transformer) with
        model := model } with ⟨o, t3, ps⟩
  rw [hl] at h
  cases o with
  | error e => cases h
  | ok u => rfl

/-- How the second visit of `CopyModel` ends depends on the correspondence map and on the
output ports of the nodes visited only. -/
theorem metadataVisit_outcome_congr (nodes1 : List Node) :
    ∀ (nodes2 : List Node) (t1 t2 : ModelTransformer),
      nodes1.map Node.outputs = nodes2.map Node.outputs → t1.elementsMap = t2.elementsMap →
      (metadataVisit nodes1 t1).1 = (metadataVisit nodes2 t2).1 := by
  induction nodes1 with
  | nil =>
    intro nodes2 t1 t2 h _
    cases nodes2 with
    | nil => rfl
    | cons b bs => simp at h
  | cons a as ih =>
    intro nodes2 t1 t2 h hmap
    cases nodes2 with
    | nil => simp at h
    | cons b bs =>
      simp only [List.map_cons, List.cons.injEq] at h
      obtain ⟨ho, hrest⟩ := h
      rw [metadataVisit, metadataVisit, ← ho, ← hmap]
      cases a.outputs with
      | nil => exact ih bs t1 t2 hrest hmap
      | cons p ps =>
        simp only []
        cases t1.elementsMap.GetCorrespondingPortElements (PortElementsBase.ofPort p) with
        | error e => rfl
        | ok elements =>
          simp only []
          cases elements.GetRanges with
          | nil => exact ih bs t1 t2 hrest hmap
          | cons range ranges => exact ih bs _ _ hrest rfl

/-- The second visit of `CopyModel` raises the error of the first node whose lookup fails. -/
theorem metadataVisit_first_error (earlier : List Node) (n : Node) (later : List Node)
    (p : OutputPortBase) (ps : List OutputPortBase) (hn : n.outputs = p :: ps)
    (e : InputExceptionErrors) :
    ∀ t : ModelTransformer,
      t.elementsMap.GetCorrespondingPortElements (PortElementsBase.ofPort p) = .error e →
      (∀ m ∈ earlier, ∀ q qs, m.outputs = q :: qs →
        ∃ x, t.elementsMap.GetCorrespondingPortElements (PortElementsBase.ofPort q) = .ok x) →
      (metadataVisit (earlier ++ n :: later) t).1 = .error e := by
  induction earlier with
  | nil =>
    intro t he _
    rw [List.nil_append, metadataVisit, hn]
    simp only [he]
  | cons a as ih =>
    intro t he hearlier
    rw [List.cons_append, metadataVisit]
    cases ha : a.outputs with
    | nil =>
      exact ih t he (fun m hm => hearlier m (List.mem_cons_of_mem _ hm))
    | cons q qs =>
      obtain ⟨x, hx⟩ := hearlier a (List.mem_cons_self _ _) q qs ha
      simp only [hx]
      cases x.GetRanges with
      | nil => exact ih t he (fun m hm => hearlier m (List.mem_cons_of_mem _ hm))
      | cons range ranges =>
        exact ih _ he (fun m hm => hearlier m (List.mem_cons_of_mem _ hm))

/-- The second visit of `CopyModel` raises when the lookup of some node fails. -/
theorem metadataVisit_raises (nodes : List Node) :
    ∀ t : ModelTransformer,
      (∃ n ∈ nodes, ∃ p ps, n.outputs = p :: ps ∧
        ∃ e, t.elementsMap.GetCorrespondingPortElements (PortElementsBase.ofPort p)
          = .error e) →
      ∃ e, (metadataVisit nodes t).1 = .error e := by
  induction nodes with
  | nil => rintro t ⟨n, hn, _⟩; cases hn
  | cons a as ih =>
    rintro t ⟨n, hn, p, ps, hp, e, he⟩
    rw [metadataVisit]
    have hrest : ∀ t2 : ModelTransformer, t2.elementsMap = t.elementsMap → n ∈ as →
        ∃ e, (metadataVisit as t2).1 = .error e := by
      intro t2 h2 hmem
      exact ih t2 ⟨n, hmem, p, ps, hp, e, by rw [h2]; exact he⟩
    cases ha : a.outputs with
    | nil =>
      rcases List.mem_cons.1 hn with h | h
      · rw [h, ha] at hp; cases hp
      · exact hrest t rfl h
    | cons q qs =>
      simp only []
      cases hq : t.elementsMap.GetCorrespondingPortElements (PortElementsBase.ofPort q) with
      | error e2 => exact ⟨e2, rfl⟩
      | ok x =>
        simp only []
        have hmem : n ∈ as := by
          rcases List.mem_cons.1 hn with h | h
          · rw [h, ha] at hp
            simp only [List.cons.injEq] at hp
            rw [hp.1, he] at hq
            cases hq
          · exact h
        cases x.GetRanges with
        | nil => exact hrest t rfl hmem
        | cons range ranges => exact hrest _ rfl hmem

/-- The second visit of `CopyModel` ends like the visit of the nodes as they were before the
call. -/
theorem metadataPass_outcome (nodes : List Node) (t : ModelTransformer) :
    (metadataPass nodes t).1 = (metadataVisit nodes t).1 :=
  metadataVisit_outcome_congr _ nodes t t (metadataReads_outputs t.elementsMap nodes []) rfl

/-- The result of `CopyModel` when its first visit completes and its second visit raises. -/
theorem CopyModel_metadata_error (t : ModelTransformer) (classes : NodeClasses)
    (oldModel : Model) (outputNodes : List Node) (context : TransformContext)
    (e : InputExceptionErrors)
    (h1 : (copyVisit classes (oldModel.VisitSubset outputNodes) (t.copyStart context)).outcome
        = .ok ())
    (h2 : (metadataVisit (oldModel.VisitSubset outputNodes)
      { (copyVisit classes (oldModel.VisitSubset outputNodes)
          (t.copyStart context)).transformer
        with context := TransformContext.default }).1 = .error e) :
    (t.CopyModel classes oldModel outputNodes context).result = .error e := by
  rw [← metadataPass_outcome] at h2
  unfold ModelTransformer.copyStart at h1 h2
  unfold ModelTransformer.CopyModel
  simp only [h1]
  rcases hmv : metadataPass (oldModel.VisitSubset outputNodes)
      { (copyVisit classes (oldModel.VisitSubset outputNodes)
          { t with context := context, model := ⟨[]⟩,
                   elementsMap := t.elementsMap.Clear }).transformer
        with context := TransformContext.default } with ⟨o, t3⟩
  rw [hmv] at h2
  simp only [] at h2
  rw [h2]

/-- An access to a vector of 127 entries is inside the vector exactly for the indices 0
to 126. -/
theorem lookup_isSome_iff (charCodes : List Nat) (hlen : charCodes.length = 127) (ch : Nat) :
    (charCodes[ch]?).isSome = true ↔ ch ≤ 126 := by
  rw [Option.isSome_iff_exists]
  constructor
  · rintro ⟨x, hx⟩
    have := (List.getElem?_eq_some_iff.1 hx).1
    omega
  · intro h
    exact ⟨charCodes[ch], List.getElem?_eq_getElem (by omega)⟩

/-- The encoding loop has a result exactly when every character it reads has a code in 0 to
126. -/
theorem encodeLoop_isSome_iff (charCodes : List Nat) (hlen : charCodes.length = 127)
    (str : List Nat) :
    ∀ s : List Nat, (encodeLoop charCodes str s).isSome = true ↔ ∀ ch ∈ str, ch ≤ 126 := by
  induction str with
  | nil => intro s; simp [encodeLoop]
  | cons ch rest ih =>
    intro s
    rw [encodeLoop]
    cases hl : charCodes[ch]? with
    | none =>
      have hn : ¬ ch ≤ 126 := by
        intro h
        have := (lookup_isSome_iff charCodes hlen ch).2 h
        rw [hl] at this
        cases this
      simp only [Option.isSome_none, Bool.false_eq_true, List.mem_cons, forall_eq_or_imp,
        false_iff, not_and]
      exact fun h => absurd h hn
    | some encoding =>
      have hy : ch ≤ 126 := (lookup_isSome_iff charCodes hlen ch).1 (by rw [hl]; rfl)
      simp only [List.mem_cons, forall_eq_or_imp, hy, true_and]
      split
      · exact ih _
      · exact ih _

/-- The decoding loop has a result when every character it reads has a code in 0 to 126. -/
theorem decodeLoop_isSome (charCodes : List Nat) (hlen : charCodes.length = 127)
    (str : List Nat) :
    ∀ (prevWasBackslash : Bool) (s : List Nat), (∀ ch ∈ str, ch ≤ 126) →
      (decodeLoop charCodes str prevWasBackslash s).isSome = true := by
  induction str with
  | nil => intro b s _; simp [decodeLoop]
  | cons ch rest ih =>
    intro b s h
    have hch : ch ≤ 126 := h ch (List.mem_cons_self _ _)
    have hrest : ∀ x ∈ rest, x ≤ 126 := fun x hx => h x (List.mem_cons_of_mem _ hx)
    rw [decodeLoop]
    cases b with
    | true =>
      simp only [if_true]
      obtain ⟨encoding, he⟩ := Option.isSome_iff_exists.1
        ((lookup_isSome_iff charCodes hlen ch).2 hch)
      rw [he]
      simp only []
      split
      · exact ih _ _ hrest
      · exact ih _ _ hrest
    | false =>
      simp only [Bool.false_eq_true, if_false]
      split
      · exact ih _ _ hrest
      · exact ih _ _ hrest

/-- The character that `EncodeTypeName` writes for a character. -/
theorem EncodeTypeName_eq_map (str : List Nat) :
    XmlUtilities.EncodeTypeName str
      = str.map fun ch => if ch = 60 then 40 else if ch = 62 then 41 else ch := by
  unfold XmlUtilities.EncodeTypeName replaceChar
  simp only [List.map_map]
  apply List.map_congr_left
  intro ch _
  simp only [Function.comp]
  by_cases h : ch = 60
  · simp [h]
  · simp [h]

/-- The character that `DecodeTypeName` writes for a character. -/
theorem DecodeTypeName_eq_map (str : List Nat) :
    XmlUtilities.DecodeTypeName str
      = str.map fun ch => if ch = 40 then 60 else if ch = 41 then 62 else ch := by
  unfold XmlUtilities.DecodeTypeName replaceChar
  simp only [List.map_map]
  apply List.map_congr_left
  intro ch _
  simp only [Function.comp]
  by_cases h : ch = 40
  · simp [h]
  · simp [h]

/-- A string is mapped to itself exactly when each of its characters is. -/
theorem map_eq_self_iff {α : Type} (f : α → α) (l : List α) :
    l.map f = l ↔ ∀ a ∈ l, f a = a := by
  induction l with
  | nil => simp
  | cons a l ih => simp [ih]

theorem runCalls_append (a b : List StackCall) (r : IntegerStack × List Nat) :
    runCalls (a ++ b) r = runCalls b (runCalls a r) := by
  unfold runCalls
  rw [List.foldl_append]

theorem runCalls_cons (c : StackCall) (cs : List StackCall) (r : IntegerStack × List Nat) :
    runCalls (c :: cs) r = runCalls cs (c.step r) := rfl

/-- A sequence of calls is admissible when its first part is and the rest is admissible
after it. -/
theorem Admissible_append (a b : List StackCall) :
    ∀ r : IntegerStack × List Nat,
      Admissible (a ++ b) r = (Admissible a r && Admissible b (runCalls a r)) := by
  induction a with
  | nil => intro r; simp [Admissible, runCalls]
  | cons c cs ih =>
    intro r
    cases c with
    | pop =>
      simp only [List.cons_append, Admissible, runCalls_cons]
      exact ih _
    | push v =>
      simp only [List.cons_append, Admissible, runCalls_cons]
      have e := ih ((StackCall.push v).step r)
      rw [Bool.and_assoc, ← e]
      rfl

/-- The value returned by `Pop` is not outstanding. -/
theorem Pop_not_outstanding (r : IntegerStack × List Nat) (pops : Nat)
    (h : StackInvariant r pops) : r.1.Pop.1 ∉ r.2 := by
  obtain ⟨h1, h2, _⟩ := h
  unfold IntegerStack.Pop
  cases hs : r.1.stack with
  | nil =>
    simp only []
    intro hmem
    have := h2 r.1.smallestUnpopped (List.mem_append_right _ hmem)
    omega
  | cons top rest =>
    simp only []
    rw [hs] at h1
    intro hmem
    have hd := (List.nodup_append.1 h1).2.2
    exact hd (List.mem_cons_self _ _) hmem

/-- The assertion of `Push` holds for an outstanding value. -/
theorem PushAssertion_of_outstanding (r : IntegerStack × List Nat) (pops : Nat)
    (h : StackInvariant r pops) (value : Nat) (hv : value ∈ r.2) :
    r.1.PushAssertion value = true := by
  unfold IntegerStack.PushAssertion
  exact decide_eq_true (h.2.1 value (List.mem_append_right _ hv))

/-- A call of `Push` whose assertion holds returns, with the value on top of the stack. -/
theorem Push_of_assertion (s : IntegerStack) (value : Nat)
    (h : s.PushAssertion value = true) : s.Push value = some (s.pushed value) := by
  unfold IntegerStack.Push
  have h2 : (s.pushed value).PushAssertion value = true := h
  simp only [h2, if_true]

/-- A call of `Push` whose assertion fails has no result. -/
theorem Push_of_not_assertion (s : IntegerStack) (value : Nat)
    (h : s.PushAssertion value = false) : s.Push value = none := by
  unfold IntegerStack.Push
  have h2 : (s.pushed value).PushAssertion value = false := h
  simp only [h2, Bool.false_eq_true, if_false]

/-- A call of `Pop` keeps the invariant while the smallest unpopped value does not wrap. -/
theorem step_pop_invariant (r : IntegerStack × List Nat) (pops : Nat)
    (h : StackInvariant r pops) (hb : pops + 1 < 2 ^ 64) :
    StackInvariant (StackCall.pop.step r) (pops + 1) := by
  have hfresh := Pop_not_outstanding r pops h
  obtain ⟨h1, h2, h3⟩ := h
  unfold StackCall.step IntegerStack.Pop at *
  cases hs : r.1.stack with
  | nil =>
    rw [hs] at h1 h2 hfresh
    simp only [List.nil_append] at h1 h2 hfresh ⊢
    have hmod : (r.1.smallestUnpopped + 1) % 2 ^ 64 = r.1.smallestUnpopped + 1 :=
      Nat.mod_eq_of_lt (by omega)
    refine ⟨?_, ?_, ?_⟩
    · simp only [hs, List.nil_append]
      exact List.nodup_cons.2 ⟨hfresh, h1⟩
    · simp only [hs, List.nil_append, hmod]
      intro x hx
      rcases List.mem_cons.1 hx with hx | hx
      · omega
      · have := h2 x hx; omega
    · simp only [hmod]; omega
  | cons top rest =>
    rw [hs] at h1 h2 hfresh
    simp only [] at hfresh ⊢
    refine ⟨?_, ?_, ?_⟩
    · have hp : (rest ++ top :: r.2).Perm (top :: rest ++ r.2) := List.perm_middle
      exact hp.nodup_iff.2 h1
    · intro x hx
      apply h2 x
      simp only [List.mem_append, List.mem_cons] at hx ⊢
      tauto
    · simp only []; omega

/-- A call `Push(value)` of an outstanding value keeps the invariant. -/
theorem step_push_invariant (r : IntegerStack × List Nat) (pops : Nat)
    (h : StackInvariant r pops) (value : Nat) (hv : value ∈ r.2) :
    StackInvariant ((StackCall.push value).step r) pops := by
  obtain ⟨h1, h2, h3⟩ := h
  unfold StackCall.step IntegerStack.pushed
  simp only []
  obtain ⟨n1, n2, n3⟩ := List.nodup_append.1 h1
  refine ⟨?_, ?_, h3⟩
  · rw [List.cons_append, List.nodup_cons]
    refine ⟨?_, ?_⟩
    · intro hmem
      rcases List.mem_append.1 hmem with hm | hm
      · exact n3 hm hv
      · exact (List.Nodup.mem_erase_iff n2).1 hm |>.1 rfl
    · refine List.nodup_append.2 ⟨n1, n2.sublist (List.erase_sublist _ _), ?_⟩
      intro a ha hb
      exact n3 ha (List.mem_of_mem_erase hb)
  · intro x hx
    rw [List.cons_append, List.mem_cons, List.mem_append] at hx
    rcases hx with hx | hx | hx
    · rw [hx]; exact h2 value (List.mem_append_right _ hv)
    · exact h2 x (List.mem_append_left _ hx)
    · exact h2 x (List.mem_append_right _ (List.mem_of_mem_erase hx))

/-- An admissible sequence of calls keeps the invariant while the smallest unpopped value
does not wrap. -/
theorem runCalls_invariant (calls : List StackCall) :
    ∀ (r : IntegerStack × List Nat) (pops : Nat), StackInvariant r pops →
      Admissible calls r = true →
      pops + calls.countP StackCall.isPop < 2 ^ 64 →
      StackInvariant (runCalls calls r) (pops + calls.countP StackCall.isPop) := by
  induction calls with
  | nil => intro r pops h _ _; simp only [runCalls, List.foldl_nil, List.countP_nil, Nat.add_zero]; exact h
  | cons c cs ih =>
    intro r pops h hadm hb
    rw [runCalls_cons]
    cases c with
    | pop =>
      simp only [List.countP_cons, StackCall.isPop, if_true] at hb ⊢
      rw [Admissible] at hadm
      have := ih (StackCall.pop.step r) (pops + 1) (step_pop_invariant r pops h (by omega))
        hadm (by omega)
      have e : pops + (cs.countP StackCall.isPop + 1) = pops + 1 + cs.countP StackCall.isPop := by
        omega
      rw [e]; exact this
    | push v =>
      simp only [List.countP_cons, StackCall.isPop] at hb ⊢
      simp only [Bool.false_eq_true, if_false, Nat.add_zero] at hb ⊢
      rw [Admissible, Bool.and_eq_true, decide_eq_true_eq] at hadm
      exact ih _ pops (step_push_invariant r pops h v hadm.1) hadm.2 hb

/-- The invariant holds for a fresh stack. -/
theorem fresh_invariant : StackInvariant (IntegerStack.fresh, []) 0 := by
  refine ⟨by simp [IntegerStack.fresh], ?_, by simp [IntegerStack.fresh]⟩
  intro x hx
  simp [IntegerStack.fresh] at hx

/-- Calls of `Pop` on an empty stack count the smallest unpopped value up, modulo 2^64, and
every value they return is outstanding afterwards. -/
theorem runCalls_pops (n : Nat) :
    ∀ (k : Nat) (outstanding : List Nat), k < 2 ^ 64 → k + n ≤ 2 ^ 64 →
      (runCalls (List.replicate n StackCall.pop) (⟨[], k⟩, outstanding)).1
        = ⟨[], (k + n) % 2 ^ 64⟩ ∧
      (∀ x, x ∈ outstanding ∨ (k ≤ x ∧ x < k + n) →
        x ∈ (runCalls (List.replicate n StackCall.pop) (⟨[], k⟩, outstanding)).2) := by
  induction n with
  | zero =>
    intro k outstanding hk _
    refine ⟨?_, ?_⟩
    · simp only [List.replicate_zero, runCalls, List.foldl_nil, Nat.add_zero,
        Nat.mod_eq_of_lt hk]
    · intro x hx
      rcases hx with hx | hx
      · exact hx
      · omega
  | succ n ih =>
    intro k outstanding hk hkn
    rw [List.replicate_succ, runCalls_cons]
    have hstep : StackCall.pop.step (⟨[], k⟩, outstanding)
        = (⟨[], (k + 1) % 2 ^ 64⟩, k :: outstanding) := rfl
    rw [hstep]
    rcases Nat.eq_zero_or_pos n with h0 | hpos
    · subst h0
      refine ⟨?_, ?_⟩
      · simp only [List.replicate_zero, runCalls, List.foldl_nil]
      · intro x hx
        simp only [List.replicate_zero, runCalls, List.foldl_nil, List.mem_cons]
        rcases hx with hx | hx
        · exact Or.inr hx
        · left; omega
    · have hmod : (k + 1) % 2 ^ 64 = k + 1 := Nat.mod_eq_of_lt (by omega)
      rw [hmod]
      obtain ⟨i1, i2⟩ := ih (k + 1) (k :: outstanding) (by omega) (by omega)
      refine ⟨?_, ?_⟩
      · rw [i1]
        have e : k + 1 + n = k + (n + 1) := by omega
        rw [e]
      · intro x hx
        apply i2
        rcases hx with hx | hx
        · exact Or.inl (List.mem_cons_of_mem _ hx)
        · rcases Nat.eq_or_lt_of_le hx.1 with he | hl
          · left; rw [← he]; exact List.mem_cons_self _ _
          · right; omega

/-- A sequence of calls of `Pop` is admissible. -/
theorem Admissible_pops (n : Nat) :
    ∀ r : IntegerStack × List Nat,
      Admissible (List.replicate n StackCall.pop ++ [StackCall.pop]) r = true := by
  induction n with
  | zero => intro r; rfl
  | succ n ih =>
    intro r
    rw [List.replicate_succ, List.cons_append, Admissible]
    exact ih _

/-- The vector after a sequence of calls of `PushBack`: one entry is appended for each call
with a value other than zero. -/
theorem pushAll_eq {Double ValueType : Type} [Zero Double] [DecidableEq Double]
    (convert : Double → ValueType) (calls : List (Nat × Double)) :
    ∀ v : SparseDataVector ValueType,
      v.pushAll convert calls
        = ⟨v.indices ++ (calls.filter fun call => decide (call.2 ≠ 0)).map Prod.fst,
           v.values ++ (calls.filter fun call => decide (call.2 ≠ 0)).map
            fun call => convert call.2⟩ := by
  induction calls with
  | nil => intro v; simp [SparseDataVector.pushAll]
  | cons call rest ih =>
    intro v
    have hstep : v.pushAll convert (call :: rest)
        = (v.PushBack convert call.1 call.2).pushAll convert rest := rfl
    rw [hstep, ih]
    unfold SparseDataVector.PushBack
    by_cases h : call.2 = 0
    · simp [h]
    · simp [h]

/-- The visit `VisitSubset(nodes, compute)` invokes `Compute` on every node of the sequence,
in order. -/
theorem computeVisit_eq_foldl (compute : Nat → List (List Int) → List (List Int))
    (nodes : List Node) :
    ∀ b : Buffers,
      computeVisit compute nodes b = nodes.foldl (fun buffers node => node.Compute compute buffers) b := by
  induction nodes with
  | nil => intro b; rfl
  | cons node rest ih => intro b; rw [computeVisit, List.foldl_cons, ih]

/-- The buffers after the output vectors have been stored into distinct ports: the port at
position `k` holds the vector at position `k`, and the other ports are as before. -/
theorem storeOutputs_get (ports : List OutputPortBase) :
    ∀ (values : List (List Int)) (b : Buffers), ports.Nodup →
      (∀ (k : Nat) (port : OutputPortBase), ports[k]? = some port →
        (storeOutputs b ports values).GetOutput port = values.getD k []) ∧
      (∀ port, port ∉ ports → (storeOutputs b ports values).GetOutput port = b.GetOutput port) := by
  induction ports with
  | nil =>
    intro values b _
    refine ⟨fun k port h => by simp at h, fun port _ => rfl⟩
  | cons p rest ih =>
    intro values b hnd
    obtain ⟨hp, hrest⟩ := List.nodup_cons.1 hnd
    obtain ⟨i1, i2⟩ := ih values.tail (b.SetOutput p (values.headD [])) hrest
    rw [storeOutputs]
    refine ⟨?_, ?_⟩
    · intro k port hk
      cases k with
      | zero =>
        simp only [List.getElem?_cons_zero, Option.some.injEq] at hk
        subst hk
        rw [i2 p hp]
        simp only [Buffers.SetOutput, if_true]
        cases values <;> rfl
      | succ k =>
        simp only [List.getElem?_cons_succ] at hk
        rw [i1 k port hk]
        cases values <;> simp
    · intro port hport
      rw [i2 port (fun h => hport (List.mem_cons_of_mem _ h))]
      simp only [Buffers.SetOutput]
      rw [if_neg (fun h : port = p => hport (by rw [h]; exact List.mem_cons_self _ _))]

theorem mem_inputNodes (nodes : List Node) (n p : Node) :
    p ∈ inputNodes nodes n ↔ p ∈ nodes ∧ n.dependsOn p = true := by
  unfold inputNodes
  rw [List.mem_filter]

/-- The effect of visiting a list of nodes, given the effect of visiting one node. -/
theorem visitAll_spec (nodes : List Node) (rank : Node → Nat) (C : Node → Prop)
    (fuel K : Nat)
    (Hv : ∀ vs c, c ∈ nodes → rank c < fuel → C c → VisitedGood nodes vs →
      VisitedGood nodes (visitNode nodes fuel vs c) ∧
      (∀ x ∈ vs, x ∈ visitNode nodes fuel vs c) ∧ c ∈ visitNode nodes fuel vs c ∧
      ∀ x ∈ visitNode nodes fuel vs c, x ∈ vs ∨ (rank x ≤ rank c ∧ C x)) :
    ∀ (ps vs : List Node), (∀ p ∈ ps, p ∈ nodes ∧ rank p < fuel ∧ rank p < K ∧ C p) →
      VisitedGood nodes vs →
      VisitedGood nodes (ps.foldl (visitNode nodes fuel) vs) ∧
      (∀ x ∈ vs, x ∈ ps.foldl (visitNode nodes fuel) vs) ∧
      (∀ p ∈ ps, p ∈ ps.foldl (visitNode nodes fuel) vs) ∧
      ∀ x ∈ ps.foldl (visitNode nodes fuel) vs, x ∈ vs ∨ (rank x < K ∧ C x) := by
  intro ps
  induction ps with
  | nil =>
    intro vs _ hg
    exact ⟨hg, fun x hx => hx, fun p hp => (by cases hp), fun x hx => Or.inl hx⟩
  | cons p rest ih =>
    intro vs hps hg
    obtain ⟨hpn, hpf, hpk, hpc⟩ := hps p (List.mem_cons_self _ _)
    obtain ⟨g1, m1, c1, n1⟩ := Hv vs p hpn hpf hpc hg
    obtain ⟨g2, m2, c2, n2⟩ :=
      ih (visitNode nodes fuel vs p) (fun q hq => hps q (List.mem_cons_of_mem _ hq)) g1
    rw [List.foldl_cons]
    refine ⟨g2, fun x hx => m2 x (m1 x hx), ?_, ?_⟩
    · intro q hq
      rcases List.mem_cons.1 hq with h | h
      · rw [h]; exact m2 p c1
      · exact c2 q h
    · intro x hx
      rcases n2 x hx with h | h
      · rcases n1 x h with h1 | h1
        · exact Or.inl h1
        · exact Or.inr ⟨lt_of_le_of_lt h1.1 hpk, h1.2⟩
      · exact Or.inr h

/-- The effect of visiting one node with enough fuel. -/
theorem visitNode_spec (nodes : List Node) (rank : Node → Nat)
    (hrank : ∀ n ∈ nodes, ∀ m ∈ nodes, n.dependsOn m = true → rank m < rank n)
    (C : Node → Prop)
    (hC : ∀ n m, C n → m ∈ nodes → n.dependsOn m = true → C m) :
    ∀ (fuel : Nat) (vs : List Node) (c : Node), c ∈ nodes → rank c < fuel → C c →
      VisitedGood nodes vs →
      VisitedGood nodes (visitNode nodes fuel vs c) ∧
      (∀ x ∈ vs, x ∈ visitNode nodes fuel vs c) ∧ c ∈ visitNode nodes fuel vs c ∧
      ∀ x ∈ visitNode nodes fuel vs c, x ∈ vs ∨ (rank x ≤ rank c ∧ C x) := by
  intro fuel
  induction fuel with
  | zero => intro vs c _ h; exact absurd h (Nat.not_lt_zero _)
  | succ fuel ih =>
    intro vs c hcn hcf hcc hg
    rw [visitNode]
    by_cases hv : c ∈ vs
    · rw [if_pos hv]
      exact ⟨hg, fun x hx => hx, hv, fun x hx => Or.inl hx⟩
    · rw [if_neg hv]
      have hps : ∀ p ∈ inputNodes nodes c,
          p ∈ nodes ∧ rank p < fuel ∧ rank p < rank c ∧ C p := by
        intro p hp
        obtain ⟨h1, h2⟩ := (mem_inputNodes nodes c p).1 hp
        have h3 := hrank c hcn p h1 h2
        exact ⟨h1, by omega, h3, hC c p hcc h1 h2⟩
      obtain ⟨⟨gnd, gsub, gclosed, gpair⟩, m1, c1, n1⟩ :=
        visitAll_spec nodes rank C fuel (rank c) ih (inputNodes nodes c) vs hps hg
      have hnot : c ∉ (inputNodes nodes c).foldl (visitNode nodes fuel) vs := by
        intro h
        rcases n1 c h with h1 | h1
        · exact hv h1
        · exact absurd h1.1 (lt_irrefl _)
      refine ⟨⟨?_, ?_, ?_, ?_⟩, ?_, ?_, ?_⟩
      · rw [List.nodup_append]
        refine ⟨gnd, List.nodup_singleton c, ?_⟩
        intro a ha hb
        rw [List.mem_singleton] at hb
        rw [hb] at ha
        exact hnot ha
      · intro x hx
        rcases List.mem_append.1 hx with h | h
        · exact gsub x h
        · rw [List.mem_singleton] at h; rw [h]; exact hcn
      · intro x hx m hm hdep
        rcases List.mem_append.1 hx with h | h
        · exact List.mem_append_left _ (gclosed x h m hm hdep)
        · rw [List.mem_singleton] at h
          rw [h] at hdep
          exact List.mem_append_left _ (c1 m ((mem_inputNodes nodes c m).2 ⟨hm, hdep⟩))
      · rw [List.pairwise_append]
        refine ⟨gpair, List.pairwise_singleton _ _, ?_⟩
        intro a ha b hb
        rw [List.mem_singleton] at hb
        rw [hb]
        cases hd : a.dependsOn c with
        | false => rfl
        | true => exact absurd (gclosed a ha c hcn hd) hnot
      · intro x hx
        exact List.mem_append_left _ (m1 x hx)
      · exact List.mem_append_right _ (List.mem_singleton_self c)
      · intro x hx
        rcases List.mem_append.1 hx with h | h
        · rcases n1 x h with h1 | h1
          · exact Or.inl h1
          · exact Or.inr ⟨le_of_lt h1.1, h1.2⟩
        · rw [List.mem_singleton] at h
          rw [h]
          exact Or.inr ⟨le_refl _, hcc⟩

/-- Counting with a stronger predicate that one member tells apart gives more. -/
theorem countP_lt_countP (p q : Node → Bool) :
    ∀ l : List Node, (∀ x ∈ l, p x = true → q x = true) →
      (∃ x ∈ l, q x = true ∧ p x = false) → l.countP p < l.countP q := by
  intro l
  induction l with
  | nil => intro _ h; obtain ⟨x, hx, _⟩ := h; cases hx
  | cons a l ih =>
    intro himp hex
    have hle : l.countP p ≤ l.countP q :=
      List.countP_mono_left fun x hx h => himp x (List.mem_cons_of_mem _ hx) h
    rw [List.countP_cons, List.countP_cons]
    obtain ⟨x, hx, hq, hp⟩ := hex
    rcases List.mem_cons.1 hx with h | h
    · rw [← h, hq, hp]; simp; omega
    · have := ih (fun y hy => himp y (List.mem_cons_of_mem _ hy)) ⟨x, h, hq, hp⟩
      cases hpa : p a with
      | false => simp; omega
      | true => rw [himp a (List.mem_cons_self _ _) hpa]; simp; omega

/-- The ranks of an acyclic graph can be taken below the number of its nodes. -/
theorem Acyclic_bounded (nodes : List Node) (h : Acyclic nodes) :
    ∃ rank : Node → Nat, (∀ n ∈ nodes, rank n < nodes.length) ∧
      ∀ n ∈ nodes, ∀ m ∈ nodes, n.dependsOn m = true → rank m < rank n := by
  obtain ⟨rank, hrank⟩ := h
  refine ⟨fun n => nodes.countP fun x => decide (rank x < rank n), ?_, ?_⟩
  · intro n hn
    have h1 := countP_lt_countP (fun x => decide (rank x < rank n)) (fun _ => true) nodes
      (fun _ _ _ => rfl) ⟨n, hn, rfl, by simp⟩
    have h2 : nodes.countP (fun _ => true) = nodes.length := by
      rw [List.countP_eq_length]; intro _ _; rfl
    rw [h2] at h1
    exact h1
  · intro n hn m hm hdep
    have hlt := hrank n hn m hm hdep
    apply countP_lt_countP
    · intro x _ hx
      rw [decide_eq_true_eq] at hx ⊢
      omega
    · exact ⟨m, hm, by rw [decide_eq_true_eq]; exact hlt, by simp⟩

/-- The sequence of the iterator from a list of roots of an acyclic graph. -/
theorem nodeIterator_roots (nodes roots : List Node) (h : Acyclic nodes)
    (hroots : ∀ n ∈ roots, n ∈ nodes) :
    VisitedGood nodes (roots.foldl (visitNode nodes (nodes.length + 1)) []) ∧
    (∀ n ∈ roots, n ∈ roots.foldl (visitNode nodes (nodes.length + 1)) []) ∧
    ∀ n ∈ roots.foldl (visitNode nodes (nodes.length + 1)) [],
      InputClosure ⟨nodes⟩ roots n := by
  obtain ⟨rank, hb, hrank⟩ := Acyclic_bounded nodes h
  have Hv := visitNode_spec nodes rank hrank (InputClosure ⟨nodes⟩ roots)
    (fun n m hn hm hdep => InputClosure.input n m hn hm hdep) (nodes.length + 1)
  obtain ⟨g, _, c, n⟩ := visitAll_spec nodes rank (InputClosure ⟨nodes⟩ roots)
    (nodes.length + 1) (nodes.length + 1) Hv roots []
    (fun p hp => ⟨hroots p hp, Nat.lt_succ_of_lt (hb p (hroots p hp)),
      Nat.lt_succ_of_lt (hb p (hroots p hp)), InputClosure.output p hp (hroots p hp)⟩)
    ⟨List.nodup_nil, fun x hx => (by cases hx), fun x hx => (by cases hx), List.Pairwise.nil⟩
  refine ⟨g, c, ?_⟩
  intro x hx
  rcases n x hx with h1 | h1
  · cases h1
  · exact h1.2

/-- In a list that satisfies the invariant, the nodes consumed by a node come before it. -/
theorem VisitedGood_earlier (nodes visited : List Node) (hself : ∀ n ∈ nodes, n.dependsOn n = false)
    (hg : VisitedGood nodes visited) (earlier : List Node) (n : Node) (later : List Node)
    (hv : visited = earlier ++ n :: later) :
    ∀ m ∈ nodes, n.dependsOn m = true → m ∈ earlier := by
  intro m hm hdep
  obtain ⟨_, gsub, gclosed, gpair⟩ := hg
  have hn : n ∈ visited := by rw [hv]; simp
  have hmv := gclosed n hn m hm hdep
  rw [hv] at hmv gpair
  rcases List.mem_append.1 hmv with h1 | h1
  · exact h1
  · exfalso
    rcases List.mem_cons.1 h1 with h2 | h2
    · rw [h2, hself n (gsub n hn)] at hdep
      cases hdep
    · have := (List.pairwise_cons.1 (List.pairwise_append.1 gpair).2.1).1 m h2
      rw [this] at hdep
      cases hdep

theorem Acyclic_self (nodes : List Node) (h : Acyclic nodes) :
    ∀ n ∈ nodes, n.dependsOn n = false := by
  obtain ⟨rank, hrank⟩ := h
  intro n hn
  cases hd : n.dependsOn n with
  | false => rfl
  | true => exact absurd (hrank n hn n hn hd) (lt_irrefl _)

/-- The members of the sequence of the iterator. -/
theorem nodeIterator_mem (nodes outputNodes : List Node) (h : Acyclic nodes)
    (hout : ∀ n ∈ outputNodes, n ∈ nodes) :
    VisitedGood nodes (nodeIterator nodes outputNodes) ∧
    (outputNodes = [] → ∀ n, n ∈ nodeIterator nodes outputNodes ↔ n ∈ nodes) ∧
    (outputNodes ≠ [] →
      ∀ n, n ∈ nodeIterator nodes outputNodes ↔ InputClosure ⟨nodes⟩ outputNodes n) := by
  unfold nodeIterator
  cases outputNodes with
  | nil =>
    obtain ⟨g, c, _⟩ := nodeIterator_roots nodes nodes h (fun _ hn => hn)
    exact ⟨g, fun _ n => ⟨g.2.1 n, c n⟩, fun hne => absurd rfl hne⟩
  | cons o rest =>
    obtain ⟨g, c, s⟩ := nodeIterator_roots nodes (o :: rest) h hout
    refine ⟨g, fun hne => (by cases hne), fun _ n => ⟨s n, ?_⟩⟩
    intro hc
    induction hc with
    | output x hx _ => exact c x hx
    | input x y _ hy hdep ih => exact g.2.2.1 x ih y hy hdep

/-- Visiting nodes that are all visited already changes nothing. -/
theorem visitAll_visited (nodes : List Node) (fuel : Nat) (visited : List Node) :
    ∀ ps : List Node, (∀ p ∈ ps, p ∈ visited) →
      ps.foldl (visitNode nodes fuel) visited = visited := by
  intro ps
  induction ps with
  | nil => intro _; rfl
  | cons p rest ih =>
    intro hps
    rw [List.foldl_cons]
    have hp : visitNode nodes fuel visited p = visited := by
      cases fuel with
      | zero => rw [visitNode]
      | succ fuel => rw [visitNode, if_pos (hps p (List.mem_cons_self _ _))]
    rw [hp]
    exact ih fun q hq => hps q (List.mem_cons_of_mem _ hq)

/-- The iterator over a graph stored in a dependency order yields the stored order. -/
theorem nodeIterator_ordered (nodes : List Node) (fuel : Nat) :
    ∀ (visited rest : List Node), nodes = visited ++ rest → (Model.mk nodes).Ordered →
      rest.foldl (visitNode nodes (fuel + 1)) visited = nodes := by
  intro visited rest
  induction rest generalizing visited with
  | nil => intro h _; rw [h, List.append_nil]; rfl
  | cons n rest ih =>
    intro h ho
    rw [List.foldl_cons]
    obtain ⟨hnd, hself, hpair⟩ := ho
    change nodes.Nodup at hnd
    change ∀ n ∈ nodes, n.dependsOn n = false at hself
    change nodes.Pairwise _ at hpair
    have hn : n ∉ visited := by
      intro hm
      rw [h] at hnd
      exact (List.nodup_append.1 hnd).2.2 hm (List.mem_cons_self _ _)
    have hps : ∀ p ∈ inputNodes nodes n, p ∈ visited := by
      intro p hp
      obtain ⟨h1, h2⟩ := (mem_inputNodes nodes n p).1 hp
      rw [h] at h1 hpair hself
      rcases List.mem_append.1 h1 with h3 | h3
      · exact h3
      · exfalso
        rcases List.mem_cons.1 h3 with h4 | h4
        · rw [h4, hself n (by simp)] at h2
          cases h2
        · have := (List.pairwise_cons.1 (List.pairwise_append.1 hpair).2.1).1 p h4
          rw [this] at h2
          cases h2
    have hstep : visitNode nodes (fuel + 1) visited n = visited ++ [n] := by
      rw [visitNode, if_neg hn, visitAll_visited nodes fuel visited _ hps]
    rw [hstep]
    exact ih (visited ++ [n]) (by rw [h]; simp) ⟨hnd, hself, hpair⟩

/-- The closure does not depend on the order in which the model stores its nodes. -/
theorem InputClosure_congr (model other : Model) (outputNodes : List Node)
    (h : ∀ n, n ∈ model.nodes ↔ n ∈ other.nodes) (n : Node) :
    InputClosure model outputNodes n → InputClosure other outputNodes n := by
  intro hc
  induction hc with
  | output x hx hxm => exact InputClosure.output x hx ((h x).1 hxm)
  | input x y _ hy hdep ih => exact InputClosure.input x y ih ((h y).1 hy) hdep

/-- The sequence of `VisitSubset` on a model stored in a dependency order: a selection of
the stored nodes, without repetition, in which the nodes consumed come earlier, and whose nodes
are those of the input-closure of `outputNodes`. -/
theorem VisitSubset_ordered (model : Model) (outputNodes : List Node)
    (h : model.Ordered) :
    (model.VisitSubset outputNodes).Sublist model.nodes ∧
    (model.VisitSubset outputNodes).Nodup ∧
    (∀ (earlier : List Node) (n : Node) (later : List Node),
      model.VisitSubset outputNodes = earlier ++ n :: later →
      ∀ m ∈ model.nodes, n.dependsOn m = true → m ∈ earlier) ∧
    (outputNodes = [] → model.VisitSubset outputNodes = model.nodes) ∧
    model.Visit = model.nodes ∧
    (outputNodes ≠ [] →
      ∀ n, n ∈ model.VisitSubset outputNodes ↔ InputClosure model outputNodes n) := by
  obtain ⟨hnd, hself, hpair⟩ := h
  have hsub : (model.VisitSubset outputNodes).Sublist model.nodes := by
    unfold Model.VisitSubset
    split
    · exact List.Sublist.refl _
    · obtain ⟨sel, h1, h2⟩ := closureLoop_sublist outputNodes model.nodes.reverse []
      rw [h2, List.append_nil]
      have := h1.reverse
      rw [List.reverse_reverse] at this
      exact this
  have hclosed : ∀ k ∈ model.VisitSubset outputNodes, ∀ m ∈ model.nodes,
      k.dependsOn m = true → m ∈ model.VisitSubset outputNodes := by
    unfold Model.VisitSubset
    split
    · intro k _ m hm _; exact hm
    · intro k hk m hm hdep
      exact closureLoop_closed outputNodes model.nodes.reverse []
        (fun n hn => hself n (List.mem_reverse.1 hn))
        (List.pairwise_reverse.2 hpair) k hk m (List.mem_reverse.2 hm) hdep
  refine ⟨hsub, hnd.sublist hsub, ?_, ?_, rfl, ?_⟩
  · intro earlier n later hv m hm hdep
    have hn : n ∈ model.VisitSubset outputNodes := by rw [hv]; simp
    have hmv := hclosed n hn m hm hdep
    have hp := hpair.sublist hsub
    rw [hv] at hmv hp
    rcases List.mem_append.1 hmv with h1 | h1
    · exact h1
    · exfalso
      rcases List.mem_cons.1 h1 with h2 | h2
      · rw [h2, hself n (hsub.subset hn)] at hdep
        cases hdep
      · have := (List.pairwise_cons.1 (List.pairwise_append.1 hp).2.1).1 m h2
        rw [this] at hdep
        cases hdep
  · intro he
    unfold Model.VisitSubset
    rw [he]
    rfl
  · intro hne n
    have hv : model.VisitSubset outputNodes = closureLoop outputNodes model.nodes.reverse [] := by
      unfold Model.VisitSubset
      cases outputNodes with
      | nil => exact absurd rfl hne
      | cons x xs => rfl
    constructor
    · intro hn
      rw [hv] at hn
      exact closureLoop_sound model outputNodes model.nodes.reverse []
        (fun x hx => List.mem_reverse.1 hx) (fun k hk => by cases hk) n hn
    · intro hc
      induction hc with
      | output x hx hxm =>
        rw [hv]
        exact (closureLoop_mem outputNodes model.nodes.reverse []).2.1 x
          (List.mem_reverse.2 hxm) hx
      | input x y _ hy hdep ih => exact hclosed x ih y hy hdep

/-! ## Copies of models -/

theorem inputValues_copy (rename : OutputPortBase → OutputPortBase)
    (ports : List OutputPortBase) (b b2 : Buffers) (e e2 : PortElementsBase)
    (hc : b.Corresponds rename ports b2) (h : InputCopy rename e e2)
    (hp : ∀ x ∈ e.elements, x.1 ∈ ports) : b2.inputValues e2 = b.inputValues e := by
  rw [inputValues_eq, inputValues_eq, h, List.map_map]
  apply List.map_congr_left
  intro x hx
  simp only [Function.comp, renameElement]
  rw [hc x.1 (hp x hx)]

theorem inputs_copy (rename : OutputPortBase → OutputPortBase)
    (ports : List OutputPortBase) (b b2 : Buffers) (hc : b.Corresponds rename ports b2) :
    ∀ (es es2 : List PortElementsBase), List.Forall₂ (InputCopy rename) es es2 →
      (∀ e ∈ es, ∀ x ∈ e.elements, x.1 ∈ ports) →
      es2.map b2.inputValues = es.map b.inputValues := by
  intro es es2 h
  induction h with
  | nil => intro _; rfl
  | cons h1 _ ih =>
    intro hp
    rw [List.map_cons, List.map_cons, ih (fun e he => hp e (List.mem_cons_of_mem _ he)),
      inputValues_copy rename ports b b2 _ _ hc h1 (hp _ (List.mem_cons_self _ _))]

theorem storeOutputs_copy (rename : OutputPortBase → OutputPortBase)
    (P : List OutputPortBase) (hinj : ∀ p ∈ P, ∀ q ∈ P, rename p = rename q → p = q)
    (ports : List OutputPortBase) :
    ∀ (b b2 : Buffers) (values : List (List Int)), (∀ p ∈ ports, p ∈ P) →
      b.Corresponds rename P b2 →
      (storeOutputs b ports values).Corresponds rename P
        (storeOutputs b2 (ports.map rename) values) := by
  induction ports with
  | nil => intro b b2 values _ hc; exact hc
  | cons p rest ih =>
    intro b b2 values hp hc
    rw [List.map_cons, storeOutputs, storeOutputs]
    apply ih _ _ _ (fun q hq => hp q (List.mem_cons_of_mem _ hq))
    intro q hq
    simp only [Buffers.SetOutput]
    by_cases hqp : q = p
    · rw [if_pos hqp, if_pos (by rw [hqp])]
    · rw [if_neg hqp,
        if_neg (fun h => hqp (hinj q hq p (hp p (List.mem_cons_self _ _)) h))]
      exact hc q hq

theorem Compute_copy (compute : Nat → List (List Int) → List (List Int))
    (rename : OutputPortBase → OutputPortBase) (P : List OutputPortBase)
    (hinj : ∀ p ∈ P, ∀ q ∈ P, rename p = rename q → p = q) (n n2 : Node)
    (b b2 : Buffers) (h : CopyOf rename n n2)
    (hin : ∀ e ∈ n.inputs, ∀ x ∈ e.elements, x.1 ∈ P) (hout : ∀ p ∈ n.outputs, p ∈ P)
    (hc : b.Corresponds rename P b2) :
    (n.Compute compute b).Corresponds rename P (n2.Compute compute b2) := by
  obtain ⟨h1, h2, h3⟩ := h
  unfold Node.Compute
  rw [h1, h2, inputs_copy rename P b b2 hc _ _ h3 hin]
  exact storeOutputs_copy rename P hinj _ _ _ _ hout hc

/-- Computing the copies of nodes gives, in the copied ports, the values that computing the
nodes gives. -/
theorem computeVisit_copy (compute : Nat → List (List Int) → List (List Int))
    (rename : OutputPortBase → OutputPortBase) (P : List OutputPortBase)
    (hinj : ∀ p ∈ P, ∀ q ∈ P, rename p = rename q → p = q)
    (nodes nodes2 : List Node) (h : List.Forall₂ (CopyOf rename) nodes nodes2) :
    ∀ b b2 : Buffers,
      (∀ n ∈ nodes, (∀ e ∈ n.inputs, ∀ x ∈ e.elements, x.1 ∈ P) ∧ ∀ p ∈ n.outputs, p ∈ P) →
      b.Corresponds rename P b2 →
      (computeVisit compute nodes b).Corresponds rename P
        (computeVisit compute nodes2 b2) := by
  induction h with
  | nil => intro b b2 _ hc; exact hc
  | cons h1 _ ih =>
    intro b b2 hP hc
    rw [computeVisit, computeVisit]
    obtain ⟨k1, k2⟩ := hP _ (List.mem_cons_self _ _)
    exact ih _ _ (fun n hn => hP n (List.mem_cons_of_mem _ hn))
      (Compute_copy compute rename P hinj _ _ b b2 h1 k1 k2 hc)

theorem CopyMap_props (rename : OutputPortBase → OutputPortBase)
    (available : List OutputPortBase) (m : PortOutputsMap)
    (h : CopyMap rename available m) : m.SizeInvariant ∧ m.TargetsFitSizeT := by
  constructor
  · intro entry he
    obtain ⟨h1, _, h3⟩ := h.1 entry he
    rw [h1]
    simp only [PortElementsBase.ofPort, PortElementsBase.Size, List.map_cons, List.map_nil,
      List.sum_cons, List.sum_nil, Nat.add_zero]
    exact h3.symm
  · intro entry he t ht
    obtain ⟨h1, h2, h3⟩ := h.1 entry he
    rw [h1] at ht
    simp only [PortElementsBase.ofPort, List.mem_singleton] at ht
    rw [ht]
    simp only []
    omega

/-- The inputs of a node of a well-formed model are transformed into their copies. -/
theorem transform_input (rename : OutputPortBase → OutputPortBase)
    (available : List OutputPortBase) (m : PortOutputsMap)
    (hm : CopyMap rename available m) (e : PortElementsBase)
    (he : ∀ r ∈ e.GetRanges, r.ReferencedPort ∈ available ∧
      r.GetStartIndex + r.Size ≤ r.ReferencedPort.Size) :
    ∃ e2, m.GetCorrespondingPortElements e = .ok e2 ∧ InputCopy rename e e2 := by
  obtain ⟨hInv, hT⟩ := CopyMap_props rename available m hm
  have hfind : ∀ r ∈ e.GetRanges,
      m.find r.ReferencedPort = some (PortElementsBase.ofPort (rename r.ReferencedPort)) :=
    fun r hr => hm.2 _ (he r hr).1
  have hCov : m.Covers e := fun r hr => by rw [hfind r hr]; rfl
  have hIn : e.InBounds := fun r hr => (he r hr).2
  have hInt : e.PortsFitInt := by
    intro r hr
    exact (hm.1 _ (findEntry_mem (hfind r hr))).2.1
  obtain ⟨e2, h2, _⟩ := remap_ok_size m e hInv hCov hIn hInt
  refine ⟨e2, h2, ?_⟩
  have hel := remap_elements hInv hCov hIn hInt hT h2
  have hmap : e.elements.map (mappedElement m)
      = (e.elements.map (renameElement rename)).map some := by
    rw [List.map_map]
    apply List.map_congr_left
    intro x hx
    obtain ⟨r, hr, hx1, hx2⟩ := mem_elements e x hx
    have hb := (he r hr).2
    have hs := (hm.1 _ (findEntry_mem (hfind r hr))).2.2
    simp only [] at hs
    simp only [mappedElement, Function.comp, renameElement]
    rw [hx1, hfind r hr]
    simp only [PortElementsBase.ofPort]
    rw [elements_single _ 0 _ x.2 (by omega)]
    simp
  rw [hmap] at hel
  exact (List.map_injective_iff.2 (Option.some_injective _)) hel

/-- The inputs of a node of a well-formed model, transformed one by one. -/
theorem transformInputs_copy (rename : OutputPortBase → OutputPortBase)
    (available : List OutputPortBase) (t : ModelTransformer)
    (hm : CopyMap rename available t.elementsMap) :
    ∀ es : List PortElementsBase,
      (∀ e ∈ es, ∀ r ∈ e.GetRanges, r.ReferencedPort ∈ available ∧
        r.GetStartIndex + r.Size ≤ r.ReferencedPort.Size) →
      ∃ es2, transformInputs t es = .ok es2 ∧ List.Forall₂ (InputCopy rename) es es2 := by
  intro es
  induction es with
  | nil => intro _; exact ⟨[], rfl, List.Forall₂.nil⟩
  | cons e rest ih =>
    intro h
    obtain ⟨e2, h1, h2⟩ := transform_input rename available t.elementsMap hm e
      (h e (List.mem_cons_self _ _))
    obtain ⟨es2, h3, h4⟩ := ih (fun e he => h e (List.mem_cons_of_mem _ he))
    refine ⟨e2 :: es2, ?_, List.Forall₂.cons h2 h4⟩
    rw [transformInputs]
    simp only [ModelTransformer.TransformPortElements, h1, h3]

/-- Registering the copy of a port keeps the map a map of a copy in progress. -/
theorem CopyMap_assign (rename : OutputPortBase → OutputPortBase)
    (available : List OutputPortBase) (m : PortOutputsMap)
    (h : CopyMap rename available m) (p : OutputPortBase) (hp : p.Size < 2147483648)
    (hsz : (rename p).Size = p.Size) :
    (m.MapNodeOutput p (PortElementsBase.ofPort (rename p))).1 = .ok () ∧
    CopyMap rename (available ++ [p])
      (m.MapNodeOutput p (PortElementsBase.ofPort (rename p))).2 := by
  have hs : p.Size = (PortElementsBase.ofPort (rename p)).Size := by
    simp [PortElementsBase.ofPort, PortElementsBase.Size, hsz]
  unfold PortOutputsMap.MapNodeOutput
  rw [if_neg (by simpa using hs)]
  refine ⟨rfl, ?_, ?_⟩
  · intro entry he
    rcases mem_assignEntry he with h1 | h1
    · rw [h1]; exact ⟨rfl, hp, hsz⟩
    · exact h.1 entry h1
  · intro q hq
    simp only [PortOutputsMap.find]
    by_cases hqp : q = p
    · rw [hqp]; exact findEntry_assignEntry_self _ _ _
    · rw [findEntry_assignEntry_other _ _ _ hqp]
      rcases List.mem_append.1 hq with h1 | h1
      · exact h.2 q h1
      · exact absurd (List.mem_singleton.1 h1) hqp

/-- Registering the copies of ports of fewer than 2^31 elements registers the copy of each
port. -/
theorem registerAll_CopyMap (rename : OutputPortBase → OutputPortBase)
    (ports : List OutputPortBase) :
    ∀ (available : List OutputPortBase) (m : PortOutputsMap),
      CopyMap rename available m →
      (∀ p ∈ ports, p.Size < 2147483648 ∧ (rename p).Size = p.Size) →
      CopyMap rename (available ++ ports) (registerAll rename ports m) := by
  induction ports with
  | nil =>
    intro available m hm _
    rw [List.append_nil]
    exact hm
  | cons port rest ih =>
    intro available m hm hp
    obtain ⟨k1, k2⟩ := hp port (List.mem_cons_self _ _)
    have h2 := (CopyMap_assign rename available m hm port k1 k2).2
    have h3 := ih (available ++ [port]) _ h2 (fun p hp2 => hp p (List.mem_cons_of_mem _ hp2))
    rw [List.append_assoc] at h3
    exact h3

/-- The first visit of `CopyModel` on the nodes of a well-formed model, with `Copy` hooks that
add an equivalent node and register its outputs: it completes, adds a copy of each node and
registers the copy of each output port. -/
theorem copyVisit_copies (classes : NodeClasses) (rename : OutputPortBase → OutputPortBase)
    (nodes : List Node) :
    CopiesNodes classes rename ⟨nodes⟩ →
    ∀ (available : List OutputPortBase) (t : ModelTransformer),
      CopyMap rename available t.elementsMap → DependencyOrdered available nodes →
      (∀ p ∈ nodes.flatMap Node.outputs, p.Size < 2147483648 ∧ (rename p).Size = p.Size) →
      (copyVisit classes nodes t).outcome = .ok () ∧
      (∃ nodes2, (copyVisit classes nodes t).transformer.model.nodes = t.model.nodes ++ nodes2 ∧
        List.Forall₂ (CopyOf rename) nodes nodes2) ∧
      CopyMap rename (available ++ nodes.flatMap Node.outputs)
        (copyVisit classes nodes t).transformer.elementsMap := by
  induction nodes with
  | nil =>
    intro _ available t hm _ _
    simp only [copyVisit, List.flatMap_nil, List.append_nil]
    exact ⟨trivial, ⟨[], by simp, List.Forall₂.nil⟩, hm⟩
  | cons node rest ih =>
    intro hcopy available t hm hord hp
    obtain ⟨hin, hrest⟩ := hord
    obtain ⟨es2, h1, h2⟩ := transformInputs_copy rename available t hm node.inputs hin
    obtain ⟨a1, ⟨node2, a2, k1, k2, k3⟩, a3⟩ := hcopy node (List.mem_cons_self _ _) t es2 h1
    have hcopyRest : CopiesNodes classes rename ⟨rest⟩ :=
      fun n hn => hcopy n (List.mem_cons_of_mem _ hn)
    have a4 : CopyMap rename (available ++ node.outputs)
        ((classes.Copy node).run classes.IsCompilable t).transformer.elementsMap := by
      rw [a3]
      exact registerAll_CopyMap rename node.outputs available _ hm
        (fun p hp2 => hp p (by
          simp only [List.flatMap_cons, List.mem_append]; exact Or.inl hp2))
    rw [copyVisit]
    simp only [a1]
    obtain ⟨b1, ⟨nodes2, b2, b3⟩, b4⟩ := ih hcopyRest (available ++ node.outputs) _ a4 hrest
      (fun p hp2 => hp p (by simp only [List.flatMap_cons, List.mem_append]; exact Or.inr hp2))
    refine ⟨b1, ⟨node2 :: nodes2, ?_,
      List.Forall₂.cons ⟨k1, k3, by rw [k2]; exact h2⟩ b3⟩, ?_⟩
    · rw [b2, a2]; simp
    · rw [List.flatMap_cons, ← List.append_assoc]
      exact b4

/-- A relation of copies holds for every list of nodes that differ from the copies in their
metadata only. -/
theorem forall₂_CopyOf_congr (rename : OutputPortBase → OutputPortBase)
    (nodes nodes2 : List Node) (h : List.Forall₂ (CopyOf rename) nodes nodes2) :
    ∀ nodes3 : List Node,
      nodes3.map (fun n => (n.kind, n.inputs, n.outputs))
        = nodes2.map (fun n => (n.kind, n.inputs, n.outputs)) →
      List.Forall₂ (CopyOf rename) nodes nodes3 := by
  induction h with
  | nil =>
    intro nodes3 h3
    cases nodes3 with
    | nil => exact List.Forall₂.nil
    | cons x xs => simp at h3
  | cons h1 _ ih =>
    intro nodes3 h3
    cases nodes3 with
    | nil => simp at h3
    | cons x xs =>
      simp only [List.map_cons, List.cons.injEq, Prod.mk.injEq] at h3
      obtain ⟨⟨k1, k2, k3⟩, k4⟩ := h3
      refine List.Forall₂.cons ?_ (ih xs k4)
      obtain ⟨c1, c2, c3⟩ := h1
      exact ⟨by rw [k1]; exact c1, by rw [k3]; exact c2, by rw [k2]; exact c3⟩

/-- The elements that correspond to a port in the map of a copy are those of the copy of the
port. -/
theorem query_copy (rename : OutputPortBase → OutputPortBase)
    (available : List OutputPortBase) (m : PortOutputsMap)
    (hm : CopyMap rename available m) (p : OutputPortBase) (hp : p ∈ available) :
    ∃ e2, m.GetCorrespondingPortElements (PortElementsBase.ofPort p) = .ok e2 ∧
      e2.Size = p.Size ∧
      e2.elements = (PortElementsBase.ofPort p).elements.map (renameElement rename) ∧
      (0 < p.Size → RangesNonempty e2.GetRanges) := by
  have hfit : p.Size < 2147483648 := (hm.1 _ (findEntry_mem (hm.2 p hp))).2.1
  obtain ⟨hInv, hT⟩ := CopyMap_props rename available m hm
  have hCov : m.Covers (PortElementsBase.ofPort p) := by
    intro r hr
    simp only [PortElementsBase.ofPort, List.mem_singleton] at hr
    rw [hr, hm.2 p hp]; rfl
  have hIn : (PortElementsBase.ofPort p).InBounds := by
    intro r hr
    simp only [PortElementsBase.ofPort, List.mem_singleton] at hr
    rw [hr]; simp
  have hInt : (PortElementsBase.ofPort p).PortsFitInt := by
    intro r hr
    simp only [PortElementsBase.ofPort, List.mem_singleton] at hr
    rw [hr]; exact hfit
  obtain ⟨e2, h2, h3⟩ := remap_ok_size m _ hInv hCov hIn hInt
  have hsz : (PortElementsBase.ofPort p).Size = p.Size := by
    simp [PortElementsBase.ofPort, PortElementsBase.Size]
  refine ⟨e2, h2, by rw [h3, hsz], ?_, ?_⟩
  · obtain ⟨e3, h4, h5⟩ := transform_input rename available m hm (PortElementsBase.ofPort p) (by
      intro r hr
      simp only [PortElementsBase.ofPort, List.mem_singleton] at hr
      rw [hr]
      exact ⟨hp, by simp⟩)
    rw [h2] at h4
    cases h4
    exact h5
  · intro hpos
    refine (remap_normal hInv hCov hIn hInt ?_ h2).1
    intro r hr
    simp only [PortElementsBase.ofPort, List.mem_singleton] at hr
    rw [hr]
    exact hpos

/-- The model returned by `CopyModel` for a well-formed model, with `Copy` hooks that add an
equivalent node and register its outputs: the call returns, the nodes of the model returned
are copies of the nodes of the model, and the map holds the copy of every output port. -/
theorem CopyModel_copies (t : ModelTransformer) (classes : NodeClasses)
    (rename : OutputPortBase → OutputPortBase) (G : Model) (context : TransformContext)
    (hcopy : CopiesNodes classes rename G) (hren : PortRenaming rename G)
    (hwf : G.WellFormed) :
    ∃ G2, (t.CopyModel classes G [] context).result = .ok G2 ∧
      List.Forall₂ (CopyOf rename) G.nodes G2.nodes ∧
      CopyMap rename (G.nodes.flatMap Node.outputs)
        (t.CopyModel classes G [] context).transformer.elementsMap := by
  obtain ⟨hnd, hfit, hord⟩ := hwf
  have hcm0 : CopyMap rename []
      ({ t with context := context, model := ⟨[]⟩,
                elementsMap := t.elementsMap.Clear } : ModelTransformer).elementsMap :=
    ⟨(fun entry he => by cases he), (fun p hp => by cases hp)⟩
  obtain ⟨c1, ⟨nodes2, c2, c3⟩, c4⟩ := copyVisit_copies classes rename G.nodes hcopy [] _ hcm0
    hord (fun p hp => ⟨hfit p hp, hren.1 p hp⟩)
  simp only [List.nil_append] at c2 c4
  have hq := query_copy rename _ _ c4
  have hmeta := metadataPass_ok G.nodes
    { (copyVisit classes G.nodes
        { t with context := context, model := ⟨[]⟩,
                 elementsMap := t.elementsMap.Clear }).transformer
      with context := TransformContext.default }
    (by
      intro n hn p ps hp
      obtain ⟨e, he, _⟩ := hq p
        (List.mem_flatMap.2 ⟨n, hn, by rw [hp]; exact List.mem_cons_self _ _⟩)
      exact ⟨e, he⟩)
  obtain ⟨r1, r2⟩ := CopyModel_intro t classes G [] context c1 hmeta
  have hcore := (metadataPass_map (fun n => (n.kind, n.inputs, n.outputs)) (fun _ _ => rfl)
    G.nodes
    { (copyVisit classes G.nodes
        { t with context := context, model := ⟨[]⟩,
                 elementsMap := t.elementsMap.Clear }).transformer
      with context := TransformContext.default }).trans
    (congrArg (List.map fun n => (n.kind, n.inputs, n.outputs)) c2)
  refine ⟨_, r1, ?_, ?_⟩
  · exact forall₂_CopyOf_congr rename G.nodes nodes2 c3 _ hcore
  · rw [r2]; exact c4

/-- The owner of a port of a model and the owner of its copy among the copies. -/
theorem owner_copy (rename : OutputPortBase → OutputPortBase) (P : List OutputPortBase)
    (hinj : ∀ p ∈ P, ∀ q ∈ P, rename p = rename q → p = q) (p : OutputPortBase)
    (hpP : p ∈ P) (nodes nodes2 : List Node)
    (h : List.Forall₂ (CopyOf rename) nodes nodes2) :
    (∀ n ∈ nodes, ∀ q ∈ n.outputs, q ∈ P) → p ∈ nodes.flatMap Node.outputs →
    ∃ owner owner2,
      nodes.find? (fun node => decide (p ∈ node.outputs)) = some owner ∧
      nodes2.find? (fun node => decide (rename p ∈ node.outputs)) = some owner2 ∧
      owner ∈ nodes ∧ owner2 ∈ nodes2 ∧ p ∈ owner.outputs ∧ rename p ∈ owner2.outputs := by
  induction h with
  | nil => intro _ hp; simp at hp
  | @cons n n2 rest rest2 h1 hrest ih =>
    intro hP hp
    rw [List.flatMap_cons] at hp
    have hcp : rename p ∈ n2.outputs ↔ p ∈ n.outputs := by
      rw [h1.2.1]
      constructor
      · intro hx
        obtain ⟨q, hq1, hq2⟩ := List.mem_map.1 hx
        rw [← hinj q (hP n (List.mem_cons_self _ _) q hq1) p hpP hq2]
        exact hq1
      · exact fun hx => List.mem_map_of_mem _ hx
    by_cases hpn : p ∈ n.outputs
    · refine ⟨n, n2, ?_, ?_, List.mem_cons_self _ _, List.mem_cons_self _ _, hpn, hcp.2 hpn⟩
      · simp [List.find?, hpn]
      · simp [List.find?, hcp.2 hpn]
    · have hp2 : p ∈ rest.flatMap Node.outputs := by
        rcases List.mem_append.1 hp with h | h
        · exact absurd h hpn
        · exact h
      obtain ⟨owner, owner2, o1, o2, o3, o4, o5, o6⟩ :=
        ih (fun m hm => hP m (List.mem_cons_of_mem _ hm)) hp2
      refine ⟨owner, owner2, ?_, ?_, List.mem_cons_of_mem _ o3, List.mem_cons_of_mem _ o4,
        o5, o6⟩
      · simp [List.find?, hpn, o1]
      · simp [List.find?, mt hcp.1 hpn, o2]

/-- The output ports of the copies are the copies of the output ports. -/
theorem copies_outputs (rename : OutputPortBase → OutputPortBase) (nodes nodes2 : List Node)
    (h : List.Forall₂ (CopyOf rename) nodes nodes2) :
    nodes2.flatMap Node.outputs = (nodes.flatMap Node.outputs).map rename := by
  induction h with
  | nil => rfl
  | cons h1 _ ih => rw [List.flatMap_cons, List.flatMap_cons, List.map_append, ih, h1.2.1]

/-! ## Visits of a part of a model -/

theorem Supplied_restrict : ∀ (nodes : List Node) (A A2 Q : OutputPortBase → Prop),
    Supplied A nodes → (∀ n ∈ nodes, ∀ e ∈ n.inputs, ∀ x ∈ e.elements, Q x.1) →
    (∀ p, A p → Q p → A2 p) → Supplied A2 nodes := by
  intro nodes
  induction nodes with
  | nil => intro _ _ _ _ _ _; trivial
  | cons n rest ih =>
    intro A A2 Q hs hQ hA
    obtain ⟨h1, h2⟩ := hs
    refine ⟨fun e he x hx => hA _ (h1 e he x hx) (hQ n (List.mem_cons_self _ _) e he x hx), ?_⟩
    apply ih _ _ Q h2 (fun m hm => hQ m (List.mem_cons_of_mem _ hm))
    intro p hp hq
    rcases hp with h | h
    · exact Or.inl (hA p h hq)
    · exact Or.inr h

theorem Supplied_mono (nodes : List Node) (A A2 : OutputPortBase → Prop)
    (hA : ∀ p, A p → A2 p) (hs : Supplied A nodes) : Supplied A2 nodes :=
  Supplied_restrict nodes A A2 (fun _ => True) hs (fun _ _ _ _ _ _ => trivial)
    (fun p hp _ => hA p hp)

theorem Supplied_concat : ∀ (l : List Node) (A : OutputPortBase → Prop) (n : Node),
    Supplied A (l ++ [n]) →
    Supplied A l ∧ ∀ e ∈ n.inputs, ∀ x ∈ e.elements, A x.1 ∨ ∃ m ∈ l, x.1 ∈ m.outputs := by
  intro l
  induction l with
  | nil =>
    intro A n h
    exact ⟨trivial, fun e he x hx => Or.inl (h.1 e he x hx)⟩
  | cons a l ih =>
    intro A n h
    obtain ⟨h1, h2⟩ := h
    obtain ⟨i1, i2⟩ := ih _ n h2
    refine ⟨⟨h1, i1⟩, ?_⟩
    intro e he x hx
    rcases i2 e he x hx with (k | k) | ⟨m, hm, k⟩
    · exact Or.inl k
    · exact Or.inr ⟨a, List.mem_cons_self _ _, k⟩
    · exact Or.inr ⟨m, List.mem_cons_of_mem _ hm, k⟩

/-- The elements consumed in a model in dependency order are on ports of earlier nodes. -/
theorem DependencyOrdered_supplied : ∀ (nodes : List Node) (available : List OutputPortBase),
    DependencyOrdered available nodes → Supplied (fun p => p ∈ available) nodes := by
  intro nodes
  induction nodes with
  | nil => intro _ _; trivial
  | cons node rest ih =>
    intro available h
    obtain ⟨h1, h2⟩ := h
    refine ⟨?_, ?_⟩
    · intro e he x hx
      obtain ⟨r, hr, hx1, _⟩ := mem_elements e x hx
      rw [hx1]
      exact (h1 e he r hr).1
    · exact Supplied_mono rest _ _ (fun p hp => List.mem_append.1 hp) (ih _ h2)

/-- The elements consumed by the nodes of a list are on available ports or on ports of the
list. -/
theorem Supplied_ports : ∀ (nodes : List Node) (A : OutputPortBase → Prop),
    Supplied A nodes → ∀ n ∈ nodes, ∀ e ∈ n.inputs, ∀ x ∈ e.elements,
      A x.1 ∨ x.1 ∈ nodes.flatMap Node.outputs := by
  intro nodes
  induction nodes with
  | nil => intro _ _ n hn; cases hn
  | cons node rest ih =>
    intro A h n hn e he x hx
    obtain ⟨h1, h2⟩ := h
    rw [List.flatMap_cons]
    rcases List.mem_cons.1 hn with k | k
    · rw [k] at he
      exact Or.inl (h1 e he x hx)
    · rcases ih _ h2 n k e he x hx with (j | j) | j
      · exact Or.inl j
      · exact Or.inr (List.mem_append_left _ j)
      · exact Or.inr (List.mem_append_right _ j)

theorem forall₂_mem_right {α β : Type} {R : α → β → Prop} (l : List α) (l2 : List β)
    (h : List.Forall₂ R l l2) : ∀ b ∈ l2, ∃ a ∈ l, R a b := by
  induction h with
  | nil => intro b hb; cases hb
  | cons h1 _ ih =>
    intro b hb
    rcases List.mem_cons.1 hb with k | k
    · exact ⟨_, List.mem_cons_self _ _, by rw [k]; exact h1⟩
    · obtain ⟨a, ha, hab⟩ := ih b k
      exact ⟨a, List.mem_cons_of_mem _ ha, hab⟩

/-- The copies of nodes whose elements are supplied have their elements supplied by the
copies. -/
theorem Supplied_copy (rename : OutputPortBase → OutputPortBase) (nodes nodes2 : List Node)
    (h : List.Forall₂ (CopyOf rename) nodes nodes2) :
    ∀ (A A2 : OutputPortBase → Prop), (∀ p, A p → A2 (rename p)) →
      Supplied A nodes → Supplied A2 nodes2 := by
  induction h with
  | nil => intro _ _ _ _; trivial
  | @cons n n2 rest rest2 h1 _ ih =>
    intro A A2 hA hs
    obtain ⟨s1, s2⟩ := hs
    refine ⟨?_, ?_⟩
    · intro e2 he2 x2 hx2
      obtain ⟨e, he, hee⟩ := forall₂_mem_right _ _ h1.2.2 e2 he2
      rw [hee] at hx2
      obtain ⟨x, hx, hxx⟩ := List.mem_map.1 hx2
      rw [← hxx]
      exact hA _ (s1 e he x hx)
    · apply ih _ _ _ s2
      intro p hp
      rcases hp with k | k
      · exact Or.inl (hA p k)
      · right
        rw [h1.2.1]
        exact List.mem_map_of_mem _ k

theorem storeOutputs_not_mem (ports : List OutputPortBase) :
    ∀ (b : Buffers) (values : List (List Int)) (p : OutputPortBase), p ∉ ports →
      (storeOutputs b ports values).GetOutput p = b.GetOutput p := by
  induction ports with
  | nil => intro b values p _; rfl
  | cons port rest ih =>
    intro b values p hp
    rw [storeOutputs, ih _ _ p (fun h => hp (List.mem_cons_of_mem _ h))]
    simp only [Buffers.SetOutput]
    rw [if_neg (fun h => hp (by rw [h]; exact List.mem_cons_self _ _))]

/-- What `storeOutputs` leaves in a port that it stores does not depend on the buffers
before. -/
theorem storeOutputs_mem (ports : List OutputPortBase) :
    ∀ (b b0 : Buffers) (values : List (List Int)) (p : OutputPortBase), p ∈ ports →
      (storeOutputs b ports values).GetOutput p
        = (storeOutputs b0 ports values).GetOutput p := by
  induction ports with
  | nil => intro _ _ _ p hp; cases hp
  | cons port rest ih =>
    intro b b0 values p hp
    rw [storeOutputs, storeOutputs]
    by_cases hr : p ∈ rest
    · exact ih _ _ _ p hr
    · rw [storeOutputs_not_mem rest _ _ p hr, storeOutputs_not_mem rest _ _ p hr]
      have hpp : p = port := by
        rcases List.mem_cons.1 hp with k | k
        · exact k
        · exact absurd k hr
      simp only [Buffers.SetOutput]
      rw [if_pos hpp, if_pos hpp]

theorem computeVisit_frame (compute : Nat → List (List Int) → List (List Int)) :
    ∀ (nodes : List Node) (b : Buffers) (p : OutputPortBase),
      p ∉ nodes.flatMap Node.outputs →
      (computeVisit compute nodes b).GetOutput p = b.GetOutput p := by
  intro nodes
  induction nodes with
  | nil => intro b p _; rfl
  | cons node rest ih =>
    intro b p hp
    rw [List.flatMap_cons] at hp
    rw [computeVisit, ih _ p (fun h => hp (List.mem_append_right _ h))]
    unfold Node.Compute
    exact storeOutputs_not_mem _ _ _ p (fun h => hp (List.mem_append_left _ h))

/-- The input values are those of buffers that agree on the ports of the elements. -/
theorem inputs_congr (b b2 : Buffers) (es : List PortElementsBase)
    (h : ∀ e ∈ es, ∀ x ∈ e.elements, b.GetOutput x.1 = b2.GetOutput x.1) :
    es.map b.inputValues = es.map b2.inputValues := by
  apply List.map_congr_left
  intro e he
  rw [inputValues_eq, inputValues_eq]
  apply List.map_congr_left
  intro x hx
  rw [h e he x hx]

/-- After the visit of all the nodes of a model in dependency order without shared port, every
port holds what its node computes from the values that the ports hold then. -/
theorem computeVisit_fixed (compute : Nat → List (List Int) → List (List Int)) :
    ∀ (nodes : List Node) (A : OutputPortBase → Prop) (b : Buffers),
      Supplied A nodes → (nodes.flatMap Node.outputs).Nodup →
      (∀ p, A p → p ∉ nodes.flatMap Node.outputs) →
      ∀ n ∈ nodes, ∀ p ∈ n.outputs,
        (computeVisit compute nodes b).GetOutput p
          = (n.Compute compute (computeVisit compute nodes b)).GetOutput p := by
  intro nodes
  induction nodes with
  | nil => intro _ _ _ _ _ n hn; cases hn
  | cons node rest ih =>
    intro A b hs hnd hA n hn p hp
    obtain ⟨s1, s2⟩ := hs
    rw [List.flatMap_cons] at hnd hA
    have hdis := (List.nodup_append.1 hnd).2.2
    rw [computeVisit]
    rcases List.mem_cons.1 hn with k | k
    · rw [k] at hp
      rw [k]
      have hpr : p ∉ rest.flatMap Node.outputs := fun h => hdis hp h
      rw [computeVisit_frame compute rest _ p hpr]
      unfold Node.Compute
      have hin : node.inputs.map (computeVisit compute rest
            (storeOutputs b node.outputs
              (compute node.kind (node.inputs.map b.inputValues)))).inputValues
          = node.inputs.map b.inputValues := by
        apply inputs_congr
        intro e he x hx
        have hx1 := hA x.1 (s1 e he x hx)
        rw [computeVisit_frame compute rest _ x.1 (fun h => hx1 (List.mem_append_right _ h))]
        exact storeOutputs_not_mem _ _ _ x.1 (fun h => hx1 (List.mem_append_left _ h))
      rw [hin]
      exact storeOutputs_mem _ _ _ _ p hp
    · apply ih _ _ s2 (List.nodup_append.1 hnd).2.1 _ n k p hp
      intro q hq
      rcases hq with j | j
      · exact fun h => hA q j (List.mem_append_right _ h)
      · exact fun h => hdis j h

/-- The visit of a part of a model that supplies the elements it consumes leaves in its ports
the values of the visit of the whole model. -/
theorem computeVisit_part (compute : Nat → List (List Int) → List (List Int))
    (L : List Node) (F : Buffers)
    (hF : ∀ n ∈ L, ∀ p ∈ n.outputs,
      F.GetOutput p = (n.Compute compute F).GetOutput p) :
    ∀ (S : List Node) (A : OutputPortBase → Prop) (b : Buffers),
      Supplied A S → (∀ n ∈ S, n ∈ L) → (∀ p, A p → b.GetOutput p = F.GetOutput p) →
      ∀ p, (A p ∨ ∃ n ∈ S, p ∈ n.outputs) →
        (computeVisit compute S b).GetOutput p = F.GetOutput p := by
  intro S
  induction S with
  | nil =>
    intro A b _ _ hb p hp
    rcases hp with k | ⟨n, hn, _⟩
    · exact hb p k
    · cases hn
  | cons n rest ih =>
    intro A b hs hL hb p hp
    obtain ⟨s1, s2⟩ := hs
    rw [computeVisit]
    apply ih _ _ s2 (fun m hm => hL m (List.mem_cons_of_mem _ hm))
    · intro q hq
      have hin : n.inputs.map b.inputValues = n.inputs.map F.inputValues :=
        inputs_congr b F n.inputs (fun e he x hx => hb x.1 (s1 e he x hx))
      by_cases hqn : q ∈ n.outputs
      · rw [hF n (hL n (List.mem_cons_self _ _)) q hqn]
        unfold Node.Compute
        rw [hin]
        exact storeOutputs_mem _ _ _ _ q hqn
      · unfold Node.Compute
        rw [storeOutputs_not_mem _ _ _ q hqn]
        rcases hq with k | k
        · exact hb q k
        · exact absurd k hqn
    · rcases hp with k | ⟨m, hm, k⟩
      · exact Or.inl (Or.inl k)
      · rcases List.mem_cons.1 hm with j | j
        · rw [j] at k; exact Or.inl (Or.inr k)
        · exact Or.inr ⟨m, j, k⟩

theorem dependsOn_of_element (k node : Node) (e : PortElementsBase) (x : OutputPortBase × Nat)
    (he : e ∈ k.inputs) (hx : x ∈ e.elements) (hp : x.1 ∈ node.outputs) :
    k.dependsOn node = true := by
  simp only [Node.dependsOn, List.any_eq_true, decide_eq_true_eq]
  obtain ⟨r, hr, hrq⟩ := port_of_elements e.GetRanges _ ⟨x, hx, rfl⟩
  exact ⟨e, he, r, hr, by rw [hrq]; exact hp⟩

/-- The closure of a set of nodes supplies the elements that its nodes consume. -/
theorem closureLoop_supplied (outputNodes : List Node) :
    ∀ (nodes kept : List Node) (A : OutputPortBase → Prop),
      Supplied A nodes.reverse →
      Supplied (fun p => A p ∨ ∃ m ∈ nodes, p ∈ m.outputs) kept →
      Supplied A (closureLoop outputNodes nodes kept) := by
  intro nodes
  induction nodes with
  | nil =>
    intro kept A _ hk
    rw [closureLoop]
    apply Supplied_mono kept _ _ _ hk
    intro p hp
    rcases hp with k | ⟨m, hm, _⟩
    · exact k
    · cases hm
  | cons node rest ih =>
    intro kept A hs hk
    rw [List.reverse_cons] at hs
    obtain ⟨hpre, hnode⟩ := Supplied_concat _ _ _ hs
    rw [closureLoop]
    by_cases hc : (decide (node ∈ outputNodes) || kept.any fun k => k.dependsOn node) = true
    · rw [if_pos hc]
      apply ih _ _ hpre
      refine ⟨?_, ?_⟩
      · intro e he x hx
        rcases hnode e he x hx with k | ⟨m, hm, k⟩
        · exact Or.inl k
        · exact Or.inr ⟨m, List.mem_reverse.1 hm, k⟩
      · apply Supplied_mono kept _ _ _ hk
        intro p hp
        rcases hp with k | ⟨m, hm, k⟩
        · exact Or.inl (Or.inl k)
        · rcases List.mem_cons.1 hm with j | j
          · rw [j] at k; exact Or.inr k
          · exact Or.inl (Or.inr ⟨m, j, k⟩)
    · rw [if_neg hc]
      apply ih _ _ hpre
      apply Supplied_restrict kept _ _ (fun p => p ∉ node.outputs) hk
      · intro k hkm e he x hx hp
        apply hc
        rw [Bool.or_eq_true]
        right
        rw [List.any_eq_true]
        exact ⟨k, hkm, dependsOn_of_element k node e x he hx hp⟩
      · intro p hp hq
        rcases hp with k | ⟨m, hm, k⟩
        · exact Or.inl k
        · rcases List.mem_cons.1 hm with j | j
          · rw [j] at k; exact absurd k hq
          · exact Or.inr ⟨m, j, k⟩

/-- The visit of the closure of a set of nodes of a model in dependency order without shared
port leaves in the ports of the closure the values of the visit of the whole model. -/
theorem computeVisit_closure (compute : Nat → List (List Int) → List (List Int))
    (model : Model) (outputNodes : List Node)
    (hs : Supplied (fun _ => False) model.nodes)
    (hnd : (model.nodes.flatMap Node.outputs).Nodup) (n : Node)
    (hn : n ∈ model.nodes) (ho : n ∈ outputNodes) (p : OutputPortBase) (hp : p ∈ n.outputs) :
    (computeVisit compute (closureLoop outputNodes model.nodes.reverse []) Buffers.empty).GetOutput p
      = (computeVisit compute model.nodes Buffers.empty).GetOutput p := by
  obtain ⟨_, m2, m3⟩ := closureLoop_mem outputNodes model.nodes.reverse []
  apply computeVisit_part compute model.nodes _
    (computeVisit_fixed compute model.nodes _ Buffers.empty hs hnd (fun _ h => absurd h id))
    _ (fun _ => False) Buffers.empty
  · apply closureLoop_supplied
    · rw [List.reverse_reverse]; exact hs
    · trivial
  · intro k hk
    rcases m3 k hk with h | h
    · exact List.mem_reverse.1 h
    · cases h
  · intro q hq; exact absurd hq id
  · exact Or.inr ⟨n, m2 n (List.mem_reverse.2 hn) ho, hp⟩

/-- The `Copy` hook `copyHook` registers the copies of the output ports. -/
theorem registerOutputs_registers {α : Type} (IsCompilable : Node → Option Nat → Bool)
    (result : α) (ports : List OutputPortBase) :
    ∀ t : ModelTransformer,
      ((registerOutputs ports (.done result)).run IsCompilable t).outcome = .ok result ∧
      ((registerOutputs ports (.done result)).run IsCompilable t).transformer.model = t.model ∧
      ((registerOutputs ports (.done result)).run IsCompilable t).transformer.elementsMap
        = registerAll copiedPort ports t.elementsMap := by
  induction ports with
  | nil =>
    intro t
    simp only [registerOutputs, HookProgram.run, registerAll]
    exact ⟨trivial, trivial, trivial⟩
  | cons port rest ih =>
    intro t
    have a1 : (t.elementsMap.MapNodeOutput port
        (PortElementsBase.ofPort (copiedPort port))).1 = .ok () := by
      unfold PortOutputsMap.MapNodeOutput
      rw [if_neg (by simp [PortElementsBase.ofPort, PortElementsBase.Size, copiedPort])]
    rw [registerOutputs, HookProgram.run]
    rcases hmn : t.MapNodeOutput port (PortElementsBase.ofPort (copiedPort port)) with ⟨o, t2⟩
    have h1 : o = (t.elementsMap.MapNodeOutput port
        (PortElementsBase.ofPort (copiedPort port))).1 := by
      exact (congrArg Prod.fst hmn).symm
    have h2 : t2 = { t with elementsMap := (t.elementsMap.MapNodeOutput port
        (PortElementsBase.ofPort (copiedPort port))).2 } := by
      exact (congrArg Prod.snd hmn).symm
    rw [a1] at h1
    rw [h1]
    simp only []
    obtain ⟨b1, b2, b3⟩ := ih t2
    refine ⟨b1, ?_, ?_⟩
    · rw [b2, h2]
    · rw [b3, h2, registerAll]

/-- The hook `copyHook` adds an equivalent node and registers its outputs. -/
theorem copyHook_copies (G : Model) : CopiesNodes copyingClasses copiedPort G := by
  intro n _ t newInputs h
  have hrun : (copyingClasses.Copy n).run copyingClasses.IsCompilable t
      = ((HookProgram.AddNode
            ⟨n.id + 1000, n.kind, newInputs, n.outputs.map copiedPort, []⟩
            (registerOutputs n.outputs (.done ()))).run copyingClasses.IsCompilable t) := by
    unfold copyingClasses copyHook emitHook
    simp only []
    rw [HookProgram.run]
    simp only [h]
  rw [hrun, HookProgram.run]
  obtain ⟨b1, b2, b3⟩ := registerOutputs_registers copyingClasses.IsCompilable () n.outputs
    (t.AddNode copyingClasses.IsCompilable
      ⟨n.id + 1000, n.kind, newInputs, n.outputs.map copiedPort, []⟩)
  refine ⟨b1, ⟨⟨n.id + 1000, n.kind, newInputs, n.outputs.map copiedPort, []⟩, ?_, rfl, rfl,
    rfl⟩, ?_⟩
  · simp only []
    rw [b2]; rfl
  · simp only []
    rw [b3]; rfl

/-- The ports that `copyHook` gives the copies. -/
theorem copiedPort_renaming (G : Model) : PortRenaming copiedPort G :=
  ⟨fun _ _ => rfl, fun _ _ _ _ h => copiedPort_injective h⟩

/-- The function `exampleCompute` gives vectors of two elements: the vectors have the sizes of
the ports in every model whose nodes have one output port of two elements. -/
theorem exampleCompute_pairs (G : Model)
    (h : ∀ node ∈ G.nodes, (node.outputs.map OutputPortBase.Size) = [2]) :
    ComputeSized exampleCompute G := by
  intro node hnode inputs i port hport
  have ho := h node hnode
  cases hout : node.outputs with
  | nil => rw [hout] at ho; cases ho
  | cons q rest =>
    rw [hout] at ho hport
    simp only [List.map_cons, List.cons.injEq, List.map_eq_nil_iff] at ho
    obtain ⟨hq, hrest⟩ := ho
    rw [hrest] at hport
    cases i with
    | zero =>
      simp only [List.getElem?_cons_zero, Option.some.injEq] at hport
      rw [← hport, hq]
      unfold exampleCompute
      split <;> rfl
    | succ j => simp at hport

/-! ## The claims -/

/-- C1 (amended). Size invariant of the remap: if every entry of the map `m` relates a port and
elements of the same size, every range of the query `E` lies inside its port, every port of `E`
is mapped in `m`, and every port of `E` has a size below `2^31` (so that the `int` casts are
exact), then `GetCorrespondingPortElements` returns without raising and its result has the
size of `E`. -/
theorem remap_preserves_size (m : PortOutputsMap) (E : PortElementsBase)
    (hInv : m.SizeInvariant) (hCov : m.Covers E) (hIn : E.InBounds) (hInt : E.PortsFitInt) :
    ∃ r, m.GetCorrespondingPortElements E = .ok r ∧ r.Size = E.Size :=
  remap_ok_size m E hInv hCov hIn hInt

/-- Witness of `remap_preserves_size`: the query `P[3:5]` in the map
`P ↦ [newPortA[0:6], newPortB[0:4]]`. -/
theorem remap_preserves_size_witness :
    scenarioMap.SizeInvariant ∧ scenarioMap.Covers ⟨[⟨portP, 3, 5⟩]⟩ ∧
      PortElementsBase.InBounds ⟨[⟨portP, 3, 5⟩]⟩ ∧
      PortElementsBase.PortsFitInt ⟨[⟨portP, 3, 5⟩]⟩ ∧
      ∃ r, scenarioMap.GetCorrespondingPortElements ⟨[⟨portP, 3, 5⟩]⟩ = .ok r ∧
        r.Size = PortElementsBase.Size ⟨[⟨portP, 3, 5⟩]⟩ :=
  ⟨by decide, by decide, by decide, by decide,
    remap_preserves_size scenarioMap ⟨[⟨portP, 3, 5⟩]⟩ (by decide) (by decide)
      (by decide) (by decide)⟩

/-- C1 fails as stated, without the bound on the port sizes: for a port of `2^31 + 1` elements
mapped one to one, the in-bounds query `hugePort[0:1]` raises a size mismatch, because
`static_cast<int>` of the target range size is negative and the range is skipped. -/
theorem huge_port_remap_raises :
    hugeMap.SizeInvariant ∧ hugeMap.Covers ⟨[⟨hugePort, 0, 1⟩]⟩ ∧
      PortElementsBase.InBounds ⟨[⟨hugePort, 0, 1⟩]⟩ ∧
      hugeMap.GetCorrespondingPortElements ⟨[⟨hugePort, 0, 1⟩]⟩ = .error .sizeMismatch ∧
      ¬ ∃ r, hugeMap.GetCorrespondingPortElements ⟨[⟨hugePort, 0, 1⟩]⟩ = .ok r ∧
        r.Size = PortElementsBase.Size ⟨[⟨hugePort, 0, 1⟩]⟩ := by
  refine ⟨by decide, by decide, by decide, by decide, ?_⟩
  rintro ⟨r, hr, _⟩
  have h : hugeMap.GetCorrespondingPortElements ⟨[⟨hugePort, 0, 1⟩]⟩ = .error .sizeMismatch := by
    decide
  rw [h] at hr
  cases hr

/-- C2 (amended). Element-wise correctness of the remap: under the preconditions of C1 (with
port sizes below `2^31`) and with every target range of the map ending at an index that a
`size_t` holds (`start + length ≤ 2^64`), the call returns elements `r` in which each query
range is replaced, in order, by the sub-range `[start, start + length)` of the elements mapped
from its port; and whenever the `k`-th element of the query is `(p, i)`, the port `p` is mapped
to some `T`, `i` is an index of `T`, and the `k`-th element of `r` is the `i`-th element of
`T`. -/
theorem remap_elementwise (m : PortOutputsMap) (E : PortElementsBase)
    (hInv : m.SizeInvariant) (hCov : m.Covers E) (hIn : E.InBounds) (hInt : E.PortsFitInt)
    (hT : m.TargetsFitSizeT) :
    ∃ r, m.GetCorrespondingPortElements E = .ok r ∧
      r.elements = E.GetRanges.flatMap (mappedElements m) ∧
      ∀ (k : Nat) (p : OutputPortBase) (i : Nat), E.elements[k]? = some (p, i) →
        ∃ T, m.find p = some T ∧ i < T.Size ∧ r.elements[k]? = T.elements[i]? := by
  obtain ⟨r, hr, h1, h2⟩ := remap_elements_eq hInv hCov hIn hInt hT
  refine ⟨r, hr, h1, ?_⟩
  intro k p i hk
  have h3 := getElem?_of_map_some h2 k
  rw [hk] at h3
  simp only [Option.some_bind, mappedElement] at h3
  cases hf : m.find p with
  | none =>
    rw [hf] at h3
    have h4 : k < r.elements.length := by
      have hlen : r.elements.length = E.elements.length := by
        have := congrArg List.length h2
        simpa using this
      rw [hlen]
      exact (List.getElem?_eq_some_iff.1 hk).1
    rw [List.getElem?_eq_getElem h4] at h3
    cases h3
  | some T =>
    rw [hf] at h3
    simp only [] at h3
    refine ⟨T, rfl, ?_, h3⟩
    have h4 : k < r.elements.length := by
      have hlen : r.elements.length = E.elements.length := by
        have := congrArg List.length h2
        simpa using this
      rw [hlen]
      exact (List.getElem?_eq_some_iff.1 hk).1
    rw [List.getElem?_eq_getElem h4] at h3
    have h5 := (List.getElem?_eq_some_iff.1 h3.symm).1
    have h6 : T.elements.length = T.Size := length_rangesElements _
    omega

/-- Witness of `remap_elementwise`: the query `P[3:5]` in the map
`P ↦ [newPortA[0:6], newPortB[0:4]]`. -/
theorem remap_elementwise_witness :
    scenarioMap.SizeInvariant ∧ scenarioMap.Covers ⟨[⟨portP, 3, 5⟩]⟩ ∧
      PortElementsBase.InBounds ⟨[⟨portP, 3, 5⟩]⟩ ∧
      PortElementsBase.PortsFitInt ⟨[⟨portP, 3, 5⟩]⟩ ∧ scenarioMap.TargetsFitSizeT ∧
      ∃ r, scenarioMap.GetCorrespondingPortElements ⟨[⟨portP, 3, 5⟩]⟩ = .ok r ∧
        r.elements = (PortElementsBase.mk [⟨portP, 3, 5⟩]).GetRanges.flatMap
          (mappedElements scenarioMap) ∧
        ∀ (k : Nat) (p : OutputPortBase) (i : Nat),
          (PortElementsBase.mk [⟨portP, 3, 5⟩]).elements[k]? = some (p, i) →
          ∃ T, scenarioMap.find p = some T ∧ i < T.Size ∧ r.elements[k]? = T.elements[i]? :=
  ⟨by decide, by decide, by decide, by decide, by decide,
    remap_elementwise scenarioMap ⟨[⟨portP, 3, 5⟩]⟩ (by decide) (by decide) (by decide)
      (by decide) (by decide)⟩

/-- C2 fails as stated, without the bound on the port sizes: for a port of `2^32 + 10`
elements mapped one to one, the in-bounds query `widePort[2^32 : 5]` returns
`wideNewPort[0 : 5]`, because `static_cast<int>` of the start index `2^32` is `0`; the first
element of the query is `(widePort, 2^32)`, the element `2^32` of the mapped elements is
`(wideNewPort, 2^32)`, and the first element of the result is `(wideNewPort, 0)`. -/
theorem wide_port_remap_wrong_element :
    wideMap.SizeInvariant ∧ wideMap.Covers ⟨[⟨widePort, 4294967296, 5⟩]⟩ ∧
      PortElementsBase.InBounds ⟨[⟨widePort, 4294967296, 5⟩]⟩ ∧
      (PortElementsBase.mk [⟨widePort, 4294967296, 5⟩]).elements[0]?
        = some (widePort, 4294967296) ∧
      wideMap.find widePort = some ⟨[⟨wideNewPort, 0, 4294967306⟩]⟩ ∧
      (PortElementsBase.mk [⟨wideNewPort, 0, 4294967306⟩]).elements[4294967296]?
        = some (wideNewPort, 4294967296) ∧
      wideMap.GetCorrespondingPortElements ⟨[⟨widePort, 4294967296, 5⟩]⟩
        = .ok ⟨[⟨wideNewPort, 0, 5⟩]⟩ ∧
      (PortElementsBase.mk [⟨wideNewPort, 0, 5⟩]).elements[0]? = some (wideNewPort, 0) ∧
      (PortElementsBase.mk [⟨wideNewPort, 0, 5⟩]).elements[0]?
        ≠ (PortElementsBase.mk [⟨wideNewPort, 0, 4294967306⟩]).elements[4294967296]? := by
  have e1 := elements_single widePort 4294967296 5 0 (by decide)
  have e2 := elements_single wideNewPort 0 4294967306 4294967296 (by decide)
  have e3 := elements_single wideNewPort 0 5 0 (by decide)
  refine ⟨by decide, by decide, by decide, e1, by decide, e2, by decide, e3, ?_⟩
  rw [e2, e3]
  decide

/-- C3 (amended). Straddling query: if the port `P` is mapped to the two target ranges
`[A[a0, n1], B[b0, n2]]` on distinct new ports, the query is `P[s, l]` with
`s < n1 < s + l ≤ n1 + n2`, the sizes fit an `int` (`n1 + n2 < 2^31`) and both target ranges
end at an index that a `size_t` holds, then `GetCorrespondingPortElements` yields exactly the
two ranges `[A[a0 + s, n1 - s], B[b0, l - (n1 - s)]]`, in that order. -/
theorem straddling_query (m : PortOutputsMap) (P A B : OutputPortBase) (a0 n1 b0 n2 s l : Nat)
    (hmap : m.find P = some ⟨[⟨A, a0, n1⟩, ⟨B, b0, n2⟩]⟩) (hAB : A ≠ B)
    (h1 : s < n1) (h2 : n1 < s + l) (h3 : s + l ≤ n1 + n2)
    (hInt : n1 + n2 < 2147483648)
    (hA : a0 + n1 ≤ 18446744073709551616) (hB : b0 + n2 ≤ 18446744073709551616) :
    m.GetCorrespondingPortElements ⟨[⟨P, s, l⟩]⟩
      = .ok ⟨[⟨A, a0 + s, n1 - s⟩, ⟨B, b0, l - (n1 - s)⟩]⟩ := by
  have hslice : sliceRanges [⟨A, a0, n1⟩, ⟨B, b0, n2⟩] s l
      = [⟨A, a0 + s, n1 - s⟩, ⟨B, b0, l - (n1 - s)⟩] := by
    have e1 : (a0 + s) % 18446744073709551616 = a0 + s := by omega
    have e2 : (b0 + 0) % 18446744073709551616 = b0 := by omega
    have e3 : min (n1 - s) l = n1 - s := by omega
    have e4 : min (n2 - 0) (l - (n1 - s)) = l - (n1 - s) := by omega
    have e5 : ¬ l ≤ n1 - s := by omega
    have e6 : (0 : Nat) < n2 := by omega
    simp only [sliceRanges, h1, e1, e2, e3, e4, e5, e6, if_true, if_false]
    simp
  rw [remap_single hmap (by
      intro t ht
      simp only [List.mem_cons, List.mem_singleton, List.not_mem_nil, or_false] at ht
      rcases ht with h | h <;> rw [h] <;> simp only [] <;> omega) (by omega) (by omega)
    (by rw [sliceRanges_size]; simp [rangesSize]; omega)]
  simp only [hslice, PortElementsBase.Consolidate, consolidateFrom, PortRange.IsAdjacent]
  simp [hAB]

/-- Witness of `straddling_query`: with `P ↦ [newPortA[0:6], newPortB[0:4]]` the query `P[3:5]`
yields `[newPortA[3:3], newPortB[0:2]]`. -/
theorem straddling_query_witness :
    scenarioMap.find portP = some ⟨[⟨newPortA, 0, 6⟩, ⟨newPortB, 0, 4⟩]⟩ ∧ newPortA ≠ newPortB ∧
      scenarioMap.GetCorrespondingPortElements ⟨[⟨portP, 3, 5⟩]⟩
        = .ok ⟨[⟨newPortA, 3, 3⟩, ⟨newPortB, 0, 2⟩]⟩ :=
  ⟨by decide, by decide,
    straddling_query scenarioMap portP newPortA newPortB 0 6 0 4 3 5 (by decide) (by decide)
      (by decide) (by decide) (by decide) (by decide) (by decide) (by decide)⟩

/-- C3 fails as stated, without the bound on the sizes: with
`splitPort ↦ [hugeNewPort[0 : 2^31 + 1], unitNewPort[0 : 1]]` the straddling query
`splitPort[0 : 2^31 + 2]` (`s = 0 < n1 = 2^31 + 1 < s + l = n1 + n2`) raises a size mismatch
instead of yielding the two ranges. -/
theorem huge_straddling_query_raises :
    splitMap.find splitPort = some ⟨[⟨hugeNewPort, 0, 2147483649⟩, ⟨unitNewPort, 0, 1⟩]⟩ ∧
      hugeNewPort ≠ unitNewPort ∧ 0 < 2147483649 ∧ 2147483649 < 0 + 2147483650 ∧
      0 + 2147483650 ≤ 2147483649 + 1 ∧
      splitMap.GetCorrespondingPortElements ⟨[⟨splitPort, 0, 2147483650⟩]⟩
        = .error .sizeMismatch ∧
      splitMap.GetCorrespondingPortElements ⟨[⟨splitPort, 0, 2147483650⟩]⟩
        ≠ .ok ⟨[⟨hugeNewPort, 0 + 0, 2147483649 - 0⟩,
            ⟨unitNewPort, 0, 2147483650 - (2147483649 - 0)⟩]⟩ := by
  decide

/-- C4 (amended). Single-slice query: if the port `P` is mapped to the target ranges
`pre ++ [X[t0, n]] ++ post`, the target range `T = X[t0, n]` begins at offset `c`, the total
length of `pre`, and the query `P[s, l]` lies inside `T` (`c ≤ s` and `s + l ≤ c + n`) and
starts before the end of `T` (`s < c + n`, which holds whenever `l > 0`), the total size of the
mapped ranges is below `2^31` and `T` ends at an index that a `size_t` holds, then
`GetCorrespondingPortElements` yields exactly the one range `X[t0 + (s - c), l]`, whether `T`
is the first target range (`pre = []`) or a later one. -/
theorem single_slice_query (m : PortOutputsMap) (P X : OutputPortBase)
    (pre post : List PortRange) (t0 n s l : Nat)
    (hmap : m.find P = some ⟨pre ++ ⟨X, t0, n⟩ :: post⟩)
    (h1 : rangesSize pre ≤ s) (h2 : s + l ≤ rangesSize pre + n) (h3 : s < rangesSize pre + n)
    (hInt : rangesSize (pre ++ ⟨X, t0, n⟩ :: post) < 2147483648)
    (hX : t0 + n ≤ 18446744073709551616) :
    m.GetCorrespondingPortElements ⟨[⟨P, s, l⟩]⟩
      = .ok ⟨[⟨X, t0 + (s - rangesSize pre), l⟩]⟩ := by
  have hslice : sliceRanges (pre ++ ⟨X, t0, n⟩ :: post) s l
      = [⟨X, t0 + (s - rangesSize pre), l⟩] := by
    rw [sliceRanges_skip _ _ _ _ h1, sliceRanges]
    have e0 : s - rangesSize pre < n := by omega
    have e1 : (t0 + (s - rangesSize pre)) % 18446744073709551616 = t0 + (s - rangesSize pre) := by
      omega
    have e3 : min (n - (s - rangesSize pre)) l = l := by omega
    have e5 : l ≤ n - (s - rangesSize pre) := by omega
    simp only [e0, e1, e3, e5, if_true]
  have hsz : rangesSize pre + (n + rangesSize post) < 2147483648 := by
    have h := hInt
    rw [rangesSize_append, rangesSize_cons] at h
    exact h
  rw [remap_single hmap (by
      intro t ht
      have := size_le_rangesSize ht
      simp only [] at this ⊢
      omega) (by omega) (by omega)
    (by rw [sliceRanges_size]; simp only [rangesSize_append, rangesSize_cons]; omega)]
  simp only [hslice, PortElementsBase.Consolidate, consolidateFrom]

/-- Witness of `single_slice_query`: with `P ↦ [newPortA[0:6], newPortB[0:4]]` the query
`P[0:6]` yields exactly `[newPortA[0:6]]` (`T` is the first target range). -/
theorem single_slice_query_witness :
    scenarioMap.find portP = some ⟨[] ++ ⟨newPortA, 0, 6⟩ :: [⟨newPortB, 0, 4⟩]⟩ ∧
      scenarioMap.GetCorrespondingPortElements ⟨[⟨portP, 0, 6⟩]⟩ = .ok ⟨[⟨newPortA, 0, 6⟩]⟩ :=
  ⟨by decide,
    single_slice_query scenarioMap portP newPortA [] [⟨newPortB, 0, 4⟩] 0 6 0 6 (by decide)
      (by decide) (by decide) (by decide) (by decide) (by decide)⟩

/-- C4 fails as stated in two ways.  An empty query range at the end of `T`: with
`P ↦ [newPortA[0:6], newPortB[0:4]]` the query `P[6:0]` lies inside `T = newPortA[0:6]`
(`c = 0 ≤ 6`, `6 + 0 ≤ 0 + 6`) and the call yields `[newPortB[0:0]]`, not `[newPortA[6:0]]`.
A size beyond `int`: with `hugePort ↦ [hugeNewPort[0 : 2^31 + 1]]` the query `hugePort[0:1]`
lies inside the only target range and the call raises a size mismatch. -/
theorem single_slice_query_fails :
    (scenarioMap.find portP = some ⟨[] ++ ⟨newPortA, 0, 6⟩ :: [⟨newPortB, 0, 4⟩]⟩ ∧
      rangesSize [] ≤ 6 ∧ 6 + 0 ≤ rangesSize [] + 6 ∧
      scenarioMap.GetCorrespondingPortElements ⟨[⟨portP, 6, 0⟩]⟩ = .ok ⟨[⟨newPortB, 0, 0⟩]⟩ ∧
      scenarioMap.GetCorrespondingPortElements ⟨[⟨portP, 6, 0⟩]⟩
        ≠ .ok ⟨[⟨newPortA, 0 + (6 - rangesSize []), 0⟩]⟩) ∧
    (hugeMap.find hugePort = some ⟨[] ++ ⟨hugeNewPort, 0, 2147483649⟩ :: []⟩ ∧
      rangesSize [] ≤ 0 ∧ 0 + 1 ≤ rangesSize [] + 2147483649 ∧
      hugeMap.GetCorrespondingPortElements ⟨[⟨hugePort, 0, 1⟩]⟩ = .error .sizeMismatch ∧
      hugeMap.GetCorrespondingPortElements ⟨[⟨hugePort, 0, 1⟩]⟩
        ≠ .ok ⟨[⟨hugeNewPort, 0 + (0 - rangesSize []), 1⟩]⟩) := by
  decide

/-- C5. Unmapped port is an error: if some range of the query references a port that has no
entry in the map, `GetCorrespondingPortElements` raises invalid-argument and returns no
result. -/
theorem unmapped_port_raises (m : PortOutputsMap) (E : PortElementsBase)
    (h : ∃ q ∈ E.GetRanges, m.find q.ReferencedPort = none) :
    m.GetCorrespondingPortElements E = .error .invalidArgument := by
  unfold PortOutputsMap.GetCorrespondingPortElements
  rw [queryRangesLoop_unmapped m _ _ h]

/-- Witness of `unmapped_port_raises`: the second range of the query references `newPortA`,
which has no entry in the map `P ↦ [newPortA[0:6], newPortB[0:4]]`. -/
theorem unmapped_port_raises_witness :
    (∃ q ∈ (PortElementsBase.mk [⟨portP, 0, 3⟩, ⟨newPortA, 0, 3⟩]).GetRanges,
        scenarioMap.find q.ReferencedPort = none) ∧
      scenarioMap.GetCorrespondingPortElements ⟨[⟨portP, 0, 3⟩, ⟨newPortA, 0, 3⟩]⟩
        = .error .invalidArgument :=
  ⟨⟨⟨newPortA, 0, 3⟩, by decide, by decide⟩,
    unmapped_port_raises scenarioMap ⟨[⟨portP, 0, 3⟩, ⟨newPortA, 0, 3⟩]⟩
      ⟨⟨newPortA, 0, 3⟩, by decide, by decide⟩⟩

/-- C6. `MapNodeOutput(oldPort, newElements)` raises a size-mismatch error if and only if
`oldPort.Size() != newElements.Size()`, returns normally if and only if the sizes are equal,
and when it does not return normally the map is exactly as it was before the call. -/
theorem MapNodeOutput_raises_iff (m : PortOutputsMap) (oldPort : OutputPortBase)
    (newElements : PortElementsBase) :
    ((m.MapNodeOutput oldPort newElements).1 = .error .sizeMismatch
        ↔ oldPort.Size ≠ newElements.Size) ∧
      ((m.MapNodeOutput oldPort newElements).1 = .ok () ↔ oldPort.Size = newElements.Size) ∧
      ((m.MapNodeOutput oldPort newElements).1 = .ok () ∨
        (m.MapNodeOutput oldPort newElements).2 = m) := by
  unfold PortOutputsMap.MapNodeOutput
  by_cases h : oldPort.Size = newElements.Size
  · simp [h]
  · simp [h]

/-- C7. When `MapNodeOutput(oldPort, newElements)` succeeds, the entry of `oldPort` afterwards
is exactly `newElements`, and the entry of every other port is unchanged. -/
theorem MapNodeOutput_entries (m : PortOutputsMap) (oldPort : OutputPortBase)
    (newElements : PortElementsBase) (h : (m.MapNodeOutput oldPort newElements).1 = .ok ()) :
    (m.MapNodeOutput oldPort newElements).2.find oldPort = some newElements ∧
      ∀ q, q ≠ oldPort → (m.MapNodeOutput oldPort newElements).2.find q = m.find q := by
  unfold PortOutputsMap.MapNodeOutput at h ⊢
  by_cases hs : oldPort.Size = newElements.Size
  · simp only [hs, ne_eq, not_true_eq_false, if_false, PortOutputsMap.find]
    exact ⟨findEntry_assignEntry_self _ _ _, fun q hq => findEntry_assignEntry_other _ _ _ hq _⟩
  · simp [hs] at h

/-- Witness of `MapNodeOutput_entries`: overwriting the entry of `P` (size 10) in the map
`P ↦ [newPortA[0:6], newPortB[0:4]]` by `[newPortB[0:4], newPortA[0:6]]`. -/
theorem MapNodeOutput_entries_witness :
    (scenarioMap.MapNodeOutput portP ⟨[⟨newPortB, 0, 4⟩, ⟨newPortA, 0, 6⟩]⟩).1 = .ok () ∧
      (scenarioMap.MapNodeOutput portP ⟨[⟨newPortB, 0, 4⟩, ⟨newPortA, 0, 6⟩]⟩).2.find portP
        = some ⟨[⟨newPortB, 0, 4⟩, ⟨newPortA, 0, 6⟩]⟩ ∧
      ∀ q, q ≠ portP →
        (scenarioMap.MapNodeOutput portP ⟨[⟨newPortB, 0, 4⟩, ⟨newPortA, 0, 6⟩]⟩).2.find q
          = scenarioMap.find q :=
  ⟨by decide,
    MapNodeOutput_entries scenarioMap portP ⟨[⟨newPortB, 0, 4⟩, ⟨newPortA, 0, 6⟩]⟩ (by decide)⟩

/-- C8. Entry-size invariant: every map obtained from the empty map by a sequence of `Clear`,
successful `MapNodeOutput` and successful `ConcatenateMaps` operations satisfies, for every
entry, `oldPort.Size() == mappedElements.Size()`. -/
theorem Reachable_SizeInvariant (m : PortOutputsMap) (h : Reachable m) : m.SizeInvariant := by
  induction h with
  | empty => intro x hx; cases hx
  | clear _ _ => intro x hx; cases hx
  | mapNodeOutput p e _ _ ih => exact MapNodeOutput_SizeInvariant ih
  | concatenateMaps _ _ hc _ _ =>
    exact concatenateLoop_SizeInvariant _ _ _ _ (by intro x hx; cases hx) hc

/-- Witness of `Reachable_SizeInvariant`: the map obtained from the empty map by mapping `P`
to `[newPortA[0:6], newPortB[0:4]]`. -/
theorem Reachable_SizeInvariant_witness :
    Reachable (PortOutputsMap.empty.MapNodeOutput portP
        ⟨[⟨newPortA, 0, 6⟩, ⟨newPortB, 0, 4⟩]⟩).2 ∧
      (PortOutputsMap.empty.MapNodeOutput portP
        ⟨[⟨newPortA, 0, 6⟩, ⟨newPortB, 0, 4⟩]⟩).2.SizeInvariant :=
  ⟨Reachable.mapNodeOutput portP _ Reachable.empty (by decide),
    Reachable_SizeInvariant _
      (Reachable.mapNodeOutput portP _ Reachable.empty (by decide))⟩

/-- C9 (amended). `ConcatenateMaps(prev, next)`: if both maps satisfy the entry-size invariant,
every range of every value of `prev` lies inside its port, every port referenced by a value of
`prev` is mapped in `next` and has a size below `2^31` (so that the `int` casts are exact),
then the call succeeds and returns a map whose key set is exactly the key set of `prev` and
whose value at each key `k` is `next.GetCorrespondingPortElements(prev[k])`.  The keys of
`prev` are pairwise distinct, as in every hash map. -/
theorem ConcatenateMaps_entries (prevMap newMap : PortOutputsMap) (hk : prevMap.UniqueKeys)
    (hp : prevMap.SizeInvariant) (hn : newMap.SizeInvariant)
    (hv : prevMap.ValuesRemappable newMap) :
    ∃ r, prevMap.ConcatenateMaps newMap = .ok r ∧
      (∀ k, k ∈ r.keys ↔ k ∈ prevMap.keys) ∧
      ∀ k, (prevMap.find k = none ∧ r.find k = none) ∨
        ∃ v v2, prevMap.find k = some v ∧ newMap.GetCorrespondingPortElements v = .ok v2 ∧
          r.find k = some v2 := by
  refine ⟨_, concatenate_eq hk hp hn hv, ?_, ?_⟩
  · intro k
    simp [PortOutputsMap.keys]
  · intro k
    simp only [PortOutputsMap.find, findEntry_map]
    cases hf : findEntry k prevMap.outputPortMap with
    | none => left; simp
    | some v =>
      right
      obtain ⟨h1, h2, h3⟩ := hv _ (findEntry_mem hf)
      obtain ⟨r, hr, _⟩ := remap_ok_size newMap v hn h1 h2 h3
      exact ⟨v, r, rfl, hr, by simp [remapValue, hr]⟩

/-- Witness of `ConcatenateMaps_entries`: `originalPort ↦ [P[0:10]]` followed by
`P ↦ [newPortA[0:6], newPortB[0:4]]`. -/
theorem ConcatenateMaps_entries_witness :
    firstPassMap.UniqueKeys ∧ firstPassMap.SizeInvariant ∧ scenarioMap.SizeInvariant ∧
      firstPassMap.ValuesRemappable scenarioMap ∧
      ∃ r, firstPassMap.ConcatenateMaps scenarioMap = .ok r ∧
        (∀ k, k ∈ r.keys ↔ k ∈ firstPassMap.keys) ∧
        ∀ k, (firstPassMap.find k = none ∧ r.find k = none) ∨
          ∃ v v2, firstPassMap.find k = some v ∧
            scenarioMap.GetCorrespondingPortElements v = .ok v2 ∧ r.find k = some v2 :=
  ⟨by decide, by decide, by decide, by decide,
    ConcatenateMaps_entries firstPassMap scenarioMap (by decide) (by decide) (by decide)
      (by decide)⟩

/-- C9 fails as stated, without the bound on the port sizes: both maps satisfy the entry-size
invariant, the only value of the previous map is the in-bounds range `hugePort[0 : 2^31 + 1]`
and `hugePort` is mapped in the next map, yet `ConcatenateMaps` raises a size mismatch. -/
theorem huge_value_concatenate_raises :
    PortOutputsMap.SizeInvariant ⟨[(hugeOldPort, ⟨[⟨hugePort, 0, 2147483649⟩]⟩)]⟩ ∧
      hugeMap.SizeInvariant ∧
      hugeMap.Covers ⟨[⟨hugePort, 0, 2147483649⟩]⟩ ∧
      PortElementsBase.InBounds ⟨[⟨hugePort, 0, 2147483649⟩]⟩ ∧
      PortOutputsMap.ConcatenateMaps ⟨[(hugeOldPort, ⟨[⟨hugePort, 0, 2147483649⟩]⟩)]⟩ hugeMap
        = .error .sizeMismatch := by
  decide

/-- C10 (amended). Composition law: for maps `prev` and `next` as in C9 (sizes below `2^31`),
with every target range of `next` ending at an index that a `size_t` holds, and every query
`E` with in-bounds ranges over ports that are mapped in `prev` and have a size below `2^31`:
`ConcatenateMaps(prev, next)` returns a map `c`, the three remaps return, and
`c.GetCorrespondingPortElements(E)` denotes the same sequence of `(new port, index)` elements
as `next.GetCorrespondingPortElements(prev.GetCorrespondingPortElements(E))`. -/
theorem ConcatenateMaps_composition (prevMap newMap : PortOutputsMap) (E : PortElementsBase)
    (hk : prevMap.UniqueKeys) (hp : prevMap.SizeInvariant) (hn : newMap.SizeInvariant)
    (hv : prevMap.ValuesRemappable newMap) (hT : newMap.TargetsFitSizeT)
    (hCov : prevMap.Covers E) (hIn : E.InBounds) (hInt : E.PortsFitInt) :
    ∃ c r a b, prevMap.ConcatenateMaps newMap = .ok c ∧
      c.GetCorrespondingPortElements E = .ok r ∧
      prevMap.GetCorrespondingPortElements E = .ok a ∧
      newMap.GetCorrespondingPortElements a = .ok b ∧
      r.elements = b.elements := by
  obtain ⟨hcs, hct⟩ := concatenated_props hp hn hv hT
  have hcc := Covers_concatenated (remapValue newMap) hCov
  obtain ⟨r, hr, _⟩ := remap_ok_size _ E hcs hcc hIn hInt
  obtain ⟨a, ha, _⟩ := remap_ok_size prevMap E hp hCov hIn hInt
  obtain ⟨ha1, ha2, ha3⟩ := remap_result_props hp hCov hIn hInt ha newMap hv
  obtain ⟨b, hb, _⟩ := remap_ok_size newMap a hn ha1 ha2 ha3
  refine ⟨_, r, a, b, concatenate_eq hk hp hn hv, hr, ha, hb, ?_⟩
  have e1 := remap_elements hcs hcc hIn hInt hct hr
  have e2 := remap_elements hp hCov hIn hInt (ValuesRemappable_TargetsFitSizeT hv) ha
  have e3 := remap_elements hn ha1 ha2 ha3 hT hb
  have e4 : E.elements.map
      (mappedElement ⟨prevMap.outputPortMap.map fun x => (x.1, remapValue newMap x.2)⟩)
      = E.elements.map (fun x => (mappedElement prevMap x).bind (mappedElement newMap)) :=
    List.map_congr_left (fun x _ => mappedElement_concatenated hn hv hT x)
  rw [e4, map_bind_of_map_some _ e2, ← e3] at e1
  exact List.map_injective_iff.2 (Option.some_injective _) e1

/-- Witness of `ConcatenateMaps_composition`: `originalPort ↦ [P[0:10]]` followed by
`P ↦ [newPortA[0:6], newPortB[0:4]]`, with the query `originalPort[3:5]`. -/
theorem ConcatenateMaps_composition_witness :
    firstPassMap.UniqueKeys ∧ firstPassMap.SizeInvariant ∧ scenarioMap.SizeInvariant ∧
      firstPassMap.ValuesRemappable scenarioMap ∧ scenarioMap.TargetsFitSizeT ∧
      firstPassMap.Covers ⟨[⟨originalPort, 3, 5⟩]⟩ ∧
      PortElementsBase.InBounds ⟨[⟨originalPort, 3, 5⟩]⟩ ∧
      PortElementsBase.PortsFitInt ⟨[⟨originalPort, 3, 5⟩]⟩ ∧
      ∃ c r a b, firstPassMap.ConcatenateMaps scenarioMap = .ok c ∧
        c.GetCorrespondingPortElements ⟨[⟨originalPort, 3, 5⟩]⟩ = .ok r ∧
        firstPassMap.GetCorrespondingPortElements ⟨[⟨originalPort, 3, 5⟩]⟩ = .ok a ∧
        scenarioMap.GetCorrespondingPortElements a = .ok b ∧
        r.elements = b.elements :=
  ⟨by decide, by decide, by decide, by decide, by decide, by decide, by decide, by decide,
    ConcatenateMaps_composition firstPassMap scenarioMap ⟨[⟨originalPort, 3, 5⟩]⟩ (by decide)
      (by decide) (by decide) (by decide) (by decide) (by decide) (by decide) (by decide)⟩

/-- C10 fails as stated, without the bound on the port sizes: the maps `mixedPrevMap` and
`mixedNewMap` satisfy the preconditions of C9 as stated and the query `smallPort[0:1]` is over
a port mapped in `mixedPrevMap`; remapping the query through the two maps in turn returns
`[smallNewPort[0:1]]`, but `ConcatenateMaps` raises a size mismatch on the entry of the port of
`2^31 + 1` elements, so that there is no concatenated map to query. -/
theorem composition_fails_beyond_int :
    mixedPrevMap.UniqueKeys ∧ mixedPrevMap.SizeInvariant ∧ mixedNewMap.SizeInvariant ∧
      (∀ entry ∈ mixedPrevMap.outputPortMap, mixedNewMap.Covers entry.2 ∧ entry.2.InBounds) ∧
      mixedPrevMap.Covers ⟨[⟨smallPort, 0, 1⟩]⟩ ∧
      PortElementsBase.InBounds ⟨[⟨smallPort, 0, 1⟩]⟩ ∧
      mixedPrevMap.GetCorrespondingPortElements ⟨[⟨smallPort, 0, 1⟩]⟩
        = .ok ⟨[⟨smallMidPort, 0, 1⟩]⟩ ∧
      mixedNewMap.GetCorrespondingPortElements ⟨[⟨smallMidPort, 0, 1⟩]⟩
        = .ok ⟨[⟨smallNewPort, 0, 1⟩]⟩ ∧
      mixedPrevMap.ConcatenateMaps mixedNewMap = .error .sizeMismatch := by
  decide

/-- C11. Map composition is associative for maps whose sizes fit an `int`: for maps `A`, `B`,
`C` that satisfy the entry-size invariant, with the values of `A` remappable through `B` and
those of `B` through `C`, the four concatenations succeed, the two results have the same keys
and at every key values that denote the same element sequence; when no value of `A` has an
empty range the two results are equal. -/
theorem ConcatenateMaps_assoc (A B C : PortOutputsMap)
    (hkA : A.UniqueKeys) (hkB : B.UniqueKeys)
    (hA : A.SizeInvariant) (hB : B.SizeInvariant) (hC : C.SizeInvariant)
    (hAB : A.ValuesRemappable B) (hBC : B.ValuesRemappable C) (hT : C.TargetsFitSizeT) :
    ∃ ab bc l r, A.ConcatenateMaps B = .ok ab ∧ B.ConcatenateMaps C = .ok bc ∧
      ab.ConcatenateMaps C = .ok l ∧ A.ConcatenateMaps bc = .ok r ∧
      (∀ k, k ∈ l.keys ↔ k ∈ r.keys) ∧
      (∀ k, (l.find k = none ∧ r.find k = none) ∨
        ∃ x y, l.find k = some x ∧ r.find k = some y ∧ x.elements = y.elements) ∧
      ((∀ entry ∈ A.outputPortMap, RangesNonempty entry.2.GetRanges) → l = r) := by
  have hTB := ValuesRemappable_TargetsFitSizeT hBC
  obtain ⟨habs, _⟩ := concatenated_props hA hB hAB hTB
  obtain ⟨hbcs, _⟩ := concatenated_props hB hC hBC hT
  have e1 := concatenate_eq hkA hA hB hAB
  have e2 := concatenate_eq hkB hB hC hBC
  have e3 := concatenate_eq (UniqueKeys_map (remapValue B) hkA) habs hC
    (concatenated_ValuesRemappable hB hAB hBC)
  have e4 := concatenate_eq hkA hA hbcs (ValuesRemappable_concatenated C hAB)
  simp only [map_remap_remap] at e3
  refine ⟨_, _, _, _, e1, e2, e3, e4, ?_, ?_, ?_⟩
  · intro k
    simp [PortOutputsMap.keys, List.map_map, Function.comp]
  · intro k
    simp only [PortOutputsMap.find]
    rw [findEntry_map (fun v => remapValue C (remapValue B v)),
      findEntry_map (fun v => remapValue ⟨B.outputPortMap.map fun y => (y.1, remapValue C y.2)⟩ v)]
    cases hf : findEntry k A.outputPortMap with
    | none => left; simp
    | some v =>
      right
      exact ⟨_, _, rfl, rfl, (assoc_values hB hC hAB hBC hT (k, v) (findEntry_mem hf)).1⟩
  · intro hne
    simp only [PortOutputsMap.mk.injEq]
    apply List.map_congr_left
    intro x hx
    rw [(assoc_values hB hC hAB hBC hT x hx).2 (hne x hx)]

/-- Witness of `ConcatenateMaps_assoc`: the maps `firstPassMap`, `scenarioMap` and
`thirdPassMap`. -/
theorem ConcatenateMaps_assoc_witness :
    ∃ ab bc l r, firstPassMap.ConcatenateMaps scenarioMap = .ok ab ∧
      scenarioMap.ConcatenateMaps thirdPassMap = .ok bc ∧
      ab.ConcatenateMaps thirdPassMap = .ok l ∧ firstPassMap.ConcatenateMaps bc = .ok r ∧
      (∀ k, k ∈ l.keys ↔ k ∈ r.keys) ∧
      (∀ k, (l.find k = none ∧ r.find k = none) ∨
        ∃ x y, l.find k = some x ∧ r.find k = some y ∧ x.elements = y.elements) ∧
      ((∀ entry ∈ firstPassMap.outputPortMap, RangesNonempty entry.2.GetRanges) → l = r) :=
  ConcatenateMaps_assoc firstPassMap scenarioMap thirdPassMap (by decide) (by decide)
    (by decide) (by decide) (by decide) (by decide) (by decide) (by decide)

/-- Counterexample to C11 as stated: all four concatenations succeed and the two results
differ.  With `gapMapA`, whose value has an empty range, the result of `(A, B), C` has two
ranges and that of `A, (B, C)` three.  With `longMapA`, `longMapB` and `longMapC`, where the
concatenation of `B` and `C` builds a range of 2^32 - 2 elements, the two results map the port
to different elements. -/
theorem assoc_results_differ :
    (gapMapA.ConcatenateMaps gapMapB = .ok ⟨[(⟨10, 3⟩, ⟨[⟨⟨12, 4⟩, 0, 2⟩, ⟨⟨12, 4⟩, 0, 1⟩]⟩)]⟩ ∧
      gapMapB.ConcatenateMaps gapMapC
        = .ok ⟨[(⟨11, 4⟩, ⟨[⟨⟨13, 2⟩, 0, 2⟩, ⟨⟨14, 2⟩, 0, 2⟩]⟩)]⟩ ∧
      PortOutputsMap.ConcatenateMaps ⟨[(⟨10, 3⟩, ⟨[⟨⟨12, 4⟩, 0, 2⟩, ⟨⟨12, 4⟩, 0, 1⟩]⟩)]⟩ gapMapC
        = .ok ⟨[(⟨10, 3⟩, ⟨[⟨⟨13, 2⟩, 0, 2⟩, ⟨⟨13, 2⟩, 0, 1⟩]⟩)]⟩ ∧
      gapMapA.ConcatenateMaps ⟨[(⟨11, 4⟩, ⟨[⟨⟨13, 2⟩, 0, 2⟩, ⟨⟨14, 2⟩, 0, 2⟩]⟩)]⟩
        = .ok ⟨[(⟨10, 3⟩, ⟨[⟨⟨13, 2⟩, 0, 2⟩, ⟨⟨14, 2⟩, 0, 0⟩, ⟨⟨13, 2⟩, 0, 1⟩]⟩)]⟩) ∧
    (longMapA.ConcatenateMaps longMapB = .ok ⟨[(⟨20, 3⟩, ⟨[⟨⟨22, 2147483647⟩, 5, 3⟩]⟩)]⟩ ∧
      longMapB.ConcatenateMaps longMapC
        = .ok ⟨[(⟨21, 4294967306⟩,
            ⟨[⟨⟨25, 4294967294⟩, 0, 4294967294⟩, ⟨⟨26, 12⟩, 0, 12⟩]⟩)]⟩ ∧
      PortOutputsMap.ConcatenateMaps ⟨[(⟨20, 3⟩, ⟨[⟨⟨22, 2147483647⟩, 5, 3⟩]⟩)]⟩ longMapC
        = .ok ⟨[(⟨20, 3⟩, ⟨[⟨⟨25, 4294967294⟩, 5, 3⟩]⟩)]⟩ ∧
      longMapA.ConcatenateMaps
          ⟨[(⟨21, 4294967306⟩, ⟨[⟨⟨25, 4294967294⟩, 0, 4294967294⟩, ⟨⟨26, 12⟩, 0, 12⟩]⟩)]⟩
        = .ok ⟨[(⟨20, 3⟩, ⟨[⟨⟨26, 12⟩, 7, 3⟩]⟩)]⟩) := by
  decide

/-- C12. `GetNodeAction(node)` returns the verdict of the latest-registered action function
that does not abstain on `node`: when `f` does not abstain and every function registered
after `f` abstains, the result is `f node`, whatever the functions registered before `f`
return. -/
theorem GetNodeAction_latest_verdict (context : TransformContext)
    (IsCompilable : Node → Option Nat → Bool) (node : Node)
    (earlier later : List (Node → NodeAction)) (f : Node → NodeAction)
    (hlist : context.nodeActionFunctions = earlier ++ f :: later)
    (hf : f node ≠ NodeAction.abstain) (hlater : ∀ g ∈ later, g node = NodeAction.abstain) :
    context.GetNodeAction IsCompilable node = f node := by
  unfold TransformContext.GetNodeAction
  rw [hlist, List.reverse_append, List.reverse_cons, List.append_assoc,
    actionLoop_append_abstain node later.reverse _ (fun g hg => hlater g (List.mem_reverse.1 hg))]
  simp only [List.singleton_append, actionLoop, hf, ne_eq, not_false_eq_true, if_true]

/-- Witness of `GetNodeAction_latest_verdict`: in `layeredContext` the verdict on a node of
kind 0 is that of the second function, `refine`, although the first asks to compile. -/
theorem GetNodeAction_latest_verdict_witness :
    layeredContext.GetNodeAction (fun _ _ => true) sourceNode = NodeAction.refine :=
  GetNodeAction_latest_verdict layeredContext (fun _ _ => true) sourceNode
    [fun _ => NodeAction.compile] [fun _ => NodeAction.abstain]
    (fun node => if node.kind = 0 then NodeAction.refine else NodeAction.abstain)
    rfl (by decide) (by intro g hg; rw [List.mem_singleton.1 hg])

/-- C13. Default of `GetNodeAction`: when every registered action function abstains on
`node` (in particular when none is registered), the result is `compile` if
`node.IsCompilable(compiler)` holds and `refine` otherwise. -/
theorem GetNodeAction_default (context : TransformContext)
    (IsCompilable : Node → Option Nat → Bool) (node : Node)
    (h : ∀ g ∈ context.nodeActionFunctions, g node = NodeAction.abstain) :
    context.GetNodeAction IsCompilable node
      = if IsCompilable node context.compiler then NodeAction.compile else NodeAction.refine := by
  unfold TransformContext.GetNodeAction
  have h2 := actionLoop_append_abstain node context.nodeActionFunctions.reverse []
    (fun g hg => h g (List.mem_reverse.1 hg))
  rw [List.append_nil] at h2
  rw [h2]
  rfl

/-- Witness of `GetNodeAction_default`: in `abstainingContext` a node that is not compilable
is to be refined. -/
theorem GetNodeAction_default_witness :
    abstainingContext.GetNodeAction (fun _ _ => false) sourceNode = NodeAction.refine :=
  GetNodeAction_default abstainingContext (fun _ _ => false) sourceNode
    (by intro g hg; rw [List.mem_singleton.1 hg])

/-- C14. `RefineModel` rejects a non-positive iteration cap: for `maxIterations <= 0` it
raises invalid-argument, leaves the transformer (context, map and model under construction) as
it was, and calls no hook in the copy or in a refinement pass. -/
theorem RefineModel_rejects_nonpositive (t : ModelTransformer) (classes : NodeClasses)
    (oldModel : Model) (context : TransformContext) (maxIterations : Int)
    (h : maxIterations ≤ 0) :
    (t.RefineModel classes oldModel context maxIterations).result = .error .invalidArgument ∧
      (t.RefineModel classes oldModel context maxIterations).transformer = t ∧
      (t.RefineModel classes oldModel context maxIterations).copyVisits = [] ∧
      (t.RefineModel classes oldModel context maxIterations).passes = [] := by
  unfold ModelTransformer.RefineModel
  simp [h]

/-- Witness of `RefineModel_rejects_nonpositive`: the cap 0. -/
theorem RefineModel_rejects_nonpositive_witness :
    (freshTransformer.RefineModel copyingClasses twoNodeModel TransformContext.default 0).result
        = .error .invalidArgument ∧
      (freshTransformer.RefineModel copyingClasses twoNodeModel TransformContext.default
        0).transformer = freshTransformer ∧
      (freshTransformer.RefineModel copyingClasses twoNodeModel TransformContext.default
        0).copyVisits = [] ∧
      (freshTransformer.RefineModel copyingClasses twoNodeModel TransformContext.default
        0).passes = [] :=
  RefineModel_rejects_nonpositive freshTransformer copyingClasses twoNodeModel
    TransformContext.default 0 (by decide)

/-- C16. Early exit of `RefineModel`: when the call returns, the number of passes is between
1 and `maxIterations`; every pass but the last refined some node and left the model not fully
compilable; the last pass refined no node, or found every added node compilable, or is pass
number `maxIterations`.  Here a pass refined some node exactly when a `Refine` hook returned
true in it, and left the model fully compilable exactly when every node added in it was judged
compilable (by the default context, which the transformer holds during the passes). -/
theorem RefineModel_early_exit (t : ModelTransformer) (classes : NodeClasses) (oldModel : Model)
    (context : TransformContext) (maxIterations : Int) (m : Model)
    (hok : (t.RefineModel classes oldModel context maxIterations).result = .ok m) :
    1 ≤ (t.RefineModel classes oldModel context maxIterations).passes.length ∧
      ((t.RefineModel classes oldModel context maxIterations).passes.length : Int)
        ≤ maxIterations ∧
      (∀ p ∈ (t.RefineModel classes oldModel context maxIterations).passes.dropLast,
        p.didRefineAny = true ∧ p.isModelCompilable = false) ∧
      (∀ p, (t.RefineModel classes oldModel context maxIterations).passes.getLast? = some p →
        p.didRefineAny = false ∨ p.isModelCompilable = true ∨
          ((t.RefineModel classes oldModel context maxIterations).passes.length : Int)
            = maxIterations) ∧
      (∀ p ∈ (t.RefineModel classes oldModel context maxIterations).passes,
        (p.didRefineAny = true ↔
          ∃ v ∈ p.visits, v.refineInvoked = true ∧ v.didRefineNode = true) ∧
        (p.isModelCompilable = true ↔ ∀ v ∈ p.visits, ∀ a ∈ v.added, a.2 = true) ∧
        (∀ v ∈ p.visits, ∀ a ∈ v.added, a.2 = classes.IsCompilable a.1 none)) := by
  obtain ⟨hmax, model, hcopy⟩ := RefineModel_ok_copy_ok t classes oldModel context
    maxIterations m hok
  obtain ⟨h1, _, h3, _⟩ := RefineModel_copy_ok t classes oldModel context maxIterations hmax
    model hcopy
  obtain ⟨l1, l2⟩ := refineLoop_length classes context maxIterations.toNat
    (t.afterCopy classes oldModel context model)
  obtain ⟨_, f2, f3, f4, _⟩ := refineLoop_facts classes context maxIterations.toNat
    (t.afterCopy classes oldModel context model)
  have hctx : (t.afterCopy classes oldModel context model).context.compiler = none := by
    have := CopyModel_ok_context (t.beforeCopy context) classes oldModel [] context model hcopy
    unfold ModelTransformer.afterCopy
    simp only [this]
    rfl
  have hl := h3.2 ⟨m, hok⟩
  rw [h1]
  refine ⟨l2 (by omega), by omega, fun p hp => (f3 p hp).2, ?_, ?_⟩
  · intro p hp
    rcases (f4 hl p hp).2 with h | h | h
    · exact Or.inl h
    · exact Or.inr (Or.inl h)
    · right; right; omega
  · intro p hp
    obtain ⟨s1, s2, s3, _⟩ := f2 p hp
    rw [hctx] at s3
    refine ⟨?_, ?_, s3⟩
    · rw [s2]
      simp [List.any_eq_true]
    · rw [s1]
      simp [List.all_eq_true]

/-- Witness of `RefineModel_early_exit`: the model `twoNodeModel` with the cap 3 and a context
that asks for the refinement of every node. -/
theorem RefineModel_early_exit_witness :
    1 ≤ (freshTransformer.RefineModel copyingClasses twoNodeModel refiningContext
        3).passes.length ∧
      ((freshTransformer.RefineModel copyingClasses twoNodeModel refiningContext
        3).passes.length : Int) ≤ 3 :=
  ⟨(RefineModel_early_exit freshTransformer copyingClasses twoNodeModel refiningContext 3
      refinedTwoNodeModel (by decide)).1,
   (RefineModel_early_exit freshTransformer copyingClasses twoNodeModel refiningContext 3
      refinedTwoNodeModel (by decide)).2.1⟩

/-- C17. Refinement fixpoint for kind-stable node classes: if the classes and the context
treat a node according to its kind only (`KindStable`), a call of `RefineModel` returns the
model `m` and its last pass ended with `didRefineAny == false`, then a further call of
`RefineModel` on `m` with the same context, when it returns the model `m2`, has made one pass,
in which no node was refined, and `m2` has nodes of the same kinds as `m`, in the same
order. -/
theorem RefineModel_fixpoint (t t2 : ModelTransformer) (classes : NodeClasses)
    (oldModel : Model) (context : TransformContext) (maxIterations maxIterations2 : Int)
    (action : Nat → NodeAction) (refines : Nat → Bool)
    (hs : KindStable classes context action refines) (m m2 : Model)
    (h1 : (t.RefineModel classes oldModel context maxIterations).result = .ok m)
    (hlast : (t.RefineModel classes oldModel context maxIterations).passes.getLast?.map
      PassRecord.didRefineAny = some false)
    (h2 : (t2.RefineModel classes m context maxIterations2).result = .ok m2) :
    (t2.RefineModel classes m context maxIterations2).passes.length = 1 ∧
    (∀ p ∈ (t2.RefineModel classes m context maxIterations2).passes, p.didRefineAny = false) ∧
    m2.nodes.map Node.kind = m.nodes.map Node.kind := by
  obtain ⟨hmax, model, hc⟩ := RefineModel_ok_copy_ok t classes oldModel context maxIterations m h1
  obtain ⟨hmax2, model2, hc2⟩ := RefineModel_ok_copy_ok t2 classes m context maxIterations2 m2 h2
  obtain ⟨a1, a2⟩ := RefineModel_ok_model t classes oldModel context maxIterations hmax model m
    hc h1
  obtain ⟨b1, b2⟩ := RefineModel_ok_model t2 classes m context maxIterations2 hmax2 model2 m2
    hc2 h2
  have hp1 := (RefineModel_copy_ok t classes oldModel context maxIterations hmax model hc).1
  have hp2 := (RefineModel_copy_ok t2 classes m context maxIterations2 hmax2 model2 hc2).1
  rw [hp1] at hlast
  rw [hp2, b2]
  have hsettled : ∀ x ∈ m.nodes, Settled action refines x.kind := by
    rw [a2]
    cases hl : (refineLoop classes context maxIterations.toNat
        (t.afterCopy classes oldModel context model)).2.2.getLast? with
    | none => rw [hl] at hlast; cases hlast
    | some p =>
      rw [hl] at hlast
      simp only [Option.map_some', Option.some.injEq] at hlast
      exact refineLoop_last_settled classes context action refines hs _ _ a1 p hl hlast
  have hk := CopyModel_kinds (t2.beforeCopy context) classes m [] context context action refines
    hs model2 hc2
  have hvis : m.VisitSubset [] = m.nodes := rfl
  rw [hvis] at hk
  have hsettled2 : ∀ x ∈ (t2.afterCopy classes m context model2).model.nodes,
      Settled action refines x.kind := by
    intro x hx
    have hx2 : x.kind ∈ m.nodes.map Node.kind := by
      rw [← hk]; exact List.mem_map_of_mem _ hx
    obtain ⟨y, hy, hyk⟩ := List.mem_map.1 hx2
    rw [← hyk]
    exact hsettled y hy
  obtain ⟨n, hn⟩ : ∃ n, maxIterations2.toNat = n + 1 := ⟨maxIterations2.toNat - 1, by omega⟩
  rw [hn] at b1 ⊢
  obtain ⟨c1, c2, c3⟩ := refineLoop_settled classes context action refines hs n
    (t2.afterCopy classes m context model2) hsettled2 b1
  refine ⟨c1, c2, ?_⟩
  rw [c3]
  exact hk

/-- Witness of `RefineModel_fixpoint`: the model `twoNodeModel` refined twice with
`copyingClasses` under `refiningContext`. -/
theorem RefineModel_fixpoint_witness :
    (freshTransformer.RefineModel copyingClasses
      ⟨[⟨2001, 0, [], [⟨2001, 2⟩], []⟩,
        ⟨2002, 1, [⟨[⟨⟨2001, 2⟩, 1, 1⟩, ⟨⟨2001, 2⟩, 0, 1⟩]⟩], [⟨2002, 2⟩], []⟩]⟩
      refiningContext 2).passes.length = 1 ∧
    (∀ p ∈ (freshTransformer.RefineModel copyingClasses
      ⟨[⟨2001, 0, [], [⟨2001, 2⟩], []⟩,
        ⟨2002, 1, [⟨[⟨⟨2001, 2⟩, 1, 1⟩, ⟨⟨2001, 2⟩, 0, 1⟩]⟩], [⟨2002, 2⟩], []⟩]⟩
      refiningContext 2).passes, p.didRefineAny = false) ∧
    (Model.mk [⟨4001, 0, [], [⟨4001, 2⟩], []⟩,
        ⟨4002, 1, [⟨[⟨⟨4001, 2⟩, 1, 1⟩, ⟨⟨4001, 2⟩, 0, 1⟩]⟩], [⟨4002, 2⟩], []⟩]).nodes.map
        Node.kind
      = (Model.mk [⟨2001, 0, [], [⟨2001, 2⟩], []⟩,
        ⟨2002, 1, [⟨[⟨⟨2001, 2⟩, 1, 1⟩, ⟨⟨2001, 2⟩, 0, 1⟩]⟩], [⟨2002, 2⟩], []⟩]).nodes.map
        Node.kind :=
  RefineModel_fixpoint freshTransformer freshTransformer copyingClasses twoNodeModel
    refiningContext 3 2 (fun _ => NodeAction.refine) (fun _ => false) copyingClasses_stable
    _ _ (by decide) (by decide) (by decide)

/-- Counterexample to C17 as stated: with `silentClasses`, whose `Refine` replaces a node of
kind 0 by a node of kind 1 and returns false, the only pass of the first call ends with
`didRefineAny == false`; the second call, on the model returned and with the same context,
refines the node of kind 1 in its first pass and returns a model with a node of kind 2. -/
theorem silent_replacement_refined_again :
    (freshTransformer.RefineModel silentClasses ⟨[sourceNode]⟩ TransformContext.default
        3).result = .ok ⟨[⟨2001, 1, [], [⟨2001, 2⟩], []⟩]⟩ ∧
    (freshTransformer.RefineModel silentClasses ⟨[sourceNode]⟩ TransformContext.default
        3).passes.map PassRecord.didRefineAny = [false] ∧
    (freshTransformer.RefineModel silentClasses ⟨[⟨2001, 1, [], [⟨2001, 2⟩], []⟩]⟩
        TransformContext.default 3).result = .ok ⟨[⟨5001, 2, [], [⟨5001, 2⟩], []⟩]⟩ ∧
    (freshTransformer.RefineModel silentClasses ⟨[⟨2001, 1, [], [⟨2001, 2⟩], []⟩]⟩
        TransformContext.default 3).passes.map PassRecord.didRefineAny = [true, false] := by
  decide

/-- C19. Metadata propagation in `CopyModel`: when the call returns the model `newModel`,
(1) for every visited node `n`, as it is when the second visit reaches it (`metadataReads`),
whose first output port corresponds to elements with a first range owned by the node at
position `j` of `newModel` (`metadataTarget`), and such that no node visited later has the
same target, the node at position `j` carries the metadata of `n`;
(2) every node of `newModel` is the node that the hooks added, or that node with the metadata
of a visited node whose target it is: no other node receives metadata. -/
theorem CopyModel_propagates_metadata (t : ModelTransformer) (classes : NodeClasses)
    (oldModel : Model) (outputNodes : List Node) (context : TransformContext) (newModel : Model)
    (hok : (t.CopyModel classes oldModel outputNodes context).result = .ok newModel) :
    (∀ (earlier : List Node) (n : Node) (later : List Node) (j : Nat),
      metadataReads (t.CopyModel classes oldModel outputNodes context).transformer.elementsMap
        (oldModel.VisitSubset outputNodes) [] = earlier ++ n :: later →
      metadataTarget (t.CopyModel classes oldModel outputNodes context).transformer.elementsMap
        newModel.nodes n = some j →
      (∀ v ∈ later,
        metadataTarget (t.CopyModel classes oldModel outputNodes context).transformer.elementsMap
          newModel.nodes v ≠ some j) →
      ∃ newNode, newModel.nodes[j]? = some newNode ∧ newNode.metadata = n.metadata) ∧
    (∀ j : Nat,
      newModel.nodes[j]?
        = ((t.CopyModel classes oldModel outputNodes context).visits.flatMap
            fun v => v.added.map Prod.fst)[j]? ∨
      ∃ v ∈ metadataReads (t.CopyModel classes oldModel outputNodes context).transformer.elementsMap
          (oldModel.VisitSubset outputNodes) [],
        metadataTarget (t.CopyModel classes oldModel outputNodes context).transformer.elementsMap
          newModel.nodes v = some j ∧
        newModel.nodes[j]?
          = ((t.CopyModel classes oldModel outputNodes context).visits.flatMap
              fun v => v.added.map Prod.fst)[j]?.map
              fun added => { added with metadata := v.metadata }) := by
  obtain ⟨t2, h1, h2, h3, h4⟩ := CopyModel_ok_metadata t classes oldModel outputNodes context
    newModel hok
  unfold metadataPass at h3 h4
  have hout := (metadataVisit_keeps _ t2 h3).1
  rw [← h1, ← h2, ← h4]
  refine ⟨?_, ?_⟩
  · intro earlier n later j hV hj hlater
    rw [metadataTarget_congr _ _ _ hout] at hj
    have h3b := h3
    rw [hV] at h3b
    have key := metadataVisit_target earlier n later t2 h3b j hj (by
      intro v hv
      have := hlater v hv
      rw [metadataTarget_congr _ _ _ hout] at this
      exact this)
    rw [← hV] at key
    exact key
  · intro j
    rcases metadataVisit_changes _ t2 h3 j with c | ⟨v, hv, c1, c2⟩
    · left; exact c
    · right
      refine ⟨v, hv, ?_, c2⟩
      rw [metadataTarget_congr _ _ _ hout]
      exact c1

/-- Witness of `CopyModel_propagates_metadata`: the copy of `sinkNode`, the node at position
1 of the copy of `twoNodeModel`, carries the metadata of `sinkNode`. -/
theorem CopyModel_propagates_metadata_witness :
    (freshTransformer.CopyModel copyingClasses twoNodeModel [] TransformContext.default).result
      = .ok ⟨[⟨1001, 0, [], [⟨1001, 2⟩], [("name", "source")]⟩,
          ⟨1002, 1, [⟨[⟨⟨1001, 2⟩, 1, 1⟩, ⟨⟨1001, 2⟩, 0, 1⟩]⟩], [⟨1002, 2⟩],
            [("name", "sink")]⟩]⟩ ∧
    ∃ newNode,
      (Model.mk [⟨1001, 0, [], [⟨1001, 2⟩], [("name", "source")]⟩,
          ⟨1002, 1, [⟨[⟨⟨1001, 2⟩, 1, 1⟩, ⟨⟨1001, 2⟩, 0, 1⟩]⟩], [⟨1002, 2⟩],
            [("name", "sink")]⟩]).nodes[1]? = some newNode ∧
      newNode.metadata = sinkNode.metadata :=
  ⟨by decide,
   (CopyModel_propagates_metadata freshTransformer copyingClasses twoNodeModel []
      TransformContext.default _ (by decide)).1 [sourceNode] sinkNode [] 1 (by decide) (by decide)
      (by decide)⟩

/-- C20. Copy preserves output values for models whose ports fit an `int`: for a well-formed
model `G` (no output port shared by two nodes, every output port of fewer than 2^31 elements,
every input made of ranges inside output ports of earlier nodes), node classes whose `Copy`
hooks add an equivalent node and register its outputs (`CopiesNodes`, with any ports
`rename p` of the sizes of the ports `p`, distinct for distinct ports), and nodes that compute
vectors of the sizes of their ports, `CopyModel(G)` returns a model `G2`, and for every output
port `p` of `G` the map gives elements `e` for `p` such that `G2.ComputeOutput(e)` is the
vector `G.ComputeOutput(p)`, both computed from buffers never written. -/
theorem CopyModel_preserves_values (t : ModelTransformer) (classes : NodeClasses)
    (rename : OutputPortBase → OutputPortBase) (G : Model) (context : TransformContext)
    (compute : Nat → List (List Int) → List (List Int))
    (hcopy : CopiesNodes classes rename G) (hren : PortRenaming rename G)
    (hwf : G.WellFormed) (hsz : ComputeSized compute G) :
    ∃ G2, (t.CopyModel classes G [] context).result = .ok G2 ∧
      ∀ p ∈ G.nodes.flatMap Node.outputs,
        ∃ e, (t.CopyModel classes G [] context).transformer.elementsMap.GetCorrespondingPortElements
            (PortElementsBase.ofPort p) = .ok e ∧
          G2.ComputeOutput compute Buffers.empty e
            = G.ComputeOutputPort compute Buffers.empty p := by
  obtain ⟨G2, r1, hcopies, hmap⟩ := CopyModel_copies t classes rename G context hcopy hren hwf
  obtain ⟨hnd, hfit, hord⟩ := hwf
  have hsup : Supplied (fun _ => False) G.nodes :=
    Supplied_mono _ _ _ (fun p hp => by cases hp) (DependencyOrdered_supplied _ _ hord)
  have hsup2 : Supplied (fun _ => False) G2.nodes :=
    Supplied_copy rename _ _ hcopies _ _ (fun _ hp => hp) hsup
  have hnd2 : (G2.nodes.flatMap Node.outputs).Nodup := by
    rw [copies_outputs rename _ _ hcopies]
    exact List.Nodup.map_on (fun a ha b hb h => hren.2 a ha b hb h) hnd
  have hports : ∀ n ∈ G.nodes,
      (∀ e ∈ n.inputs, ∀ x ∈ e.elements, x.1 ∈ G.nodes.flatMap Node.outputs) ∧
        ∀ q ∈ n.outputs, q ∈ G.nodes.flatMap Node.outputs := by
    intro n hn
    refine ⟨fun e he x hx => ?_, fun q hq => List.mem_flatMap.2 ⟨n, hn, hq⟩⟩
    rcases Supplied_ports _ _ hsup n hn e he x hx with h | h
    · exact absurd h id
    · exact h
  have hcorr := computeVisit_copy compute rename _ hren.2 _ _ hcopies Buffers.empty
    Buffers.empty hports (fun _ _ => rfl)
  refine ⟨G2, r1, ?_⟩
  intro p hp
  obtain ⟨e, he, hesize, hel, hne⟩ := query_copy rename _ _ hmap p hp
  refine ⟨e, he, ?_⟩
  obtain ⟨owner, owner2, o1, o2, o3, o4, o5, o6⟩ := owner_copy rename _ hren.2 p hp G.nodes
    G2.nodes hcopies (fun n hn q hq => List.mem_flatMap.2 ⟨n, hn, hq⟩) hp
  have hG : G.GetNode p = some owner := o1
  have hG2 : G2.GetNode (rename p) = some owner2 := o2
  unfold Model.ComputeOutputPort Model.ComputeOutput
  simp only [hG, Option.toList]
  have hS : G.VisitSubset [owner] = closureLoop [owner] G.nodes.reverse [] := rfl
  rw [hS, computeVisit_closure compute G [owner] hsup hnd owner o3 (List.mem_singleton.2 rfl)
    p o5]
  have hlen := computeVisit_sized compute G.nodes Buffers.empty
    (fun node hnode => hsz node hnode) p (Or.inr ⟨owner, o3, o5⟩)
  by_cases hpos : 0 < p.Size
  · have hports2 : ∀ r ∈ e.GetRanges, r.ReferencedPort = rename p := by
      intro r hr
      obtain ⟨x, hx, hxr⟩ := elements_of_port e.GetRanges (hne hpos) _ ⟨r, hr, rfl⟩
      have hx2 : x ∈ e.elements := hx
      rw [hel] at hx2
      obtain ⟨y, hy, hyx⟩ := List.mem_map.1 hx2
      obtain ⟨r0, hr0, hy1, _⟩ := mem_elements _ y hy
      simp only [PortElementsBase.ofPort, List.mem_singleton] at hr0
      rw [hr0] at hy1
      rw [← hxr, ← hyx]
      simp only [renameElement, hy1]
    have hne2 : e.GetRanges ≠ [] := by
      intro h0
      have : e.Size = 0 := by simp [PortElementsBase.Size, h0]
      omega
    have hused := (usedNodesLoop_single G2 (rename p) owner2 hG2 e.GetRanges hports2).2 hne2
    rw [hused]
    have hS2 : G2.VisitSubset [owner2] = closureLoop [owner2] G2.nodes.reverse [] := rfl
    rw [hS2]
    have hval : (computeVisit compute (closureLoop [owner2] G2.nodes.reverse [])
          Buffers.empty).inputValues e
        = (computeVisit compute G.nodes Buffers.empty).inputValues
            (PortElementsBase.ofPort p) := by
      rw [inputValues_eq, inputValues_eq, hel, List.map_map]
      apply List.map_congr_left
      intro y hy
      obtain ⟨r0, hr0, hy1, _⟩ := mem_elements _ y hy
      simp only [PortElementsBase.ofPort, List.mem_singleton] at hr0
      rw [hr0] at hy1
      simp only [] at hy1
      simp only [Function.comp, renameElement]
      rw [hy1, computeVisit_closure compute G2 [owner2] hsup2 hnd2 owner2 o4
        (List.mem_singleton.2 rfl) (rename p) o6, hcorr p hp]
    rw [inputValues_ofPort _ p hlen] at hval
    rw [← hval]
    rfl
  · have h0 : p.Size = 0 := by omega
    rw [hesize, h0]
    rw [h0] at hlen
    rw [List.length_eq_zero.1 hlen]
    rfl

/-- Witness of `CopyModel_preserves_values`: the model `twoNodeModel` and the model
`emptyRangeModel`, with the hook `copyHook` and the function `exampleCompute`.  In
`emptyRangeModel` the second node consumes an empty range only: its copy consumes nothing, the
closure of the copy is the copy alone while the closure of the node holds the first node, and
the vectors computed are the same. -/
theorem CopyModel_preserves_values_witness :
    (∃ G2, (freshTransformer.CopyModel copyingClasses twoNodeModel []
        TransformContext.default).result = .ok G2 ∧
      ∀ p ∈ twoNodeModel.nodes.flatMap Node.outputs,
        ∃ e, (freshTransformer.CopyModel copyingClasses twoNodeModel []
              TransformContext.default).transformer.elementsMap.GetCorrespondingPortElements
            (PortElementsBase.ofPort p) = .ok e ∧
          G2.ComputeOutput exampleCompute Buffers.empty e
            = twoNodeModel.ComputeOutputPort exampleCompute Buffers.empty p) ∧
    (∃ G2, (freshTransformer.CopyModel copyingClasses emptyRangeModel []
        TransformContext.default).result = .ok G2 ∧
      ∀ p ∈ emptyRangeModel.nodes.flatMap Node.outputs,
        ∃ e, (freshTransformer.CopyModel copyingClasses emptyRangeModel []
              TransformContext.default).transformer.elementsMap.GetCorrespondingPortElements
            (PortElementsBase.ofPort p) = .ok e ∧
          G2.ComputeOutput exampleCompute Buffers.empty e
            = emptyRangeModel.ComputeOutputPort exampleCompute Buffers.empty p) ∧
    (freshTransformer.CopyModel copyingClasses emptyRangeModel []
        TransformContext.default).result
      = .ok ⟨[⟨1001, 0, [], [⟨1001, 2⟩], [("name", "source")]⟩,
              ⟨1002, 1, [⟨[]⟩], [⟨1002, 2⟩], []⟩]⟩ ∧
    emptyRangeModel.VisitSubset (emptyRangeModel.GetNode ⟨2, 2⟩).toList
      = emptyRangeModel.nodes ∧
    (Model.mk [⟨1001, 0, [], [⟨1001, 2⟩], [("name", "source")]⟩,
        ⟨1002, 1, [⟨[]⟩], [⟨1002, 2⟩], []⟩]).VisitSubset
        [⟨1002, 1, [⟨[]⟩], [⟨1002, 2⟩], []⟩]
      = [⟨1002, 1, [⟨[]⟩], [⟨1002, 2⟩], []⟩] ∧
    emptyRangeModel.ComputeOutputPort exampleCompute Buffers.empty ⟨2, 2⟩ = [0, 0] ∧
    twoNodeModel.ComputeOutputPort exampleCompute Buffers.empty ⟨2, 2⟩ = [7, 1] :=
  ⟨CopyModel_preserves_values freshTransformer copyingClasses copiedPort twoNodeModel
      TransformContext.default exampleCompute (copyHook_copies twoNodeModel)
      (copiedPort_renaming twoNodeModel) (by decide)
      (exampleCompute_pairs twoNodeModel (by decide)),
   CopyModel_preserves_values freshTransformer copyingClasses copiedPort emptyRangeModel
      TransformContext.default exampleCompute (copyHook_copies emptyRangeModel)
      (copiedPort_renaming emptyRangeModel) (by decide)
      (exampleCompute_pairs emptyRangeModel (by decide)),
   by decide, by decide, by decide, by decide, by decide⟩

/-- Counterexample to C20 as stated: the model `wideOutputModel`, one node without inputs
whose output port has 2^31 + 1 elements, is well-formed but for the size of the port, its
`Copy` hook adds an equivalent node and registers its output, and `CopyModel` raises on it in
its metadata visit, although the copy hook has returned. -/
theorem wide_output_copy_raises :
    (wideOutputModel.nodes.flatMap Node.outputs).Nodup ∧
      DependencyOrdered [] wideOutputModel.nodes ∧
      CopiesNodes copyingClasses copiedPort wideOutputModel ∧
      PortRenaming copiedPort wideOutputModel ∧
      (freshTransformer.CopyModel copyingClasses wideOutputModel []
        TransformContext.default).visits.map NodeVisit.node = wideOutputModel.nodes ∧
      (freshTransformer.CopyModel copyingClasses wideOutputModel []
        TransformContext.default).visits.map (fun v => v.added.map Prod.fst)
        = [[⟨1001, 0, [], [⟨1001, 2147483649⟩], []⟩]] ∧
      (freshTransformer.CopyModel copyingClasses wideOutputModel []
        TransformContext.default).result = .error .sizeMismatch :=
  ⟨by decide, by decide, copyHook_copies wideOutputModel, copiedPort_renaming wideOutputModel,
    by decide, by decide, by decide⟩

/-- C21. Transforms build their result in a fresh model, and leave the source model as it is
when the correspondence map does not lead back into it.  For `CopyModel(oldModel, outputNodes,
context)`, if for no visited node the elements that correspond to its first output port begin
on a port of a node of the source model (`metadataWrite` gives the port whose owner the second
visit writes to), then the nodes of the source model after the call, with their ports and
metadata, are the nodes before the call; and so they are after `RefineModel(oldModel, context,
maxIterations)`, whose only writes are those of its initial `CopyModel(oldModel, context)`.
The model returned by `CopyModel` is made of the nodes that the hooks added in the call (up
to the metadata assigned by the second visit), the model returned by `RefineModel` of the nodes
added in its last refinement pass, and the model returned by `TransformModel`, which assigns
to no node, of the nodes added by the calls of `transformFunction`. -/
theorem transforms_nondestructive (t : ModelTransformer) (classes : NodeClasses)
    (oldModel : Model) (outputNodes : List Node) (context : TransformContext)
    (hnew : ∀ n ∈ oldModel.VisitSubset outputNodes,
      ∀ w ∈ metadataWrite
          (t.CopyModel classes oldModel outputNodes context).transformer.elementsMap n,
        ∀ s ∈ oldModel.nodes, w.1 ∉ s.outputs) :
    t.CopyModelSource classes oldModel outputNodes context = oldModel.nodes ∧
    (outputNodes = [] → ∀ maxIterations : Int,
      t.RefineModelSource classes oldModel context maxIterations = oldModel.nodes) ∧
    (∀ m, (t.CopyModel classes oldModel outputNodes context).result = .ok m →
      m.nodes.map Node.core
        = (addedNodes (t.CopyModel classes oldModel outputNodes context).visits).map
            Node.core) ∧
    (∀ (maxIterations : Int) (m : Model),
      (t.RefineModel classes oldModel context maxIterations).result = .ok m →
      ∃ p, (t.RefineModel classes oldModel context maxIterations).passes.getLast? = some p ∧
        m.nodes = addedNodes p.visits) ∧
    (∀ (transformFunction : Node → HookProgram Unit) (m : Model),
      (t.TransformModel classes.IsCompilable oldModel context transformFunction).result
        = .ok m →
      m.nodes = addedNodes
        (t.TransformModel classes.IsCompilable oldModel context transformFunction).pass.visits) := by
  refine ⟨CopyModelSource_eq t classes oldModel outputNodes context hnew, ?_,
    CopyModel_ok_nodes t classes oldModel outputNodes context,
    RefineModel_ok_nodes t classes oldModel context,
    TransformModel_ok_nodes t classes.IsCompilable oldModel context⟩
  intro hout maxIterations
  subst hout
  unfold ModelTransformer.RefineModelSource
  split
  · rfl
  · exact CopyModelSource_eq (t.beforeCopy context) classes oldModel [] context
      (by rw [CopyModel_beforeCopy]; exact hnew)

/-- Witness of `transforms_nondestructive`: the copy and the refinement of `twoNodeModel`
with `copyingClasses`, whose hooks register ports of the nodes they add, leave the two nodes
of `twoNodeModel` as they are. -/
theorem transforms_nondestructive_witness :
    freshTransformer.CopyModelSource copyingClasses twoNodeModel [] TransformContext.default
      = [sourceNode, sinkNode] ∧
    freshTransformer.RefineModelSource copyingClasses twoNodeModel TransformContext.default 3
      = [sourceNode, sinkNode] :=
  ⟨(transforms_nondestructive freshTransformer copyingClasses twoNodeModel []
      TransformContext.default (by decide)).1,
   (transforms_nondestructive freshTransformer copyingClasses twoNodeModel []
      TransformContext.default (by decide)).2.1 rfl 3⟩

/-- Counterexample to C21: with `forwardingClasses` the copy of `twoNodeModel` returns a
model (the copy of `sourceNode`), and its second visit assigns the metadata of `sinkNode` to
`sourceNode`, the node of the source model that owns the port on which the elements registered
for the output port of `sinkNode` begin: the source model is not the same after the call. -/
theorem forwarding_copy_overwrites_source :
    twoNodeModel.nodes
      = [⟨1, 0, [], [⟨1, 2⟩], [("name", "source")]⟩, sinkNode] ∧
    (freshTransformer.CopyModel forwardingClasses twoNodeModel []
        TransformContext.default).result
      = .ok ⟨[⟨1001, 0, [], [⟨1001, 2⟩], [("name", "source")]⟩]⟩ ∧
    freshTransformer.CopyModelSource forwardingClasses twoNodeModel [] TransformContext.default
      = [⟨1, 0, [], [⟨1, 2⟩], [("name", "sink")]⟩, sinkNode] ∧
    freshTransformer.RefineModelSource forwardingClasses twoNodeModel
        TransformContext.default 1
      = [⟨1, 0, [], [⟨1, 2⟩], [("name", "sink")]⟩, sinkNode] := by
  decide

/-- C24. `DeleteNode` rejects unknown port types: when the loop has completed on the output
ports before a port whose type is outside the closed set of boolean, integer, 64-bit integer,
32-bit float and 64-bit float, the call raises invalid-argument; and for a node all of whose
output ports have a type in the set the call does not raise invalid-argument. -/
theorem DeleteNode_unknown_port_type (t : ModelTransformer)
    (IsCompilable : Node → Option Nat → Bool) (sinks : OutputNodeClass) (firstId : Nat) :
    (∀ (before : List TypedOutputPort) (p : TypedOutputPort) (after : List TypedOutputPort),
      p.type.isRecognized = false →
      (t.DeleteNode IsCompilable sinks firstId before).outcome = .ok () →
      (t.DeleteNode IsCompilable sinks firstId (before ++ p :: after)).outcome
        = .error .invalidArgument) ∧
    (∀ outputPorts : List TypedOutputPort,
      (∀ p ∈ outputPorts, p.type.isRecognized = true) →
      (t.DeleteNode IsCompilable sinks firstId outputPorts).outcome
        ≠ .error .invalidArgument) := by
  unfold ModelTransformer.DeleteNode
  constructor
  · intro before p after hp hb
    rw [(deleteLoop_append IsCompilable sinks before (p :: after) firstId t hb).1, deleteLoop,
      (sinkValueType_recognized p.type).2 hp]
  · intro outputPorts hall h
    obtain ⟨p, hp, hpr⟩ := deleteLoop_invalidArgument IsCompilable sinks outputPorts firstId t h
    rw [hall p hp] at hpr
    cases hpr

/-- An unknown port type after a recognized one: `DeleteNode` adds the sink of the first port
and raises invalid-argument at the second. -/
theorem DeleteNode_unknown_port_type_witness :
    (freshTransformer.DeleteNode (fun _ _ => true) exampleSinks 500
      ([⟨⟨7, 8⟩, PortType.bigInt, [8]⟩] ++ ⟨⟨8, 3⟩, PortType.other 5, [3]⟩ :: [])).outcome
        = .error .invalidArgument :=
  (DeleteNode_unknown_port_type freshTransformer (fun _ _ => true) exampleSinks 500).1
    [⟨⟨7, 8⟩, PortType.bigInt, [8]⟩] ⟨⟨8, 3⟩, PortType.other 5, [3]⟩ [] (by decide) (by decide)

/-- C25. `Model::ComputeOutput(elements)`: the set `usedNodes` holds every node that owns the
port of a range of `E` once; the result, read from the buffers after `Compute` has been
invoked on the visit-subset of these nodes, has length `E.Size()`, and for every `i` below
that the element `E.GetElement(i)` is a pair `(port, index)` and the `i`-th entry of the
result is the entry `index` of the buffer of `port` (any value of that buffer at `index` is
the `i`-th entry).  The buffers read are those left by the calls of `Compute` on the nodes of
the visit-subset, one after the other in its order; and a call of `Compute` on a node with
distinct output ports stores, in the port at position `k`, the vector at position `k` that
the function of the node gives for the values of the input ports, and leaves the buffers of
the other ports as they are. -/
theorem ComputeOutput_gathers (model : Model)
    (compute : Nat → List (List Int) → List (List Int)) (b : Buffers) (E : PortElementsBase) :
    (usedNodesLoop model E.GetRanges []).Nodup ∧
    (∀ n, n ∈ usedNodesLoop model E.GetRanges [] ↔
      ∃ r ∈ E.GetRanges, model.GetNode r.ReferencedPort = some n) ∧
    (model.ComputeOutput compute b E).length = E.Size ∧
    (∀ i, i < E.Size → ∃ port index, E.GetElement i = some (port, index) ∧
      (model.ComputeOutput compute b E)[i]?
        = some (((computeVisit compute
            (model.VisitSubset (usedNodesLoop model E.GetRanges [])) b).GetOutput port).getD
              index 0) ∧
      ∀ value, ((computeVisit compute
          (model.VisitSubset (usedNodesLoop model E.GetRanges [])) b).GetOutput port)[index]?
            = some value →
        (model.ComputeOutput compute b E)[i]? = some value) ∧
    computeVisit compute (model.VisitSubset (usedNodesLoop model E.GetRanges [])) b
      = (model.VisitSubset (usedNodesLoop model E.GetRanges [])).foldl
          (fun buffers node => node.Compute compute buffers) b ∧
    (∀ (node : Node) (buffers : Buffers), node.outputs.Nodup →
      (∀ (k : Nat) (port : OutputPortBase), node.outputs[k]? = some port →
        (node.Compute compute buffers).GetOutput port
          = (compute node.kind (node.inputs.map buffers.inputValues)).getD k []) ∧
      (∀ port, port ∉ node.outputs →
        (node.Compute compute buffers).GetOutput port = buffers.GetOutput port)) := by
  obtain ⟨u1, u2⟩ := usedNodesLoop_spec model E.GetRanges [] List.nodup_nil
  refine ⟨u1, (fun n => by rw [u2 n]; simp), ?_, ?_, computeVisit_eq_foldl compute _ b,
    fun node buffers hnd => storeOutputs_get node.outputs _ buffers hnd⟩
  · simp [Model.ComputeOutput]
  · intro i hi
    have hlen : E.elements.length = E.Size := length_rangesElements E.GetRanges
    have hi2 : i < E.elements.length := by omega
    have hget : E.GetElement i = some (E.elements[i]) := by
      unfold PortElementsBase.GetElement
      exact List.getElem?_eq_getElem hi2
    have hres : (model.ComputeOutput compute b E)[i]?
        = some (((computeVisit compute
            (model.VisitSubset (usedNodesLoop model E.GetRanges [])) b).GetOutput
              (E.elements[i]).1).getD (E.elements[i]).2 0) := by
      unfold Model.ComputeOutput
      simp only [List.getElem?_map, List.getElem?_range hi, Option.map_some',
        Buffers.elementValue, hget]
      rfl
    refine ⟨(E.elements[i]).1, (E.elements[i]).2, hget, hres, ?_⟩
    intro value hv
    rw [hres, List.getD_eq_getElem?_getD, hv]
    rfl

/-- Witness of `ComputeOutput_gathers`: in `twoNodeModel` with `exampleCompute`, from buffers
never written, the elements made of the output port of `sinkNode` and of the second element
of the output port of `sourceNode` are computed to 7, 1 and 4: `sourceNode` computes 3 and 4,
and `sinkNode`, which reads them in reverse order, their sum and the difference 4 - 3. -/
theorem ComputeOutput_gathers_witness :
    twoNodeModel.ComputeOutput exampleCompute Buffers.empty ⟨[⟨⟨2, 2⟩, 0, 2⟩, ⟨⟨1, 2⟩, 1, 1⟩]⟩
      = [7, 1, 4] ∧
    usedNodesLoop twoNodeModel [⟨⟨2, 2⟩, 0, 2⟩, ⟨⟨1, 2⟩, 1, 1⟩] [] = [sinkNode, sourceNode] ∧
    twoNodeModel.VisitSubset [sinkNode, sourceNode] = [sourceNode, sinkNode] ∧
    (twoNodeModel.ComputeOutput exampleCompute Buffers.empty
      ⟨[⟨⟨2, 2⟩, 0, 2⟩, ⟨⟨1, 2⟩, 1, 1⟩]⟩).length
      = (PortElementsBase.mk [⟨⟨2, 2⟩, 0, 2⟩, ⟨⟨1, 2⟩, 1, 1⟩]).Size :=
  ⟨by decide, by decide, by decide,
   (ComputeOutput_gathers twoNodeModel exampleCompute Buffers.empty
      ⟨[⟨⟨2, 2⟩, 0, 2⟩, ⟨⟨1, 2⟩, 1, 1⟩]⟩).2.2.1⟩

/-- C26. Dependency order of the traversal.  For a graph `nodes` without cycle, stored in any
order, and output nodes that belong to it, the sequence that the node iterator yields has no
node twice; every node of the graph of which a node of the sequence consumes an output comes
strictly earlier in it; with an empty `outputNodes` its nodes are those of the whole graph,
otherwise exactly those of the transitive input-closure of `outputNodes`.  The model that
lists the nodes in the order of the iterator is in dependency order and `Visit` passes that
sequence; `VisitSubset` on that model has no node twice, passes the consumed nodes strictly
earlier and passes exactly the input-closure; and on every model in dependency order the
iterator over the whole graph yields the sequence of `Visit`. -/
theorem VisitSubset_dependency_order (nodes outputNodes : List Node)
    (h : Acyclic nodes) (hout : ∀ n ∈ outputNodes, n ∈ nodes) :
    (nodeIterator nodes outputNodes).Nodup ∧
    (∀ (earlier : List Node) (n : Node) (later : List Node),
      nodeIterator nodes outputNodes = earlier ++ n :: later →
      ∀ m ∈ nodes, n.dependsOn m = true → m ∈ earlier) ∧
    (outputNodes = [] → ∀ n, n ∈ nodeIterator nodes outputNodes ↔ n ∈ nodes) ∧
    (outputNodes ≠ [] →
      ∀ n, n ∈ nodeIterator nodes outputNodes ↔ InputClosure ⟨nodes⟩ outputNodes n) ∧
    (Model.mk (nodeIterator nodes [])).Ordered ∧
    (Model.mk (nodeIterator nodes [])).Visit = nodeIterator nodes [] ∧
    ((Model.mk (nodeIterator nodes [])).VisitSubset outputNodes).Nodup ∧
    (∀ (earlier : List Node) (n : Node) (later : List Node),
      (Model.mk (nodeIterator nodes [])).VisitSubset outputNodes = earlier ++ n :: later →
      ∀ m ∈ nodes, n.dependsOn m = true → m ∈ earlier) ∧
    (outputNodes ≠ [] →
      ∀ n, n ∈ (Model.mk (nodeIterator nodes [])).VisitSubset outputNodes
        ↔ InputClosure ⟨nodes⟩ outputNodes n) ∧
    (∀ model : Model, model.Ordered → nodeIterator model.nodes [] = model.Visit) := by
  obtain ⟨g, hall, hclosure⟩ := nodeIterator_mem nodes outputNodes h hout
  obtain ⟨gw, hw, _⟩ := nodeIterator_mem nodes [] h (fun _ hn => by cases hn)
  have hself := Acyclic_self nodes h
  have hmem : ∀ n, n ∈ (Model.mk (nodeIterator nodes [])).nodes ↔ n ∈ (Model.mk nodes).nodes :=
    hw rfl
  have hord : (Model.mk (nodeIterator nodes [])).Ordered :=
    ⟨gw.1, fun n hn => hself n (gw.2.1 n hn), gw.2.2.2⟩
  obtain ⟨_, v2, v3, _, _, v6⟩ :=
    VisitSubset_ordered (Model.mk (nodeIterator nodes [])) outputNodes hord
  refine ⟨g.1, VisitedGood_earlier nodes _ hself g, hall, hclosure, hord, rfl, v2, ?_, ?_, ?_⟩
  · intro earlier n later hv m hm hdep
    exact v3 earlier n later hv m ((hmem m).2 hm) hdep
  · intro hne n
    exact ⟨fun hn => InputClosure_congr _ _ outputNodes hmem n ((v6 hne n).1 hn),
      fun hn => (v6 hne n).2
        (InputClosure_congr _ _ outputNodes (fun x => (hmem x).symm) n hn)⟩
  · intro model ho
    exact nodeIterator_ordered model.nodes model.nodes.length [] model.nodes rfl ho

/-- Witness of `VisitSubset_dependency_order`: on the graph `unorderedNodes`, which stores
the consumer `sinkNode` before its producer `sourceNode`, the iterator over the whole graph
yields `sourceNode`, `sinkNode`, `loneNode`; from `sinkNode` it yields `sourceNode` and
`sinkNode`, from `loneNode` that node alone, and from `sinkNode` and `sourceNode` each of
them once. -/
theorem VisitSubset_dependency_order_witness :
    nodeIterator unorderedNodes [] = [sourceNode, sinkNode, loneNode] ∧
    nodeIterator unorderedNodes [sinkNode] = [sourceNode, sinkNode] ∧
    nodeIterator unorderedNodes [loneNode] = [loneNode] ∧
    nodeIterator unorderedNodes [sinkNode, sourceNode] = [sourceNode, sinkNode] ∧
    sinkNode.dependsOn sourceNode = true ∧
    (Model.mk (nodeIterator unorderedNodes [])).VisitSubset [sinkNode]
      = [sourceNode, sinkNode] ∧
    (nodeIterator unorderedNodes [sinkNode]).Nodup ∧
    (∀ (earlier : List Node) (n : Node) (later : List Node),
      nodeIterator unorderedNodes [sinkNode] = earlier ++ n :: later →
      ∀ m ∈ unorderedNodes, n.dependsOn m = true → m ∈ earlier) ∧
    ([sinkNode] ≠ [] → ∀ n, n ∈ nodeIterator unorderedNodes [sinkNode]
      ↔ InputClosure ⟨unorderedNodes⟩ [sinkNode] n) :=
  ⟨by decide, by decide, by decide, by decide, by decide, by decide,
   (VisitSubset_dependency_order unorderedNodes [sinkNode]
      ⟨fun n => n.id, by decide⟩ (by decide)).1,
   (VisitSubset_dependency_order unorderedNodes [sinkNode]
      ⟨fun n => n.id, by decide⟩ (by decide)).2.1,
   (VisitSubset_dependency_order unorderedNodes [sinkNode]
      ⟨fun n => n.id, by decide⟩ (by decide)).2.2.2.1⟩

/-- C27. String escaping round-trips: for every string `s` whose characters all have codes
in 0..126, `JsonUtilities::EncodeString(s)` is defined and `DecodeString` gives `s` back from
it, and likewise `XmlUtilities::EncodeAttributeString` and `DecodeAttributeString`. -/
theorem escaping_roundtrip (s : List Nat) (h : ∀ ch ∈ s, ch ≤ 126) :
    (JsonUtilities.EncodeString s).bind JsonUtilities.DecodeString = some s ∧
      (XmlUtilities.EncodeAttributeString s).bind XmlUtilities.DecodeAttributeString
        = some s := by
  have he := encodeLoop_eq s [] h
  have hd := decodeLoop_escaped s [] h
  rw [List.nil_append] at he hd
  constructor
  · unfold JsonUtilities.EncodeString JsonUtilities.DecodeString
    rw [he]
    exact hd
  · unfold XmlUtilities.EncodeAttributeString XmlUtilities.DecodeAttributeString
    exact (congrArg (fun o => Option.bind o
      (fun e => decodeLoop JsonUtilities.decodeCharCodes e false [])) he).trans hd

/-- Witness of `escaping_roundtrip`: the string made of the letter a, an apostrophe, a
newline, a backslash, the letter n and the character of code 0. -/
theorem escaping_roundtrip_witness :
    (JsonUtilities.EncodeString [97, 39, 10, 92, 110, 0]).bind JsonUtilities.DecodeString
        = some [97, 39, 10, 92, 110, 0] ∧
      (XmlUtilities.EncodeAttributeString [97, 39, 10, 92, 110, 0]).bind
          XmlUtilities.DecodeAttributeString = some [97, 39, 10, 92, 110, 0] :=
  escaping_roundtrip [97, 39, 10, 92, 110, 0] (by decide)

/-- C28. `JsonUtilities::EncodeString` escapes every character that must be escaped: for
every string `s` with character codes in 0..126 the result `e` is defined; it contains no
newline, carriage return, tab, backspace or form feed; at every apostrophe, double quote or
backslash `ch` of `s`, `e` is the encoding of the part of `s` before it, a backslash, `ch`,
and the encoding of the part after it; and the length of `e` is the length of `s` plus the
number of characters of `s` that must be escaped. -/
theorem EncodeString_escapes (s : List Nat) (h : ∀ ch ∈ s, ch ≤ 126) :
    ∃ e, JsonUtilities.EncodeString s = some e ∧
      (∀ x ∈ e, x ≠ 10 ∧ x ≠ 13 ∧ x ≠ 9 ∧ x ≠ 8 ∧ x ≠ 12) ∧
      (∀ (before : List Nat) (ch : Nat) (after : List Nat), s = before ++ ch :: after →
        ch = 39 ∨ ch = 34 ∨ ch = 92 →
        ∃ e1 e2, JsonUtilities.EncodeString before = some e1 ∧
          JsonUtilities.EncodeString after = some e2 ∧ e = e1 ++ 92 :: ch :: e2) ∧
      e.length = s.length + s.countP mustEscape := by
  have he := encodeLoop_eq s [] h
  rw [List.nil_append] at he
  refine ⟨_, he, ?_, ?_, length_flatMap_escapedForm s⟩
  · intro x hx
    obtain ⟨ch, _, hxc⟩ := List.mem_flatMap.1 hx
    exact escapedForm_clean ch x hxc
  · intro before ch after hs hch
    have hb := encodeLoop_eq before [] (fun c hc => h c (by rw [hs]; simp [hc]))
    have ha := encodeLoop_eq after [] (fun c hc => h c (by rw [hs]; simp [hc]))
    rw [List.nil_append] at hb ha
    refine ⟨_, _, hb, ha, ?_⟩
    rw [hs, List.flatMap_append, List.flatMap_cons]
    have hf : escapedForm ch = [92, ch] := by
      rcases hch with h1 | h1 | h1 <;> rw [h1] <;> rfl
    rw [hf]
    rfl

/-- Witness of `EncodeString_escapes`: the string made of the letter a, an apostrophe, a
newline, a backslash and the letter n is encoded in 8 characters. -/
theorem EncodeString_escapes_witness :
    ∃ e, JsonUtilities.EncodeString [97, 39, 10, 92, 110] = some e ∧
      (∀ x ∈ e, x ≠ 10 ∧ x ≠ 13 ∧ x ≠ 9 ∧ x ≠ 8 ∧ x ≠ 12) ∧
      (∀ (before : List Nat) (ch : Nat) (after : List Nat),
        [97, 39, 10, 92, 110] = before ++ ch :: after →
        ch = 39 ∨ ch = 34 ∨ ch = 92 →
        ∃ e1 e2, JsonUtilities.EncodeString before = some e1 ∧
          JsonUtilities.EncodeString after = some e2 ∧ e = e1 ++ 92 :: ch :: e2) ∧
      e.length = [97, 39, 10, 92, 110].length + [97, 39, 10, 92, 110].countP mustEscape :=
  EncodeString_escapes [97, 39, 10, 92, 110] (by decide)

/-- C29. `LinearPredictor::Scale` scales the prediction: over exact arithmetic, for every
predictor with weights `w` and bias `b`, every scalar `s` and every data vector `x`,
`Predict(x)` is `w . x + b`, where `w . x` is the sum of the products of the entries of `w`
and `x` with the same index; `Scale(s)` multiplies every weight and the bias by `s`; and
`Predict(x)` after `Scale(s)` is `s * (w . x + b)`, which is `s` times `Predict(x)` before
it. -/
theorem Scale_scales_prediction {R : Type} [CommRing R] (p : LinearPredictor R) (scalar : R)
    (dataVector : List R) :
    p.Predict dataVector = dotProduct p.w dataVector + p.b ∧
    (p.Scale scalar).Predict dataVector = scalar * (dotProduct p.w dataVector + p.b) ∧
    (p.Scale scalar).Predict dataVector = scalar * p.Predict dataVector ∧
    ((p.Scale scalar).w = p.w.map (fun a => a * scalar) ∧ (p.Scale scalar).b = p.b * scalar) ∧
    ((∀ (a x : R) (w xs : List R), dotProduct (a :: w) (x :: xs) = a * x + dotProduct w xs) ∧
      (∀ xs : List R, dotProduct ([] : List R) xs = 0) ∧
      (∀ w : List R, dotProduct w ([] : List R) = 0)) := by
  have hscaled : (p.Scale scalar).Predict dataVector
      = scalar * (dotProduct p.w dataVector + p.b) := by
    unfold LinearPredictor.Scale LinearPredictor.Predict
    simp only [dotProduct_scale]
    ring
  refine ⟨rfl, hscaled, ?_, ⟨rfl, rfl⟩, fun _ _ _ _ => by rw [dotProduct],
    fun _ => by rw [dotProduct], ?_⟩
  · rw [hscaled]; rfl
  · intro w
    cases w with
    | nil => rw [dotProduct]
    | cons a w => simp [dotProduct]

/-- Witness of `Scale_scales_prediction` over the integers: the predictor with weights 1, 2
and bias 3 predicts 1 * 4 + 2 * 5 + 3 = 17 for the vector 4, 5, and 34 after `Scale(2)`. -/
theorem Scale_scales_prediction_witness :
    (⟨[1, 2], 3⟩ : LinearPredictor ℤ).Predict [4, 5] = 17 ∧
    ((⟨[1, 2], 3⟩ : LinearPredictor ℤ).Scale 2).Predict [4, 5] = 34 ∧
    ((⟨[1, 2], 3⟩ : LinearPredictor ℤ).Scale 2).Predict [4, 5]
      = 2 * (⟨[1, 2], 3⟩ : LinearPredictor ℤ).Predict [4, 5] :=
  ⟨by decide, by decide, (Scale_scales_prediction (⟨[1, 2], 3⟩ : LinearPredictor ℤ) 2 [4, 5]).2.2.1⟩

/-- C30. Per-node dispatch in a refinement pass.  For every pass of `RefineModel` there is a
transformer `t2` at the beginning of the pass, whose model is the snapshot, such that: the
nodes visited are the first nodes of the snapshot in its order, all of them when the pass
completes; every hook call recorded is the call of `InvokeRefine` when
`context.GetNodeAction(node)` is `refine` or `abstain` and the call of `Copy` otherwise, made
in the state left by the calls before it, with `didRefineNode` false for a copy; and
`didRefineAny` is true exactly when an invoked `Refine` hook returned true.  When the initial
copy returns a model, the snapshot of the first pass is that model and the snapshot of every
further pass is made of the nodes added by the pass before it; and when moreover
`maxIterations` is positive, at least one pass is made. -/
theorem refinement_pass_dispatch (t : ModelTransformer) (classes : NodeClasses)
    (oldModel : Model) (context : TransformContext) (maxIterations : Int) :
    (∀ p ∈ (t.RefineModel classes oldModel context maxIterations).passes,
      ∃ t2 : ModelTransformer,
        (p.visits.map NodeVisit.node) <+: t2.model.Visit ∧
        (p.outcome = .ok () → p.visits.map NodeVisit.node = t2.model.Visit) ∧
        (∀ (before : List NodeVisit) (v : NodeVisit) (after : List NodeVisit),
          p.visits = before ++ v :: after →
          RefineDispatch classes context
            (refineVisit classes context (before.map NodeVisit.node) t2.passStart
              false).transformer v) ∧
        (p.didRefineAny = true ↔
          ∃ v ∈ p.visits, v.refineInvoked = true ∧ v.didRefineNode = true)) ∧
    (∀ model, ((t.beforeCopy context).CopyModel classes oldModel [] context).result = .ok model →
      PassesVisit model.nodes (t.RefineModel classes oldModel context maxIterations).passes ∧
      (1 ≤ maxIterations →
        1 ≤ (t.RefineModel classes oldModel context maxIterations).passes.length)) := by
  constructor
  · intro p hp
    have hrec : ∃ t2 : ModelTransformer, p = (refinementPass classes context t2).2.2 := by
      by_cases hmax : 1 ≤ maxIterations
      · cases hc : ((t.beforeCopy context).CopyModel classes oldModel [] context).result with
        | error e =>
          rw [(RefineModel_copy_error t classes oldModel context maxIterations hmax e hc).2] at hp
          cases hp
        | ok model =>
          rw [(RefineModel_copy_ok t classes oldModel context maxIterations hmax model hc).1]
            at hp
          exact refineLoop_records classes context _ _ p hp
      · rw [RefineModel_nonpositive_passes t classes oldModel context maxIterations
          (by omega)] at hp
        cases hp
    obtain ⟨t2, rfl⟩ := hrec
    obtain ⟨v1, v2, v3⟩ := refinementPass_visits classes context t2
    obtain ⟨d1, d2, d3⟩ := refineVisit_dispatch classes context t2.model.Visit t2.passStart false
    refine ⟨t2, by rw [v1]; exact d1, (fun h => by rw [v1]; exact d2 (v3 h)), ?_, ?_⟩
    · intro before v after h
      rw [v1] at h
      exact d3 before v after h
    · have hf := (refinementPass_facts classes context t2).2.2.2.2.2.2.1
      rw [hf]
      simp only [List.any_eq_true, Bool.and_eq_true]
  · intro model hc
    by_cases hmax : 1 ≤ maxIterations
    · rw [(RefineModel_copy_ok t classes oldModel context maxIterations hmax model hc).1]
      exact ⟨refineLoop_PassesVisit classes context maxIterations.toNat
        (t.afterCopy classes oldModel context model),
        fun _ => (refineLoop_length classes context maxIterations.toNat
          (t.afterCopy classes oldModel context model)).2 (by omega)⟩
    · rw [RefineModel_nonpositive_passes t classes oldModel context maxIterations (by omega)]
      exact ⟨trivial, fun h => absurd h hmax⟩

/-- Witness of `refinement_pass_dispatch`: the refinement of `twoNodeModel` with
`silentClasses`.  Under the default context every node is refined: the first of the three
passes calls `InvokeRefine` on both copies, the second call returns true, and `didRefineAny`
is true.  Under `layeredContext` the only pass calls `InvokeRefine` on the copy of kind 0 and
`Copy` on the copy of kind 1, and `didRefineAny` is false. -/
theorem refinement_pass_dispatch_witness :
    (freshTransformer.RefineModel silentClasses twoNodeModel TransformContext.default
        3).passes.map (fun p => (p.didRefineAny,
          p.visits.map fun v => (v.node.id, v.node.kind, v.refineInvoked, v.didRefineNode)))
      = [(true, [(1001, 0, true, false), (1002, 1, true, true)]),
         (true, [(2001, 1, true, true), (2002, 2, true, false)]),
         (false, [(3001, 2, true, false), (3002, 2, true, false)])] ∧
    (freshTransformer.RefineModel silentClasses twoNodeModel layeredContext
        3).passes.map (fun p => (p.didRefineAny,
          p.visits.map fun v => (v.node.id, v.node.kind, v.refineInvoked, v.didRefineNode)))
      = [(false, [(1001, 0, true, false), (1002, 1, false, false)])] ∧
    (layeredContext.GetNodeAction silentClasses.IsCompilable
        ⟨1002, 1, [⟨[⟨⟨1001, 2⟩, 1, 1⟩, ⟨⟨1001, 2⟩, 0, 1⟩]⟩], [⟨1002, 2⟩], [("name", "sink")]⟩
      = NodeAction.compile) ∧
    1 ≤ (freshTransformer.RefineModel silentClasses twoNodeModel TransformContext.default
        3).passes.length :=
  ⟨by decide, by decide, by decide,
   ((refinement_pass_dispatch freshTransformer silentClasses twoNodeModel
      TransformContext.default 3).2 copiedTwoNodeModel (by decide)).2 (by decide)⟩

/-- C31. `FindUncompilableNodes(model, context)` returns exactly the nodes `n` that the
iterator of `model` yields for which `n.IsCompilable(compiler)` is false for the compiler
handle of `context`, in the order of the iterator and as often as the iterator yields them
(once when it yields no node twice); the result does not depend on the action functions of
`context` or on the transformer, and it is empty if and only if every node of the model
reports itself compilable. -/
theorem FindUncompilableNodes_exact (t : ModelTransformer)
    (IsCompilable : Node → Option Nat → Bool) (model : Model) (context : TransformContext) :
    t.FindUncompilableNodes IsCompilable model context
      = model.Visit.filter (fun n => !IsCompilable n context.compiler) ∧
    (∀ n, n ∈ t.FindUncompilableNodes IsCompilable model context ↔
      n ∈ model.Visit ∧ IsCompilable n context.compiler = false) ∧
    (t.FindUncompilableNodes IsCompilable model context).Sublist model.Visit ∧
    (model.Visit.Nodup → (t.FindUncompilableNodes IsCompilable model context).Nodup) ∧
    (∀ (functions : List (Node → NodeAction)) (t2 : ModelTransformer),
      t2.FindUncompilableNodes IsCompilable model ⟨context.compiler, functions⟩
        = t.FindUncompilableNodes IsCompilable model context) ∧
    (t.FindUncompilableNodes IsCompilable model context = [] ↔
      ∀ n ∈ model.Visit, IsCompilable n context.compiler = true) := by
  have heq : ∀ (t2 : ModelTransformer) (c : TransformContext),
      t2.FindUncompilableNodes IsCompilable model c
        = model.Visit.filter (fun n => !IsCompilable n c.compiler) := by
    intro t2 c
    unfold ModelTransformer.FindUncompilableNodes
    rw [uncompilableLoop_eq, List.nil_append]
  rw [heq t context]
  refine ⟨rfl, ?_, List.filter_sublist _, fun h => h.sublist (List.filter_sublist _), ?_, ?_⟩
  · intro n
    simp [List.mem_filter]
  · intro functions t2
    rw [heq]
  · simp [List.filter_eq_nil_iff]

/-- C32. `GetNodeAction` never abstains: for every context, with any action functions and
any compiler handle, and every node, `GetNodeAction(node)` is not `NodeAction::abstain`; the
condition `action == refine || action == abstain` of the refinement pass holds exactly when
the action is `refine`, and a recorded call is a call of `InvokeRefine` exactly in that
case. -/
theorem GetNodeAction_never_abstains (context : TransformContext)
    (IsCompilable : Node → Option Nat → Bool) (node : Node) :
    context.GetNodeAction IsCompilable node ≠ NodeAction.abstain ∧
    ((context.GetNodeAction IsCompilable node = NodeAction.refine ∨
        context.GetNodeAction IsCompilable node = NodeAction.abstain) ↔
      context.GetNodeAction IsCompilable node = NodeAction.refine) ∧
    (∀ (classes : NodeClasses) (t : ModelTransformer) (v : NodeVisit),
      RefineDispatch classes context t v →
      (v.refineInvoked = true ↔
        context.GetNodeAction classes.IsCompilable v.node = NodeAction.refine)) := by
  refine ⟨GetNodeAction_ne_abstain context IsCompilable node, ?_, ?_⟩
  · constructor
    · rintro (h | h)
      · exact h
      · exact absurd h (GetNodeAction_ne_abstain context IsCompilable node)
    · exact Or.inl
  · intro classes t v hd
    rw [hd.1]
    constructor
    · rintro (h | h)
      · exact h
      · exact absurd h (GetNodeAction_ne_abstain context classes.IsCompilable v.node)
    · exact Or.inl

/-- C33. Stored context during refinement: the default context has no compiler handle and no
action function; once the initial `CopyModel` of `RefineModel` has returned, the stored
context of the transformer is the default context, and it is so at the beginning of every
refinement pass and at every hook call of the pass; the hook called on a node is chosen by
`GetNodeAction` of the context passed by the caller, while the compilability recorded for
every node added, and with it `_isModelCompilable`, is judged without compiler handle; and
the stored context is the default context when `RefineModel` returns. -/
theorem RefineModel_stored_context (t : ModelTransformer) (classes : NodeClasses)
    (oldModel : Model) (context : TransformContext) (maxIterations : Int) :
    TransformContext.default = ⟨none, []⟩ ∧
    (∀ model, ((t.beforeCopy context).CopyModel classes oldModel [] context).result
        = .ok model →
      (t.afterCopy classes oldModel context model).context = TransformContext.default) ∧
    (∀ p ∈ (t.RefineModel classes oldModel context maxIterations).passes,
      ∃ t2 : ModelTransformer, t2.context = TransformContext.default ∧
        p.visits = (refineVisit classes context t2.model.Visit t2.passStart false).visits ∧
        (∀ (before : List NodeVisit) (v : NodeVisit) (after : List NodeVisit),
          p.visits = before ++ v :: after →
          (refineVisit classes context (before.map NodeVisit.node) t2.passStart
            false).transformer.context = TransformContext.default ∧
          RefineDispatch classes context
            (refineVisit classes context (before.map NodeVisit.node) t2.passStart
              false).transformer v) ∧
        (∀ v ∈ p.visits, ∀ a ∈ v.added, a.2 = classes.IsCompilable a.1 none) ∧
        p.isModelCompilable = (p.visits.all fun v => v.added.all fun a => a.2)) ∧
    (∀ m, (t.RefineModel classes oldModel context maxIterations).result = .ok m →
      (t.RefineModel classes oldModel context maxIterations).transformer.context
        = TransformContext.default) := by
  have hafter : ∀ model,
      ((t.beforeCopy context).CopyModel classes oldModel [] context).result = .ok model →
      (t.afterCopy classes oldModel context model).context = TransformContext.default := by
    intro model hc
    exact CopyModel_ok_context (t.beforeCopy context) classes oldModel [] context model hc
  refine ⟨rfl, hafter, ?_, ?_⟩
  · intro p hp
    have hrec : ∃ t2 : ModelTransformer, t2.context = TransformContext.default ∧
        p = (refinementPass classes context t2).2.2 := by
      by_cases hmax : 1 ≤ maxIterations
      · cases hc : ((t.beforeCopy context).CopyModel classes oldModel [] context).result with
        | error e =>
          rw [(RefineModel_copy_error t classes oldModel context maxIterations hmax e hc).2] at hp
          cases hp
        | ok model =>
          rw [(RefineModel_copy_ok t classes oldModel context maxIterations hmax model hc).1]
            at hp
          obtain ⟨t2, h1, h2⟩ := refineLoop_records_context classes context _ _ p hp
          exact ⟨t2, h1.trans (hafter model hc), h2⟩
      · rw [RefineModel_nonpositive_passes t classes oldModel context maxIterations
          (by omega)] at hp
        cases hp
    obtain ⟨t2, hctx, rfl⟩ := hrec
    obtain ⟨v1, _, _⟩ := refinementPass_visits classes context t2
    obtain ⟨_, _, d3⟩ := refineVisit_dispatch classes context t2.model.Visit t2.passStart false
    have hf := refinementPass_facts classes context t2
    refine ⟨t2, hctx, v1, ?_, ?_, hf.2.2.2.2.2.1⟩
    · intro before v after h
      rw [v1] at h
      refine ⟨?_, d3 before v after h⟩
      rw [(refineVisit_facts classes context _ t2.passStart false).1]
      exact hctx
    · have h8 := hf.2.2.2.2.2.2.2.1
      rw [hctx] at h8
      exact h8
  · exact RefineModel_ok_context t classes oldModel context maxIterations

/-- C34. `CopyModel` requires every visited node to map its first output.  When the first
visit of `CopyModel` has completed, the map of the transformer after the call is the map left
by that visit, and: if some visited node with at least one output port has no entry for its
first output port in that map, `CopyModel` raises; the error is invalid-argument (unmapped
port) when the node is the first whose lookup fails, that is when the lookup succeeds for
every node with an output port visited before it; and when the lookup succeeds for every
visited node with an output port, `CopyModel` returns a model, whatever the number of
visited nodes without output port. -/
theorem CopyModel_unmapped_output (t : ModelTransformer) (classes : NodeClasses)
    (oldModel : Model) (outputNodes : List Node) (context : TransformContext)
    (hcopy : (copyVisit classes (oldModel.VisitSubset outputNodes)
      (t.copyStart context)).outcome = .ok ()) :
    (t.CopyModel classes oldModel outputNodes context).transformer.elementsMap
      = (copyVisit classes (oldModel.VisitSubset outputNodes)
          (t.copyStart context)).transformer.elementsMap ∧
    ((∃ n ∈ oldModel.VisitSubset outputNodes, ∃ p ps, n.outputs = p :: ps ∧
        (t.CopyModel classes oldModel outputNodes context).transformer.elementsMap.find p
          = none) →
      ∃ e, (t.CopyModel classes oldModel outputNodes context).result = .error e) ∧
    (∀ (earlier : List Node) (n : Node) (later : List Node) (p : OutputPortBase)
      (ps : List OutputPortBase),
      oldModel.VisitSubset outputNodes = earlier ++ n :: later → n.outputs = p :: ps →
      (t.CopyModel classes oldModel outputNodes context).transformer.elementsMap.find p
        = none →
      (∀ m ∈ earlier, ∀ q qs, m.outputs = q :: qs →
        ∃ x, (t.CopyModel classes oldModel outputNodes
          context).transformer.elementsMap.GetCorrespondingPortElements
            (PortElementsBase.ofPort q) = .ok x) →
      (t.CopyModel classes oldModel outputNodes context).result = .error .invalidArgument) ∧
    ((∀ n ∈ oldModel.VisitSubset outputNodes, ∀ p ps, n.outputs = p :: ps →
        ∃ x, (t.CopyModel classes oldModel outputNodes
          context).transformer.elementsMap.GetCorrespondingPortElements
            (PortElementsBase.ofPort p) = .ok x) →
      ∃ m, (t.CopyModel classes oldModel outputNodes context).result = .ok m) := by
  have hmap := CopyModel_elementsMap t classes oldModel outputNodes context
  have hunmapped : ∀ (M : PortOutputsMap) (p : OutputPortBase), M.find p = none →
      M.GetCorrespondingPortElements (PortElementsBase.ofPort p) = .error .invalidArgument := by
    intro M p hp
    have hq := queryRangesLoop_unmapped M (PortElementsBase.ofPort p).GetRanges ⟨[]⟩
      ⟨⟨p, 0, p.Size⟩, List.mem_singleton.2 rfl, hp⟩
    unfold PortOutputsMap.GetCorrespondingPortElements
    rw [hq]
  rw [hmap]
  refine ⟨rfl, ?_, ?_, ?_⟩
  · rintro ⟨n, hn, p, ps, hp, hfind⟩
    obtain ⟨e, he⟩ := metadataVisit_raises (oldModel.VisitSubset outputNodes)
      { (copyVisit classes (oldModel.VisitSubset outputNodes)
          (t.copyStart context)).transformer with context := TransformContext.default }
      ⟨n, hn, p, ps, hp, .invalidArgument, hunmapped _ p hfind⟩
    exact ⟨e, CopyModel_metadata_error t classes oldModel outputNodes context e hcopy he⟩
  · intro earlier n later p ps hV hp hfind hearlier
    apply CopyModel_metadata_error t classes oldModel outputNodes context _ hcopy
    have hfirst := metadataVisit_first_error earlier n later p ps hp .invalidArgument
      { (copyVisit classes (oldModel.VisitSubset outputNodes)
          (t.copyStart context)).transformer with context := TransformContext.default }
      (hunmapped _ p hfind) hearlier
    rw [← hV] at hfirst
    exact hfirst
  · intro hall
    have hok := metadataPass_ok (oldModel.VisitSubset outputNodes)
      { (copyVisit classes (oldModel.VisitSubset outputNodes)
          (t.copyStart context)).transformer with context := TransformContext.default } hall
    exact ⟨_, (CopyModel_intro t classes oldModel outputNodes context hcopy hok).1⟩

/-- Witness of `CopyModel_unmapped_output`: with `idleClasses`, whose `Copy` registers no
output, the first visit of the copy of `twoNodeModel` completes and `CopyModel` raises
invalid-argument at `sourceNode`, the first node visited. -/
theorem CopyModel_unmapped_output_witness :
    (copyVisit idleClasses (twoNodeModel.VisitSubset [])
      (freshTransformer.copyStart TransformContext.default)).outcome = .ok () ∧
    (freshTransformer.CopyModel idleClasses twoNodeModel []
      TransformContext.default).result = .error .invalidArgument :=
  ⟨by decide,
   (CopyModel_unmapped_output freshTransformer idleClasses twoNodeModel []
      TransformContext.default (by decide)).2.2.1 [] sourceNode [sinkNode] ⟨1, 2⟩ [] rfl rfl
      (by decide) (fun m hm => by cases hm)⟩

/-- Counterexample to C34 as stated: with `selectiveClasses` the first visit of the copy of
`wideFirstModel` completes and leaves no entry for the output port of the second node, and
`CopyModel` raises size-mismatch, the error of the lookup for the port of 2^31 + 1 elements of
the first node, not invalid-argument. -/
theorem wide_port_error_comes_first :
    (copyVisit selectiveClasses (wideFirstModel.VisitSubset [])
      (freshTransformer.copyStart TransformContext.default)).outcome = .ok () ∧
    (wideFirstModel.VisitSubset []).map Node.outputs = [[⟨1, 2147483649⟩], [⟨2, 2⟩]] ∧
    (freshTransformer.CopyModel selectiveClasses wideFirstModel []
      TransformContext.default).transformer.elementsMap.find ⟨2, 2⟩ = none ∧
    (freshTransformer.CopyModel selectiveClasses wideFirstModel []
      TransformContext.default).result = .error .sizeMismatch := by
  decide

/-- C35. Escape-table bounds: the access `charCodes[ch]` to the 127-entry table of
`JsonUtilities::EncodeString` and `DecodeString` and of `XmlUtilities::EncodeAttributeString`
and `DecodeAttributeString` is inside the table exactly for the characters with codes 0 to
126; on a string made of such characters each of the four functions has a result; and the
two encoders, which look every character up, have a result on such strings only. -/
theorem escape_table_bounds :
    (∀ ch, ((JsonUtilities.encodeCharCodes[ch]?).isSome = true ↔ ch ≤ 126) ∧
      ((JsonUtilities.decodeCharCodes[ch]?).isSome = true ↔ ch ≤ 126) ∧
      ((XmlUtilities.encodeCharCodes[ch]?).isSome = true ↔ ch ≤ 126) ∧
      ((XmlUtilities.decodeCharCodes[ch]?).isSome = true ↔ ch ≤ 126)) ∧
    (∀ s : List Nat, (∀ ch ∈ s, ch ≤ 126) →
      (JsonUtilities.EncodeString s).isSome = true ∧
      (JsonUtilities.DecodeString s).isSome = true ∧
      (XmlUtilities.EncodeAttributeString s).isSome = true ∧
      (XmlUtilities.DecodeAttributeString s).isSome = true) ∧
    (∀ s : List Nat,
      ((JsonUtilities.EncodeString s).isSome = true ↔ ∀ ch ∈ s, ch ≤ 126) ∧
      ((XmlUtilities.EncodeAttributeString s).isSome = true ↔ ∀ ch ∈ s, ch ≤ 126)) := by
  have l1 : JsonUtilities.encodeCharCodes.length = 127 := rfl
  have l2 : JsonUtilities.decodeCharCodes.length = 127 := rfl
  have l3 : XmlUtilities.encodeCharCodes.length = 127 := rfl
  have l4 : XmlUtilities.decodeCharCodes.length = 127 := rfl
  refine ⟨fun ch => ⟨lookup_isSome_iff _ l1 ch, lookup_isSome_iff _ l2 ch,
    lookup_isSome_iff _ l3 ch, lookup_isSome_iff _ l4 ch⟩, ?_, ?_⟩
  · intro s h
    exact ⟨(encodeLoop_isSome_iff _ l1 s []).2 h, decodeLoop_isSome _ l2 s false [] h,
      (encodeLoop_isSome_iff _ l3 s []).2 h, decodeLoop_isSome _ l4 s false [] h⟩
  · intro s
    exact ⟨encodeLoop_isSome_iff _ l1 s [], encodeLoop_isSome_iff _ l3 s []⟩

/-- C36. XML type-name encoding: for every string `s`, `XmlUtilities::EncodeTypeName(s)` has
the length of `s` and contains no `<` and no `>`, and
`DecodeTypeName(EncodeTypeName(s))` is `s` if and only if `s` contains no `(` and no `)`. -/
theorem TypeName_encoding (s : List Nat) :
    (XmlUtilities.EncodeTypeName s).length = s.length ∧
    60 ∉ XmlUtilities.EncodeTypeName s ∧ 62 ∉ XmlUtilities.EncodeTypeName s ∧
    (XmlUtilities.DecodeTypeName (XmlUtilities.EncodeTypeName s) = s ↔ 40 ∉ s ∧ 41 ∉ s) := by
  rw [DecodeTypeName_eq_map, EncodeTypeName_eq_map]
  refine ⟨by simp, ?_, ?_, ?_⟩
  · simp only [List.mem_map, not_exists, not_and]
    intro ch _
    by_cases h1 : ch = 60
    · simp [h1]
    · by_cases h2 : ch = 62
      · simp [h2]
      · simp [h1, h2]
  · simp only [List.mem_map, not_exists, not_and]
    intro ch _
    by_cases h1 : ch = 60
    · simp [h1]
    · by_cases h2 : ch = 62
      · simp [h2]
      · simp [h1, h2]
  · rw [List.map_map, map_eq_self_iff]
    constructor
    · intro h
      refine ⟨fun h40 => ?_, fun h41 => ?_⟩
      · have := h 40 h40
        simp at this
      · have := h 41 h41
        simp at this
    · rintro ⟨h40, h41⟩ ch hch
      have n40 : ch ≠ 40 := fun h => h40 (h ▸ hch)
      have n41 : ch ≠ 41 := fun h => h41 (h ▸ hch)
      simp only [Function.comp]
      by_cases h1 : ch = 60
      · simp [h1]
      · by_cases h2 : ch = 62
        · simp [h2]
        · simp [h1, h2, n40, n41]

/-- C37. `IntegerStack` hands out distinct integers while its counter does not wrap:
starting from a fresh `IntegerStack`, in every sequence of `Pop` and `Push` calls with fewer
than 2^64 calls of `Pop` in which each `Push(v)` returns a value that is outstanding, at
every call of the sequence the outstanding values are pairwise distinct and every stacked
value is strictly below the smallest unpopped value; a `Pop` returns a value that is not
outstanding, and the assertion of a `Push` holds, so that the `Push` returns with the value on
the stack; the same invariants hold after the last call. -/
theorem IntegerStack_distinct (calls : List StackCall)
    (hadm : Admissible calls (IntegerStack.fresh, []) = true)
    (hpops : calls.countP StackCall.isPop < 2 ^ 64) :
    (∀ (before : List StackCall) (call : StackCall) (after : List StackCall),
      calls = before ++ call :: after →
      (runCalls before (IntegerStack.fresh, [])).2.Nodup ∧
      (∀ x ∈ (runCalls before (IntegerStack.fresh, [])).1.stack,
        x < (runCalls before (IntegerStack.fresh, [])).1.smallestUnpopped) ∧
      (call = StackCall.pop →
        (runCalls before (IntegerStack.fresh, [])).1.Pop.1
          ∉ (runCalls before (IntegerStack.fresh, [])).2) ∧
      (∀ value, call = StackCall.push value →
        value ∈ (runCalls before (IntegerStack.fresh, [])).2 ∧
        (runCalls before (IntegerStack.fresh, [])).1.PushAssertion value = true ∧
        (runCalls before (IntegerStack.fresh, [])).1.Push value
          = some ((StackCall.push value).step (runCalls before (IntegerStack.fresh, []))).1)) ∧
    (runCalls calls (IntegerStack.fresh, [])).2.Nodup ∧
    (∀ x ∈ (runCalls calls (IntegerStack.fresh, [])).1.stack,
      x < (runCalls calls (IntegerStack.fresh, [])).1.smallestUnpopped) := by
  have hall := runCalls_invariant calls (IntegerStack.fresh, []) 0 fresh_invariant hadm
    (by omega)
  refine ⟨?_, (List.nodup_append.1 hall.1).2.1,
    fun x hx => hall.2.1 x (List.mem_append_left _ hx)⟩
  clear hall
  intro before call after hsplit
  subst hsplit
  rw [Admissible_append, Bool.and_eq_true] at hadm
  obtain ⟨hb, hrest⟩ := hadm
  have hcount : before.countP StackCall.isPop
      ≤ (before ++ call :: after).countP StackCall.isPop := by
    rw [List.countP_append]; omega
  have hinv := runCalls_invariant before (IntegerStack.fresh, []) 0 fresh_invariant hb
    (by omega)
  refine ⟨(List.nodup_append.1 hinv.1).2.1,
    fun x hx => hinv.2.1 x (List.mem_append_left _ hx),
    fun _ => Pop_not_outstanding _ _ hinv, ?_⟩
  intro value hcall
  subst hcall
  rw [Admissible, Bool.and_eq_true, decide_eq_true_eq] at hrest
  exact ⟨hrest.1, PushAssertion_of_outstanding _ _ hinv value hrest.1,
    Push_of_assertion _ value (PushAssertion_of_outstanding _ _ hinv value hrest.1)⟩

/-- Witness of `IntegerStack_distinct`: after `Pop`, `Pop`, `Push(0)`, `Pop` the values 0
and 1 are outstanding, and the next `Pop` returns 2. -/
theorem IntegerStack_distinct_witness :
    Admissible [StackCall.pop, StackCall.pop, StackCall.push 0, StackCall.pop, StackCall.pop]
      (IntegerStack.fresh, []) = true ∧
    (runCalls [StackCall.pop, StackCall.pop, StackCall.push 0, StackCall.pop]
      (IntegerStack.fresh, [])).2 = [0, 1] ∧
    (runCalls [StackCall.pop, StackCall.pop, StackCall.push 0, StackCall.pop]
      (IntegerStack.fresh, [])).1.Pop.1 = 2 ∧
    (runCalls [StackCall.pop, StackCall.pop, StackCall.push 0, StackCall.pop]
        (IntegerStack.fresh, [])).1.Pop.1
      ∉ (runCalls [StackCall.pop, StackCall.pop, StackCall.push 0, StackCall.pop]
        (IntegerStack.fresh, [])).2 :=
  ⟨by decide, by decide, by decide,
   ((IntegerStack_distinct
      [StackCall.pop, StackCall.pop, StackCall.push 0, StackCall.pop, StackCall.pop]
      (by decide) (by decide)).1
      [StackCall.pop, StackCall.pop, StackCall.push 0, StackCall.pop] StackCall.pop [] rfl).2.2.1
      rfl⟩

/-- Counterexample to C37 as stated: after 2^64 calls of `Pop` on a fresh `IntegerStack`
the smallest unpopped value has wrapped to 0, and one more `Pop`, in a sequence without any
`Push`, returns 0, the value returned by the first `Pop`, which is outstanding. -/
theorem wrapped_Pop_repeats :
    Admissible (List.replicate (2 ^ 64) StackCall.pop ++ [StackCall.pop])
      (IntegerStack.fresh, []) = true ∧
    (runCalls (List.replicate (2 ^ 64) StackCall.pop) (IntegerStack.fresh, [])).1.Pop.1 = 0 ∧
    (runCalls (List.replicate (2 ^ 64) StackCall.pop) (IntegerStack.fresh, [])).1.Pop.1
      ∈ (runCalls (List.replicate (2 ^ 64) StackCall.pop) (IntegerStack.fresh, [])).2 := by
  obtain ⟨h1, h2⟩ := runCalls_pops (2 ^ 64) 0 [] (by norm_num) (by norm_num)
  have hpop : (runCalls (List.replicate (2 ^ 64) StackCall.pop)
      (IntegerStack.fresh, [])).1.Pop.1 = 0 := by
    unfold IntegerStack.fresh
    rw [h1]
    simp [IntegerStack.Pop]
  refine ⟨?_, hpop, ?_⟩
  · exact Admissible_pops _ _
  · rw [hpop]
    exact h2 0 (Or.inr ⟨le_refl _, by norm_num⟩)

/-- C38. `IntegerStack` `Top`/`Pop` agreement: in every state `Top()` returns the value that
the next `Pop()` returns; for every value `v` below the smallest unpopped value, the condition
that `Push` asserts, `Push(v)` returns, and the `Pop()` that follows returns `v` and gives
back the state before the `Push`; for every other value `Push(v)` aborts. -/
theorem Top_Pop_agreement (s : IntegerStack) (value : Nat) :
    s.Top = s.Pop.1 ∧
    (s.PushAssertion value = true ↔ value < s.smallestUnpopped) ∧
    (value < s.smallestUnpopped →
      (s.Push value).map IntegerStack.Pop = some (value, s)) ∧
    (¬ value < s.smallestUnpopped → s.Push value = none) := by
  have hiff : s.PushAssertion value = true ↔ value < s.smallestUnpopped := by
    unfold IntegerStack.PushAssertion
    exact decide_eq_true_iff
  refine ⟨?_, hiff, ?_, ?_⟩
  · unfold IntegerStack.Top IntegerStack.Pop
    cases s.stack <;> rfl
  · intro h
    rw [Push_of_assertion s value (hiff.2 h)]
    rfl
  · intro h
    apply Push_of_not_assertion
    cases hb : s.PushAssertion value with
    | false => rfl
    | true => exact absurd (hiff.1 hb) h

/-- Witness of `Top_Pop_agreement`: on the stack left by three calls of `Pop`, `Push(1)`
followed by `Pop()` returns 1 and gives that stack back. -/
theorem Top_Pop_agreement_witness :
    ((⟨[], 3⟩ : IntegerStack).Push 1).map IntegerStack.Pop = some (1, ⟨[], 3⟩) :=
  (Top_Pop_agreement ⟨[], 3⟩ 1).2.2.1 (by decide)

/-- Counterexample to C38 as stated: on a fresh `IntegerStack`, `Push(5)` fails its
assertion, 5 not being below the smallest unpopped value 0: the call aborts and no `Pop()`
follows it. -/
theorem Push_on_fresh_aborts :
    IntegerStack.fresh.PushAssertion 5 = false ∧
    IntegerStack.fresh.Push 5 = none ∧
    (IntegerStack.fresh.Push 5).map IntegerStack.Pop ≠ some (5, IntegerStack.fresh) := by
  decide

/-- C39. `SparseDataVector` count of stored entries: `PushBack(index, value)` with
`value == 0` leaves the vector unchanged; after any sequence of `PushBack` calls since
construction or the last `Reset`, `NumNonzeros()` is the number of stored entries, which is
the number of calls with a value other than zero; and for the value type `double`, whose
conversion is the identity, every stored value is non-zero, so that `NumNonzeros()` is the
number of stored entries whose stored value is non-zero. -/
theorem SparseDataVector_nonzeros {Double ValueType : Type} [Zero Double]
    [DecidableEq Double] (convert : Double → ValueType) (v : SparseDataVector ValueType)
    (index : Nat) (calls : List (Nat × Double)) :
    v.PushBack convert index 0 = v ∧
    v.Reset.pushAll convert calls = SparseDataVector.empty.pushAll convert calls ∧
    (SparseDataVector.empty.pushAll convert calls).NumNonzeros
      = (SparseDataVector.empty.pushAll convert calls).values.length ∧
    (SparseDataVector.empty.pushAll convert calls).NumNonzeros
      = calls.countP (fun call => decide (call.2 ≠ 0)) ∧
    (∀ x ∈ (SparseDataVector.empty.pushAll (fun value : Double => value) calls).values,
      x ≠ 0) ∧
    (SparseDataVector.empty.pushAll (fun value : Double => value) calls).NumNonzeros
      = ((SparseDataVector.empty.pushAll (fun value : Double => value) calls).values.filter
          fun x => decide (x ≠ 0)).length := by
  refine ⟨by simp [SparseDataVector.PushBack], rfl, ?_, ?_, ?_, ?_⟩
  · rw [pushAll_eq]
    simp [SparseDataVector.NumNonzeros, SparseDataVector.empty]
  · rw [pushAll_eq]
    simp [SparseDataVector.NumNonzeros, SparseDataVector.empty, List.countP_eq_length_filter]
  · rw [pushAll_eq]
    simp only [SparseDataVector.empty, List.nil_append, List.mem_map, List.mem_filter,
      decide_eq_true_eq]
    rintro x ⟨call, ⟨_, hne⟩, rfl⟩
    exact hne
  · rw [pushAll_eq]
    simp only [SparseDataVector.NumNonzeros, SparseDataVector.empty, List.nil_append,
      List.length_map]
    rw [List.filter_map, List.length_map]
    congr 1
    rw [List.filter_filter]
    apply List.filter_congr
    intro call _
    simp

/-- Counterexample to C39 as stated: on a vector of `short` the call `PushBack(3, 0.5)`, with
a value other than zero, stores the value `(short)0.5`, which is 0: `NumNonzeros()` is 1 and
no stored value is non-zero. -/
theorem short_vector_stores_zero :
    ((1 / 2 : ℚ) ≠ 0) ∧
    ((SparseDataVector.empty : SparseDataVector ℤ).PushBack convertToShort 3
      (1 / 2 : ℚ)).values = [0] ∧
    ((SparseDataVector.empty : SparseDataVector ℤ).PushBack convertToShort 3
      (1 / 2 : ℚ)).NumNonzeros = 1 ∧
    (((SparseDataVector.empty : SparseDataVector ℤ).PushBack convertToShort 3
      (1 / 2 : ℚ)).values.filter fun x => decide (x ≠ 0)).length = 0 := by
  have hne : (1 / 2 : ℚ) ≠ 0 := by norm_num
  have hfloor : convertToShort (1 / 2) = 0 := by
    unfold convertToShort
    rw [if_pos (by norm_num)]
    rw [Int.floor_eq_iff]
    norm_num
  refine ⟨hne, ?_, ?_, ?_⟩
  · simp only [SparseDataVector.PushBack, if_neg hne, SparseDataVector.empty, List.nil_append,
      hfloor]
  · simp only [SparseDataVector.PushBack, if_neg hne, SparseDataVector.empty, List.nil_append,
      SparseDataVector.NumNonzeros, List.length_singleton]
  · simp only [SparseDataVector.PushBack, if_neg hne, SparseDataVector.empty, List.nil_append,
      hfloor]
    rfl

/-- C40. `SquaredLoss` over the real numbers: `Evaluate(p, l)` is `(p - l)^2 / 2`, it is
non-negative, and it is zero if and only if `p = l`; `GetDerivative(p, l)` is `p - l`, the
derivative of `Evaluate(p, l)` with respect to the prediction `p`. -/
theorem SquaredLoss_properties (prediction label : ℝ) :
    SquaredLoss.Evaluate prediction label = (prediction - label) ^ 2 / 2 ∧
    0 ≤ SquaredLoss.Evaluate prediction label ∧
    (SquaredLoss.Evaluate prediction label = 0 ↔ prediction = label) ∧
    SquaredLoss.GetDerivative prediction label = prediction - label ∧
    HasDerivAt (fun p => SquaredLoss.Evaluate p label)
      (SquaredLoss.GetDerivative prediction label) prediction := by
  have heval : ∀ p : ℝ, SquaredLoss.Evaluate p label = (p - label) ^ 2 / 2 := by
    intro p
    unfold SquaredLoss.Evaluate
    ring
  refine ⟨heval prediction, ?_, ?_, rfl, ?_⟩
  · rw [heval]
    positivity
  · rw [heval]
    constructor
    · intro h
      have h2 : (prediction - label) ^ 2 = 0 := by linarith
      have h3 : prediction - label = 0 := pow_eq_zero_iff (by norm_num) |>.1 h2
      linarith
    · intro h
      rw [h]
      simp
  · have hfun : (fun p => SquaredLoss.Evaluate p label) = fun p => (p - label) ^ 2 / 2 :=
      funext heval
    rw [hfun]
    unfold SquaredLoss.GetDerivative
    have h1 : HasDerivAt (fun p : ℝ => p - label) 1 prediction :=
      (hasDerivAt_id prediction).sub_const label
    have h2 := (h1.pow 2).div_const 2
    have e : (↑(2 : ℕ) * (prediction - label) ^ (2 - 1) * 1) / 2 = prediction - label := by
      norm_num
    rw [e] at h2
    exact h2

end model
end ell
